import Mathlib

/-! # BLAS-on-flash: cache, scheduler, I/O executor and file handle

A shallow embedding of the out-of-core execution engine of BLAS-on-flash
(`src/src/scheduler/*.cpp`, `src/src/file_handles/flash_file_handle.cpp`,
`src/include/**`) together with theorems about it.

Conventions of the embedding.

* `FBLAS_UINT` values (byte offsets, lengths, sizes, counters) are natural
  numbers.  The arithmetic of the cache and of the scheduler is that of the
  machine: `buf_size`, the sums `commit_size + ...` and `real_size + ...` of
  the two budget tests, `ask_size` in `allocate`, `evicted_size` in
  `try_evict`, `commit_size += ...`, `real_size.fetch_add`, `n_refs++`,
  `mem_reqd += ...`, `tsks_in_mem++` (`add64`) and `n_refs--`,
  `commit_size -= ...`, `real_size.fetch_sub`, `tsks_in_mem--` (`sub64`) are
  all reduced modulo `2^64`, and so is `delta` in `same_stride_overlap`.
  `global_task_counter`, which numbers the task objects of the heap, is
  incremented in `ℕ`: a heap holds fewer than `2^64` objects.  Sums and
  products of file positions in the file handle and in the overlap test are
  taken in `ℕ`: there the development covers the executions in which they
  stay below `2^64`, as they do for every file a machine can hold.
* Pointers (`void*`, `BaseFileHandle*`, `BaseTask*`) are natural numbers, `0`
  being `nullptr`.
* The stateful operations of the cache and of the scheduler return
  `Except Fault`: a `GLOG_ASSERT` that fails (fatal in the `DEBUG` build, a
  usage error in the release build, where the macro expands to nothing), a
  `GLOG_FATAL`, a dereference of `nullptr` and an access outside a vector stop
  the operation with the `Fault` that names the place.  The pure functions
  that can reach a `GLOG_FATAL`, and the strided transfers of the file handle,
  which start with two `GLOG_ASSERT`s, return an `Option`, `none` standing for
  the exit.
* `std::unordered_map` / `std::unordered_set` are association lists without
  duplicate keys; the iteration order of the container is the order of the
  list.  The invariants below are proved for every state that satisfies them,
  whatever the order of its lists.
* The cache mutex serialises the operations of the cache; the I/O threads
  touch the cache only through the completion callbacks, which are events
  between operations and between the rounds of the waiting loop of `flush`.
  A callback runs without the mutex: `io_done` is a callback that runs from
  its first statement to its last with no cache operation in between,
  `io_store` is its first statement alone (`completion->store(true)`) and
  `io_settle` the rest of the callback of an eviction write (`free`,
  `real_size.fetch_sub`).
-/

namespace flash

/-! ## Constants and rounding macros (`include/utils.h`) -/

/-- Modelled from the spec: `SECTOR_LEN`, the sector size of direct I/O, a
build-time constant that is not defined in the source tree; the spec gives
512 bytes. -/
def SECTOR_LEN : Nat := 512

/-- `ROUND_UP(X, Y)`: `((X / Y) + (X % Y != 0)) * Y`. -/
def ROUND_UP (x y : Nat) : Nat := (x / y + (if x % y ≠ 0 then 1 else 0)) * y

/-- `ROUND_DOWN(X, Y)`: `(X / Y) * Y`. -/
def ROUND_DOWN (x y : Nat) : Nat := (x / y) * y

/-- Modelled from the spec: `IS_ALIGNED(X)`, a build-time macro that is not
defined in the source tree; alignment to the sector size, as
`IS_512_ALIGNED` of `include/utils.h`. -/
def IS_ALIGNED (x : Nat) : Bool := x % SECTOR_LEN == 0

/-- Two's-complement subtraction of two `FBLAS_UINT` values. -/
def sub64 (a b : Nat) : Nat := (a + (2 ^ 64 - b % 2 ^ 64)) % 2 ^ 64

/-- Addition of two `FBLAS_UINT` values. -/
def add64 (a b : Nat) : Nat := (a + b) % 2 ^ 64

/-! ## Data model (`file_handle.h`, `pointer.h`, `io_executor.h`) -/

/-- `struct StrideInfo`. -/
structure StrideInfo where
  stride : Nat
  n_strides : Nat
  len_per_stride : Nat
deriving DecidableEq, Repr

/-- `struct flash_ptr<void>`: raw pointer, offset from the start of the file,
file handle. -/
structure flash_ptr where
  ptr : Nat
  foffset : Nat
  fop : Nat
deriving DecidableEq, Repr

/-- `struct IoTask` without its callback. -/
structure IoTask where
  fptr : flash_ptr
  sinfo : StrideInfo
  buf : Nat
  is_write : Bool
deriving DecidableEq, Repr

/-! ## Overlap predicate (`src/scheduler/io_executor.cpp`) -/

/-- `strip_overlap(start1, end1, start2, end2)`. -/
def strip_overlap (start1 end1 start2 end2 : Nat) : Bool :=
  let start1 := ROUND_DOWN start1 SECTOR_LEN
  let start2 := ROUND_DOWN start2 SECTOR_LEN
  let end1 := ROUND_UP end1 SECTOR_LEN
  let end2 := ROUND_UP end2 SECTOR_LEN
  !(decide (end2 ≤ start1) || decide (end1 ≤ start2))

/-- `same_stride_overlap(o1, l1, n1, o2, l2, n2, s)`. -/
def same_stride_overlap (o1 l1 n1 o2 l2 n2 s : Nat) : Bool :=
  let _ := n1
  let _ := n2
  if IS_ALIGNED o1 && IS_ALIGNED o2 && IS_ALIGNED l1 && IS_ALIGNED l2 && IS_ALIGNED s then
    false
  else if strip_overlap o1 (o1 + l1) o2 (o2 + l2) then
    true
  else if strip_overlap (o1 + s) (o1 + s + l1) o2 (o2 + l2) then
    true
  else
    let delta := sub64 o2 (o1 + l1)
    if delta < SECTOR_LEN then
      if IS_ALIGNED o1 && IS_ALIGNED o2 && IS_ALIGNED s then false else true
    else
      false

/-- The part of `is_overlap` after the first swap: `(o1, n1, l1, s1)` is the
strided access when exactly one of the two is strided. -/
def is_overlap_core (o1 n1 l1 s1 o2 n2 l2 s2 : Nat) : Option Bool :=
  if n1 ≠ 1 ∧ n2 = 1 then
    let e2 := o2 + l2
    if !strip_overlap o1 (o1 + n1 * s1) o2 e2 then
      some false
    else if o2 ≤ o1 then
      some true
    else
      let k_low := (o2 - o1) / s1
      let k_start := o1 + k_low * s1
      if strip_overlap k_start (k_start + l1) o2 e2 then
        some true
      else
        let k_start := k_start + s1
        if strip_overlap k_start (k_start + l1) o2 e2 then some true else some false
  else if s1 = s2 then
    if o2 < o1 then
      some (same_stride_overlap o2 l2 n2 o1 l1 n1 s2)
    else
      some (same_stride_overlap o1 l1 n1 o2 l2 n2 s1)
  else if !strip_overlap o1 (o1 + n1 * s1) o2 (o2 + n2 * s2) then
    some false
  else
    none

/-- `is_overlap(tsk1, tsk2)`; `none` is the `GLOG_FATAL` of the branch for two
strided accesses with different strides. -/
def is_overlap (tsk1 tsk2 : IoTask) : Option Bool :=
  if tsk1.fptr.fop ≠ tsk2.fptr.fop then
    some false
  else if !tsk1.is_write && !tsk2.is_write then
    some false
  else
    let o1 := tsk1.fptr.foffset
    let n1 := tsk1.sinfo.n_strides
    let l1 := tsk1.sinfo.len_per_stride
    let s1 := tsk1.sinfo.stride
    let o2 := tsk2.fptr.foffset
    let n2 := tsk2.sinfo.n_strides
    let l2 := tsk2.sinfo.len_per_stride
    let s2 := tsk2.sinfo.stride
    if n1 = 1 ∧ n2 = 1 then
      if strip_overlap o1 (o1 + l1) o2 (o2 + l2) then some true else some false
    else if n2 ≠ 1 ∧ n1 = 1 then
      is_overlap_core o2 n2 l2 s2 o1 n1 l1 s1
    else
      is_overlap_core o1 n1 l1 s1 o2 n2 l2 s2

/-! ### Specification vocabulary for the overlap properties -/

/-- First byte of strip `i` of a descriptor. -/
def strip_lo (t : IoTask) (i : Nat) : Nat := t.fptr.foffset + i * t.sinfo.stride

/-- One past the last byte of strip `i` of a descriptor. -/
def strip_hi (t : IoTask) (i : Nat) : Nat := strip_lo t i + t.sinfo.len_per_stride

/-- The byte ranges `[a1, b1)` and `[a2, b2)`, rounded outward to whole
sectors, have a byte position in common. -/
def sectors_meet (a1 b1 a2 b2 : Nat) : Prop :=
  ∃ x : Nat, ROUND_DOWN a1 SECTOR_LEN ≤ x ∧ x < ROUND_UP b1 SECTOR_LEN ∧
    ROUND_DOWN a2 SECTOR_LEN ≤ x ∧ x < ROUND_UP b2 SECTOR_LEN

/-- Some strip of `t1` and some strip of `t2` touch a common sector. -/
def strips_touch (t1 t2 : IoTask) : Prop :=
  ∃ i j : Nat, i < t1.sinfo.n_strides ∧ j < t2.sinfo.n_strides ∧
    sectors_meet (strip_lo t1 i) (strip_hi t1 i) (strip_lo t2 j) (strip_hi t2 j)

end flash

namespace flash

/-! ## Direct-I/O file handle (`src/file_handles/flash_file_handle.cpp`) -/

/-- A byte-addressed store: the content of a file or of a memory buffer. -/
abbrev Bytes := Nat → Fin 256

/-- The backing file of a `FlashFileHandle`: its size `file_sz` and its bytes. -/
structure FlashFile where
  file_sz : Nat
  data : Bytes

/-- One prepared `iocb`: file offset, size and the position of its buffer
inside the buffer of the call (`offsets[i]`, `sizes[i]`, `bufs[i]`). -/
structure IoReq where
  offset : Nat
  size : Nat
  buf : Nat
deriving DecidableEq, Repr, Inhabited

/-- `MAX_CHUNK_SIZE`, `(FBLAS_UINT) 1 << 25`. -/
def MAX_CHUNK_SIZE : Nat := 33554432

/-- Modelled from the spec: `MAX_SIMUL_REQS`, the cap on simultaneous
`io_submit` entries, a build-time constant that is not defined in the source
tree; the spec gives 256. -/
def MAX_SIMUL_REQS : Nat := 256

/-- `memcpy(dst + dst_off, src + src_off, n)`. -/
def memcpy (dst : Bytes) (dst_off : Nat) (src : Bytes) (src_off n : Nat) : Bytes :=
  fun a => if dst_off ≤ a ∧ a < dst_off + n then src (src_off + (a - dst_off)) else dst a

/-- A completed `pread` request: the bytes of the file range that lie before
the end of the file arrive in the buffer. -/
def pread (f : FlashFile) (mem : Bytes) (r : IoReq) : Bytes :=
  fun a =>
    if r.buf ≤ a ∧ a < r.buf + r.size ∧ r.offset + (a - r.buf) < f.file_sz then
      f.data (r.offset + (a - r.buf))
    else mem a

/-- A completed `pwrite` request: the buffer range replaces the file range and
the file grows when the range ends past its end. -/
def pwrite (f : FlashFile) (mem : Bytes) (r : IoReq) : FlashFile where
  file_sz := max f.file_sz (r.offset + r.size)
  data := fun p =>
    if r.offset ≤ p ∧ p < r.offset + r.size then mem (r.buf + (p - r.offset)) else f.data p

/-- One request of a batch, `io_prep_pwrite` or `io_prep_pread`, carried out on
the pair (file, buffer). -/
def do_io (is_write : Bool) (st : FlashFile × Bytes) (r : IoReq) : FlashFile × Bytes :=
  if is_write then (pwrite st.1 st.2 r, st.2) else (st.1, pread st.1 st.2 r)

/-- `submit_and_reap(ctx, cb, n_requests)` for a batch that the kernel accepts
and completes. -/
def submit_and_reap (is_write : Bool) (st : FlashFile × Bytes) (cb : List IoReq) :
    FlashFile × Bytes :=
  cb.foldl (do_io is_write) st

/-- `execute_io(ctx, fd, offsets, sizes, bufs, is_write, max_ops)`: the requests
are submitted and reaped in `ROUND_UP(n_ops, max_ops) / max_ops` batches of at
most `max_ops`. -/
def execute_io (st : FlashFile × Bytes) (reqs : List IoReq) (is_write : Bool)
    (max_ops : Nat) : FlashFile × Bytes :=
  let n_ops := reqs.length
  let n_iters := ROUND_UP n_ops max_ops / max_ops
  (List.range n_iters).foldl
    (fun st i =>
      let start_idx := max_ops * i
      let cur_nops := min (n_ops - start_idx) max_ops
      submit_and_reap is_write st
        ((List.range cur_nops).map fun j => reqs.getD (start_idx + j) default))
    st

/-- The requests that `execute_io` carries out, in order. -/
def issued (reqs : List IoReq) (max_ops : Nat) : List IoReq :=
  ((List.range (ROUND_UP reqs.length max_ops / max_ops)).map fun i =>
    (List.range (min (reqs.length - max_ops * i) max_ops)).map fun j =>
      reqs.getD (max_ops * i + j) default).flatten

/-- The chunked requests of a contiguous transfer of `total` bytes starting at
file offset `start_offset`: request `i` moves
`min(MAX_CHUNK_SIZE, total - i * MAX_CHUNK_SIZE)` bytes. -/
def chunk_reqs (start_offset total n_requests : Nat) : List IoReq :=
  (List.range n_requests).map fun i =>
    ⟨start_offset + i * MAX_CHUNK_SIZE, min MAX_CHUNK_SIZE (total - i * MAX_CHUNK_SIZE),
      i * MAX_CHUNK_SIZE⟩

/-- The requests `FlashFileHandle::read` prepares and passes to `execute_io`:
one request for the whole sector-aligned range when it is at most
`MAX_CHUNK_SIZE` long, `ROUND_UP(read_len, MAX_CHUNK_SIZE) / MAX_CHUNK_SIZE`
chunks otherwise. -/
def FlashFileHandle.read_reqs (offset len : Nat) : List IoReq :=
  let start_offset := ROUND_DOWN offset SECTOR_LEN
  let read_len := ROUND_UP (offset + len) SECTOR_LEN - start_offset
  if read_len ≤ MAX_CHUNK_SIZE then [⟨start_offset, read_len, 0⟩]
  else chunk_reqs start_offset read_len (ROUND_UP read_len MAX_CHUNK_SIZE / MAX_CHUNK_SIZE)

/-- `FlashFileHandle::read(offset, len, buf, callback)`: the content of `buf`
after the call.  `buf_addr` is the address of `buf`; `fresh` is the content of
the bounce buffer as `alloc_aligned` returns it. -/
def FlashFileHandle.read (f : FlashFile) (offset len buf_addr : Nat) (buf fresh : Bytes) :
    Bytes :=
  if len = 0 then buf
  else
    let start_offset := ROUND_DOWN offset SECTOR_LEN
    let read_len := ROUND_UP (offset + len) SECTOR_LEN - start_offset
    let alloc : Bool := !IS_ALIGNED buf_addr || decide (start_offset ≠ offset) ||
      decide (read_len ≠ len)
    let read_buf := if alloc then fresh else buf
    let reqs := FlashFileHandle.read_reqs offset len
    let read_buf := (execute_io (f, read_buf) reqs false MAX_SIMUL_REQS).2
    if alloc then memcpy buf 0 read_buf (offset - start_offset) len else read_buf

/-- The first part of `FlashFileHandle::write`, up to the point where the
write requests are prepared: the bounce buffer is taken when the buffer, the
offset or the length is unaligned, the first and the last sector of the range
are read into it where the source does so, and `buf` is copied into it.  The
result is the file and the buffer that is going to be written. -/
def FlashFileHandle.write_staged (f : FlashFile) (offset len buf_addr : Nat)
    (buf fresh : Bytes) : FlashFile × Bytes :=
  let start_offset := ROUND_DOWN offset SECTOR_LEN
  let end_offset := ROUND_UP (offset + len) SECTOR_LEN
  let write_len := end_offset - start_offset
  let alloc : Bool := !(IS_ALIGNED buf_addr && IS_ALIGNED offset && IS_ALIGNED len)
  let write_buf := if alloc then fresh else buf
  let first : List IoReq :=
    if !IS_ALIGNED offset then [⟨start_offset, SECTOR_LEN, 0⟩] else []
  let fetch : List IoReq :=
    if decide (write_len > SECTOR_LEN) && !IS_ALIGNED (offset + len) && alloc then
      first ++ [⟨end_offset - SECTOR_LEN, SECTOR_LEN, write_len - SECTOR_LEN⟩]
    else first
  let st := if fetch ≠ [] then execute_io (f, write_buf) fetch false MAX_SIMUL_REQS
    else (f, write_buf)
  let write_buf := if alloc then memcpy st.2 (offset - start_offset) buf 0 len else st.2
  (st.1, write_buf)

/-- The write requests `FlashFileHandle::write` prepares and passes to its
last `execute_io`: `n_requests = ROUND_UP(write_len, MAX_CHUNK_SIZE) /
MAX_CHUNK_SIZE` chunks of the sector-aligned range. -/
def FlashFileHandle.write_reqs (offset len : Nat) : List IoReq :=
  let start_offset := ROUND_DOWN offset SECTOR_LEN
  let end_offset := ROUND_UP (offset + len) SECTOR_LEN
  let write_len := end_offset - start_offset
  let n_requests := ROUND_UP write_len MAX_CHUNK_SIZE / MAX_CHUNK_SIZE
  chunk_reqs start_offset write_len n_requests

/-- `FlashFileHandle::write(offset, len, buf, callback)`: the file after the
call (release build, without the read-back check of the `DEBUG` build).
`fresh` is the content of the bounce buffer as `alloc_aligned` returns it. -/
def FlashFileHandle.write (f : FlashFile) (offset len buf_addr : Nat) (buf fresh : Bytes) :
    FlashFile :=
  if len = 0 then f
  else
    (execute_io (FlashFileHandle.write_staged f offset len buf_addr buf fresh)
      (FlashFileHandle.write_reqs offset len) true MAX_SIMUL_REQS).1

end flash

namespace flash

/-! ## Cache (`include/scheduler/cache.h`, `src/scheduler/cache.cpp`) -/

/-- `struct Key`.  `operator==` compares the precomputed `fnv64a` hashes of
`(fptr, sinfo)`; the `DEBUG` build asserts that this agrees with the
field-wise comparison.  The maps of the embedding compare keys field by
field: they are the maps of the code on every set of keys whose hashes are
pairwise different (`Key.operator_eq` and `Key.hash_value` below give the
comparison of the code). -/
structure Key where
  fptr : flash_ptr
  sinfo : StrideInfo
deriving DecidableEq, Repr

/-- `struct Value`.  `complete` points to a heap cell `std::atomic<bool>` that
belongs to one `io_map` entry (`evict` and `service_backlog` allocate it when
they insert the entry, `reap_io_completion` deletes it); the embedding keeps
the content of the cell in place of the pointer, `none` being `nullptr`. -/
structure Value where
  buf : Nat := 0
  n_refs : Nat := 0
  write_back : Bool := false
  evicted : Bool := false
  alloc_only : Bool := false
  complete : Option Bool := none
deriving DecidableEq, Repr

/-- `buf_size(sinfo)` of `src/utils.cpp`. -/
def buf_size (sinfo : StrideInfo) : Nat :=
  if sinfo.n_strides = 1 then (ROUND_UP sinfo.len_per_stride SECTOR_LEN + SECTOR_LEN) % 2 ^ 64
  else (sinfo.n_strides * sinfo.len_per_stride) % 2 ^ 64

/-- `enum TaskStatus`. -/
inductive TaskStatus
  | Wait
  | AllocReady
  | Alloc
  | ComputeReady
  | Compute
  | Complete
deriving DecidableEq, Repr

/-- Position of a status in the `enum`. -/
def TaskStatus.rank : TaskStatus → Nat
  | .Wait => 0
  | .AllocReady => 1
  | .Alloc => 2
  | .ComputeReady => 3
  | .Compute => 4
  | .Complete => 5

/-- `class BaseTask`: I/O lists, parents, the pinned-buffer table, status,
continuation (a task pointer, `none` for `nullptr`) and task id. -/
structure BaseTask where
  read_list : List (flash_ptr × StrideInfo) := []
  write_list : List (flash_ptr × StrideInfo) := []
  parents : List Nat := []
  in_mem_ptrs : List (flash_ptr × Nat) := []
  st : TaskStatus := .Wait
  next : Option Nat := none
  task_id : Nat := 0
deriving DecidableEq, Repr

/-- `in_mem_ptrs.find(fptr) != end()`: the table is hashed and compared with
`FlashPtrHasher` / `FlashPtrEq`, which look at the raw pointer only. -/
def in_mem_contains (m : List (flash_ptr × Nat)) (p : flash_ptr) : Bool :=
  m.any fun e => e.1.ptr == p.ptr

/-- Lookup in `in_mem_ptrs` (comparison by raw pointer). -/
def in_mem_find (m : List (flash_ptr × Nat)) (p : flash_ptr) : Option Nat :=
  (m.find? fun e => e.1.ptr == p.ptr).map (·.2)

/-- `in_mem_ptrs[fptr] = buf`. -/
def in_mem_set (m : List (flash_ptr × Nat)) (p : flash_ptr) (b : Nat) :
    List (flash_ptr × Nat) :=
  if in_mem_contains m p then m.map fun e => if e.1.ptr = p.ptr then (e.1, b) else e
  else m ++ [(p, b)]

/-- An `std::unordered_map<Key, Value>` (or the backlog deque of pairs). -/
abbrev KVMap := List (Key × Value)

/-- The keys of a map, in iteration order. -/
def keys (m : KVMap) : List Key := m.map (·.1)

/-- `map.find(k)`. -/
def kv_find (m : KVMap) (k : Key) : Option Value :=
  match m with
  | [] => none
  | (k', v) :: rest => if k' = k then some v else kv_find rest k

/-- `map.find(k) != map.end()`. -/
def kv_contains (m : KVMap) (k : Key) : Bool := (kv_find m k).isSome

/-- `map.erase(k)`. -/
def kv_erase (m : KVMap) (k : Key) : KVMap := m.filter fun e => e.1 ≠ k

/-- `map[k] = v`. -/
def kv_set (m : KVMap) (k : Key) (v : Value) : KVMap :=
  if kv_contains m k then m.map fun e => if e.1 = k then (e.1, v) else e
  else m ++ [(k, v)]

/-- `map[k]` as an rvalue: the stored value, or a default-constructed one. -/
def kv_get (m : KVMap) (k : Key) : Value := (kv_find m k).getD {}

/-- `set.insert(k)` on an `std::unordered_set<Key>`. -/
def set_insert (s : List Key) (k : Key) : List Key := if k ∈ s then s else s ++ [k]

/-- Insert the keys `{fptr, sinfo}` of an I/O list into a set. -/
def insert_keys (s : List Key) (l : List (flash_ptr × StrideInfo)) : List Key :=
  l.foldl (fun s e => set_insert s ⟨e.1, e.2⟩) s

/-- `set_difference(first, second)` of `include/utils.h`. -/
def set_difference (first second : List Key) : List Key :=
  first.foldl (fun diff v => if v ∉ second then set_insert diff v else diff) []

/-- `set_intersection(first, second)` of `include/utils.h`. -/
def set_intersection (first second : List Key) : List Key :=
  let smaller := if first.length > second.length then second else first
  let larger := if first.length > second.length then first else second
  smaller.foldl (fun x el => if el ∈ larger then set_insert x el else x) []

/-- The ways an operation can stop: a failed `GLOG_ASSERT` (fatal in the
`DEBUG` build, a usage error otherwise), a `GLOG_FATAL`, a null dereference or
an access outside a vector. -/
inductive Fault
  | evict_not_zero_ref
  | evict_nonzero_refs
  | get_buf_null
  | add_backlog_commit
  | reap_not_in_io
  | reap_incomplete
  | move_nonzero_refs
  | release_not_active
  | service_active
  | flush_active
  | flush_not_empty
  | next_status
  | prio_empty
  | null_deref
  | out_of_bounds
deriving DecidableEq, Repr

/-- `class Cache`, with four ghost fields that record what the cache hands to
its collaborators: `issued` (the `add_read` / `add_write` calls on the I/O
executor, oldest first), `freed` (the buffers passed to `free`, oldest first),
`next_buf` (the next address `aligned_alloc` returns) and `settling` (the
eviction callbacks that have executed `completion->store(true)` and not yet
`free(buf)` and `real_size.fetch_sub(sub_size)`, with the key and the buffer
each has captured, oldest first). -/
structure Cache where
  active_map : KVMap := []
  io_map : KVMap := []
  zero_ref_map : KVMap := []
  alloc_backlog : KVMap := []
  single_use_discard : Bool := false
  real_size : Nat := 0
  commit_size : Nat := 0
  max_size : Nat
  issued : List IoTask := []
  freed : List Nat := []
  next_buf : Nat := 1
  settling : List (Key × Nat) := []
deriving DecidableEq, Repr

/-- `Cache::Cache(io_exec, max_size)`. -/
def Cache.init (max_size : Nat) : Cache := { max_size := max_size }

/-- `Cache::is_active`. -/
def is_active (c : Cache) (k : Key) : Bool := kv_contains c.active_map k

/-- `Cache::is_in_io`. -/
def is_in_io (c : Cache) (k : Key) : Bool := kv_contains c.io_map k

/-- `Cache::is_zero_ref`. -/
def is_zero_ref (c : Cache) (k : Key) : Bool := kv_contains c.zero_ref_map k

/-- `Cache::is_queued`. -/
def is_queued (c : Cache) (k : Key) : Bool := c.alloc_backlog.any fun e => e.1 == k

/-- `Cache::has_spare_mem_for`. -/
def has_spare_mem_for (c : Cache) (req_size : Nat) : Bool :=
  add64 c.commit_size req_size ≤ c.max_size

/-- `Cache::has_spare_real_mem_for`. -/
def has_spare_real_mem_for (c : Cache) (req_size : Nat) : Bool :=
  add64 c.real_size req_size ≤ c.max_size

/-- `v.complete->load()`. -/
def load_complete (v : Value) : Except Fault Bool :=
  match v.complete with
  | some b => pure b
  | none => throw .null_deref

/-- One iteration of the loop of `Cache::evict`. -/
def evict_one (c : Cache) (k : Key) : Except Fault Cache :=
  if !is_zero_ref c k then throw Fault.evict_not_zero_ref
  else if (kv_get c.zero_ref_map k).n_refs ≠ 0 then throw Fault.evict_nonzero_refs
  else
    let v := kv_get c.zero_ref_map k
    let sub_size := buf_size k.sinfo
    if v.write_back then
      pure { c with zero_ref_map := kv_erase c.zero_ref_map k,
                    commit_size := sub64 c.commit_size sub_size,
                    io_map := kv_set c.io_map k { v with evicted := true, complete := some false },
                    issued := c.issued ++ [⟨k.fptr, k.sinfo, v.buf, true⟩] }
    else
      pure { c with zero_ref_map := kv_erase c.zero_ref_map k,
                    commit_size := sub64 c.commit_size sub_size,
                    real_size := sub64 c.real_size sub_size,
                    freed := c.freed ++ [v.buf] }

/-- `Cache::evict(keys)`. -/
def evict (c : Cache) (keys : List Key) : Except Fault Cache :=
  keys.foldlM evict_one c

/-- The scan of `zero_ref_map` in `Cache::try_evict`: accumulated size and
chosen keys. -/
def try_evict_scan (exclude_keys : List Key) (evict_size : Nat) :
    KVMap → Nat → List Key → Nat × List Key
  | [], evicted_size, evict_keys => (evicted_size, evict_keys)
  | (key, _) :: rest, evicted_size, evict_keys =>
    if key ∉ exclude_keys then
      let evicted_size := add64 evicted_size (buf_size key.sinfo)
      let evict_keys := set_insert evict_keys key
      if evicted_size ≥ evict_size then (evicted_size, evict_keys)
      else try_evict_scan exclude_keys evict_size rest evicted_size evict_keys
    else try_evict_scan exclude_keys evict_size rest evicted_size evict_keys

/-- `Cache::try_evict(exclude_keys, evict_size)`. -/
def try_evict (c : Cache) (exclude_keys : List Key) (evict_size : Nat) :
    Except Fault (Bool × Cache) :=
  if c.zero_ref_map.isEmpty then pure (false, c)
  else
    let r := try_evict_scan exclude_keys evict_size c.zero_ref_map 0 []
    if r.1 < evict_size then pure (false, c)
    else (evict c r.2).bind fun c => pure (true, c)

/-- `Cache::reap_io_completion(k)`. -/
def reap_io_completion (c : Cache) (k : Key) : Except Fault Cache :=
  if !is_in_io c k then throw Fault.reap_not_in_io
  else
    (load_complete (kv_get c.io_map k)).bind fun done =>
      if !done then throw Fault.reap_incomplete
      else pure { c with io_map := kv_set c.io_map k { kv_get c.io_map k with complete := none } }

/-- `Cache::move_active_to_zero(k)`. -/
def move_active_to_zero (c : Cache) (k : Key) : Except Fault Cache :=
  if (kv_get c.active_map k).n_refs ≠ 0 then throw Fault.move_nonzero_refs
  else
    pure { c with active_map := kv_erase c.active_map k,
                  zero_ref_map := kv_set c.zero_ref_map k (kv_get c.active_map k) }

/-- `Cache::move_zero_to_active(k)`. -/
def move_zero_to_active (c : Cache) (k : Key) : Cache :=
  let v := kv_get c.zero_ref_map k
  { c with zero_ref_map := kv_erase c.zero_ref_map k,
           active_map := kv_set c.active_map k { v with n_refs := 1 } }

/-- `Cache::move_io_to_active(k)`. -/
def move_io_to_active (c : Cache) (k : Key) : Cache :=
  let v := kv_get c.io_map k
  { c with io_map := kv_erase c.io_map k,
           active_map := kv_set c.active_map k { v with n_refs := 1 } }

/-- The probe of `Cache::get_buf`: whether `k` was found, and the cache after
the move that brings `k` into `active_map`. -/
def get_buf_probe (c : Cache) (k : Key) : Except Fault (Bool × Cache) :=
  if is_active c k then
    let v := { kv_get c.active_map k with n_refs := add64 (kv_get c.active_map k).n_refs 1 }
    pure (true, { c with active_map := kv_set c.active_map k v })
  else if is_in_io c k && !(kv_get c.io_map k).evicted then
    (load_complete (kv_get c.io_map k)).bind fun done =>
      if done then
        (reap_io_completion c k).bind fun c => pure (true, move_io_to_active c k)
      else if is_zero_ref c k then pure (true, move_zero_to_active c k)
      else pure (false, c)
  else if is_zero_ref c k then pure (true, move_zero_to_active c k)
  else pure (false, c)

/-- `Cache::get_buf(fptr, sinfo, write_back)`: the returned pointer (`0` for
`nullptr`) and the cache afterwards. -/
def get_buf (c : Cache) (fptr : flash_ptr) (sinfo : StrideInfo) (write_back : Bool) :
    Except Fault (Nat × Cache) :=
  (get_buf_probe c ⟨fptr, sinfo⟩).bind fun r =>
    if r.1 then
      let v := kv_get r.2.active_map ⟨fptr, sinfo⟩
      let v2 := { v with write_back := v.write_back || write_back }
      if v.buf = 0 then throw Fault.get_buf_null
      else pure (v.buf, { r.2 with active_map := kv_set r.2.active_map ⟨fptr, sinfo⟩ v2 })
    else pure (0, r.2)

/-- `Cache::add_backlog(k, alloc_only, write_back)`. -/
def add_backlog (c : Cache) (k : Key) (alloc_only write_back : Bool) : Except Fault Cache :=
  if is_queued c k then pure c
  else
    let commit_size := add64 c.commit_size (buf_size k.sinfo)
    if ¬ commit_size ≤ c.max_size then throw Fault.add_backlog_commit
    else
      pure { c with commit_size := commit_size,
                    alloc_backlog := c.alloc_backlog ++
                      [(k, { alloc_only := alloc_only, write_back := write_back })] }

end flash

namespace flash

/-- The hit on an `io_map` entry that is complete and not evicted, in the
read-only and read-write loops of `Cache::alloc_bufs`: reap, move to
`active_map`, set `n_refs = 1`, record the buffer in `in_mem_ptrs`. -/
def alloc_io_hit (c : Cache) (tsk : BaseTask) (key : Key) : Except Fault (Cache × BaseTask) :=
  (reap_io_completion c key).bind fun c =>
    let c := move_io_to_active c key
    let v2 := { kv_get c.active_map key with n_refs := 1 }
    pure ({ c with active_map := kv_set c.active_map key v2 },
          { tsk with in_mem_ptrs := in_mem_set tsk.in_mem_ptrs key.fptr v2.buf })

/-- Read-only key in the first loop of `Cache::alloc_bufs`. -/
def alloc_read_only (s : Cache × BaseTask) (key : Key) : Except Fault (Cache × BaseTask) :=
  if is_active s.1 key then
    let v := { kv_get s.1.active_map key with
      n_refs := add64 (kv_get s.1.active_map key).n_refs 1 }
    pure ({ s.1 with active_map := kv_set s.1.active_map key v },
          { s.2 with in_mem_ptrs := in_mem_set s.2.in_mem_ptrs key.fptr v.buf })
  else if is_in_io s.1 key then
    if (kv_get s.1.io_map key).evicted then
      (add_backlog s.1 key false false).bind fun c => pure (c, s.2)
    else
      (load_complete (kv_get s.1.io_map key)).bind fun done =>
        if done then alloc_io_hit s.1 s.2 key else pure s
  else if is_zero_ref s.1 key then
    let c := move_zero_to_active s.1 key
    let buf := (kv_get c.active_map key).buf
    pure (c, { s.2 with in_mem_ptrs := in_mem_set s.2.in_mem_ptrs key.fptr buf })
  else
    (add_backlog s.1 key false false).bind fun c => pure (c, s.2)

/-- Write-only key in the second loop of `Cache::alloc_bufs`; the three hit
cases only log an error. -/
def alloc_write_only (s : Cache × BaseTask) (key : Key) : Except Fault (Cache × BaseTask) :=
  if is_active s.1 key then pure s
  else if is_in_io s.1 key then pure s
  else if is_zero_ref s.1 key then pure s
  else (add_backlog s.1 key true true).bind fun c => pure (c, s.2)

/-- Read-write key in the third loop of `Cache::alloc_bufs`. -/
def alloc_read_write (s : Cache × BaseTask) (key : Key) : Except Fault (Cache × BaseTask) :=
  if is_active s.1 key then
    let v := { kv_get s.1.active_map key with
      n_refs := add64 (kv_get s.1.active_map key).n_refs 1, write_back := true }
    pure ({ s.1 with active_map := kv_set s.1.active_map key v },
          { s.2 with in_mem_ptrs := in_mem_set s.2.in_mem_ptrs key.fptr v.buf })
  else if is_in_io s.1 key then
    if (kv_get s.1.io_map key).evicted then
      if !is_queued s.1 key then
        (add_backlog s.1 key false true).bind fun c => pure (c, s.2)
      else pure s
    else
      (load_complete (kv_get s.1.io_map key)).bind fun done =>
        if done then alloc_io_hit s.1 s.2 key else pure s
  else if is_zero_ref s.1 key then
    let c := move_zero_to_active s.1 key
    let v := kv_get c.active_map key
    pure ({ c with active_map := kv_set c.active_map key { v with write_back := true } },
          { s.2 with in_mem_ptrs := in_mem_set s.2.in_mem_ptrs key.fptr v.buf })
  else
    (add_backlog s.1 key false true).bind fun c => pure (c, s.2)

/-- `Cache::alloc_bufs(tsk)`.  The assertion on `union_size` compares the sizes
of the three classes with those of the two key sets and holds for every pair
of sets. -/
def alloc_bufs (c : Cache) (tsk : BaseTask) : Except Fault (Cache × BaseTask) :=
  let read_keys := insert_keys [] tsk.read_list
  let write_keys := insert_keys [] tsk.write_list
  let read_only_keys := set_difference read_keys write_keys
  let write_only_keys := set_difference write_keys read_keys
  let read_write_keys := set_intersection write_keys read_keys
  (read_only_keys.foldlM alloc_read_only (c, tsk)).bind fun s =>
    (write_only_keys.foldlM alloc_write_only s).bind fun s =>
      read_write_keys.foldlM alloc_read_write s

/-- The extra memory `Cache::allocate` counts for one key. -/
def ask_for (c : Cache) (key : Key) : Nat :=
  if is_active c key || is_zero_ref c key then 0
  else if is_in_io c key then
    if (kv_get c.io_map key).evicted then buf_size key.sinfo else 0
  else buf_size key.sinfo

/-- The key set `ask_keys` (and `ret_keys`) of a task: its read list, then
its write list. -/
def task_keys (tsk : BaseTask) : List Key :=
  insert_keys (insert_keys [] tsk.read_list) tsk.write_list

/-- `Cache::allocate(tsk)`: the returned flag, the cache and the task
afterwards. -/
def allocate (c : Cache) (tsk : BaseTask) : Except Fault (Bool × Cache × BaseTask) :=
  let ask_keys := task_keys tsk
  let ask_size := ask_keys.foldl (fun sz key => add64 sz (ask_for c key)) 0
  if has_spare_mem_for c ask_size then
    (alloc_bufs c tsk).bind fun s => pure (true, s.1, s.2)
  else
    (try_evict c ask_keys ask_size).bind fun r =>
      if r.1 then (alloc_bufs r.2 tsk).bind fun s => pure (true, s.1, s.2)
      else pure (false, r.2, tsk)

/-- One iteration of the loop of `Cache::release`. -/
def release_one (c : Cache) (key : Key) : Except Fault Cache :=
  if !is_active c key then throw Fault.release_not_active
  else
    let v := { kv_get c.active_map key with n_refs := sub64 (kv_get c.active_map key).n_refs 1 }
    let c := { c with active_map := kv_set c.active_map key v }
    if v.n_refs = 0 then
      if c.single_use_discard then
        pure { c with active_map := kv_erase c.active_map key,
                      commit_size := sub64 c.commit_size (buf_size key.sinfo),
                      real_size := sub64 c.real_size (buf_size key.sinfo),
                      freed := c.freed ++ [v.buf] }
      else move_active_to_zero c key
    else pure c

/-- `Cache::release(tsk)`. -/
def release (c : Cache) (tsk : BaseTask) : Except Fault Cache :=
  (task_keys tsk).foldlM release_one c

/-- One iteration of the first loop of `Cache::service_backlog`, the iterator
standing on the entry of key `e.1`. -/
def reap_step (c : Cache) (e : Key × Value) : Except Fault Cache :=
  (load_complete (kv_get c.io_map e.1)).bind fun done =>
    if done then
      (reap_io_completion c e.1).bind fun c =>
        if !(kv_get c.io_map e.1).evicted then
          if is_active c e.1 then throw Fault.service_active
          else
            let v := { kv_get c.io_map e.1 with n_refs := 0 }
            pure { c with active_map := kv_set c.active_map e.1 v,
                          io_map := kv_erase c.io_map e.1 }
        else pure { c with io_map := kv_erase c.io_map e.1 }
    else pure c

/-- The second loop of `Cache::service_backlog` over the backlog from its
front; the entries that are left stay in `alloc_backlog`. -/
def serve_backlog (c : Cache) : KVMap → Cache
  | [] => { c with alloc_backlog := [] }
  | (k, v) :: rest =>
    let bsize := buf_size k.sinfo
    if !has_spare_real_mem_for c bsize then { c with alloc_backlog := (k, v) :: rest }
    else if is_in_io c k then { c with alloc_backlog := (k, v) :: rest }
    else if !v.alloc_only then
      let v1 := { v with write_back := v.write_back || v.alloc_only, buf := c.next_buf,
                         complete := some false }
      serve_backlog
        { c with real_size := add64 c.real_size bsize, next_buf := c.next_buf + 1,
                 io_map := kv_set c.io_map k v1,
                 issued := c.issued ++ [⟨k.fptr, k.sinfo, c.next_buf, false⟩] } rest
    else
      let v1 := { v with write_back := v.write_back || v.alloc_only, buf := c.next_buf,
                         complete := some true, evicted := false }
      serve_backlog
        { c with real_size := add64 c.real_size bsize, next_buf := c.next_buf + 1,
                 io_map := kv_set c.io_map k v1 } rest

/-- `Cache::service_backlog()`. -/
def service_backlog (c : Cache) : Except Fault Cache :=
  (c.io_map.foldlM reap_step c).bind fun c => pure (serve_backlog c c.alloc_backlog)

/-- `Cache::keep_if_in_cache(keys)`. -/
def keep_if_in_cache (c : Cache) (keys : List Key) : List Key :=
  keys.filter fun k =>
    is_active c k || (is_in_io c k && !(kv_get c.io_map k).evicted) || is_zero_ref c k ||
      is_queued c k

/-- The I/O executor finishes the transfer that the cache issued for the
`io_map` entry of `k` and runs its callback from the first statement to the
last: `completion->store(true)`, and for an eviction write also `free(buf)`
and `real_size.fetch_sub(sub_size)`. -/
def io_done (c : Cache) (k : Key) : Cache :=
  match kv_find c.io_map k with
  | some v =>
    if v.complete = some false then
      let c := { c with io_map := kv_set c.io_map k { v with complete := some true } }
      if v.evicted then
        { c with real_size := sub64 c.real_size (buf_size k.sinfo), freed := c.freed ++ [v.buf] }
      else c
    else c
  | none => c

/-- The first statement of the callback of the transfer issued for the
`io_map` entry of `k`: `completion->store(true)`.  The callback of a read ends
here; that of an eviction write has `free(buf)` and
`real_size.fetch_sub(sub_size)` still to run, which `settling` records. -/
def io_store (c : Cache) (k : Key) : Cache :=
  match kv_find c.io_map k with
  | some v =>
    if v.complete = some false then
      { c with io_map := kv_set c.io_map k { v with complete := some true },
               settling := if v.evicted then c.settling ++ [(k, v.buf)] else c.settling }
    else c
  | none => c

/-- The buffer captured by the oldest callback of `l` that belongs to an
eviction write of `k`. -/
def settling_find : List (Key × Nat) → Key → Option Nat
  | [], _ => none
  | (k', buf) :: rest, k => if k' = k then some buf else settling_find rest k

/-- The callbacks of `l` without the oldest one that belongs to an eviction
write of `k`. -/
def settling_drop : List (Key × Nat) → Key → List (Key × Nat)
  | [], _ => []
  | (k', buf) :: rest, k => if k' = k then rest else (k', buf) :: settling_drop rest k

/-- The rest of the oldest callback of an eviction write of `k` that has
stored its flag: `free(buf)` and `real_size.fetch_sub(sub_size)`. -/
def io_settle (c : Cache) (k : Key) : Cache :=
  match settling_find c.settling k with
  | some buf =>
    { c with real_size := sub64 c.real_size (buf_size k.sinfo), freed := c.freed ++ [buf],
             settling := settling_drop c.settling k }
  | none => c

/-- What an I/O thread does to the cache between two steps of the thread that
holds it: a whole callback, its first statement, or the rest of it. -/
inductive IoEvent
  | done (k : Key)
  | store (k : Key)
  | settle (k : Key)
deriving DecidableEq, Repr

/-- Effect of an event of the I/O threads on the cache. -/
def io_event (c : Cache) : IoEvent → Cache
  | .done k => io_done c k
  | .store k => io_store c k
  | .settle k => io_settle c k

/-- The waiting loop of `Cache::flush`: each round calls `service_backlog` and
sleeps, while the I/O threads go through the events listed for the round. -/
def flush_wait : List (List IoEvent) → Cache → Except Fault Cache
  | [], c => pure c
  | evs :: rounds, c =>
    if c.io_map.isEmpty then pure c
    else (service_backlog c).bind fun c => flush_wait rounds (evs.foldl io_event c)

/-- `Cache::flush()`, run for the rounds of the waiting loop that `rounds`
describes; the closing assertions are reached when `io_map` has drained. -/
def flush (c : Cache) (rounds : List (List IoEvent)) : Except Fault Cache :=
  if !c.active_map.isEmpty then throw Fault.flush_active
  else
    (if !c.zero_ref_map.isEmpty then evict c (keys c.zero_ref_map) else pure c).bind fun c =>
      (flush_wait rounds c).bind fun c =>
        if c.io_map.isEmpty && !c.zero_ref_map.isEmpty then throw Fault.flush_not_empty
        else pure c

/-- One pass of the loops of `Scheduler::alloc_ready` over an I/O list; `s` is
the flag `ready`, the cache and the task. -/
def alloc_ready_list (write_back : Bool) (s : Bool × Cache × BaseTask)
    (fptr_sinfo : flash_ptr × StrideInfo) : Except Fault (Bool × Cache × BaseTask) :=
  if !in_mem_contains s.2.2.in_mem_ptrs fptr_sinfo.1 then
    (get_buf s.2.1 fptr_sinfo.1 fptr_sinfo.2 write_back).bind fun r =>
      if r.1 = 0 then pure (false, r.2, s.2.2)
      else
        let ptrs := in_mem_set s.2.2.in_mem_ptrs fptr_sinfo.1 r.1
        pure (s.1, r.2, { s.2.2 with in_mem_ptrs := ptrs })
  else pure s

/-- `Scheduler::alloc_ready(tsk)`. -/
def alloc_ready (c : Cache) (tsk : BaseTask) : Except Fault (Bool × Cache × BaseTask) :=
  (tsk.read_list.foldlM (alloc_ready_list false) (true, c, tsk)).bind fun s =>
    tsk.write_list.foldlM (alloc_ready_list true) s

/-- The operations on a cache and the events that change it. -/
inductive CacheOp
  | allocate (tsk : BaseTask)
  | get_buf (fptr : flash_ptr) (sinfo : StrideInfo) (write_back : Bool)
  | release (tsk : BaseTask)
  | service_backlog
  | flush (rounds : List (List IoEvent))
  | io_done (k : Key)
  | io_store (k : Key)
  | io_settle (k : Key)
  | set_single_use_discard (b : Bool)
deriving DecidableEq, Repr

/-- Effect of one operation on the cache. -/
def apply_op (c : Cache) : CacheOp → Except Fault Cache
  | .allocate tsk => (allocate c tsk).bind fun r => pure r.2.1
  | .get_buf fptr sinfo write_back => (get_buf c fptr sinfo write_back).bind fun r => pure r.2
  | .release tsk => release c tsk
  | .service_backlog => service_backlog c
  | .flush rounds => flush c rounds
  | .io_done k => pure (io_done c k)
  | .io_store k => pure (io_store c k)
  | .io_settle k => pure (io_settle c k)
  | .set_single_use_discard b => pure { c with single_use_discard := b }

/-- A sequence of operations from a given cache. -/
def Cache.run (c : Cache) (ops : List CacheOp) : Except Fault Cache :=
  ops.foldlM apply_op c

end flash

namespace flash

/-! ## Vocabulary of the cache invariants -/

/-- Sum of a weight over the entries of a map. -/
def wsum (w : Key × Value → Nat) (m : KVMap) : Nat := (m.map w).sum

/-- Bytes of the buffer of an entry. -/
def size_weight (e : Key × Value) : Nat := buf_size e.1.sinfo

/-- Bytes an `io_map` entry holds of the committed budget: an evicted entry
has given its share back. -/
def commit_weight (e : Key × Value) : Nat := if e.2.evicted then 0 else buf_size e.1.sinfo

/-- Bytes an `io_map` entry holds of the allocated memory: the buffer of an
evicted entry is allocated until its eviction write has completed. -/
def real_weight (e : Key × Value) : Nat :=
  if e.2.evicted && e.2.complete != some false then 0 else buf_size e.1.sinfo

/-- Where one key may be at one time: `a`, `i`, `z`, `b` are its entries in
`active_map`, `io_map`, `zero_ref_map` and `alloc_backlog`.  The three maps
exclude each other; a queued key is neither active nor zero-ref, and when it
is in `io_map` that entry is an evicted one; a queued entry is not marked
evicted. -/
structure Loc (a i z b : Option Value) : Prop where
  active_io : a = none ∨ i = none
  active_zero : a = none ∨ z = none
  io_zero : i = none ∨ z = none
  backlog_active : b = none ∨ a = none
  backlog_zero : b = none ∨ z = none
  backlog_io : b ≠ none → ∀ v, i = some v → v.evicted = true
  backlog_fresh : ∀ v, b = some v → v.evicted = false

/-- Bytes of the buffers that the eviction callbacks of `l` have still to
subtract from `real_size`. -/
def settling_bytes (l : List (Key × Nat)) : Nat := (l.map fun e => buf_size e.1.sinfo).sum

/-- The bytes that the entries of the four maps hold of the committed
budget. -/
def Cache.committed (c : Cache) : Nat :=
  wsum size_weight c.active_map + wsum size_weight c.zero_ref_map +
    wsum commit_weight c.io_map + wsum size_weight c.alloc_backlog

/-- The bytes of the buffers that are allocated: those of the entries of
`active_map`, `zero_ref_map` and `io_map`, and those that the callbacks of
`settling` are about to free. -/
def Cache.resident (c : Cache) : Nat :=
  wsum size_weight c.active_map + wsum size_weight c.zero_ref_map +
    wsum real_weight c.io_map + settling_bytes c.settling

/-- The structural and accounting invariant of the cache: no key twice in a
map, every key placed as `Loc` says, and the two counters equal to the bytes
that the entries hold, as `FBLAS_UINT` values (modulo `2^64`). -/
structure Cache.Inv (c : Cache) : Prop where
  nd_active : (keys c.active_map).Nodup
  nd_io : (keys c.io_map).Nodup
  nd_zero : (keys c.zero_ref_map).Nodup
  nd_backlog : (keys c.alloc_backlog).Nodup
  loc : ∀ k, Loc (kv_find c.active_map k) (kv_find c.io_map k) (kv_find c.zero_ref_map k)
    (kv_find c.alloc_backlog k)
  commit_eq : c.commit_size = c.committed % 2 ^ 64
  real_eq : c.real_size = c.resident % 2 ^ 64

/-- The counters have not wrapped: they are the bytes that the entries hold,
as natural numbers. -/
structure Cache.Exact (c : Cache) : Prop where
  commit_eq : c.commit_size = c.committed
  real_eq : c.real_size = c.resident

/-- The entries of `k` in `active_map`, `io_map` and `zero_ref_map` are the
same in two caches. -/
def same_at (c c' : Cache) (k : Key) : Prop :=
  kv_find c'.active_map k = kv_find c.active_map k ∧
  kv_find c'.io_map k = kv_find c.io_map k ∧
  kv_find c'.zero_ref_map k = kv_find c.zero_ref_map k

/-- Weight of the entry of `k` in `m`, zero when `k` has no entry. -/
def weight_at (w : Key × Value → Nat) (m : KVMap) (k : Key) : Nat :=
  match kv_find m k with
  | some v => w (k, v)
  | none => 0

end flash

namespace flash

/-- The outcome of a run satisfies `P`, when the run does not stop on a
fault. -/
def Holds {α : Type} (P : α → Prop) : Except Fault α → Prop
  | .ok a => P a
  | .error _ => True

end flash

namespace flash

/-- The cache `c'` comes from `c` by moving the entry of `k` between maps or
changing its value: the invariant holds, the counters are the same and the
entries of the other keys are untouched. -/
structure Moved (c c' : Cache) (k : Key) : Prop where
  inv : c'.Inv
  max_eq : c'.max_size = c.max_size
  real_eq : c'.real_size = c.real_size
  commit_eq : c'.commit_size = c.commit_size
  backlog_eq : c'.alloc_backlog = c.alloc_backlog
  frame : ∀ k', k' ≠ k → same_at c c' k'

/-- What one key's turn in `Cache::alloc_bufs` guarantees: the invariant, no
new allocation, and the entries of the other keys untouched. -/
structure AllocPost (c c' : Cache) (k : Key) : Prop where
  inv : c'.Inv
  max_eq : c'.max_size = c.max_size
  real_eq : c'.real_size = c.real_size
  frame : ∀ k', k' ≠ k → same_at c c' k'

end flash

namespace flash

/-! ## Concrete inputs used by the theorems -/

/-- Two write descriptors with the same stride, unaligned, whose offsets are
five periods apart. -/
def hazard_a : IoTask := ⟨⟨0, 0, 1⟩, ⟨1000, 10, 100⟩, 0, true⟩

/-- Second descriptor of the same-stride hazard: it rewrites strips 5 and 6 of
`hazard_a`. -/
def hazard_b : IoTask := ⟨⟨0, 5000, 1⟩, ⟨1000, 2, 100⟩, 0, true⟩

/-- A contiguous slice of 512 bytes at offset 0 of file 1; its buffer takes
1024 bytes. -/
def kA : Key := ⟨⟨100, 0, 1⟩, ⟨0, 1, 512⟩⟩

/-- A contiguous slice of 512 bytes at offset 4096 of file 1. -/
def kB : Key := ⟨⟨200, 4096, 1⟩, ⟨0, 1, 512⟩⟩

/-- A contiguous slice of 512 bytes at offset 8192 of file 1. -/
def kC : Key := ⟨⟨300, 8192, 1⟩, ⟨0, 1, 512⟩⟩

/-- The slice of 1024 bytes that starts where `kA` starts: same `flash_ptr`,
other `StrideInfo`. -/
def kA2 : Key := ⟨⟨100, 0, 1⟩, ⟨0, 1, 1024⟩⟩

/-- A task that writes `k`. -/
def tW (k : Key) : BaseTask := { write_list := [(k.fptr, k.sinfo)] }

/-- A task that reads `k`. -/
def tR (k : Key) : BaseTask := { read_list := [(k.fptr, k.sinfo)] }

/-- A task that reads and writes `k`. -/
def tRW (k : Key) : BaseTask :=
  { read_list := [(k.fptr, k.sinfo)], write_list := [(k.fptr, k.sinfo)] }

/-- A task that reads the two slices `kA` and `kA2`. -/
def tR2 : BaseTask := { read_list := [(kA.fptr, kA.sinfo), (kA2.fptr, kA2.sinfo)] }

/-- A run on a cache of 2048 bytes: `kA` is written and released, `kB` is read
and released, the allocation for `kC` evicts `kA`, whose buffer has to be
written back, and `kA` is asked for again while that write is pending. -/
def evict_then_ask : List CacheOp :=
  [.allocate (tW kA), .service_backlog, .get_buf kA.fptr kA.sinfo true, .release (tW kA),
   .allocate (tR kB), .service_backlog, .io_done kB, .get_buf kB.fptr kB.sinfo false,
   .release (tR kB), .allocate (tR kC), .allocate (tR kA)]

/-- A run with `single_use_discard` set: a task writes `kA` and releases it. -/
def write_then_release : List CacheOp :=
  [.set_single_use_discard true, .allocate (tW kA), .service_backlog,
   .get_buf kA.fptr kA.sinfo true, .release (tW kA)]

/-- The outcome of `alloc_ready` for a task reading `kA` and `kA2`, after
`allocate`, `service_backlog` and the completion of the read of `kA` only. -/
def shared_pointer_run : Except Fault (Bool × Cache × BaseTask) :=
  (allocate (Cache.init 4096) tR2).bind fun r =>
    (service_backlog r.2.1).bind fun c => alloc_ready (io_done c kA) r.2.2

/-- The outcome of `alloc_ready` for a task that reads and writes `kA`, when a
task that only reads `kA` was allocated first: both are allocated, the backlog
is served, the read completes, and both are made ready. -/
def queued_then_written_run : Except Fault (Bool × Cache × BaseTask) :=
  (allocate (Cache.init 4096) (tR kA)).bind fun ra =>
    (allocate ra.2.1 (tRW kA)).bind fun rb =>
      (service_backlog rb.2.1).bind fun c =>
        (alloc_ready (io_done c kA) ra.2.2).bind fun r1 => alloc_ready r1.2.1 rb.2.2

/-- A strided slice of `2^63` bytes of file 1: `2^29` strips of `2^34` bytes
(`len_per_stride` is below the bound `2^35` that `add_read` and `add_write`
assert). -/
def kHalf : Key := ⟨⟨500, 0, 1⟩, ⟨17179869184, 536870912, 17179869184⟩⟩

/-- A slice of `2^63` bytes of file 2, with the strips of `kHalf`. -/
def kHalf2 : Key := ⟨⟨600, 0, 2⟩, ⟨17179869184, 536870912, 17179869184⟩⟩

/-- A task that reads the two slices of `2^63` bytes. -/
def tHalves : BaseTask :=
  { read_list := [(kHalf.fptr, kHalf.sinfo), (kHalf2.fptr, kHalf2.sinfo)] }

/-- A strided slice of `2^64 - 100` bytes of file 3: `2^62 - 25` strips of 4
bytes. -/
def kHuge : Key := ⟨⟨700, 0, 3⟩, ⟨4, 4611686018427387879, 4⟩⟩

/-- A run on a cache of 2048 bytes: `kA` is read and released, so that its
buffer of 1024 bytes stays in `zero_ref_map`; then a task that writes `kHuge`
is allocated and the backlog is served. -/
def huge_write : List CacheOp :=
  [.allocate (tR kA), .service_backlog, .io_done kA, .get_buf kA.fptr kA.sinfo false,
   .release (tR kA), .allocate (tW kHuge), .service_backlog]

/-- A run on a cache of 2048 bytes with `single_use_discard` set: `kA` is
read and handed out, so that it is active with one reference, and a task that
writes `kHuge` is allocated. -/
def huge_write_pinned : List CacheOp :=
  [.set_single_use_discard true, .allocate (tR kA), .service_backlog, .io_done kA,
   .get_buf kA.fptr kA.sinfo false, .allocate (tW kHuge)]

/-- The run `huge_write` followed by `flush`, whose waiting loop goes round
once. -/
def huge_write_flush : List CacheOp := huge_write ++ [.flush [[]]]

/-- A file of two sectors, all zero. -/
def two_sectors : FlashFile := ⟨1024, fun _ => 0⟩

/-- A buffer whose byte `i` is `i + 7` (modulo 256). -/
def ramp : Bytes := fun i => Fin.ofNat (i + 7)

/-- A buffer of zeros. -/
def zeros : Bytes := fun _ => 0

end flash

namespace flash

/-! ## Scheduler (`include/scheduler/scheduler.h`, `include/scheduler/prioritizer.h`,
`src/scheduler/scheduler.cpp`)

A `BaseTask*` is an index into the heap of task objects; `nullptr` is `none`.
The dispatcher thread `sched_thread_fn` runs in steps, one per phase of its
loop (one per popped task while it drains `complete_queue`); between two steps
the other threads act: the user thread creates and submits tasks, a compute
thread pops a task or finishes one, an I/O thread completes a transfer. -/

/-- `class CompletionRecord`: the vector `complete`. -/
structure CompletionRecord where
  complete : List Bool
deriving DecidableEq, Repr

/-- The id `tsk_id` is recorded as complete: `complete[tsk_id]` is inside the
vector and `true`. -/
def CompletionRecord.marked (r : CompletionRecord) (tsk_id : Nat) : Prop :=
  r.complete.getD tsk_id false = true

/-- `CompletionRecord::resize()`. -/
def CompletionRecord.resize (r : CompletionRecord) : CompletionRecord :=
  ⟨r.complete ++ List.replicate (r.complete.length * 2 - r.complete.length) false⟩

/-- `CompletionRecord::is_complete(tsk_id)`: the answer, and the record
afterwards. -/
def CompletionRecord.is_complete (r : CompletionRecord) (tsk_id : Nat) :
    Bool × CompletionRecord :=
  if r.complete.length ≤ tsk_id then (false, r.resize)
  else (r.complete.getD tsk_id false, r)

/-- `CompletionRecord::remove_complete(tsk_ids)`: the ids that stay in the
vector, and the record afterwards. -/
def CompletionRecord.remove_complete (r : CompletionRecord) :
    List Nat → List Nat × CompletionRecord
  | [] => ([], r)
  | tsk_id :: rest =>
    if (r.is_complete tsk_id).1 then remove_complete (r.is_complete tsk_id).2 rest
    else (tsk_id :: (remove_complete (r.is_complete tsk_id).2 rest).1,
          (remove_complete (r.is_complete tsk_id).2 rest).2)

/-- `CompletionRecord::mark_complete(tsk_id)`: one `resize`, then the write
`complete[tsk_id] = true`, which is outside the vector when `tsk_id` is at
least twice its old size. -/
def CompletionRecord.mark_complete (r : CompletionRecord) (tsk_id : Nat) :
    Except Fault CompletionRecord :=
  let r := if r.complete.length ≤ tsk_id then r.resize else r
  if tsk_id < r.complete.length then pure ⟨r.complete.set tsk_id true⟩
  else throw Fault.out_of_bounds

/-- `struct TaskInfo`. -/
structure TaskInfo where
  tsk : Nat
  all_keys : List Key
  mem_reqd : Nat
deriving DecidableEq, Repr

/-- `class Prioritizer` (its reference to the cache is passed to `update`). -/
structure Prioritizer where
  in_mem_keys : List Key := []
  tsks : List TaskInfo := []
  use_prio : Bool := true
deriving DecidableEq, Repr

/-- A task object on the heap, with one ghost field: `parents0`, the parent
list the task was constructed with (`add_parent` before submission). -/
structure TaskCell where
  task : BaseTask
  parents0 : List Nat
deriving DecidableEq, Repr

/-- Write through a `BaseTask*`: `f` is applied to the task object at index
`tsk`. -/
def upd_task (f : BaseTask → BaseTask) : List TaskCell → Nat → List TaskCell
  | [], _ => []
  | c :: rest, 0 => { c with task := f c.task } :: rest
  | c :: rest, n + 1 => c :: upd_task f rest n

/-- Read through a `BaseTask*`. -/
def deref (heap : List TaskCell) (tsk : Nat) : Except Fault BaseTask :=
  match heap[tsk]? with
  | some c => pure c.task
  | none => throw Fault.null_deref

/-- The sum that `Prioritizer::fill_memreqd` and `Prioritizer::insert` add to
`mem_reqd`, starting from `start`. -/
def add_mem_reqd (in_mem_keys all_keys : List Key) (start : Nat) : Nat :=
  all_keys.foldl (fun m k => if k ∈ in_mem_keys then m else add64 m (buf_size k.sinfo)) start

/-- `Prioritizer::fill_memreqd(tsk_info)`. -/
def Prioritizer.fill_memreqd (p : Prioritizer) (tsk_info : TaskInfo) : TaskInfo :=
  { tsk_info with mem_reqd := add_mem_reqd p.in_mem_keys tsk_info.all_keys tsk_info.mem_reqd }

/-- One task of `Prioritizer::insert(new_tsks)`. -/
def Prioritizer.insert_one (heap : List TaskCell) (p : Prioritizer) (tsk : Nat) :
    Except Fault Prioritizer :=
  (deref heap tsk).bind fun t =>
    let all_keys := task_keys t
    let mem_reqd := if p.use_prio then add_mem_reqd p.in_mem_keys all_keys 0 else 0
    pure { p with tsks := p.tsks ++ [⟨tsk, all_keys, mem_reqd⟩] }

/-- `Prioritizer::insert(new_tsks)`. -/
def Prioritizer.insert (p : Prioritizer) (heap : List TaskCell) (new_tsks : List Nat) :
    Except Fault Prioritizer :=
  new_tsks.foldlM (Prioritizer.insert_one heap) p

/-- `Prioritizer::update()`.  `std::sort` leaves the order of tasks with equal
`mem_reqd` open; the embedding keeps their order. -/
def Prioritizer.update (p : Prioritizer) (c : Cache) : Prioritizer :=
  let in_mem_keys := p.tsks.foldl (fun s ti => ti.all_keys.foldl set_insert s) []
  let p := { p with in_mem_keys := keep_if_in_cache c in_mem_keys }
  let sorted := (p.tsks.map p.fill_memreqd).insertionSort
    fun left right => left.mem_reqd ≤ right.mem_reqd
  { p with tsks := sorted }

/-- Where the dispatcher thread stands in the loop of `sched_thread_fn`. -/
inductive Phase
  | start
  | drain
  | filter
  | admission
  | promote
  | service
  | stopped
deriving DecidableEq, Repr

/-- `class Scheduler` with the locals of `sched_thread_fn` (`tsks_in_mem`,
`update_in`) and the program counter of the dispatcher thread.  `heap` holds
the task objects and `global_task_counter` the counter of
`src/lib_funcs.cpp`.  Ghost fields: `running` (the tasks compute threads are
executing), `returned` (the ids of the tasks whose `execute()` has returned)
and `released` (the ids of the tasks `cache.release` has been called for).
`N_COMPUTE_THR` is a build-time constant that is not defined in the source
tree; it is a parameter here. -/
structure Scheduler where
  N_COMPUTE_THR : Nat
  cache : Cache
  heap : List TaskCell := []
  global_task_counter : Nat := 0
  wait_tsks : List Nat := []
  prio : Prioritizer := {}
  alloced_tsks : List Nat := []
  compute_queue : List Nat := []
  complete_queue : List Nat := []
  c_rec : CompletionRecord := ⟨List.replicate 1024 false⟩
  shutdown : Bool := false
  tsks_in_mem : Nat := 0
  update_in : Nat := 1
  pc : Phase := Phase.start
  running : List Nat := []
  returned : List Nat := []
  released : List Nat := []
deriving DecidableEq, Repr

/-- `Scheduler::Scheduler(n_io_threads, n_compute_thr, max_mem)`. -/
def Scheduler.init (N_COMPUTE_THR max_mem : Nat) : Scheduler :=
  { N_COMPUTE_THR := N_COMPUTE_THR, cache := Cache.init max_mem }

end flash

namespace flash

/-! ### The steps of the dispatcher thread and of the other threads -/

/-- Modelled from the spec: `ConcurrentQueue::pop` (`include/queue.h` is not
in the source tree).  The queue is a FIFO; `pop` takes the element at the
front, and returns `nullptr`, here `none`, when the queue is empty. -/
def queue_pop (q : List Nat) : Option Nat × List Nat :=
  match q with
  | [] => (none, [])
  | tsk :: rest => (some tsk, rest)

/-- Modelled from the spec: `ConcurrentQueue::push` and
`ConcurrentQueue::insert` (`include/queue.h` is not in the source tree): the
new elements go to the back of the FIFO. -/
def queue_push (q new_tsks : List Nat) : List Nat := q ++ new_tsks

/-- The body of the loop `while (tsk != nullptr)` of `sched_thread_fn` for
one popped task: `mark_complete`, `cache.release`, `set_status(Complete)`, and
the continuation `next`, if any, goes to `wait_tsks`. -/
def drain_one (s : Scheduler) (tsk : Nat) : Except Fault Scheduler :=
  (deref s.heap tsk).bind fun t =>
    (s.c_rec.mark_complete t.task_id).bind fun c_rec =>
      (release s.cache t).bind fun cache =>
        let heap := upd_task (fun t => { t with st := TaskStatus.Complete }) s.heap tsk
        let released := s.released ++ [t.task_id]
        let s1 := { s with tsks_in_mem := sub64 s.tsks_in_mem 1, c_rec := c_rec, cache := cache,
                           heap := heap, released := released }
        match t.next with
        | none => pure s1
        | some next =>
          (deref heap next).bind fun n =>
            if ¬ n.st.rank < TaskStatus.AllocReady.rank then throw Fault.next_status
            else
              let heap2 := upd_task (fun t => { t with st := TaskStatus.Wait }) heap next
              pure { s1 with heap := heap2, wait_tsks := s1.wait_tsks ++ [next] }

/-- Phase 1 of the loop: one `complete_queue.pop()`; the phase ends when the
queue is empty. -/
def drain_step (s : Scheduler) : Except Fault Scheduler :=
  match (queue_pop s.complete_queue).1 with
  | none => pure { s with pc := Phase.filter }
  | some tsk => drain_one { s with complete_queue := (queue_pop s.complete_queue).2 } tsk

/-- One element of `wait_tsks.filter(wait_keep_fn)`: `remove_complete` on the
parents of the task, which is kept when a parent is left.  The state is the
scheduler, the tasks kept and the tasks discarded so far. -/
def wait_keep (s : Scheduler × List Nat × List Nat) (tsk : Nat) :
    Except Fault (Scheduler × List Nat × List Nat) :=
  (deref s.1.heap tsk).bind fun t =>
    let r := s.1.c_rec.remove_complete t.parents
    let heap := upd_task (fun t => { t with parents := r.1 }) s.1.heap tsk
    let s1 := { s.1 with c_rec := r.2, heap := heap }
    if r.1.isEmpty then pure (s1, s.2.1, s.2.2 ++ [tsk])
    else pure (s1, s.2.1 ++ [tsk], s.2.2)

/-- `tsk->set_status(st)` for each task of a vector. -/
def set_status_all (st : TaskStatus) (heap : List TaskCell) (tsks : List Nat) : List TaskCell :=
  tsks.foldl (fun heap tsk => upd_task (fun t => { t with st := st }) heap tsk) heap

/-- Phase 2 of the loop: filter `wait_tsks`, set the tasks that left it to
`AllocReady`, insert them into the prioritizer and update it. -/
def filter_step (s : Scheduler) : Except Fault Scheduler :=
  (s.wait_tsks.foldlM wait_keep (s, [], [])).bind fun r =>
    let cur_ready_tsks := r.2.2
    let heap := set_status_all TaskStatus.AllocReady r.1.heap cur_ready_tsks
    let s1 := { r.1 with wait_tsks := r.2.1, heap := heap, pc := Phase.admission }
    if cur_ready_tsks.length > 0 then
      (s1.prio.insert heap cur_ready_tsks).bind fun prio =>
        let update_in := sub64 s1.update_in 1
        if update_in = 0 then
          pure { s1 with prio := prio.update s1.cache, update_in := 1 }
        else pure { s1 with prio := prio, update_in := update_in }
    else pure s1

/-- The admission loop `while (num_tsks_to_alloc > 0 && !prio.empty())` over
the queue of the prioritizer from its front: `get_prio`, `cache.allocate`, and
on failure `return_prio` and `break`.  `num_tsks_to_alloc` does not change in
the loop.  The cache writes only `in_mem_ptrs` of the task. -/
def admission_loop (s : Scheduler) : List TaskInfo → Except Fault Scheduler
  | [] => pure { s with prio := { s.prio with tsks := [] } }
  | tsk_info :: rest =>
    (deref s.heap tsk_info.tsk).bind fun t =>
      (allocate s.cache t).bind fun r =>
        if r.1 then
          let heap := upd_task
            (fun t => { t with in_mem_ptrs := r.2.2.in_mem_ptrs, st := TaskStatus.Alloc })
            s.heap tsk_info.tsk
          admission_loop
            { s with cache := r.2.1, heap := heap, tsks_in_mem := add64 s.tsks_in_mem 1,
                     alloced_tsks := s.alloced_tsks ++ [tsk_info.tsk] } rest
        else pure { s with cache := r.2.1, prio := { s.prio with tsks := tsk_info :: rest } }

/-- Phase 3 of the loop: admission. -/
def admission_step (s : Scheduler) : Except Fault Scheduler :=
  let max_in_mem_tsks := s.N_COMPUTE_THR * 4
  let num_tsks_to_alloc := sub64 max_in_mem_tsks s.tsks_in_mem
  (if num_tsks_to_alloc > 0 then admission_loop s s.prio.tsks else pure s).bind fun s =>
    pure { s with pc := Phase.promote }

/-- One element of `alloced_tsks.filter(alloc_keep_fn)`: the task is kept
when `alloc_ready` returns `false`.  The state is the scheduler, the tasks
kept and the tasks discarded so far. -/
def alloc_keep (s : Scheduler × List Nat × List Nat) (tsk : Nat) :
    Except Fault (Scheduler × List Nat × List Nat) :=
  (deref s.1.heap tsk).bind fun t =>
    (alloc_ready s.1.cache t).bind fun r =>
      let heap := upd_task (fun t => { t with in_mem_ptrs := r.2.2.in_mem_ptrs }) s.1.heap tsk
      let s1 := { s.1 with cache := r.2.1, heap := heap }
      if r.1 then pure (s1, s.2.1, s.2.2 ++ [tsk]) else pure (s1, s.2.1 ++ [tsk], s.2.2)

/-- Phase 4 of the loop: the tasks whose buffers are all in the cache leave
`alloced_tsks`, become `ComputeReady` and enter `compute_queue`. -/
def promote_step (s : Scheduler) : Except Fault Scheduler :=
  (s.alloced_tsks.foldlM alloc_keep (s, [], [])).bind fun r =>
    let compute_ready_tsks := r.2.2
    let s1 := { r.1 with alloced_tsks := r.2.1, pc := Phase.service }
    if !compute_ready_tsks.isEmpty then
      let heap := set_status_all TaskStatus.ComputeReady s1.heap compute_ready_tsks
      pure { s1 with heap := heap,
                     compute_queue := queue_push s1.compute_queue compute_ready_tsks }
    else pure s1

/-- Phase 5 of the loop: `cache.service_backlog()`. -/
def service_step (s : Scheduler) : Except Fault Scheduler :=
  (service_backlog s.cache).bind fun cache => pure { s with cache := cache, pc := Phase.start }

/-- The head of the loop: the thread leaves it when `shutdown` is set and the
containers are empty. -/
def start_step (s : Scheduler) : Scheduler :=
  if s.shutdown && s.wait_tsks.isEmpty && s.prio.tsks.isEmpty && s.alloced_tsks.isEmpty &&
      s.compute_queue.isEmpty then { s with pc := Phase.stopped }
  else { s with pc := Phase.drain }

/-- One step of `Scheduler::sched_thread_fn`. -/
def sched_step (s : Scheduler) : Except Fault Scheduler :=
  match s.pc with
  | Phase.start => pure (start_step s)
  | Phase.drain => drain_step s
  | Phase.filter => filter_step s
  | Phase.admission => admission_step s
  | Phase.promote => promote_step s
  | Phase.service => service_step s
  | Phase.stopped => pure s

/-- What happens to a scheduler: the user thread constructs a task
(`BaseTask()`, `add_read`, `add_write`, `add_parent`, `add_next`) or submits
one (`Scheduler::add_task`), the dispatcher thread takes a step, a compute
thread pops a task from `compute_queue` or returns from `execute()`, an I/O
thread completes a transfer, the destructor sets `shutdown`. -/
inductive SchedEvent
  | new_task (read_list write_list : List (flash_ptr × StrideInfo)) (parents : List Nat)
      (next : Option Nat)
  | add_task (tsk : Nat)
  | sched
  | compute_pop
  | compute_finish (tsk : Nat)
  | io_done (k : Key)
  | set_shutdown
deriving DecidableEq, Repr

/-- `Scheduler::add_task(tsk)`. -/
def Scheduler.add_task (s : Scheduler) (tsk : Nat) : Except Fault Scheduler :=
  (deref s.heap tsk).bind fun _ =>
    pure { s with heap := upd_task (fun t => { t with st := TaskStatus.Wait }) s.heap tsk,
                  wait_tsks := s.wait_tsks ++ [tsk] }

/-- The branch of `compute_thread_fn` that pops a task: `set_status(Compute)`
and the call of `execute()`. -/
def compute_pop (s : Scheduler) : Except Fault Scheduler :=
  match (queue_pop s.compute_queue).1 with
  | none => pure s
  | some tsk =>
    (deref s.heap tsk).bind fun _ =>
      pure { s with compute_queue := (queue_pop s.compute_queue).2,
                    heap := upd_task (fun t => { t with st := TaskStatus.Compute }) s.heap tsk,
                    running := s.running ++ [tsk] }

/-- The return of `tsk->execute()` in `compute_thread_fn`, followed by
`complete_queue.push(tsk)`. -/
def compute_finish (s : Scheduler) (tsk : Nat) : Except Fault Scheduler :=
  if tsk ∈ s.running then
    (deref s.heap tsk).bind fun t =>
      pure { s with running := s.running.erase tsk, returned := s.returned ++ [t.task_id],
                    complete_queue := queue_push s.complete_queue [tsk] }
  else pure s

/-- Effect of one event on the scheduler. -/
def sched_apply (s : Scheduler) : SchedEvent → Except Fault Scheduler
  | .new_task read_list write_list parents next =>
    let t : BaseTask := { read_list := read_list, write_list := write_list, parents := parents,
                          next := next, task_id := s.global_task_counter }
    pure { s with heap := s.heap ++ [⟨t, parents⟩],
                  global_task_counter := s.global_task_counter + 1 }
  | .add_task tsk => s.add_task tsk
  | .sched => sched_step s
  | .compute_pop => compute_pop s
  | .compute_finish tsk => compute_finish s tsk
  | .io_done k => pure { s with cache := io_done s.cache k }
  | .set_shutdown => pure { s with shutdown := true }

/-- A sequence of events from a given scheduler. -/
def Scheduler.run (s : Scheduler) (evs : List SchedEvent) : Except Fault Scheduler :=
  evs.foldlM sched_apply s

/-- The tasks that have left `wait_tsks`: in the prioritizer, allocated,
queued for compute, in compute, or queued as complete. -/
def Scheduler.promoted (s : Scheduler) : List Nat :=
  s.prio.tsks.map (·.tsk) ++ s.alloced_tsks ++ s.compute_queue ++ s.running ++ s.complete_queue

/-- None of the tasks `tsks` has a parent left in its parent list. -/
def no_parents (heap : List TaskCell) (tsks : List Nat) : Prop :=
  ∀ tsk ∈ tsks, ∀ c : TaskCell, heap[tsk]? = some c → c.task.parents = []

/-- What a step may do to one task object, the record being `r` afterwards:
the construction-time parent list and the id stay, a parent leaves the parent
list only when its id is marked complete, an empty parent list stays empty,
and a status other than `Wait` is either the status before or comes with an
empty parent list. -/
structure cell_step (r : CompletionRecord) (c c' : TaskCell) : Prop where
  parents0_eq : c'.parents0 = c.parents0
  id_eq : c'.task.task_id = c.task.task_id
  removed : ∀ p ∈ c.task.parents, p ∈ c'.task.parents ∨ r.marked p
  empty : c.task.parents = [] → c'.task.parents = []
  status : c'.task.st ≠ TaskStatus.Wait → c'.task.st = c.task.st ∨ c'.task.parents = []

/-- Every task object of `heap'` comes from the object at the same place in
`heap` by a `cell_step`. -/
def heap_rel (r : CompletionRecord) (heap heap' : List TaskCell) : Prop :=
  heap'.length = heap.length ∧
  ∀ (tsk : Nat) (c' : TaskCell), heap'[tsk]? = some c' →
    ∃ c, heap[tsk]? = some c ∧ cell_step r c c'

/-- The containers of the tasks that have left `wait_tsks` and the ghost
lists are the same in two schedulers. -/
structure same_rest (s s' : Scheduler) : Prop where
  prio : s'.prio = s.prio
  alloced_tsks : s'.alloced_tsks = s.alloced_tsks
  compute_queue : s'.compute_queue = s.compute_queue
  running : s'.running = s.running
  complete_queue : s'.complete_queue = s.complete_queue
  returned : s'.returned = s.returned
  released : s'.released = s.released

/-- The dependency invariant of the scheduler: (`par`) a parent id that a task
was constructed with is still in its parent list or is marked complete;
(`st`) a task whose status is not `Wait` has an empty parent list; (`out`) so
has a task that has left `wait_tsks`, and (`valid`) its pointer is the address
of a task object; (`ret`) a task in `complete_queue` has
returned from `execute()`; (`mark`) an id that is marked complete belongs to a
task that has returned from `execute()` and that `cache.release` was called
for; (`ids`, `counter`) the id of a task is its place in the heap, which is
the value of the counter when it was constructed. -/
structure Scheduler.Inv (s : Scheduler) : Prop where
  par : ∀ (tsk : Nat) (c : TaskCell), s.heap[tsk]? = some c → ∀ p ∈ c.parents0,
    p ∈ c.task.parents ∨ s.c_rec.marked p
  st : ∀ (tsk : Nat) (c : TaskCell), s.heap[tsk]? = some c →
    c.task.st ≠ TaskStatus.Wait → c.task.parents = []
  out : no_parents s.heap s.promoted
  valid : ∀ tsk ∈ s.promoted, tsk < s.heap.length
  ret : ∀ tsk ∈ s.complete_queue, ∀ c : TaskCell, s.heap[tsk]? = some c →
    c.task.task_id ∈ s.returned
  mark : ∀ p, s.c_rec.marked p → p ∈ s.returned ∧ p ∈ s.released
  ids : ∀ (tsk : Nat) (c : TaskCell), s.heap[tsk]? = some c → c.task.task_id = tsk
  counter : s.global_task_counter = s.heap.length

/-- The state of the filter of `wait_tsks` after some of its elements: the
heap has made steps, the record marks the same ids, the discarded tasks have
no parent left and are valid pointers, and the rest of the scheduler is
untouched. -/
structure FilterInv (s : Scheduler) (x : Scheduler × List Nat × List Nat) : Prop where
  rel : heap_rel x.1.c_rec s.heap x.1.heap
  marks : ∀ p, x.1.c_rec.marked p ↔ s.c_rec.marked p
  ready : no_parents x.1.heap x.2.2
  valid : ∀ t ∈ x.2.2, t < x.1.heap.length
  rest : same_rest s x.1
  counter : x.1.global_task_counter = s.global_task_counter

/-- The state of the filter of `alloced_tsks` after some of its elements: the
heap has made steps, the record is the same, the tasks kept and discarded are
tasks of `alloced_tsks`, and the rest of the scheduler is untouched. -/
structure PromoteInv (s : Scheduler) (x : Scheduler × List Nat × List Nat) : Prop where
  rel : heap_rel s.c_rec s.heap x.1.heap
  c_rec : x.1.c_rec = s.c_rec
  kept : ∀ t ∈ x.2.1, t ∈ s.alloced_tsks
  ready : ∀ t ∈ x.2.2, t ∈ s.alloced_tsks
  rest : same_rest s x.1
  counter : x.1.global_task_counter = s.global_task_counter

end flash

namespace flash

/-! ### Concrete runs of the cache and of the scheduler -/

/-- The cache that the run `evict_then_ask` reaches from the empty cache of
2048 bytes. -/
def evict_then_ask_cache : Cache :=
  match (Cache.init 2048).run evict_then_ask with
  | .ok c => c
  | .error _ => Cache.init 2048

/-- A run of the scheduler with two compute threads and 4096 bytes: task 0
writes `kA`, task 1 reads `kA` and has task 0 as its parent.  Both are
submitted, the child first; the dispatcher makes two rounds of its loop, a
compute thread executes task 0, and the dispatcher drains `complete_queue` and
filters `wait_tsks` again. -/
def parent_then_child : List SchedEvent :=
  [.new_task [] [(kA.fptr, kA.sinfo)] [] none,
   .new_task [(kA.fptr, kA.sinfo)] [] [0] none,
   .add_task 1, .add_task 0,
   .sched, .sched, .sched, .sched, .sched, .sched,
   .sched, .sched, .sched, .sched, .sched, .sched,
   .compute_pop, .compute_finish 0,
   .sched, .sched, .sched, .sched]

/-- The scheduler that the run `parent_then_child` reaches. -/
def parent_then_child_sched : Scheduler :=
  match (Scheduler.init 2 4096).run parent_then_child with
  | .ok s => s
  | .error _ => Scheduler.init 2 4096

/-- The run `parent_then_child` cut before the compute thread returns from
task 0. -/
def parent_running : List SchedEvent := parent_then_child.take 17

end flash

namespace flash

/-! ### Scheduler options and further concrete runs -/

/-- `struct SchedulerOptions`. -/
structure SchedulerOptions where
  enable_prioritizer : Bool := true
  enable_overlap_check : Bool := true
  single_use_discard : Bool := false
deriving DecidableEq, Repr

/-- `Scheduler::set_options(sched_opts)`.  The flag `io_exec.overlap_check`
belongs to the I/O executor, which is not part of the scheduler state of the
embedding. -/
def Scheduler.set_options (s : Scheduler) (sched_opts : SchedulerOptions) : Scheduler :=
  let s := { s with cache := { s.cache with single_use_discard := sched_opts.single_use_discard } }
  if !s.prio.use_prio && sched_opts.enable_prioritizer then
    { s with prio := Prioritizer.update { s.prio with use_prio := sched_opts.enable_prioritizer }
                       s.cache }
  else s

/-- The contiguous slice of 512 bytes at offset `4096 * i` of file 1; its
buffer takes 1024 bytes. -/
def slice (i : Nat) : Key := ⟨⟨100 * (i + 1), 4096 * i, 1⟩, ⟨0, 1, 512⟩⟩

/-- Task 0 reads the slice `kA2` (a buffer of 1536 bytes), task 1 reads `kA`
(1024 bytes).  Both are submitted, task 0 first, and the dispatcher goes
through the head of its loop, the drain of `complete_queue` and the filter of
`wait_tsks`. -/
def two_ready : List SchedEvent :=
  [.new_task [(kA2.fptr, kA2.sinfo)] [] [] none,
   .new_task [(kA.fptr, kA.sinfo)] [] [] none,
   .add_task 0, .add_task 1,
   .sched, .sched, .sched]

/-- Five tasks, task `i` reading `slice i`, are submitted, and the dispatcher
goes through the head of its loop, the drain, the filter and the admission. -/
def five_ready : List SchedEvent :=
  [.new_task [((slice 0).fptr, (slice 0).sinfo)] [] [] none,
   .new_task [((slice 1).fptr, (slice 1).sinfo)] [] [] none,
   .new_task [((slice 2).fptr, (slice 2).sinfo)] [] [] none,
   .new_task [((slice 3).fptr, (slice 3).sinfo)] [] [] none,
   .new_task [((slice 4).fptr, (slice 4).sinfo)] [] [] none,
   .add_task 0, .add_task 1, .add_task 2, .add_task 3, .add_task 4,
   .sched, .sched, .sched, .sched]

/-- Task 0 reads `kA`.  It is submitted; the dispatcher makes one round of its
loop, the read of `kA` completes, the dispatcher makes a second round, which
puts the task in `compute_queue`, and a compute thread pops it.  Then the
destructor sets `shutdown`, the dispatcher comes to the head of its loop, and
the compute thread returns from `execute()`. -/
def shutdown_while_running : List SchedEvent :=
  [.new_task [(kA.fptr, kA.sinfo)] [] [] none, .add_task 0,
   .sched, .sched, .sched, .sched, .sched, .sched,
   .io_done kA,
   .sched, .sched, .sched, .sched, .sched, .sched,
   .compute_pop, .set_shutdown, .sched, .compute_finish 0]

end flash

namespace flash

/-! ### Vocabulary of the contracts of `release` and `get_buf` -/

/-- The bytes of the buffers of those keys of `l` whose reference count in
`active_map` is 1. -/
def last_ref_bytes (c : Cache) (l : List Key) : Nat :=
  (l.map fun k => if (kv_get c.active_map k).n_refs = 1 then buf_size k.sinfo else 0).sum

/-- The cache `c'` comes from `c` by a release of the keys `l`: (`dec`) a key
of `l` with more than one reference stays active with one reference less;
(`zero`) a key of `l` with one reference leaves `active_map`, and enters
`zero_ref_map` with count 0 unless `single_use_discard` is set; (`frame`) the
entries of the other keys are the same; `io_map`, `alloc_backlog`, the option
and `max_size` are the same; (`commit`, `real`) with `single_use_discard` the
bytes of the keys that were dropped have been subtracted from the two
counters, as `FBLAS_UINT` values, without it the counters are the same;
(`exact`) when the counters of `c` have not wrapped, neither have those of
`c'`, and the subtractions are those of natural numbers. -/
structure ReleasePost (c c' : Cache) (l : List Key) : Prop where
  inv : c'.Inv
  dec : ∀ k ∈ l, ∀ v, kv_find c.active_map k = some v → v.n_refs ≠ 1 →
    kv_find c'.active_map k = some { v with n_refs := v.n_refs - 1 } ∧
    kv_find c'.zero_ref_map k = none
  zero : ∀ k ∈ l, ∀ v, kv_find c.active_map k = some v → v.n_refs = 1 →
    kv_find c'.active_map k = none ∧
    kv_find c'.zero_ref_map k =
      if c.single_use_discard then none else some { v with n_refs := 0 }
  frame : ∀ k, k ∉ l → kv_find c'.active_map k = kv_find c.active_map k ∧
    kv_find c'.zero_ref_map k = kv_find c.zero_ref_map k
  io_eq : c'.io_map = c.io_map
  backlog_eq : c'.alloc_backlog = c.alloc_backlog
  discard_eq : c'.single_use_discard = c.single_use_discard
  max_eq : c'.max_size = c.max_size
  commit : c'.commit_size =
    sub64 c.commit_size (if c.single_use_discard then last_ref_bytes c l else 0)
  real : c'.real_size =
    sub64 c.real_size (if c.single_use_discard then last_ref_bytes c l else 0)
  exact : c.Exact → c'.Exact ∧
    c'.commit_size + (if c.single_use_discard then last_ref_bytes c l else 0) = c.commit_size ∧
    c'.real_size + (if c.single_use_discard then last_ref_bytes c l else 0) = c.real_size

end flash

namespace flash

/-- The cache of 2048 bytes after a task that writes `kA` has been allocated,
the backlog served and the buffer handed out: `kA` is active with one
reference. -/
def pinned_cache : Cache :=
  match (Cache.init 2048).run (evict_then_ask.take 3) with
  | .ok c => c
  | .error _ => Cache.init 2048

end flash

namespace flash

/-- Every value of the map satisfies `P`. -/
def all_values (P : Value → Prop) (m : KVMap) : Prop := ∀ e ∈ m, P e.2

/-- Every entry of `active_map`, `io_map` and `zero_ref_map` has a buffer
(`buf` is not `nullptr`), every entry of `io_map` has its completion flag
(`complete` is not `nullptr`), and `aligned_alloc` does not return
`nullptr`. -/
structure Cache.Backed (c : Cache) : Prop where
  active : all_values (fun v => v.buf ≠ 0) c.active_map
  io : all_values (fun v => v.buf ≠ 0 ∧ v.complete ≠ none) c.io_map
  zero : all_values (fun v => v.buf ≠ 0) c.zero_ref_map
  next : c.next_buf ≠ 0

end flash

namespace flash

/-- The cache of 2048 bytes after a task that writes `kA` has been allocated
and the backlog served: `kA` is in `io_map`, not evicted, its completion flag
set, since nothing is read for a buffer that is only written. -/
def served_cache : Cache :=
  match (Cache.init 2048).run (evict_then_ask.take 2) with
  | .ok c => c
  | .error _ => Cache.init 2048

end flash

namespace flash

/-- The state of a cache during `flush`: nothing is active, nothing is
queued, every entry of `io_map` is an eviction, and the I/O tasks `W` have
been issued. -/
structure Draining (W : List IoTask) (c : Cache) : Prop where
  active : c.active_map = []
  backlog : c.alloc_backlog = []
  io : all_values (fun v => v.evicted = true) c.io_map
  issued : ∀ x ∈ W, x ∈ c.issued

/-- A task that reads `kA` is allocated and the backlog served, so that the
read of `kA` is in flight; then `flush` is called, the read completes during
its first round, and its second round reaps the completion. -/
def flush_with_read_in_flight : List CacheOp :=
  [.allocate (tR kA), .service_backlog, .flush [[.done kA], []]]

/-- A task writes `kA` and releases it; then `flush` is called, the eviction
write of `kA` completes during its first round, and its second round reaps the
completion. -/
def write_release_flush : List CacheOp :=
  [.allocate (tW kA), .service_backlog, .get_buf kA.fptr kA.sinfo true, .release (tW kA),
   .flush [[.done kA], []]]

/-- The cache of 2048 bytes after the first four operations of
`write_release_flush`: `kA` is in `zero_ref_map` with `write_back` set. -/
def released_cache : Cache :=
  match (Cache.init 2048).run (write_release_flush.take 4) with
  | .ok c => c
  | .error _ => Cache.init 2048

/-- The cache that `flush` returns on `released_cache` when the callback of
the eviction write of `kA` runs to its end during the first round. -/
def flushed_cache : Cache :=
  match flush released_cache [[.done kA], []] with
  | .ok c => c
  | .error _ => Cache.init 2048

/-- The run `write_release_flush` with the callback of the eviction write cut
after its first statement: it stores the completion flag during the first
round of `flush` and has not reached `fetch_sub` when `flush` returns. -/
def write_release_flush_early : List CacheOp :=
  [.allocate (tW kA), .service_backlog, .get_buf kA.fptr kA.sinfo true, .release (tW kA),
   .flush [[.store kA], []]]

/-- The cache that `flush` returns on `released_cache` when the callback of
the eviction write of `kA` has only stored the completion flag. -/
def flushed_early_cache : Cache :=
  match flush released_cache [[.store kA], []] with
  | .ok c => c
  | .error _ => Cache.init 2048

/-- The callbacks of `settling` run to their end, the oldest first. -/
def io_settle_all (c : Cache) : Cache := (c.settling.map (·.1)).foldl io_settle c

end flash

namespace flash

/-! ### Strided transfers (`FlashFileHandle::sread`, `FlashFileHandle::swrite`) -/

/-- The running sum of the loops that lay the requests out one after the
other in the bounce buffer: `buf_offsets[i] = buf_size; buf_size += sizes[i]`. -/
def running_offset (sizes : Nat → Nat) : Nat → Nat
  | 0 => 0
  | i + 1 => running_offset sizes i + sizes i

/-- `FlashFileHandle::sread(offset, sinfo, buf, callback)`: the content of
`buf` after the call, `none` when one of the two `GLOG_ASSERT`s on `sinfo`
fails.  `buf_addr` is the address of `buf`; `fresh` is the content of the
bounce buffer as `alloc_aligned` returns it. -/
def FlashFileHandle.sread (f : FlashFile) (offset : Nat) (sinfo : StrideInfo) (buf_addr : Nat)
    (buf fresh : Bytes) : Option Bytes :=
  if sinfo.n_strides = 0 then none
  else if ¬ sinfo.len_per_stride ≤ sinfo.stride then none
  else if sinfo.len_per_stride = 0 then some buf
  else
    let n_reads := sinfo.n_strides
    let stride := sinfo.stride
    let lps := sinfo.len_per_stride
    if IS_ALIGNED buf_addr && IS_ALIGNED lps && IS_ALIGNED offset && IS_ALIGNED stride then
      some (execute_io (f, buf)
        ((List.range n_reads).map fun idx => ⟨offset + stride * idx, lps, idx * lps⟩)
        false MAX_SIMUL_REQS).2
    else
      let starts := fun idx => ROUND_DOWN (offset + stride * idx) SECTOR_LEN
      let buf_deltas := fun idx => offset + stride * idx - starts idx
      let sizes := fun idx => ROUND_UP (offset + stride * idx + lps) SECTOR_LEN - starts idx
      let buf_offsets := running_offset sizes
      let read_buf := (execute_io (f, fresh)
        ((List.range n_reads).map fun i => ⟨starts i, sizes i, buf_offsets i⟩)
        false MAX_SIMUL_REQS).2
      some ((List.range n_reads).foldl
        (fun b i => memcpy b (lps * i) read_buf (buf_offsets i + buf_deltas i) lps) buf)

/-- Assignment through the reference `v.back()`. -/
def set_back (v : List Nat) (x : Nat) : List Nat := v.dropLast ++ [x]

/-- One iteration of the loop of `swrite` that merges the strips whose sector
hulls meet into blocks; the state is `(merges, m_starts, m_ends)`. -/
def merge_step (starts ends : Nat → Nat) (g : List Nat × List Nat × List Nat) (i : Nat) :
    List Nat × List Nat × List Nat :=
  if starts i < g.2.2.getLastD 0 then
    (set_back g.1 (g.1.getLastD 0 + 1), g.2.1, set_back g.2.2 (ends i))
  else (g.1 ++ [i + 1], g.2.1 ++ [starts i], g.2.2 ++ [ends i])

/-- The vectors `merges`, `m_starts` and `m_ends` of `swrite`. -/
def merge_blocks (starts ends : Nat → Nat) (n_strides : Nat) :
    List Nat × List Nat × List Nat :=
  (List.range' 1 (n_strides - 1)).foldl (merge_step starts ends)
    (if n_strides > 0 then [0, 1] else [0], [starts 0], [ends 0])

/-- `FlashFileHandle::swrite(offset, sinfo, buf, callback)`: the file after the
call (release build), `none` when one of the two `GLOG_ASSERT`s on `sinfo`
fails.  `buf_addr` is the address of `buf`; `fresh` is the content of the
bounce buffer as `alloc_aligned` returns it. -/
def FlashFileHandle.swrite (f : FlashFile) (offset : Nat) (sinfo : StrideInfo) (buf_addr : Nat)
    (buf fresh : Bytes) : Option FlashFile :=
  if sinfo.n_strides = 0 then none
  else if ¬ sinfo.len_per_stride ≤ sinfo.stride then none
  else if sinfo.len_per_stride = 0 then some f
  else
    let stride := sinfo.stride
    let lps := sinfo.len_per_stride
    let n_strides := sinfo.n_strides
    if IS_ALIGNED buf_addr && IS_ALIGNED lps && IS_ALIGNED offset && IS_ALIGNED stride then
      some (execute_io (f, buf)
        ((List.range n_strides).map fun idx => ⟨offset + stride * idx, lps, idx * lps⟩)
        true MAX_SIMUL_REQS).1
    else
      let starts := fun idx => ROUND_DOWN (offset + stride * idx) SECTOR_LEN
      let ends := fun idx => ROUND_UP (offset + stride * idx + lps) SECTOR_LEN
      let merge_required := (List.range (n_strides - 1)).any fun i =>
        decide (ends i > starts (i + 1))
      if !merge_required then
        let buf_deltas := fun i => offset + stride * i - starts i
        let sizes := fun i => ends i - starts i
        let buf_offsets := running_offset sizes
        let fetch : List IoReq :=
          if lps ≥ 3 * SECTOR_LEN then
            ((List.range n_strides).map fun i =>
              ⟨ends i - SECTOR_LEN, SECTOR_LEN, buf_offsets i + (sizes i - SECTOR_LEN)⟩) ++
            ((List.range n_strides).map fun i => ⟨starts i, SECTOR_LEN, buf_offsets i⟩)
          else (List.range n_strides).map fun i => ⟨starts i, sizes i, buf_offsets i⟩
        let st := execute_io (f, fresh) fetch false MAX_SIMUL_REQS
        let write_buf := (List.range n_strides).foldl
          (fun b i => memcpy b (buf_offsets i + buf_deltas i) buf (lps * i) lps) st.2
        some (execute_io (st.1, write_buf)
          ((List.range n_strides).map fun i => ⟨starts i, sizes i, buf_offsets i⟩)
          true MAX_SIMUL_REQS).1
      else
        let merges := (merge_blocks starts ends n_strides).1
        let m_starts := (merge_blocks starts ends n_strides).2.1
        let m_ends := (merge_blocks starts ends n_strides).2.2
        let m_nblks := m_starts.length
        let m_sizes := fun i => m_ends.getD i 0 - m_starts.getD i 0
        let m_offs := running_offset m_sizes
        let reqs : List IoReq :=
          (List.range m_nblks).map fun i => ⟨m_starts.getD i 0, m_sizes i, m_offs i⟩
        let st := execute_io (f, fresh) reqs false MAX_SIMUL_REQS
        let write_buf := (List.range m_nblks).foldl
          (fun b m =>
            (List.range' (merges.getD m 0) (merges.getD (m + 1) 0 - merges.getD m 0)).foldl
              (fun b stride_idx =>
                memcpy b (m_offs m + (offset + stride_idx * stride - m_starts.getD m 0))
                  buf (stride_idx * lps) lps) b)
          st.2
        some (execute_io (st.1, write_buf) reqs true MAX_SIMUL_REQS).1

end flash

namespace flash

/-- The state `g = (merges, m_starts, m_ends)` of the merging loop of `swrite`
when the strips below `k` have been placed: there is one more entry in
`merges` than blocks; block `m` holds the strips from `merges[m]` up to
`merges[m + 1]`, the last block ending at `k`; it starts where the hull of its
first strip starts and ends where the hull of its last strip ends; and each
block ends at or before the start of the next. -/
structure Grouped (starts ends : Nat → Nat) (k : Nat) (g : List Nat × List Nat × List Nat) :
    Prop where
  len_merges : g.1.length = g.2.1.length + 1
  len_ends : g.2.2.length = g.2.1.length
  pos : 0 < g.2.1.length
  first : g.1.getD 0 0 = 0
  last : g.1.getD g.2.1.length 0 = k
  incr : ∀ m < g.2.1.length, g.1.getD m 0 < g.1.getD (m + 1) 0
  m_start : ∀ m < g.2.1.length, g.2.1.getD m 0 = starts (g.1.getD m 0)
  m_end : ∀ m < g.2.1.length, g.2.2.getD m 0 = ends (g.1.getD (m + 1) 0 - 1)
  apart : ∀ m, m + 1 < g.2.1.length → g.2.2.getD m 0 ≤ g.2.1.getD (m + 1) 0

end flash

namespace flash

/-- The file `f2` comes from `f` by a strided write of `buf`: it is not
shorter than `f`, the sector hull of every strip lies inside it, and strip `i`
of the file holds the bytes `[lps * i, lps * i + lps)` of `buf`. -/
def strided_written (f f2 : FlashFile) (offset : Nat) (sinfo : StrideInfo) (buf : Bytes) :
    Prop :=
  f.file_sz ≤ f2.file_sz ∧
  ∀ i < sinfo.n_strides,
    ROUND_UP (offset + sinfo.stride * i + sinfo.len_per_stride) SECTOR_LEN ≤ f2.file_sz ∧
    ∀ j < sinfo.len_per_stride,
      f2.data (offset + sinfo.stride * i + j) = buf (sinfo.len_per_stride * i + j)

/-- A file of four sectors whose byte `i` is `i + 7` (modulo 256). -/
def ramp_file : FlashFile := ⟨2048, ramp⟩

end flash

namespace flash

/-! ## The prioritizer queue and two runs of the cache -/

/-- `Prioritizer::get_prio()`: the task at the front of the queue, and the
prioritizer without it. -/
def Prioritizer.get_prio (p : Prioritizer) : Except Fault (TaskInfo × Prioritizer) :=
  match p.tsks with
  | [] => throw Fault.prio_empty
  | tsk_info :: rest => pure (tsk_info, { p with tsks := rest })

/-- A heap with one task, which reads the slice `kA2` (a buffer of 1536
bytes). -/
def one_reader : List TaskCell := [⟨tR kA2, []⟩]

/-- A run on `released_cache` (2048 bytes, `kA` in `zero_ref_map`): a task that
writes `kA` is allocated, then a task that reads `kB` and a task that reads
`kC`. -/
def write_only_zero_ref : List CacheOp :=
  [.allocate (tW kA), .allocate (tR kB), .allocate (tR kC)]

/-- The keys of the four maps of a cache: `active_map`, `io_map`,
`zero_ref_map`, `alloc_backlog`. -/
def Cache.where_keys (c : Cache) : List Key × List Key × List Key × List Key :=
  (keys c.active_map, keys c.io_map, keys c.zero_ref_map, keys c.alloc_backlog)

end flash

namespace flash

/-! ## Equality of cache keys (`struct Key` in `include/scheduler/cache.h`,
`fnv64a` in `src/utils.cpp`) -/

/-- The eight bytes of an `FBLAS_UINT` or of a pointer in memory, lowest byte
first (x86-64). -/
def le_bytes (x : Nat) : List Nat := (List.range 8).map fun i => x / 256 ^ i % 256

/-- The first `sizeof(Key) - sizeof(hash_value)` bytes of a `Key` object, the
bytes `Key::Key` hashes: `fptr.ptr`, `fptr.foffset`, `fptr.fop`,
`sinfo.stride`, `sinfo.n_strides`, `sinfo.len_per_stride`, eight bytes each and
no padding. -/
def Key.bytes (k : Key) : List Nat :=
  le_bytes k.fptr.ptr ++ le_bytes k.fptr.foffset ++ le_bytes k.fptr.fop ++
  le_bytes k.sinfo.stride ++ le_bytes k.sinfo.n_strides ++ le_bytes k.sinfo.len_per_stride

/-- `(uint64_t) *str` for `const char* str`: `char` is signed on x86-64, so a
byte from `0x80` up is sign-extended. -/
def char_to_u64 (c : Nat) : Nat := if c < 128 then c else c + (2 ^ 64 - 256)

/-- `fnv64a(str, n_bytes)`, `str` being the list of the `n_bytes` bytes. -/
def fnv64a (str : List Nat) : Nat :=
  str.foldl (fun hash c => (hash ^^^ char_to_u64 c) * 0x100000001b3 % 2 ^ 64)
    14695981039346656037

/-- The field `hash_value` that `Key::Key(fptr, sinfo)` computes. -/
def Key.hash_value (k : Key) : Nat := fnv64a k.bytes

/-- `Key::operator==` of the release build: the two hash values are
compared. -/
def Key.operator_eq (a b : Key) : Bool := a.hash_value == b.hash_value

/-- `Key::operator==` of the `DEBUG` build: `none` when the assertion
`classic_eq == hash_eq` fails. -/
def Key.operator_eq_debug (a b : Key) : Option Bool :=
  let hash_eq := a.hash_value == b.hash_value
  let classic_eq := decide (a.fptr = b.fptr) && decide (a.sinfo = b.sinfo)
  if classic_eq = hash_eq then some hash_eq else none

/-- The key that an event of the I/O threads names. -/
def IoEvent.key : IoEvent → Key
  | .done k => k
  | .store k => k
  | .settle k => k

/-- The keys that an operation of the cache or an event names. -/
def CacheOp.keys : CacheOp → List Key
  | .allocate tsk => task_keys tsk
  | .get_buf fptr sinfo _ => [⟨fptr, sinfo⟩]
  | .release tsk => task_keys tsk
  | .service_backlog => []
  | .flush rounds => rounds.flatten.map IoEvent.key
  | .io_done k => [k]
  | .io_store k => [k]
  | .io_settle k => [k]
  | .set_single_use_discard _ => []

/-- On the keys of `l` the comparison of the code, `Key::operator==` by hash
value, is the comparison field by field: two keys of `l` with the same hash
value are the same key. -/
def hash_separated (l : List Key) : Prop :=
  ∀ k1 ∈ l, ∀ k2 ∈ l, Key.operator_eq k1 k2 = true → k1 = k2

/-- A task reads `kA` and releases it without having asked for the buffer:
the read completes, `service_backlog` moves the entry to `active_map` with
`n_refs = 0`, and `release` decrements the count. -/
def release_unpinned : List CacheOp :=
  [.allocate (tR kA), .service_backlog, .io_done kA, .service_backlog, .release (tR kA)]

/-- A cache state that no run reaches: `kA` is in `io_map` and its entry has
no completion flag (`complete` is `nullptr`). -/
def flagless_cache : Cache := { io_map := [(kA, { buf := 1 })], max_size := 2048 }

/-- A strided slice of the file 1 at offset 0: 132100 strips of 523 bytes,
32 MiB apart. -/
def key_p : Key := ⟨⟨100, 0, 1⟩, ⟨33554432, 132100, 523⟩⟩

/-- A key with the `flash_ptr` of `key_p` and another `StrideInfo`. -/
def key_q : Key := ⟨⟨100, 0, 1⟩, ⟨134746901, 135791363, 335675666⟩⟩

/-! ## The completion callback of the file handle -/

/-- What a call of the file handle does that its caller can observe in time:
a call of `execute_io` (which returns when its requests have been reaped) and
the invocation of the callback. -/
inductive HandleEvent
  | execute_io (is_write : Bool)
  | callback
deriving DecidableEq, Repr

/-- The calls of `execute_io` and of `callback` in
`FlashFileHandle::read(offset, len, buf, callback)`, in order. -/
def FlashFileHandle.read_events (len : Nat) : List HandleEvent :=
  if len = 0 then [] else [.execute_io false, .callback]

/-- The calls of `execute_io` and of `callback` in
`FlashFileHandle::write(offset, len, buf, callback)` (release build), in
order. -/
def FlashFileHandle.write_events (offset len buf_addr : Nat) : List HandleEvent :=
  if len = 0 then []
  else
    let start_offset := ROUND_DOWN offset SECTOR_LEN
    let end_offset := ROUND_UP (offset + len) SECTOR_LEN
    let write_len := end_offset - start_offset
    let alloc : Bool := !(IS_ALIGNED buf_addr && IS_ALIGNED offset && IS_ALIGNED len)
    let fetch : Bool := !IS_ALIGNED offset ||
      (decide (write_len > SECTOR_LEN) && !IS_ALIGNED (offset + len) && alloc)
    (if fetch then [.execute_io false] else []) ++ [.execute_io true, .callback]

/-- The calls of `execute_io` and of `callback` in
`FlashFileHandle::sread(offset, sinfo, buf, callback)`, in order; `none` when
one of the two `GLOG_ASSERT`s on `sinfo` fails. -/
def FlashFileHandle.sread_events (offset : Nat) (sinfo : StrideInfo) (buf_addr : Nat) :
    Option (List HandleEvent) :=
  if sinfo.n_strides = 0 then none
  else if ¬ sinfo.len_per_stride ≤ sinfo.stride then none
  else if sinfo.len_per_stride = 0 then some []
  else if IS_ALIGNED buf_addr && IS_ALIGNED sinfo.len_per_stride && IS_ALIGNED offset &&
      IS_ALIGNED sinfo.stride then
    some [.execute_io false]
  else some [.execute_io false, .callback]

/-- The calls of `execute_io` and of `callback` in
`FlashFileHandle::swrite(offset, sinfo, buf, callback)` (release build), in
order; `none` when one of the two `GLOG_ASSERT`s on `sinfo` fails. -/
def FlashFileHandle.swrite_events (offset : Nat) (sinfo : StrideInfo) (buf_addr : Nat) :
    Option (List HandleEvent) :=
  if sinfo.n_strides = 0 then none
  else if ¬ sinfo.len_per_stride ≤ sinfo.stride then none
  else if sinfo.len_per_stride = 0 then some []
  else
    let stride := sinfo.stride
    let lps := sinfo.len_per_stride
    let n_strides := sinfo.n_strides
    if IS_ALIGNED buf_addr && IS_ALIGNED lps && IS_ALIGNED offset && IS_ALIGNED stride then
      some [.execute_io true]
    else
      let starts := fun idx => ROUND_DOWN (offset + stride * idx) SECTOR_LEN
      let ends := fun idx => ROUND_UP (offset + stride * idx + lps) SECTOR_LEN
      let merge_required := (List.range (n_strides - 1)).any fun i =>
        decide (ends i > starts (i + 1))
      if !merge_required then some [.execute_io false, .execute_io true]
      else some [.execute_io false, .execute_io true, .callback]

end flash

namespace flash

/-! ## I/O threads (`IoExecutor` in `src/scheduler/io_executor.cpp`)

The slots `thread_tsks[i]` and `is_writes[i]` are written under the mutex of
thread `i`.  One descriptor in the hands of a thread is handled in one step of
the model, against the slots the other threads have published at that
moment. -/

/-- The two exits of the overlap check: the `GLOG_FATAL` of `is_overlap` for two
strided accesses with different strides, and the failed
`GLOG_ASSERT(result_f == result_b)` of `IoExecutor::overlap`. -/
inductive IoFault
  | non_homogenous
  | bidirectional
deriving DecidableEq, Repr

/-- `class IoExecutor`, with one ghost field: `executed`, the calls of
`execute_task` (thread and descriptor), oldest first. -/
structure IoExecutor where
  n_threads : Nat
  thread_tsks : List (Option IoTask)
  is_writes : List Bool
  overlap_check : Bool := true
  executed : List (Nat × IoTask) := []
deriving DecidableEq, Repr

/-- `IoExecutor::IoExecutor(n_threads)`: no slot holds a descriptor. -/
def IoExecutor.init (n_threads : Nat) : IoExecutor :=
  { n_threads := n_threads, thread_tsks := List.replicate n_threads none,
    is_writes := List.replicate n_threads false }

/-- `IoExecutor::overlap(t1_idx, t2_idx)`. -/
def IoExecutor.overlap (e : IoExecutor) (t1_idx t2_idx : Nat) : Except IoFault Bool :=
  match e.thread_tsks.getD t1_idx none, e.thread_tsks.getD t2_idx none with
  | some t1, some t2 =>
    match is_overlap t1 t2, is_overlap t2 t1 with
    | some result_f, some result_b =>
      if result_f = result_b then pure (result_f || result_b)
      else throw IoFault.bidirectional
    | _, _ => throw IoFault.non_homogenous
  | _, _ => pure false

/-- `IoExecutor::set_task(thread_idx, tsk)`. -/
def IoExecutor.set_task (e : IoExecutor) (thread_idx : Nat) (tsk : IoTask) : IoExecutor :=
  if e.overlap_check then
    { e with thread_tsks := e.thread_tsks.set thread_idx (some tsk),
             is_writes := e.is_writes.set thread_idx tsk.is_write }
  else e

/-- `IoExecutor::set_null(thread_idx)`. -/
def IoExecutor.set_null (e : IoExecutor) (thread_idx : Nat) : IoExecutor :=
  if e.overlap_check then
    { e with thread_tsks := e.thread_tsks.set thread_idx none,
             is_writes := e.is_writes.set thread_idx false }
  else e

/-- The loop `for (i = 0; i < n_threads; i++)` of `io_thread_fn` over the
indices that are left: the flag `conflict`. -/
def IoExecutor.find_conflict (e : IoExecutor) (thread_idx : Nat) :
    List Nat → Except IoFault Bool
  | [] => pure false
  | i :: rest =>
    if i ≠ thread_idx ∧
        (e.is_writes.getD thread_idx false && e.is_writes.getD i false) = true then
      (e.overlap thread_idx i).bind fun overlap =>
        if overlap then pure true else find_conflict e thread_idx rest
    else find_conflict e thread_idx rest

/-- What `io_thread_fn` does with one descriptor `tsk`, taken from `tsk_queue`
or from the front of the backlog (the code is the same in both places):
`set_task`, the search for a conflict, then `set_null` and `backlog.push(tsk)`
on a conflict and `execute_task(tsk)`, `set_null` otherwise.  `backlog` is the
thread-local queue without `tsk`. -/
def IoExecutor.handle (e : IoExecutor) (thread_idx : Nat) (backlog : List IoTask)
    (tsk : IoTask) : Except IoFault (IoExecutor × List IoTask) :=
  let e := e.set_task thread_idx tsk
  (if e.overlap_check then e.find_conflict thread_idx (List.range e.n_threads)
   else pure false).bind fun conflict =>
    if conflict then pure (e.set_null thread_idx, backlog ++ [tsk])
    else
      pure (({ e with executed := e.executed ++ [(thread_idx, tsk)] }).set_null thread_idx,
        backlog)

/-- The loop `while (n_tries > 0)` over the backlog at the head of an
iteration of `io_thread_fn`. -/
def IoExecutor.retry_backlog (thread_idx : Nat) :
    Nat → IoExecutor × List IoTask → Except IoFault (IoExecutor × List IoTask)
  | 0, s => pure s
  | n_tries + 1, s =>
    match s.2 with
    | [] => pure s
    | tsk :: rest => (s.1.handle thread_idx rest tsk).bind (retry_backlog thread_idx n_tries)

/-- The slots agree with each other: there is one slot per thread, and
`is_writes[i]` is set exactly when `thread_tsks[i]` holds a write. -/
structure IoExecutor.Published (e : IoExecutor) : Prop where
  len_tsks : e.thread_tsks.length = e.n_threads
  len_writes : e.is_writes.length = e.n_threads
  flag : ∀ i, e.is_writes.getD i false = true ↔
    ∃ t, e.thread_tsks.getD i none = some t ∧ t.is_write = true

/-- A strided write of file 1 at offset 0 with strips of length zero. -/
def empty_strips : IoTask := ⟨⟨100, 0, 1⟩, ⟨700, 2, 0⟩, 1, true⟩

/-- A strided write of file 1 at offset 0: two strips of 600 bytes, 700 bytes
apart. -/
def two_strips : IoTask := ⟨⟨200, 0, 1⟩, ⟨700, 2, 600⟩, 2, true⟩

/-- An executor with two threads; thread 1 has published `t`. -/
def one_published (t : IoTask) : IoExecutor :=
  (IoExecutor.init 2).set_task 1 t

/-! ## Vocabulary of the eviction contract -/

/-- The keys of `l` whose entry in `zero_ref_map` has `write_back` set. -/
def dirty_keys (c : Cache) (l : List Key) : List Key :=
  l.filter fun k => (kv_get c.zero_ref_map k).write_back

/-- The keys of `l` whose entry in `zero_ref_map` has `write_back` clear. -/
def clean_keys (c : Cache) (l : List Key) : List Key :=
  l.filter fun k => !(kv_get c.zero_ref_map k).write_back

/-- The write that `Cache::evict` issues for the key `k`. -/
def eviction_write (c : Cache) (k : Key) : IoTask :=
  ⟨k.fptr, k.sinfo, (kv_get c.zero_ref_map k).buf, true⟩

/-- What `Cache::evict(l)` has done when it returns on the cache `c`: the keys
of `l` have left `zero_ref_map` and their bytes have been subtracted from
`commit_size`; the keys with `write_back` set are in `io_map`, marked evicted
with the completion flag clear, and one write has been issued for each, in the
order of `l`; the buffers of the other keys have been freed and their bytes
subtracted from `real_size`; `active_map` and `alloc_backlog` are untouched.
The subtractions are those of `FBLAS_UINT` values; (`exact`) when the
counters of `c` have not wrapped, neither have those of `c'`, and the
subtractions are those of natural numbers. -/
structure Evicted (c c' : Cache) (l : List Key) : Prop where
  inv : c'.Inv
  commit : c'.commit_size = sub64 c.commit_size (l.map fun k => buf_size k.sinfo).sum
  real : c'.real_size =
    sub64 c.real_size ((clean_keys c l).map fun k => buf_size k.sinfo).sum
  exact : c.Exact → c'.Exact ∧
    c'.commit_size + (l.map fun k => buf_size k.sinfo).sum = c.commit_size ∧
    c'.real_size + ((clean_keys c l).map fun k => buf_size k.sinfo).sum = c.real_size
  zero : ∀ k, kv_find c'.zero_ref_map k = if k ∈ l then none else kv_find c.zero_ref_map k
  io : ∀ k, kv_find c'.io_map k =
    if k ∈ dirty_keys c l then
      some { kv_get c.zero_ref_map k with evicted := true, complete := some false }
    else kv_find c.io_map k
  active : c'.active_map = c.active_map
  backlog : c'.alloc_backlog = c.alloc_backlog
  issued : c'.issued = c.issued ++ (dirty_keys c l).map (eviction_write c)
  freed : c'.freed = c.freed ++ (clean_keys c l).map fun k => (kv_get c.zero_ref_map k).buf

/-- The cache that `try_evict` returns on `released_cache` when 1024 bytes are
asked for and `kC` is excluded: `kA` has been evicted. -/
def evicted_cache : Cache :=
  match try_evict released_cache [kC] 1024 with
  | .ok r => r.2
  | .error _ => released_cache

end flash

namespace flash

/-! ## Theorems: overlap predicate -/

theorem ROUND_DOWN_sector (x : Nat) : ROUND_DOWN x SECTOR_LEN = x / 512 * 512 := rfl

theorem ROUND_UP_sector (x : Nat) : ROUND_UP x SECTOR_LEN = (x + 511) / 512 * 512 := by
  unfold ROUND_UP SECTOR_LEN
  split_ifs <;> omega

theorem strip_overlap_iff (a b c d : Nat) :
    strip_overlap a b c d = true ↔
      c / 512 * 512 < (b + 511) / 512 * 512 ∧ a / 512 * 512 < (d + 511) / 512 * 512 := by
  simp only [strip_overlap, ROUND_DOWN_sector, ROUND_UP_sector, Bool.not_eq_true',
    Bool.or_eq_false_iff, decide_eq_false_iff_not, not_le]
  omega

theorem sectors_meet_iff (a b c d : Nat) (hab : a < b) (hcd : c < d) :
    sectors_meet a b c d ↔ strip_overlap a b c d = true := by
  rw [strip_overlap_iff]
  unfold sectors_meet
  simp only [ROUND_DOWN_sector, ROUND_UP_sector]
  constructor
  · rintro ⟨x, h1, h2, h3, h4⟩
    omega
  · rintro ⟨h1, h2⟩
    refine ⟨max (a / 512 * 512) (c / 512 * 512), ?_, ?_, ?_, ?_⟩ <;> omega

/-- Strided access `(o1, n1, l1, s1)` against the contiguous access
`[o2, o2 + l2)`: when some strip meets the contiguous range at sector
granularity the mixed branch of `is_overlap` answers `true`. -/
theorem is_overlap_core_mixed (o1 n1 l1 s1 o2 l2 s2 i : Nat) (hn1 : n1 ≠ 1)
    (hl1 : 1 ≤ l1) (hls : l1 ≤ s1) (hl2 : 1 ≤ l2) (hi : i < n1)
    (hmeet : strip_overlap (o1 + i * s1) (o1 + i * s1 + l1) o2 (o2 + l2) = true) :
    is_overlap_core o1 n1 l1 s1 o2 1 l2 s2 = some true := by
  have hs : 0 < s1 := by omega
  have hin : (i + 1) * s1 ≤ n1 * s1 := Nat.mul_le_mul_right s1 hi
  have hi1 : (i + 1) * s1 = i * s1 + s1 := by ring
  rw [strip_overlap_iff] at hmeet
  unfold is_overlap_core
  rw [if_pos ⟨hn1, rfl⟩]
  have hb : strip_overlap o1 (o1 + n1 * s1) o2 (o2 + l2) = true := by
    rw [strip_overlap_iff]
    generalize i * s1 = p at *
    generalize n1 * s1 = q at *
    omega
  simp only [hb, Bool.not_true, Bool.false_eq_true, if_false]
  by_cases ho : o2 ≤ o1
  · simp [ho]
  · simp only [ho, if_false]
    have hk1 : (o2 - o1) / s1 * s1 ≤ o2 - o1 := Nat.div_mul_le_self _ _
    have hk2 : o2 - o1 < ((o2 - o1) / s1 + 1) * s1 := by
      have h1 := Nat.div_add_mod (o2 - o1) s1
      have h2 := Nat.mod_lt (o2 - o1) hs
      have h3 : ((o2 - o1) / s1 + 1) * s1 = s1 * ((o2 - o1) / s1) + s1 := by ring
      omega
    have hk3 : ((o2 - o1) / s1 + 1) * s1 = (o2 - o1) / s1 * s1 + s1 := by ring
    generalize hk : (o2 - o1) / s1 = k at *
    by_cases hA : strip_overlap (o1 + k * s1) (o1 + k * s1 + l1) o2 (o2 + l2) = true
    · simp [hA]
    · simp only [hA, Bool.false_eq_true, if_false]
      have hB : strip_overlap (o1 + k * s1 + s1) (o1 + k * s1 + s1 + l1) o2 (o2 + l2) = true := by
        rw [strip_overlap_iff] at hA ⊢
        rcases Nat.lt_trichotomy i k with hlt | heq | hgt
        · have h1 : (i + 1) * s1 ≤ k * s1 := Nat.mul_le_mul_right s1 hlt
          generalize i * s1 = p at *
          generalize k * s1 = q at *
          omega
        · subst heq
          exact absurd hmeet hA
        · have h1 : (k + 1) * s1 ≤ i * s1 := Nat.mul_le_mul_right s1 hgt
          generalize i * s1 = p at *
          generalize k * s1 = q at *
          omega
      simp [hB]

end flash

namespace flash

theorem strip_overlap_comm (a b c d : Nat) : strip_overlap a b c d = strip_overlap c d a b := by
  rw [Bool.eq_iff_iff, strip_overlap_iff, strip_overlap_iff]
  exact And.comm

theorem sectors_meet_comm {a b c d : Nat} (h : sectors_meet a b c d) : sectors_meet c d a b := by
  obtain ⟨x, h1, h2, h3, h4⟩ := h
  exact ⟨x, h3, h4, h1, h2⟩

/-- C8 (code defect). `hazard_a` and `hazard_b` are strided writes on the same
file with the same stride and `1 ≤ len_per_stride ≤ stride`; strip 5 of the
first and strip 0 of the second are the same bytes `[5000, 5100)`, yet
`is_overlap` answers `false` in both directions. -/
theorem is_overlap_same_stride_misses_hazard :
    hazard_a.fptr.fop = hazard_b.fptr.fop ∧
    hazard_a.is_write = true ∧ hazard_b.is_write = true ∧
    2 ≤ hazard_a.sinfo.n_strides ∧ 2 ≤ hazard_b.sinfo.n_strides ∧
    hazard_a.sinfo.stride = hazard_b.sinfo.stride ∧
    1 ≤ hazard_a.sinfo.len_per_stride ∧ hazard_a.sinfo.len_per_stride ≤ hazard_a.sinfo.stride ∧
    1 ≤ hazard_b.sinfo.len_per_stride ∧ hazard_b.sinfo.len_per_stride ≤ hazard_b.sinfo.stride ∧
    strip_lo hazard_a 5 = strip_lo hazard_b 0 ∧ strip_hi hazard_a 5 = strip_hi hazard_b 0 ∧
    strips_touch hazard_a hazard_b ∧
    is_overlap hazard_a hazard_b = some false ∧
    is_overlap hazard_b hazard_a = some false := by
  refine ⟨rfl, rfl, rfl, by decide, by decide, rfl, by decide, by decide, by decide, by decide,
    rfl, rfl, ?_, by decide, by decide⟩
  exact ⟨5, 0, by decide, by decide, 5000, by decide, by decide, by decide, by decide⟩

/-- C9. Two descriptors on the same file, at least one a write and at least
one contiguous, lengths at least 1 and `len_per_stride ≤ stride` for a strided
one: if some strip of one and some strip of the other touch a common sector,
`is_overlap` returns `true`; and when both are contiguous `is_overlap` returns
a Boolean that is `true` exactly when the two sector-rounded intervals
intersect. -/
theorem is_overlap_contiguous_sound (t1 t2 : IoTask)
    (hfile : t1.fptr.fop = t2.fptr.fop)
    (hw : t1.is_write = true ∨ t2.is_write = true)
    (hc : t1.sinfo.n_strides = 1 ∨ t2.sinfo.n_strides = 1)
    (hl1 : 1 ≤ t1.sinfo.len_per_stride) (hl2 : 1 ≤ t2.sinfo.len_per_stride)
    (hs1 : t1.sinfo.n_strides ≠ 1 → t1.sinfo.len_per_stride ≤ t1.sinfo.stride)
    (hs2 : t2.sinfo.n_strides ≠ 1 → t2.sinfo.len_per_stride ≤ t2.sinfo.stride) :
    (strips_touch t1 t2 → is_overlap t1 t2 = some true) ∧
    (t1.sinfo.n_strides = 1 → t2.sinfo.n_strides = 1 →
      (is_overlap t1 t2 = some true ∨ is_overlap t1 t2 = some false) ∧
      (is_overlap t1 t2 = some true ↔
        sectors_meet t1.fptr.foffset (t1.fptr.foffset + t1.sinfo.len_per_stride)
          t2.fptr.foffset (t2.fptr.foffset + t2.sinfo.len_per_stride))) := by
  have hrw : (!t1.is_write && !t2.is_write) = false := by
    rcases hw with h | h <;> simp [h]
  constructor
  · rintro ⟨i, j, hi, hj, hm⟩
    unfold strip_hi strip_lo at hm
    unfold is_overlap
    simp only [hfile, ne_eq, not_true_eq_false, if_false, hrw, Bool.false_eq_true]
    by_cases h1 : t1.sinfo.n_strides = 1
    · by_cases h2 : t2.sinfo.n_strides = 1
      · have hi0 : i = 0 := by omega
        have hj0 : j = 0 := by omega
        subst hi0 hj0
        simp only [Nat.zero_mul, Nat.add_zero] at hm
        rw [sectors_meet_iff _ _ _ _ (by omega) (by omega)] at hm
        simp [h1, h2, hm]
      · have hi0 : i = 0 := by omega
        subst hi0
        simp only [Nat.zero_mul, Nat.add_zero] at hm
        have hm2 := sectors_meet_comm hm
        rw [sectors_meet_iff _ _ _ _ (by omega) (by omega)] at hm2
        have := is_overlap_core_mixed t2.fptr.foffset t2.sinfo.n_strides
          t2.sinfo.len_per_stride t2.sinfo.stride t1.fptr.foffset t1.sinfo.len_per_stride
          t1.sinfo.stride j h2 hl2 (hs2 h2) hl1 hj hm2
        simp only [h1, h2, and_false, if_false, ne_eq, not_false_eq_true, and_self, if_true]
        exact this
    · have h2 : t2.sinfo.n_strides = 1 := by
        rcases hc with h | h
        · exact absurd h h1
        · exact h
      have hj0 : j = 0 := by omega
      subst hj0
      simp only [Nat.zero_mul, Nat.add_zero] at hm
      rw [sectors_meet_iff _ _ _ _ (by omega) (by omega)] at hm
      have := is_overlap_core_mixed t1.fptr.foffset t1.sinfo.n_strides
        t1.sinfo.len_per_stride t1.sinfo.stride t2.fptr.foffset t2.sinfo.len_per_stride
        t2.sinfo.stride i h1 hl1 (hs1 h1) hl2 hi hm
      simp only [h1, h2, false_and, if_false, ne_eq, not_true_eq_false, and_false]
      exact this
  · intro h1 h2
    rw [sectors_meet_iff _ _ _ _ (by omega) (by omega)]
    unfold is_overlap
    simp only [hfile, ne_eq, not_true_eq_false, if_false, hrw, Bool.false_eq_true, h1, h2,
      and_self, if_true]
    cases strip_overlap t1.fptr.foffset (t1.fptr.foffset + t1.sinfo.len_per_stride)
      t2.fptr.foffset (t2.fptr.foffset + t2.sinfo.len_per_stride) <;> simp

/-- Witness of C9: a contiguous write of 100 bytes at offset 700 against a
strided read whose second strip starts at offset 1000. -/
theorem is_overlap_contiguous_sound_witness :
    (strips_touch ⟨⟨0, 700, 1⟩, ⟨0, 1, 100⟩, 0, true⟩ ⟨⟨0, 0, 1⟩, ⟨1000, 3, 200⟩, 0, false⟩ →
      is_overlap ⟨⟨0, 700, 1⟩, ⟨0, 1, 100⟩, 0, true⟩ ⟨⟨0, 0, 1⟩, ⟨1000, 3, 200⟩, 0, false⟩
        = some true) ∧
    is_overlap ⟨⟨0, 700, 1⟩, ⟨0, 1, 100⟩, 0, true⟩ ⟨⟨0, 0, 1⟩, ⟨1000, 3, 200⟩, 0, false⟩
      = some true :=
  ⟨(is_overlap_contiguous_sound ⟨⟨0, 700, 1⟩, ⟨0, 1, 100⟩, 0, true⟩
      ⟨⟨0, 0, 1⟩, ⟨1000, 3, 200⟩, 0, false⟩ rfl (Or.inl rfl) (Or.inl rfl)
      (by decide) (by decide) (by decide) (by decide)).1, by decide⟩

end flash

namespace flash

/-! ## Theorems: contiguous read and write -/

theorem foldl_foldl_eq_flatten {α β : Type} (g : α → β → α) (bs : List (List β)) (a : α) :
    bs.foldl (fun st b => b.foldl g st) a = bs.flatten.foldl g a := by
  induction bs generalizing a with
  | nil => rfl
  | cons b bs ih => simp [List.foldl_append, ih]

theorem execute_io_eq (st : FlashFile × Bytes) (reqs : List IoReq) (w : Bool) (m : Nat) :
    execute_io st reqs w m = (issued reqs m).foldl (do_io w) st := by
  unfold execute_io issued submit_and_reap
  rw [← foldl_foldl_eq_flatten, List.foldl_map]

theorem mem_issued (reqs : List IoReq) (r : IoReq) :
    r ∈ issued reqs MAX_SIMUL_REQS ↔ r ∈ reqs := by
  unfold issued MAX_SIMUL_REQS
  simp only [List.mem_flatten, List.mem_map, List.mem_range]
  constructor
  · rintro ⟨l, ⟨i, _, rfl⟩, hr⟩
    simp only [List.mem_map, List.mem_range] at hr
    obtain ⟨j, hj, rfl⟩ := hr
    have hlt : 256 * i + j < reqs.length := by omega
    rw [List.getD_eq_getElem _ _ hlt]
    exact List.getElem_mem _
  · intro hr
    obtain ⟨k, hk, rfl⟩ := List.getElem_of_mem hr
    refine ⟨_, ⟨k / 256, ?_, rfl⟩, ?_⟩
    · unfold ROUND_UP
      split_ifs <;> omega
    · simp only [List.mem_map, List.mem_range]
      refine ⟨k % 256, by omega, ?_⟩
      have : 256 * (k / 256) + k % 256 = k := Nat.div_add_mod k 256
      rw [this, List.getD_eq_getElem _ _ hk]

end flash

namespace flash

theorem foldl_write (start : Nat) (L : List IoReq)
    (hL : ∀ r ∈ L, r.offset = start + r.buf) (f : FlashFile) (mem : Bytes) :
    (L.foldl (do_io true) (f, mem)).2 = mem ∧
    f.file_sz ≤ (L.foldl (do_io true) (f, mem)).1.file_sz ∧
    (∀ r ∈ L, r.offset + r.size ≤ (L.foldl (do_io true) (f, mem)).1.file_sz) ∧
    ∀ p, (L.foldl (do_io true) (f, mem)).1.data p =
      if ∃ r ∈ L, r.offset ≤ p ∧ p < r.offset + r.size then mem (p - start) else f.data p := by
  induction L generalizing f with
  | nil => simp
  | cons r L ih =>
    have hr := hL r (List.mem_cons_self _ _)
    obtain ⟨h1, h2, h3, h4⟩ := ih (fun x hx => hL x (List.mem_cons_of_mem _ hx)) (pwrite f mem r)
    simp only [List.foldl_cons, do_io, if_true]
    refine ⟨h1, ?_, ?_, ?_⟩
    · have : f.file_sz ≤ (pwrite f mem r).file_sz := le_max_left _ _
      omega
    · intro x hx
      rcases List.mem_cons.1 hx with rfl | hx
      · have : x.offset + x.size ≤ (pwrite f mem x).file_sz := le_max_right _ _
        omega
      · exact h3 x hx
    · intro p
      rw [h4 p]
      by_cases hc : ∃ x ∈ L, x.offset ≤ p ∧ p < x.offset + x.size
      · have hc2 : ∃ x ∈ r :: L, x.offset ≤ p ∧ p < x.offset + x.size := by
          obtain ⟨x, hx, hp⟩ := hc
          exact ⟨x, List.mem_cons_of_mem _ hx, hp⟩
        rw [if_pos hc, if_pos hc2]
      · rw [if_neg hc]
        by_cases hp : r.offset ≤ p ∧ p < r.offset + r.size
        · have hc2 : ∃ x ∈ r :: L, x.offset ≤ p ∧ p < x.offset + x.size :=
            ⟨r, List.mem_cons_self _ _, hp⟩
          rw [if_pos hc2]
          simp only [pwrite, if_pos hp]
          congr 1
          omega
        · have hc2 : ¬ ∃ x ∈ r :: L, x.offset ≤ p ∧ p < x.offset + x.size := by
            rintro ⟨x, hx, hxp⟩
            rcases List.mem_cons.1 hx with rfl | hx
            · exact hp hxp
            · exact hc ⟨x, hx, hxp⟩
          rw [if_neg hc2]
          simp only [pwrite, if_neg hp]

theorem foldl_read (start : Nat) (L : List IoReq)
    (hL : ∀ r ∈ L, r.offset = start + r.buf) (f : FlashFile) (mem : Bytes) :
    (L.foldl (do_io false) (f, mem)).1 = f ∧
    ∀ a, (L.foldl (do_io false) (f, mem)).2 a =
      if (∃ r ∈ L, r.buf ≤ a ∧ a < r.buf + r.size) ∧ start + a < f.file_sz then
        f.data (start + a) else mem a := by
  induction L generalizing mem with
  | nil => simp
  | cons r L ih =>
    have hr := hL r (List.mem_cons_self _ _)
    obtain ⟨h1, h4⟩ := ih (fun x hx => hL x (List.mem_cons_of_mem _ hx)) (pread f mem r)
    simp only [List.foldl_cons, do_io, Bool.false_eq_true, if_false]
    refine ⟨h1, ?_⟩
    intro a
    rw [h4 a]
    by_cases hsz : start + a < f.file_sz
    · by_cases hc : ∃ x ∈ L, x.buf ≤ a ∧ a < x.buf + x.size
      · have hc2 : ∃ x ∈ r :: L, x.buf ≤ a ∧ a < x.buf + x.size := by
          obtain ⟨x, hx, hp⟩ := hc
          exact ⟨x, List.mem_cons_of_mem _ hx, hp⟩
        rw [if_pos ⟨hc, hsz⟩, if_pos ⟨hc2, hsz⟩]
      · rw [if_neg (fun h => hc h.1)]
        by_cases hp : r.buf ≤ a ∧ a < r.buf + r.size
        · have hc2 : ∃ x ∈ r :: L, x.buf ≤ a ∧ a < x.buf + x.size :=
            ⟨r, List.mem_cons_self _ _, hp⟩
          rw [if_pos ⟨hc2, hsz⟩]
          have he : r.offset + (a - r.buf) = start + a := by omega
          have hp' : r.buf ≤ a ∧ a < r.buf + r.size ∧ r.offset + (a - r.buf) < f.file_sz :=
            ⟨hp.1, hp.2, by omega⟩
          simp only [pread]
          rw [if_pos hp', he]
        · have hc2 : ¬ ∃ x ∈ r :: L, x.buf ≤ a ∧ a < x.buf + x.size := by
            rintro ⟨x, hx, hxp⟩
            rcases List.mem_cons.1 hx with rfl | hx
            · exact hp hxp
            · exact hc ⟨x, hx, hxp⟩
          rw [if_neg (fun h => hc2 h.1)]
          have hp' : ¬ (r.buf ≤ a ∧ a < r.buf + r.size ∧ r.offset + (a - r.buf) < f.file_sz) :=
            fun h => hp ⟨h.1, h.2.1⟩
          simp only [pread, if_neg hp']
    · rw [if_neg (fun h => hsz h.2), if_neg (fun h => hsz h.2)]
      have hp' : ¬ (r.buf ≤ a ∧ a < r.buf + r.size ∧ r.offset + (a - r.buf) < f.file_sz) := by
        rintro ⟨h1, h2, h3⟩
        omega
      simp only [pread, if_neg hp']

theorem chunk_reqs_consistent (start total n : Nat) :
    ∀ r ∈ chunk_reqs start total n, r.offset = start + r.buf := by
  intro r hr
  simp only [chunk_reqs, List.mem_map, List.mem_range] at hr
  obtain ⟨i, _, rfl⟩ := hr
  rfl

theorem chunk_reqs_cover (start total a : Nat) :
    (∃ r ∈ chunk_reqs start total (ROUND_UP total MAX_CHUNK_SIZE / MAX_CHUNK_SIZE),
      r.buf ≤ a ∧ a < r.buf + r.size) ↔ a < total := by
  simp only [chunk_reqs, List.mem_map, List.mem_range, MAX_CHUNK_SIZE]
  constructor
  · rintro ⟨r, ⟨i, hi, rfl⟩, h1, h2⟩
    simp only at h1 h2
    omega
  · intro ha
    refine ⟨_, ⟨a / 33554432, ?_, rfl⟩, ?_⟩
    · unfold ROUND_UP
      split_ifs <;> omega
    · simp only
      omega

end flash

namespace flash

theorem execute_io_read_spec (start total : Nat) (reqs : List IoReq)
    (hcons : ∀ r ∈ reqs, r.offset = start + r.buf)
    (hcover : ∀ a, (∃ r ∈ reqs, r.buf ≤ a ∧ a < r.buf + r.size) ↔ a < total)
    (f : FlashFile) (mem : Bytes) :
    (execute_io (f, mem) reqs false MAX_SIMUL_REQS).1 = f ∧
    ∀ a, (execute_io (f, mem) reqs false MAX_SIMUL_REQS).2 a =
      if a < total ∧ start + a < f.file_sz then f.data (start + a) else mem a := by
  rw [execute_io_eq]
  obtain ⟨h1, h2⟩ := foldl_read start (issued reqs MAX_SIMUL_REQS)
    (fun r hr => hcons r ((mem_issued reqs r).1 hr)) f mem
  refine ⟨h1, fun a => ?_⟩
  rw [h2 a]
  have : (∃ r ∈ issued reqs MAX_SIMUL_REQS, r.buf ≤ a ∧ a < r.buf + r.size) ↔ a < total := by
    rw [← hcover a]
    constructor
    · rintro ⟨r, hr, h⟩
      exact ⟨r, (mem_issued reqs r).1 hr, h⟩
    · rintro ⟨r, hr, h⟩
      exact ⟨r, (mem_issued reqs r).2 hr, h⟩
  simp only [this]

theorem execute_io_write_spec (start total : Nat) (reqs : List IoReq)
    (hcons : ∀ r ∈ reqs, r.offset = start + r.buf)
    (hcover : ∀ a, (∃ r ∈ reqs, r.buf ≤ a ∧ a < r.buf + r.size) ↔ a < total)
    (f : FlashFile) (mem : Bytes) :
    f.file_sz ≤ (execute_io (f, mem) reqs true MAX_SIMUL_REQS).1.file_sz ∧
    ∀ p, (execute_io (f, mem) reqs true MAX_SIMUL_REQS).1.data p =
      if start ≤ p ∧ p < start + total then mem (p - start) else f.data p := by
  rw [execute_io_eq]
  obtain ⟨_, h2, _, h4⟩ := foldl_write start (issued reqs MAX_SIMUL_REQS)
    (fun r hr => hcons r ((mem_issued reqs r).1 hr)) f mem
  refine ⟨h2, fun p => ?_⟩
  rw [h4 p]
  have : (∃ r ∈ issued reqs MAX_SIMUL_REQS, r.offset ≤ p ∧ p < r.offset + r.size) ↔
      (start ≤ p ∧ p < start + total) := by
    constructor
    · rintro ⟨r, hr, h⟩
      have hr' := (mem_issued reqs r).1 hr
      have hc := hcons r hr'
      have := (hcover (p - start)).1 ⟨r, hr', by omega, by omega⟩
      omega
    · rintro ⟨h1, h2⟩
      obtain ⟨r, hr, h⟩ := (hcover (p - start)).2 (by omega)
      have hc := hcons r hr
      exact ⟨r, (mem_issued reqs r).2 hr, by omega, by omega⟩
  simp only [this]

theorem single_req_cover (start total a : Nat) :
    (∃ r ∈ [(⟨start, total, 0⟩ : IoReq)], r.buf ≤ a ∧ a < r.buf + r.size) ↔ a < total := by
  simp

/-- Contiguous read delivers the file bytes `[offset, offset + len)` when the
sector hull of the range lies inside the file. -/
theorem FlashFileHandle.read_spec (f : FlashFile) (offset len buf_addr : Nat)
    (buf fresh : Bytes) (hfile : ROUND_UP (offset + len) SECTOR_LEN ≤ f.file_sz) :
    ∀ i < len, FlashFileHandle.read f offset len buf_addr buf fresh i = f.data (offset + i) := by
  intro i hi
  have hlen : len ≠ 0 := by omega
  rw [ROUND_UP_sector] at hfile
  unfold FlashFileHandle.read FlashFileHandle.read_reqs
  simp only [hlen, if_false, ROUND_UP_sector, ROUND_DOWN_sector]
  set start := offset / 512 * 512 with hstart
  set rl := (offset + len + 511) / 512 * 512 - start with hrl
  have key : ∀ (mem : Bytes) (a : Nat), a < rl →
      (execute_io (f, mem)
        (if rl ≤ MAX_CHUNK_SIZE then [(⟨start, rl, 0⟩ : IoReq)]
          else chunk_reqs start rl (ROUND_UP rl MAX_CHUNK_SIZE / MAX_CHUNK_SIZE))
        false MAX_SIMUL_REQS).2 a = f.data (start + a) := by
    intro mem a ha
    have hsz : start + a < f.file_sz := by omega
    split_ifs with hc
    · rw [(execute_io_read_spec start rl _ (by simp) (single_req_cover start rl) f mem).2 a,
        if_pos ⟨ha, hsz⟩]
    · rw [(execute_io_read_spec start rl _ (chunk_reqs_consistent _ _ _)
        (chunk_reqs_cover start rl) f mem).2 a, if_pos ⟨ha, hsz⟩]
  by_cases halloc : (!IS_ALIGNED buf_addr || decide (start ≠ offset) || decide (rl ≠ len)) = true
  · simp only [halloc, if_true]
    unfold memcpy
    rw [if_pos ⟨Nat.zero_le _, by omega⟩, key _ _ (by omega)]
    have he : start + (offset - start + (i - 0)) = offset + i := by omega
    rw [he]
  · simp only [halloc, Bool.false_eq_true, if_false]
    simp only [Bool.or_eq_true, decide_eq_true_eq, not_or, not_not] at halloc
    obtain ⟨⟨_, h1⟩, h2⟩ := halloc
    rw [key _ _ (by omega), h1]

/-- Contiguous write stores `buf` in the file bytes `[offset, offset + len)`
and does not shrink the file. -/
theorem FlashFileHandle.write_spec (f : FlashFile) (offset len buf_addr : Nat)
    (buf fresh : Bytes) :
    f.file_sz ≤ (FlashFileHandle.write f offset len buf_addr buf fresh).file_sz ∧
    ∀ i < len,
      (FlashFileHandle.write f offset len buf_addr buf fresh).data (offset + i) = buf i := by
  by_cases hlen : len = 0
  · subst hlen
    simp [FlashFileHandle.write]
  unfold FlashFileHandle.write FlashFileHandle.write_staged FlashFileHandle.write_reqs
  simp only [hlen, if_false, ROUND_UP_sector, ROUND_DOWN_sector]
  set start := offset / 512 * 512 with hstart
  set wl := (offset + len + 511) / 512 * 512 - start with hwl
  generalize hfirst : (if (!IS_ALIGNED offset) = true then [(⟨start, SECTOR_LEN, 0⟩ : IoReq)]
    else []) = first
  generalize halloc : (!(IS_ALIGNED buf_addr && IS_ALIGNED offset && IS_ALIGNED len)) = alloc
  generalize hfetch : (if (decide (wl > SECTOR_LEN) && !IS_ALIGNED (offset + len) && alloc) = true
    then first ++ [(⟨(offset + len + 511) / 512 * 512 - SECTOR_LEN, SECTOR_LEN,
      wl - SECTOR_LEN⟩ : IoReq)] else first) = fetch
  have hfetch_nil : alloc = false → fetch = [] := by
    intro ha
    subst ha
    simp only [Bool.not_eq_false', Bool.and_eq_true] at halloc
    have h2 : IS_ALIGNED offset = true := halloc.1.2
    simp only [h2, Bool.not_true, Bool.false_eq_true, if_false] at hfirst
    simp only [Bool.and_false, Bool.false_eq_true, if_false] at hfetch
    rw [← hfetch, ← hfirst]
  have hfcons : ∀ r ∈ fetch, r.offset = start + r.buf := by
    intro r hr
    have h1 : ∀ r ∈ first, r.offset = start + r.buf := by
      intro r hr
      rw [← hfirst] at hr
      split_ifs at hr
      · simp only [List.mem_singleton] at hr
        subst hr
        simp
      · simp at hr
    rw [← hfetch] at hr
    split_ifs at hr with hc
    · rcases List.mem_append.1 hr with h | h
      · exact h1 r h
      · simp only [List.mem_singleton] at h
        subst h
        simp only [Bool.and_eq_true, decide_eq_true_eq, SECTOR_LEN] at hc
        simp only [SECTOR_LEN]
        omega
    · exact h1 r hr
  have hst : ∀ (mem : Bytes),
      (if fetch ≠ [] then execute_io (f, mem) fetch false MAX_SIMUL_REQS else (f, mem)).1 = f := by
    intro mem
    split_ifs
    · rw [execute_io_eq]
      exact (foldl_read start _ (fun r hr => hfcons r ((mem_issued _ _).1 hr)) f mem).1
    · rfl
  have hw := fun (mem : Bytes) => execute_io_write_spec start wl _ (chunk_reqs_consistent start wl
    (ROUND_UP wl MAX_CHUNK_SIZE / MAX_CHUNK_SIZE)) (chunk_reqs_cover start wl) f mem
  simp only [hst]
  refine ⟨(hw _).1, fun i hi => ?_⟩
  rw [(hw _).2 (offset + i), if_pos ⟨by omega, by omega⟩]
  cases alloc with
  | true =>
    simp only [if_true]
    unfold memcpy
    rw [if_pos ⟨by omega, by omega⟩]
    have he : 0 + (offset + i - start - (offset - start)) = i := by omega
    rw [he]
  | false =>
    simp only [Bool.false_eq_true, if_false, hfetch_nil rfl, ne_eq, not_true_eq_false]
    simp only [Bool.not_eq_false', Bool.and_eq_true, IS_ALIGNED, SECTOR_LEN, beq_iff_eq] at halloc
    have he : offset + i - start = i := by omega
    rw [he]

/-- C10. Contiguous round trip: for every offset, every `len ≥ 1` and every
buffer, whatever the alignment of `offset`, `len` and of the two buffer
addresses, when the sector-aligned hull of `[offset, offset + len)` lies
inside the file, `write(offset, len, buf)` followed by
`read(offset, len, buf2)` leaves `buf2` equal to `buf` on all `len` bytes. -/
theorem FlashFileHandle.write_read_roundtrip (f : FlashFile) (offset len : Nat)
    (buf_addr buf2_addr : Nat) (buf buf2 fresh_w fresh_r : Bytes)
    (hfile : ROUND_UP (offset + len) SECTOR_LEN ≤ f.file_sz) :
    ∀ i < len,
      FlashFileHandle.read (FlashFileHandle.write f offset len buf_addr buf fresh_w)
        offset len buf2_addr buf2 fresh_r i = buf i := by
  intro i hi
  have hw := FlashFileHandle.write_spec f offset len buf_addr buf fresh_w
  rw [FlashFileHandle.read_spec _ offset len buf2_addr buf2 fresh_r (by omega) i hi]
  exact hw.2 i hi

end flash

namespace flash

/-! ## Theorems: association lists -/

theorem sub64_eq (a b : Nat) (hb : b ≤ a) (ha : a < 2 ^ 64) : sub64 a b = a - b := by
  unfold sub64
  have h1 : b % 2 ^ 64 = b := Nat.mod_eq_of_lt (by omega)
  rw [h1]
  have h2 : a + (2 ^ 64 - b) = (a - b) + 2 ^ 64 := by omega
  rw [h2, Nat.add_mod_right, Nat.mod_eq_of_lt (by omega)]

theorem kv_find_none_iff (m : KVMap) (k : Key) : kv_find m k = none ↔ k ∉ keys m := by
  induction m with
  | nil => simp [kv_find, keys]
  | cons e m ih =>
    obtain ⟨k', v⟩ := e
    unfold kv_find
    by_cases h : k' = k
    · simp [h, keys]
    · simp only [h, if_false, ih, keys, List.map_cons, List.mem_cons]
      constructor
      · rintro h1 (h2 | h2)
        · exact h h2.symm
        · exact h1 h2
      · intro h1 h2
        exact h1 (Or.inr h2)

theorem kv_find_some_mem {m : KVMap} {k : Key} {v : Value} (h : kv_find m k = some v) :
    (k, v) ∈ m := by
  induction m with
  | nil => simp [kv_find] at h
  | cons e m ih =>
    obtain ⟨k', v'⟩ := e
    unfold kv_find at h
    by_cases hk : k' = k
    · simp only [hk, if_true, Option.some.injEq] at h
      subst h hk
      exact List.mem_cons_self _ _
    · simp only [hk, if_false] at h
      exact List.mem_cons_of_mem _ (ih h)

theorem kv_contains_iff (m : KVMap) (k : Key) : kv_contains m k = true ↔ kv_find m k ≠ none := by
  unfold kv_contains
  cases kv_find m k <;> simp

theorem kv_contains_false_iff (m : KVMap) (k : Key) :
    kv_contains m k = false ↔ kv_find m k = none := by
  unfold kv_contains
  cases kv_find m k <;> simp

theorem any_key_eq (m : KVMap) (k : Key) : (m.any fun e => e.1 == k) = kv_contains m k := by
  induction m with
  | nil => rfl
  | cons e m ih =>
    obtain ⟨k', v⟩ := e
    unfold kv_contains kv_find
    by_cases h : k' = k
    · simp [h]
    · simp only [List.any_cons, h, if_false]
      rw [ih]
      simp [kv_contains, h]

theorem kv_find_erase (m : KVMap) (k k' : Key) :
    kv_find (kv_erase m k) k' = if k' = k then none else kv_find m k' := by
  induction m with
  | nil => simp [kv_erase, kv_find]
  | cons e m ih =>
    obtain ⟨k0, v⟩ := e
    unfold kv_erase at ih ⊢
    by_cases h0 : k0 = k
    · subst h0
      simp only [List.filter_cons, ne_eq, not_true_eq_false, decide_False, Bool.false_eq_true,
        if_false, ih]
      by_cases h1 : k' = k0
      · simp [h1]
      · have : ¬ k0 = k' := fun h => h1 h.symm
        simp [h1, kv_find, this]
    · simp only [List.filter_cons, ne_eq, h0, not_false_eq_true, decide_True, if_true]
      unfold kv_find
      by_cases h1 : k0 = k'
      · subst h1
        simp [h0]
      · simp only [h1, if_false]
        exact ih

theorem replace_absent (m : KVMap) (k : Key) (v : Value) (h : k ∉ keys m) :
    (m.map fun e => if e.1 = k then (e.1, v) else e) = m := by
  induction m with
  | nil => rfl
  | cons e m ih =>
    unfold keys at h ih
    simp only [List.map_cons, List.mem_cons, not_or] at h
    have h1 : ¬ e.1 = k := fun h' => h.1 h'.symm
    simp only [List.map_cons, h1, if_false, ih h.2]

theorem replace_cons (k0 k : Key) (v0 v : Value) (m : KVMap) :
    ((k0, v0) :: m).map (fun e => if e.1 = k then (e.1, v) else e) =
      (if k0 = k then (k0, v) else (k0, v0)) ::
        m.map (fun e => if e.1 = k then (e.1, v) else e) := rfl

theorem kv_find_cons (k0 k : Key) (v0 : Value) (m : KVMap) :
    kv_find ((k0, v0) :: m) k = if k0 = k then some v0 else kv_find m k := rfl

theorem replace_find_ne (m : KVMap) (k k' : Key) (v : Value) (h : k' ≠ k) :
    kv_find (m.map fun e => if e.1 = k then (e.1, v) else e) k' = kv_find m k' := by
  induction m with
  | nil => rfl
  | cons e m ih =>
    obtain ⟨k0, v0⟩ := e
    rw [replace_cons]
    by_cases h0 : k0 = k
    · subst h0
      have : ¬ k0 = k' := fun h' => h h'.symm
      rw [if_pos rfl, kv_find_cons, kv_find_cons, if_neg this, if_neg this, ih]
    · rw [if_neg h0, kv_find_cons, kv_find_cons, ih]

theorem replace_find_eq (m : KVMap) (k : Key) (v : Value) (h : kv_find m k ≠ none) :
    kv_find (m.map fun e => if e.1 = k then (e.1, v) else e) k = some v := by
  induction m with
  | nil => simp [kv_find] at h
  | cons e m ih =>
    obtain ⟨k0, v0⟩ := e
    rw [replace_cons]
    by_cases h0 : k0 = k
    · subst h0
      rw [if_pos rfl, kv_find_cons, if_pos rfl]
    · rw [kv_find_cons, if_neg h0] at h
      rw [if_neg h0, kv_find_cons, if_neg h0, ih h]

theorem kv_find_set (m : KVMap) (k k' : Key) (v : Value) :
    kv_find (kv_set m k v) k' = if k' = k then some v else kv_find m k' := by
  unfold kv_set
  by_cases hc : kv_contains m k = true
  · simp only [hc, if_true]
    by_cases h : k' = k
    · subst h
      simp only [if_true]
      exact replace_find_eq m k' v ((kv_contains_iff m k').1 hc)
    · simp only [h, if_false]
      exact replace_find_ne m k k' v h
  · simp only [hc, Bool.false_eq_true, if_false]
    have hn : kv_find m k = none := by
      rw [← kv_contains_false_iff]
      simpa using hc
    clear hc
    induction m with
    | nil =>
      simp only [List.nil_append, kv_find]
      by_cases h : k = k'
      · simp [h]
      · have : ¬ k' = k := fun h' => h h'.symm
        simp [h, this]
    | cons e m ih =>
      obtain ⟨k0, v0⟩ := e
      unfold kv_find at hn
      by_cases h0 : k0 = k
      · simp [h0] at hn
      · simp only [h0, if_false] at hn
        simp only [List.cons_append]
        unfold kv_find
        by_cases h1 : k0 = k'
        · subst h1
          simp [h0]
        · simp only [h1, if_false]
          exact ih hn

theorem keys_erase (m : KVMap) (k : Key) : keys (kv_erase m k) = (keys m).filter (· ≠ k) := by
  unfold keys kv_erase
  rw [List.filter_map]
  rfl

theorem nodup_keys_erase {m : KVMap} (k : Key) (h : (keys m).Nodup) :
    (keys (kv_erase m k)).Nodup := by
  rw [keys_erase]
  exact h.filter _

theorem nodup_keys_set {m : KVMap} (k : Key) (v : Value) (h : (keys m).Nodup) :
    (keys (kv_set m k v)).Nodup := by
  unfold kv_set
  by_cases hc : kv_contains m k = true
  · simp only [hc, if_true]
    have : keys (m.map fun e => if e.1 = k then (e.1, v) else e) = keys m := by
      unfold keys
      rw [List.map_map]
      apply List.map_congr_left
      intro e _
      simp only [Function.comp]
      split_ifs <;> rfl
    rw [this]
    exact h
  · simp only [hc, Bool.false_eq_true, if_false]
    have hn : k ∉ keys m := by
      rw [← kv_find_none_iff, ← kv_contains_false_iff]
      simpa using hc
    unfold keys at *
    rw [List.map_append, List.nodup_append]
    refine ⟨h, by simp, ?_⟩
    intro a ha hb
    simp only [List.map_cons, List.map_nil, List.mem_singleton] at hb
    subst hb
    exact hn ha

theorem wsum_erase (w : Key × Value → Nat) {m : KVMap} (k : Key) (h : (keys m).Nodup) :
    wsum w (kv_erase m k) + weight_at w m k = wsum w m := by
  induction m with
  | nil => simp [kv_erase, wsum, weight_at, kv_find]
  | cons e m ih =>
    obtain ⟨k0, v0⟩ := e
    have hnd : (keys m).Nodup := by
      unfold keys at h ⊢
      exact (List.nodup_cons.1 h).2
    have hk0 : k0 ∉ keys m := by
      unfold keys at h ⊢
      exact (List.nodup_cons.1 h).1
    have ih := ih hnd
    unfold kv_erase wsum weight_at at *
    by_cases h0 : k0 = k
    · subst h0
      have hf : kv_find m k0 = none := (kv_find_none_iff m k0).2 hk0
      rw [hf] at ih
      simp only [List.filter_cons, ne_eq, not_true_eq_false, decide_False, Bool.false_eq_true,
        if_false, kv_find, if_true, List.map_cons, List.sum_cons]
      simp only [ne_eq, Nat.add_zero] at ih
      omega
    · simp only [List.filter_cons, ne_eq, h0, not_false_eq_true, decide_True, if_true,
        List.map_cons, List.sum_cons, kv_find, if_false]
      simp only [ne_eq] at ih
      omega

theorem wsum_set (w : Key × Value → Nat) {m : KVMap} (k : Key) (v : Value)
    (h : (keys m).Nodup) :
    wsum w (kv_set m k v) + weight_at w m k = wsum w m + w (k, v) := by
  unfold kv_set
  by_cases hc : kv_contains m k = true
  · simp only [hc, if_true]
    have hp := (kv_contains_iff m k).1 hc
    clear hc
    induction m with
    | nil => simp [kv_find] at hp
    | cons e m ih =>
      obtain ⟨k0, v0⟩ := e
      have hnd : (keys m).Nodup := by
        unfold keys at h ⊢
        exact (List.nodup_cons.1 h).2
      have hk0 : k0 ∉ keys m := by
        unfold keys at h ⊢
        exact (List.nodup_cons.1 h).1
      by_cases h0 : k0 = k
      · subst h0
        simp only [List.map_cons, if_true, replace_absent m k0 v hk0]
        simp [wsum, weight_at, kv_find]
        omega
      · simp only [kv_find, h0, if_false] at hp
        have ih := ih hnd hp
        unfold wsum weight_at at *
        simp only [List.map_cons, h0, if_false, List.sum_cons, kv_find]
        omega
  · simp only [hc, Bool.false_eq_true, if_false]
    have hn : kv_find m k = none := by
      rw [← kv_contains_false_iff]
      simpa using hc
    unfold wsum weight_at
    rw [hn]
    simp

theorem weight_at_le (w : Key × Value → Nat) {m : KVMap} (k : Key) (h : (keys m).Nodup) :
    weight_at w m k ≤ wsum w m := by
  have := wsum_erase w k h
  omega

end flash

namespace flash

/-! ## Theorems: arithmetic of `FBLAS_UINT` -/

theorem add64_lt (a b : Nat) : add64 a b < 2 ^ 64 := Nat.mod_lt _ (by norm_num)

theorem sub64_lt (a b : Nat) : sub64 a b < 2 ^ 64 := Nat.mod_lt _ (by norm_num)

theorem add64_eq (a b : Nat) (h : a + b < 2 ^ 64) : add64 a b = a + b :=
  Nat.mod_eq_of_lt h

theorem sub64_zero (a : Nat) (ha : a < 2 ^ 64) : sub64 a 0 = a := by
  unfold sub64
  omega

theorem sub64_sub64 (a b d : Nat) : sub64 (sub64 a b) d = sub64 a (b + d) := by
  unfold sub64
  omega

theorem buf_size_lt (sinfo : StrideInfo) : buf_size sinfo < 2 ^ 64 := by
  unfold buf_size
  split_ifs <;> exact Nat.mod_lt _ (by norm_num)

theorem settling_bytes_append (l : List (Key × Nat)) (e : Key × Nat) :
    settling_bytes (l ++ [e]) = settling_bytes l + buf_size e.1.sinfo := by
  simp [settling_bytes]

theorem settling_bytes_cons (e : Key × Nat) (l : List (Key × Nat)) :
    settling_bytes (e :: l) = buf_size e.1.sinfo + settling_bytes l := by
  simp [settling_bytes]

theorem settling_bytes_drop {l : List (Key × Nat)} {k : Key} {buf : Nat}
    (h : settling_find l k = some buf) :
    settling_bytes (settling_drop l k) + buf_size k.sinfo = settling_bytes l := by
  induction l with
  | nil => cases h
  | cons e l ih =>
    obtain ⟨k', b⟩ := e
    unfold settling_find at h
    unfold settling_drop
    by_cases hk : k' = k
    · subst hk
      simp only [if_true, settling_bytes_cons]
      omega
    · simp only [hk, if_false] at h ⊢
      have := ih h
      simp only [settling_bytes_cons]
      omega

end flash

namespace flash

/-! ## Theorems: the cache invariant is preserved by every primitive move -/

theorem weight_at_some {w : Key × Value → Nat} {m : KVMap} {k : Key} {v : Value}
    (h : kv_find m k = some v) : weight_at w m k = w (k, v) := by
  simp [weight_at, h]

theorem weight_at_none {w : Key × Value → Nat} {m : KVMap} {k : Key}
    (h : kv_find m k = none) : weight_at w m k = 0 := by
  simp [weight_at, h]

theorem kv_get_of_find {m : KVMap} {k : Key} {v : Value} (h : kv_find m k = some v) :
    kv_get m k = v := by
  simp [kv_get, h]

/-- Replacing the value of an active entry keeps the invariant. -/
theorem Cache.Inv.set_active {c : Cache} (h : c.Inv) (k : Key) (v v0 : Value)
    (hk : kv_find c.active_map k = some v0) :
    Cache.Inv { c with active_map := kv_set c.active_map k v } := by
  have hs := wsum_set size_weight k v h.nd_active
  rw [weight_at_some hk] at hs
  refine ⟨nodup_keys_set k v h.nd_active, h.nd_io, h.nd_zero, h.nd_backlog, ?_, ?_, ?_⟩
  · intro k'
    have hl := h.loc k'
    simp only [kv_find_set]
    by_cases hkk : k' = k
    · subst hkk
      rw [hk] at hl
      simp only [if_true]
      obtain ⟨h1, h2, h3, h4, h5, h6, h7⟩ := hl
      exact ⟨Or.inr (by simpa using h1), Or.inr (by simpa using h2), h3,
        Or.inl (by simpa using h4), h5, h6, h7⟩
    · simpa only [hkk, if_false] using hl
  · have := h.commit_eq
    simp only [Cache.committed, Cache.resident, size_weight] at *
    omega
  · have := h.real_eq
    simp only [Cache.committed, Cache.resident, size_weight] at *
    omega

end flash

namespace flash

/-- `move_zero_to_active` keeps the invariant. -/
theorem Cache.Inv.move_zero_to_active {c : Cache} (h : c.Inv) (k : Key) (v0 : Value)
    (hk : kv_find c.zero_ref_map k = some v0) : (move_zero_to_active c k).Inv := by
  unfold flash.move_zero_to_active
  rw [kv_get_of_find hk]
  have hl := h.loc k
  rw [hk] at hl
  have ha : kv_find c.active_map k = none := by
    rcases hl.active_zero with h1 | h1
    · exact h1
    · simp at h1
  have hs1 := wsum_set size_weight k { v0 with n_refs := 1 } h.nd_active
  rw [weight_at_none ha] at hs1
  have hs2 := wsum_erase size_weight k h.nd_zero
  rw [weight_at_some hk] at hs2
  refine ⟨nodup_keys_set k _ h.nd_active, h.nd_io, nodup_keys_erase k h.nd_zero, h.nd_backlog,
    ?_, ?_, ?_⟩
  · intro k'
    have hl' := h.loc k'
    simp only [kv_find_set, kv_find_erase]
    by_cases hkk : k' = k
    · subst hkk
      rw [hk] at hl'
      obtain ⟨h1, h2, h3, h4, h5, h6, h7⟩ := hl'
      constructor <;> simp_all
    · simpa only [hkk, if_false] using hl'
  · have := h.commit_eq
    simp only [Cache.committed, Cache.resident, size_weight] at *
    omega
  · have := h.real_eq
    simp only [Cache.committed, Cache.resident, size_weight] at *
    omega

/-- `move_io_to_active` keeps the invariant when the entry is not evicted. -/
theorem Cache.Inv.move_io_to_active {c : Cache} (h : c.Inv) (k : Key) (v0 : Value)
    (hk : kv_find c.io_map k = some v0) (hev : v0.evicted = false) :
    (move_io_to_active c k).Inv := by
  unfold flash.move_io_to_active
  rw [kv_get_of_find hk]
  have hl := h.loc k
  rw [hk] at hl
  have ha : kv_find c.active_map k = none := by
    rcases hl.active_io with h1 | h1
    · exact h1
    · simp at h1
  have hs1 := wsum_set size_weight k { v0 with n_refs := 1 } h.nd_active
  rw [weight_at_none ha] at hs1
  have hs2 := wsum_erase commit_weight k h.nd_io
  rw [weight_at_some hk] at hs2
  have hs3 := wsum_erase real_weight k h.nd_io
  rw [weight_at_some hk] at hs3
  refine ⟨nodup_keys_set k _ h.nd_active, nodup_keys_erase k h.nd_io, h.nd_zero, h.nd_backlog,
    ?_, ?_, ?_⟩
  · intro k'
    have hl' := h.loc k'
    simp only [kv_find_set, kv_find_erase]
    by_cases hkk : k' = k
    · subst hkk
      rw [hk] at hl'
      obtain ⟨h1, h2, h3, h4, h5, h6, h7⟩ := hl'
      have h6' := fun hb => h6 hb v0 rfl
      constructor <;> simp_all
    · simpa only [hkk, if_false] using hl'
  · have := h.commit_eq
    simp only [Cache.committed, Cache.resident, size_weight, commit_weight, hev] at *
    simp only [Bool.false_eq_true, if_false] at hs2
    omega
  · have := h.real_eq
    simp only [Cache.committed, Cache.resident, size_weight, real_weight, hev] at *
    simp only [Bool.false_and, Bool.false_eq_true, if_false] at hs3
    omega

/-- Changing fields of an `io_map` entry other than `evicted`, without
changing what the entry holds of the allocated memory, keeps the invariant. -/
theorem Cache.Inv.set_io {c : Cache} (h : c.Inv) (k : Key) (v v0 : Value)
    (hk : kv_find c.io_map k = some v0) (hev : v.evicted = v0.evicted)
    (hw : real_weight (k, v) = real_weight (k, v0)) :
    Cache.Inv { c with io_map := kv_set c.io_map k v } := by
  have hs2 := wsum_set commit_weight k v h.nd_io
  rw [weight_at_some hk] at hs2
  have hs3 := wsum_set real_weight k v h.nd_io
  rw [weight_at_some hk] at hs3
  refine ⟨h.nd_active, nodup_keys_set k v h.nd_io, h.nd_zero, h.nd_backlog, ?_, ?_, ?_⟩
  · intro k'
    have hl' := h.loc k'
    simp only [kv_find_set]
    by_cases hkk : k' = k
    · subst hkk
      rw [hk] at hl'
      obtain ⟨h1, h2, h3, h4, h5, h6, h7⟩ := hl'
      have h6' := fun hb => h6 hb v0 rfl
      constructor <;> simp_all
    · simpa only [hkk, if_false] using hl'
  · have := h.commit_eq
    have hc : commit_weight (k, v) = commit_weight (k, v0) := by simp [commit_weight, hev]
    simp only [Cache.committed, Cache.resident] at *
    omega
  · have := h.real_eq
    simp only [Cache.committed, Cache.resident] at *
    omega

end flash

namespace flash

/-! ## Theorems: outcomes of operations -/

theorem Holds.of_pure {α : Type} {P : α → Prop} {a : α} (h : P a) :
    Holds P (Pure.pure a : Except Fault α) := h

theorem Holds.of_throw {α : Type} {P : α → Prop} {e : Fault} :
    Holds P (throw e : Except Fault α) := trivial

theorem Holds.after {α β : Type} {Q : β → Prop} {x : Except Fault α}
    {f : α → Except Fault β} (hf : ∀ a, x = Except.ok a → Holds Q (f a)) :
    Holds Q (x.bind f) := by
  cases x with
  | error e => exact trivial
  | ok a => exact hf a rfl

theorem Holds.after_of {α β : Type} {P : α → Prop} {Q : β → Prop} {x : Except Fault α}
    {f : α → Except Fault β} (hx : Holds P x) (hf : ∀ a, P a → Holds Q (f a)) :
    Holds Q (x.bind f) := by
  cases x with
  | error e => exact trivial
  | ok a => exact hf a hx

theorem Holds.weaken {α : Type} {P Q : α → Prop} {x : Except Fault α} (hx : Holds P x)
    (h : ∀ a, P a → Q a) : Holds Q x := by
  cases x with
  | error e => exact trivial
  | ok a => exact h a hx

theorem Holds.fold {σ α : Type} (f : σ → α → Except Fault σ) (P : σ → Prop)
    (hstep : ∀ s a, P s → Holds P (f s a)) (l : List α) (s : σ) (hs : P s) :
    Holds P (l.foldlM f s) := by
  induction l generalizing s with
  | nil => exact hs
  | cons a l ih =>
    rw [List.foldlM_cons]
    cases hfa : f s a with
    | error e => exact trivial
    | ok s' =>
      have := hstep s a hs
      rw [hfa] at this
      exact ih s' this

theorem Holds.at_ok {α : Type} {P : α → Prop} {x : Except Fault α} {a : α} (hx : Holds P x)
    (h : x = Except.ok a) : P a := by
  subst h
  exact hx

theorem Holds.bind_of {α β : Type} {P : α → Prop} {Q : β → Prop} {x : Except Fault α}
    {f : α → Except Fault β} (hx : Holds P x) (hf : ∀ a, P a → Holds Q (f a)) :
    Holds Q (x >>= f) := Holds.after_of hx hf

theorem load_complete_sat (v : Value) :
    Holds (fun b => v.complete = some b) (load_complete v) := by
  unfold load_complete
  cases h : v.complete with
  | none => exact Holds.of_throw
  | some b => exact Holds.of_pure rfl

theorem is_active_iff (c : Cache) (k : Key) :
    is_active c k = true ↔ kv_find c.active_map k ≠ none := kv_contains_iff _ _

theorem is_in_io_iff (c : Cache) (k : Key) :
    is_in_io c k = true ↔ kv_find c.io_map k ≠ none := kv_contains_iff _ _

theorem is_zero_ref_iff (c : Cache) (k : Key) :
    is_zero_ref c k = true ↔ kv_find c.zero_ref_map k ≠ none := kv_contains_iff _ _

theorem is_queued_iff (c : Cache) (k : Key) :
    is_queued c k = true ↔ kv_find c.alloc_backlog k ≠ none := by
  unfold is_queued
  rw [any_key_eq]
  exact kv_contains_iff _ _

theorem find_of_ne_none {m : KVMap} {k : Key} (h : kv_find m k ≠ none) :
    ∃ v, kv_find m k = some v := by
  cases hv : kv_find m k with
  | none => exact absurd hv h
  | some v => exact ⟨v, rfl⟩

theorem reap_sat (c : Cache) (k : Key) :
    Holds (fun c' => ∃ v, kv_find c.io_map k = some v ∧ v.complete = some true ∧
      c' = { c with io_map := kv_set c.io_map k { v with complete := none } })
      (reap_io_completion c k) := by
  unfold reap_io_completion
  by_cases h1 : is_in_io c k = true
  · obtain ⟨v, hv⟩ := find_of_ne_none ((is_in_io_iff c k).1 h1)
    simp only [h1, Bool.not_true, Bool.false_eq_true, if_false, kv_get_of_find hv]
    apply Holds.after_of (load_complete_sat v)
    intro b hb
    cases b with
    | false => exact Holds.of_throw
    | true => exact Holds.of_pure ⟨v, hv, hb, rfl⟩
  · simp only [h1, Bool.not_false, if_true]
    exact Holds.of_throw

/-- `reap_io_completion` keeps the invariant. -/
theorem Cache.Inv.reap {c : Cache} (h : c.Inv) (k : Key) :
    Holds (fun c' => c'.Inv ∧ ∃ v, kv_find c.io_map k = some v ∧ v.complete = some true ∧
      c' = { c with io_map := kv_set c.io_map k { v with complete := none } })
      (reap_io_completion c k) := by
  apply Holds.weaken (reap_sat c k)
  rintro c' ⟨v, hv, hc, rfl⟩
  refine ⟨?_, v, hv, hc, rfl⟩
  exact h.set_io k { v with complete := none } v hv rfl (by simp [real_weight, hc])

end flash

namespace flash

/-! ## Theorems: `get_buf` and the moves of one key -/

theorem same_at_refl (c : Cache) (k : Key) : same_at c c k := ⟨rfl, rfl, rfl⟩

theorem Moved.stay {c : Cache} (h : c.Inv) (k : Key) : Moved c c k :=
  ⟨h, rfl, rfl, rfl, rfl, fun k' _ => same_at_refl c k'⟩

theorem Moved.andThen {c c' c'' : Cache} {k : Key} (h1 : Moved c c' k) (h2 : Moved c' c'' k) :
    Moved c c'' k := by
  refine ⟨h2.inv, h2.max_eq.trans h1.max_eq, h2.real_eq.trans h1.real_eq,
    h2.commit_eq.trans h1.commit_eq, h2.backlog_eq.trans h1.backlog_eq, fun k' hk => ?_⟩
  obtain ⟨a1, a2, a3⟩ := h1.frame k' hk
  obtain ⟨b1, b2, b3⟩ := h2.frame k' hk
  exact ⟨b1.trans a1, b2.trans a2, b3.trans a3⟩

theorem Moved.of_set_active {c : Cache} (h : c.Inv) (k : Key) (v v0 : Value)
    (hk : kv_find c.active_map k = some v0) :
    Moved c { c with active_map := kv_set c.active_map k v } k := by
  refine ⟨h.set_active k v v0 hk, rfl, rfl, rfl, rfl, fun k' hk' => ⟨?_, rfl, rfl⟩⟩
  simp only [kv_find_set, hk', if_false]

theorem Moved.of_move_zero_to_active {c : Cache} (h : c.Inv) (k : Key) (v0 : Value)
    (hk : kv_find c.zero_ref_map k = some v0) : Moved c (move_zero_to_active c k) k := by
  refine ⟨h.move_zero_to_active k v0 hk, rfl, rfl, rfl, rfl, fun k' hk' => ⟨?_, rfl, ?_⟩⟩
  · simp only [flash.move_zero_to_active, kv_find_set, hk', if_false]
  · simp only [flash.move_zero_to_active, kv_find_erase, hk', if_false]

theorem Moved.of_move_io_to_active {c : Cache} (h : c.Inv) (k : Key) (v0 : Value)
    (hk : kv_find c.io_map k = some v0) (hev : v0.evicted = false) :
    Moved c (move_io_to_active c k) k := by
  refine ⟨h.move_io_to_active k v0 hk hev, rfl, rfl, rfl, rfl, fun k' hk' => ⟨?_, ?_, rfl⟩⟩
  · simp only [flash.move_io_to_active, kv_find_set, hk', if_false]
  · simp only [flash.move_io_to_active, kv_find_erase, hk', if_false]

theorem Moved.of_reap {c : Cache} (h : c.Inv) (k : Key) :
    Holds (fun c' => Moved c c' k ∧ ∃ v, kv_find c.io_map k = some v ∧ v.complete = some true ∧
      kv_find c'.io_map k = some { v with complete := none }) (reap_io_completion c k) := by
  apply Holds.weaken (h.reap k)
  rintro c' ⟨hinv, v, hv, hc, rfl⟩
  refine ⟨⟨hinv, rfl, rfl, rfl, rfl, fun k' hk' => ⟨rfl, ?_, rfl⟩⟩, v, hv, hc, ?_⟩
  · simp only [kv_find_set, hk', if_false]
  · simp only [kv_find_set, if_true]

/-- Reaping a completed, non-evicted `io_map` entry and moving it to
`active_map`. -/
theorem Moved.io_hit {c : Cache} (h : c.Inv) (k : Key) (v0 : Value)
    (hk : kv_find c.io_map k = some v0) (hev : v0.evicted = false) :
    Holds (fun c' => Moved c (flash.move_io_to_active c' k) k ∧
      kv_find (flash.move_io_to_active c' k).active_map k ≠ none) (reap_io_completion c k) := by
  apply Holds.weaken (Moved.of_reap h k)
  rintro c' ⟨hm, v, hv, hc, hv'⟩
  rw [hk] at hv
  cases hv
  refine ⟨hm.andThen (Moved.of_move_io_to_active hm.inv k _ hv' hev), ?_⟩
  simp [flash.move_io_to_active, kv_find_set]

theorem get_buf_probe_sat {c : Cache} (h : c.Inv) (k : Key) :
    Holds (fun r => Moved c r.2 k ∧ (r.1 = true → kv_find r.2.active_map k ≠ none))
      (get_buf_probe c k) := by
  unfold get_buf_probe
  by_cases ha : is_active c k = true
  · obtain ⟨v0, hv0⟩ := find_of_ne_none ((is_active_iff c k).1 ha)
    simp only [ha, if_true]
    refine Holds.of_pure ⟨Moved.of_set_active h k _ v0 hv0, fun _ => ?_⟩
    simp [kv_find_set]
  · simp only [ha, Bool.false_eq_true, if_false]
    have hzero : Holds (fun r : Bool × Cache => Moved c r.2 k ∧
        (r.1 = true → kv_find r.2.active_map k ≠ none))
        (if is_zero_ref c k = true then pure (true, flash.move_zero_to_active c k)
          else pure (false, c)) := by
      by_cases hz : is_zero_ref c k = true
      · obtain ⟨v0, hv0⟩ := find_of_ne_none ((is_zero_ref_iff c k).1 hz)
        simp only [hz, if_true]
        refine Holds.of_pure ⟨Moved.of_move_zero_to_active h k v0 hv0, fun _ => ?_⟩
        simp [flash.move_zero_to_active, kv_find_set]
      · simp only [hz, Bool.false_eq_true, if_false]
        exact Holds.of_pure ⟨Moved.stay h k, fun hf => by simp at hf⟩
    by_cases hi : (is_in_io c k && !(kv_get c.io_map k).evicted) = true
    · simp only [hi, if_true]
      simp only [Bool.and_eq_true, Bool.not_eq_true'] at hi
      obtain ⟨v0, hv0⟩ := find_of_ne_none ((is_in_io_iff c k).1 hi.1)
      have hev : v0.evicted = false := by
        have := hi.2
        rwa [kv_get_of_find hv0] at this
      apply Holds.after_of (load_complete_sat _)
      intro b _
      cases b with
      | true =>
        simp only [if_true]
        apply Holds.after_of (Moved.io_hit h k v0 hv0 hev)
        intro c' hc'
        exact Holds.of_pure ⟨hc'.1, fun _ => hc'.2⟩
      | false =>
        simp only [Bool.false_eq_true, if_false]
        exact hzero
    · simp only [hi, Bool.false_eq_true, if_false]
      exact hzero

theorem get_buf_sat {c : Cache} (h : c.Inv) (fptr : flash_ptr) (sinfo : StrideInfo)
    (write_back : Bool) :
    Holds (fun r => Moved c r.2 ⟨fptr, sinfo⟩) (get_buf c fptr sinfo write_back) := by
  unfold get_buf
  apply Holds.after_of (get_buf_probe_sat h ⟨fptr, sinfo⟩)
  rintro ⟨found, c'⟩ ⟨hm, hf⟩
  cases found with
  | false => exact Holds.of_pure hm
  | true =>
    simp only [if_true]
    obtain ⟨v0, hv0⟩ := find_of_ne_none (hf rfl)
    split_ifs
    · exact Holds.of_throw
    · exact Holds.of_pure (hm.andThen (Moved.of_set_active hm.inv _ _ v0 hv0))

end flash

namespace flash

/-! ## Theorems: `add_backlog` and the loops of `alloc_bufs` -/

theorem kv_set_absent (m : KVMap) (k : Key) (v : Value) (h : kv_find m k = none) :
    kv_set m k v = m ++ [(k, v)] := by
  unfold kv_set
  rw [(kv_contains_false_iff m k).2 h]
  simp

theorem add_backlog_sat {c : Cache} (h : c.Inv) (k : Key) (alloc_only write_back : Bool)
    (ha : kv_find c.active_map k = none) (hz : kv_find c.zero_ref_map k = none)
    (hi : ∀ v, kv_find c.io_map k = some v → v.evicted = true) :
    Holds (fun c' => c'.Inv ∧ c'.max_size = c.max_size ∧ c'.real_size = c.real_size ∧
      c'.active_map = c.active_map ∧
      c'.io_map = c.io_map ∧ c'.zero_ref_map = c.zero_ref_map ∧ c'.settling = c.settling)
      (add_backlog c k alloc_only write_back) := by
  unfold add_backlog
  by_cases hq : is_queued c k = true
  · simp only [hq, if_true]
    exact Holds.of_pure ⟨h, rfl, rfl, rfl, rfl, rfl, rfl⟩
  · have hq' : kv_find c.alloc_backlog k = none := by
      by_contra hne
      exact hq ((is_queued_iff c k).2 hne)
    simp only [hq, Bool.false_eq_true, if_false]
    by_cases hb : add64 c.commit_size (buf_size k.sinfo) ≤ c.max_size
    · rw [if_neg (not_not.2 hb)]
      rw [← kv_set_absent _ _ _ hq']
      have hs := wsum_set size_weight k { alloc_only := alloc_only, write_back := write_back }
        h.nd_backlog
      rw [weight_at_none hq'] at hs
      refine Holds.of_pure ⟨⟨h.nd_active, h.nd_io, h.nd_zero, nodup_keys_set k _ h.nd_backlog,
        ?_, ?_, ?_⟩, rfl, rfl, rfl, rfl, rfl, rfl⟩
      · intro k'
        have hl' := h.loc k'
        simp only [kv_find_set]
        by_cases hkk : k' = k
        · subst hkk
          rw [ha, hz, hq'] at hl'
          simp only [if_true, ha, hz]
          obtain ⟨h1, h2, h3, h4, h5, h6, h7⟩ := hl'
          refine ⟨Or.inl rfl, Or.inl rfl, Or.inr rfl, Or.inr rfl, Or.inr rfl,
            fun _ v hv => hi v hv, ?_⟩
          intro v hv
          cases hv
          rfl
        · simpa only [hkk, if_false] using hl'
      · have := h.commit_eq
        simp only [Cache.committed, size_weight, add64] at *
        omega
      · exact h.real_eq
    · rw [if_pos hb]
      exact Holds.of_throw

theorem ask_for_eq_of_same {c c' : Cache} {k : Key} (h : same_at c c' k) :
    ask_for c' k = ask_for c k := by
  obtain ⟨h1, h2, h3⟩ := h
  unfold ask_for is_active is_zero_ref is_in_io kv_contains kv_get
  rw [h1, h2, h3]

theorem Moved.allocPost {c c' : Cache} {k : Key} (h : Moved c c' k) : AllocPost c c' k :=
  ⟨h.inv, h.max_eq, h.real_eq, h.frame⟩

theorem AllocPost.add_backlog {c : Cache} (h : c.Inv) (k : Key) (alloc_only write_back : Bool)
    (ha : kv_find c.active_map k = none) (hz : kv_find c.zero_ref_map k = none)
    (hi : ∀ v, kv_find c.io_map k = some v → v.evicted = true) :
    Holds (fun c' => AllocPost c c' k) (flash.add_backlog c k alloc_only write_back) := by
  apply Holds.weaken (add_backlog_sat h k alloc_only write_back ha hz hi)
  rintro c' ⟨h1, h2, h3, h5, h6, h7, _⟩
  refine ⟨h1, h2, h3, fun k' _ => ?_⟩
  unfold same_at
  rw [h5, h6, h7]
  exact ⟨rfl, rfl, rfl⟩

theorem sat_pair {c : Cache} {k : Key} {x : Except Fault Cache} (t : BaseTask)
    (h : Holds (fun c' => AllocPost c c' k) x) :
    Holds (fun s : Cache × BaseTask => AllocPost c s.1 k) (x.bind fun c => pure (c, t)) :=
  Holds.after_of h fun _ hc => Holds.of_pure hc

theorem alloc_io_hit_sat {c : Cache} (h : c.Inv) (t : BaseTask) (k : Key) (v0 : Value)
    (hk : kv_find c.io_map k = some v0) (hev : v0.evicted = false) :
    Holds (fun s => AllocPost c s.1 k) (alloc_io_hit c t k) := by
  unfold alloc_io_hit
  apply Holds.after_of (Moved.io_hit h k v0 hk hev)
  rintro c' ⟨hm, hf⟩
  obtain ⟨v1, hv1⟩ := find_of_ne_none hf
  exact Holds.of_pure (hm.andThen (Moved.of_set_active hm.inv k _ v1 hv1)).allocPost

theorem alloc_read_only_sat {c : Cache} (h : c.Inv) (t : BaseTask) (k : Key) :
    Holds (fun s => AllocPost c s.1 k) (alloc_read_only (c, t) k) := by
  unfold alloc_read_only
  by_cases ha : is_active c k = true
  · obtain ⟨v0, hv0⟩ := find_of_ne_none ((is_active_iff c k).1 ha)
    simp only [ha, if_true]
    exact Holds.of_pure (Moved.of_set_active h k _ v0 hv0).allocPost
  · have ha' : kv_find c.active_map k = none := by
      by_contra hne
      exact ha ((is_active_iff c k).2 hne)
    simp only [ha, Bool.false_eq_true, if_false]
    by_cases hi : is_in_io c k = true
    · obtain ⟨v0, hv0⟩ := find_of_ne_none ((is_in_io_iff c k).1 hi)
      have hz' : kv_find c.zero_ref_map k = none := by
        rcases (h.loc k).io_zero with h1 | h1
        · rw [hv0] at h1
          cases h1
        · exact h1
      simp only [hi, if_true, kv_get_of_find hv0]
      by_cases hev : v0.evicted = true
      · simp only [hev, if_true]
        apply sat_pair
        apply AllocPost.add_backlog h k false false ha' hz'
        intro v hv
        rw [hv0] at hv
        cases hv
        exact hev
      · simp only [hev, Bool.false_eq_true, if_false]
        apply Holds.after_of (load_complete_sat v0)
        intro b _
        cases b with
        | true =>
          simp only [if_true]
          exact alloc_io_hit_sat h t k v0 hv0 (by simpa using hev)
        | false =>
          simp only [Bool.false_eq_true, if_false]
          exact Holds.of_pure (Moved.stay h k).allocPost
    · have hi' : kv_find c.io_map k = none := by
        by_contra hne
        exact hi ((is_in_io_iff c k).2 hne)
      simp only [hi, Bool.false_eq_true, if_false]
      by_cases hz : is_zero_ref c k = true
      · obtain ⟨v0, hv0⟩ := find_of_ne_none ((is_zero_ref_iff c k).1 hz)
        simp only [hz, if_true]
        exact Holds.of_pure (Moved.of_move_zero_to_active h k v0 hv0).allocPost
      · have hz' : kv_find c.zero_ref_map k = none := by
          by_contra hne
          exact hz ((is_zero_ref_iff c k).2 hne)
        simp only [hz, Bool.false_eq_true, if_false]
        apply sat_pair
        apply AllocPost.add_backlog h k false false ha' hz'
        intro v hv
        rw [hi'] at hv
        cases hv

end flash

namespace flash

theorem not_active_find {c : Cache} {k : Key} (ha : ¬ is_active c k = true) :
    kv_find c.active_map k = none := by
  by_contra hne
  exact ha ((is_active_iff c k).2 hne)

theorem not_in_io_find {c : Cache} {k : Key} (ha : ¬ is_in_io c k = true) :
    kv_find c.io_map k = none := by
  by_contra hne
  exact ha ((is_in_io_iff c k).2 hne)

theorem not_zero_ref_find {c : Cache} {k : Key} (ha : ¬ is_zero_ref c k = true) :
    kv_find c.zero_ref_map k = none := by
  by_contra hne
  exact ha ((is_zero_ref_iff c k).2 hne)

theorem alloc_write_only_sat {c : Cache} (h : c.Inv) (t : BaseTask) (k : Key) :
    Holds (fun s => AllocPost c s.1 k) (alloc_write_only (c, t) k) := by
  unfold alloc_write_only
  by_cases ha : is_active c k = true
  · simp only [ha, if_true]
    exact Holds.of_pure (Moved.stay h k).allocPost
  · simp only [ha, Bool.false_eq_true, if_false]
    by_cases hi : is_in_io c k = true
    · simp only [hi, if_true]
      exact Holds.of_pure (Moved.stay h k).allocPost
    · simp only [hi, Bool.false_eq_true, if_false]
      by_cases hz : is_zero_ref c k = true
      · simp only [hz, if_true]
        exact Holds.of_pure (Moved.stay h k).allocPost
      · simp only [hz, Bool.false_eq_true, if_false]
        apply sat_pair
        apply AllocPost.add_backlog h k true true (not_active_find ha) (not_zero_ref_find hz)
        intro v hv
        rw [not_in_io_find hi] at hv
        cases hv

theorem alloc_read_write_sat {c : Cache} (h : c.Inv) (t : BaseTask) (k : Key) :
    Holds (fun s => AllocPost c s.1 k) (alloc_read_write (c, t) k) := by
  unfold alloc_read_write
  by_cases ha : is_active c k = true
  · obtain ⟨v0, hv0⟩ := find_of_ne_none ((is_active_iff c k).1 ha)
    simp only [ha, if_true]
    exact Holds.of_pure (Moved.of_set_active h k _ v0 hv0).allocPost
  · have ha' := not_active_find ha
    simp only [ha, Bool.false_eq_true, if_false]
    by_cases hi : is_in_io c k = true
    · obtain ⟨v0, hv0⟩ := find_of_ne_none ((is_in_io_iff c k).1 hi)
      have hz' : kv_find c.zero_ref_map k = none := by
        rcases (h.loc k).io_zero with h1 | h1
        · rw [hv0] at h1
          cases h1
        · exact h1
      simp only [hi, if_true, kv_get_of_find hv0]
      by_cases hev : v0.evicted = true
      · simp only [hev, if_true]
        by_cases hq : is_queued c k = true
        · simp only [hq, Bool.not_true, Bool.false_eq_true, if_false]
          exact Holds.of_pure (Moved.stay h k).allocPost
        · simp only [hq, Bool.not_false, if_true]
          apply sat_pair
          apply AllocPost.add_backlog h k false true ha' hz'
          intro v hv
          rw [hv0] at hv
          cases hv
          exact hev
      · simp only [hev, Bool.false_eq_true, if_false]
        apply Holds.after_of (load_complete_sat v0)
        intro b _
        cases b with
        | true =>
          simp only [if_true]
          exact alloc_io_hit_sat h t k v0 hv0 (by simpa using hev)
        | false =>
          simp only [Bool.false_eq_true, if_false]
          exact Holds.of_pure (Moved.stay h k).allocPost
    · have hi' := not_in_io_find hi
      simp only [hi, Bool.false_eq_true, if_false]
      by_cases hz : is_zero_ref c k = true
      · obtain ⟨v0, hv0⟩ := find_of_ne_none ((is_zero_ref_iff c k).1 hz)
        simp only [hz, if_true]
        have hm := Moved.of_move_zero_to_active h k v0 hv0
        have hf : kv_find (move_zero_to_active c k).active_map k ≠ none := by
          simp [move_zero_to_active, kv_find_set]
        obtain ⟨v1, hv1⟩ := find_of_ne_none hf
        exact Holds.of_pure (hm.andThen (Moved.of_set_active hm.inv k _ v1 hv1)).allocPost
      · simp only [hz, Bool.false_eq_true, if_false]
        apply sat_pair
        apply AllocPost.add_backlog h k false true ha' (not_zero_ref_find hz)
        intro v hv
        rw [hi'] at hv
        cases hv

/-- A loop of `alloc_bufs` over a list of keys. -/
theorem alloc_loop_sat (f : Cache × BaseTask → Key → Except Fault (Cache × BaseTask))
    (hf : ∀ (c : Cache) (t : BaseTask) (k : Key), c.Inv →
      Holds (fun s => AllocPost c s.1 k) (f (c, t) k))
    (l : List Key) (c : Cache) (t : BaseTask) (h : c.Inv) :
    Holds (fun s => s.1.Inv ∧ s.1.max_size = c.max_size ∧ s.1.real_size = c.real_size ∧
      ∀ k', k' ∉ l → same_at c s.1 k') (l.foldlM f (c, t)) := by
  induction l generalizing c t with
  | nil =>
    exact Holds.of_pure ⟨h, rfl, rfl, fun k' _ => same_at_refl c k'⟩
  | cons k l ih =>
    rw [List.foldlM_cons]
    apply Holds.bind_of (hf c t k h)
    rintro ⟨c1, t1⟩ hp
    apply Holds.weaken (ih c1 t1 hp.inv)
    rintro ⟨c2, t2⟩ ⟨h1, h2, h3, h5⟩
    refine ⟨h1, h2.trans hp.max_eq, h3.trans hp.real_eq, ?_⟩
    intro k' hk'
    simp only [List.mem_cons, not_or] at hk'
    obtain ⟨a1, a2, a3⟩ := hp.frame k' hk'.1
    obtain ⟨b1, b2, b3⟩ := h5 k' hk'.2
    exact ⟨b1.trans a1, b2.trans a2, b3.trans a3⟩

end flash

namespace flash

/-! ## Theorems: key sets of a task -/

theorem sum_le_of_nodup_subset (f : Key → Nat) {l l' : List Key} (hnd : l.Nodup)
    (hsub : l ⊆ l') : (l.map f).sum ≤ (l'.map f).sum := by
  obtain ⟨l'', hp, hs⟩ := List.subperm_of_subset hnd hsub
  rw [← (hp.map f).sum_eq]
  exact (hs.map f).sum_le_sum fun a _ => Nat.zero_le a

theorem mem_set_insert (s : List Key) (k k' : Key) : k' ∈ set_insert s k ↔ k' ∈ s ∨ k' = k := by
  unfold set_insert
  split_ifs with h
  · constructor
    · exact Or.inl
    · rintro (h1 | rfl)
      · exact h1
      · exact h
  · simp

theorem nodup_set_insert {s : List Key} (k : Key) (h : s.Nodup) : (set_insert s k).Nodup := by
  unfold set_insert
  split_ifs with hk
  · exact h
  · rw [List.nodup_append]
    refine ⟨h, List.nodup_singleton k, ?_⟩
    intro a ha hb
    simp only [List.mem_singleton] at hb
    subst hb
    exact hk ha

theorem fold_insert_spec (p : Key → Prop) [DecidablePred p] (l init : List Key)
    (hnd : init.Nodup) :
    (l.foldl (fun acc v => if p v then set_insert acc v else acc) init).Nodup ∧
    ∀ k, k ∈ l.foldl (fun acc v => if p v then set_insert acc v else acc) init ↔
      k ∈ init ∨ (k ∈ l ∧ p k) := by
  induction l generalizing init with
  | nil => simp [hnd]
  | cons a l ih =>
    simp only [List.foldl_cons]
    by_cases hp : p a
    · simp only [hp, if_true]
      obtain ⟨h1, h2⟩ := ih (set_insert init a) (nodup_set_insert a hnd)
      refine ⟨h1, fun k => ?_⟩
      rw [h2, mem_set_insert]
      constructor
      · rintro ((h | rfl) | ⟨h, hk⟩)
        · exact Or.inl h
        · exact Or.inr ⟨List.mem_cons_self _ _, hp⟩
        · exact Or.inr ⟨List.mem_cons_of_mem _ h, hk⟩
      · rintro (h | ⟨h, hk⟩)
        · exact Or.inl (Or.inl h)
        · rcases List.mem_cons.1 h with rfl | h
          · exact Or.inl (Or.inr rfl)
          · exact Or.inr ⟨h, hk⟩
    · simp only [hp, if_false]
      obtain ⟨h1, h2⟩ := ih init hnd
      refine ⟨h1, fun k => ?_⟩
      rw [h2]
      constructor
      · rintro (h | ⟨h, hk⟩)
        · exact Or.inl h
        · exact Or.inr ⟨List.mem_cons_of_mem _ h, hk⟩
      · rintro (h | ⟨h, hk⟩)
        · exact Or.inl h
        · rcases List.mem_cons.1 h with rfl | h
          · exact absurd hk hp
          · exact Or.inr ⟨h, hk⟩

theorem insert_keys_spec (s : List Key) (l : List (flash_ptr × StrideInfo)) (hnd : s.Nodup) :
    (insert_keys s l).Nodup ∧
    ∀ k, k ∈ insert_keys s l ↔ k ∈ s ∨ k ∈ l.map fun e => (⟨e.1, e.2⟩ : Key) := by
  have h := fold_insert_spec (fun _ => True) (l.map fun e => (⟨e.1, e.2⟩ : Key)) s hnd
  simp only [if_true, List.foldl_map, and_true] at h
  exact h

theorem set_difference_spec (a b : List Key) :
    (set_difference a b).Nodup ∧ ∀ k, k ∈ set_difference a b ↔ k ∈ a ∧ k ∉ b := by
  have h := fold_insert_spec (fun v => v ∉ b) a [] List.nodup_nil
  simp only [List.not_mem_nil, false_or] at h
  exact h

theorem set_intersection_spec (a b : List Key) :
    (set_intersection a b).Nodup ∧ ∀ k, k ∈ set_intersection a b ↔ k ∈ a ∧ k ∈ b := by
  unfold set_intersection
  by_cases hlen : a.length > b.length
  · simp only [hlen, if_true]
    have h := fold_insert_spec (fun v => v ∈ a) b [] List.nodup_nil
    simp only [List.not_mem_nil, false_or] at h
    exact ⟨h.1, fun k => (h.2 k).trans And.comm⟩
  · simp only [hlen, if_false]
    have h := fold_insert_spec (fun v => v ∈ b) a [] List.nodup_nil
    simp only [List.not_mem_nil, false_or] at h
    exact h

theorem task_keys_nodup (t : BaseTask) : (task_keys t).Nodup :=
  (insert_keys_spec _ _ (insert_keys_spec [] _ List.nodup_nil).1).1

theorem mem_task_keys (t : BaseTask) (k : Key) :
    k ∈ task_keys t ↔ k ∈ insert_keys [] t.read_list ∨ k ∈ insert_keys [] t.write_list := by
  unfold task_keys
  rw [(insert_keys_spec _ _ (insert_keys_spec [] _ List.nodup_nil).1).2,
    (insert_keys_spec [] t.write_list List.nodup_nil).2]
  simp

/-- `alloc_bufs` keeps the invariant and allocates nothing. -/
theorem alloc_bufs_sat {c : Cache} (h : c.Inv) (t : BaseTask) :
    Holds (fun s => s.1.Inv ∧ s.1.max_size = c.max_size ∧ s.1.real_size = c.real_size)
      (alloc_bufs c t) := by
  unfold alloc_bufs
  simp only
  apply Holds.after_of (alloc_loop_sat alloc_read_only
    (fun c t k hc => alloc_read_only_sat hc t k) _ c t h)
  rintro ⟨c1, t1⟩ ⟨i1, m1, r1, _⟩
  apply Holds.after_of (alloc_loop_sat alloc_write_only
    (fun c t k hc => alloc_write_only_sat hc t k) _ c1 t1 i1)
  rintro ⟨c2, t2⟩ ⟨i2, m2, r2, _⟩
  apply Holds.weaken (alloc_loop_sat alloc_read_write
    (fun c t k hc => alloc_read_write_sat hc t k) _ c2 t2 i2)
  rintro ⟨c3, t3⟩ ⟨i3, m3, r3, _⟩
  exact ⟨i3, m3.trans (m2.trans m1), r3.trans (r2.trans r1)⟩

end flash

namespace flash

/-! ## Theorems: eviction and `allocate` -/

/-- The bytes of a zero-ref entry are part of both budgets. -/
theorem Cache.Inv.size_le_zero {c : Cache} (h : c.Inv) {k : Key} {v : Value}
    (hk : kv_find c.zero_ref_map k = some v) :
    buf_size k.sinfo ≤ c.committed ∧ buf_size k.sinfo ≤ c.resident := by
  have h1 := weight_at_le size_weight k h.nd_zero
  rw [weight_at_some hk] at h1
  simp only [size_weight] at h1
  unfold Cache.committed Cache.resident
  omega

theorem Cache.Inv.commit_lt {c : Cache} (h : c.Inv) : c.commit_size < 2 ^ 64 := by
  rw [h.commit_eq]
  exact Nat.mod_lt _ (by norm_num)

theorem Cache.Inv.real_lt {c : Cache} (h : c.Inv) : c.real_size < 2 ^ 64 := by
  rw [h.real_eq]
  exact Nat.mod_lt _ (by norm_num)

/-- One iteration of `evict`: the invariant holds afterwards, the bytes of `k`
have been subtracted from `commit_size`, and from `real_size` when the buffer
has been freed; when the counters had not wrapped they still have not. -/
theorem evict_one_sat {c : Cache} (h : c.Inv) (k : Key) :
    Holds (fun c' => c'.Inv ∧ c'.max_size = c.max_size ∧
      c'.commit_size = sub64 c.commit_size (buf_size k.sinfo) ∧
      (c'.real_size = c.real_size ∨ c'.real_size = sub64 c.real_size (buf_size k.sinfo)) ∧
      (c.Exact → c'.Exact ∧ c'.commit_size + buf_size k.sinfo = c.commit_size ∧
        (c'.real_size = c.real_size ∨ c'.real_size + buf_size k.sinfo = c.real_size)) ∧
      ∀ k', k' ≠ k → same_at c c' k')
      (evict_one c k) := by
  unfold evict_one
  by_cases hz : is_zero_ref c k = true
  · obtain ⟨v0, hv0⟩ := find_of_ne_none ((is_zero_ref_iff c k).1 hz)
    simp only [hz, Bool.not_true, Bool.false_eq_true, if_false, kv_get_of_find hv0]
    by_cases hn : v0.n_refs ≠ 0
    · rw [if_pos hn]
      exact Holds.of_throw
    · rw [if_neg hn]
      have hl := h.loc k
      rw [hv0] at hl
      have ha : kv_find c.active_map k = none := by
        rcases hl.active_zero with h1 | h1
        · exact h1
        · cases h1
      have hi : kv_find c.io_map k = none := by
        rcases hl.io_zero with h1 | h1
        · exact h1
        · cases h1
      have hq : kv_find c.alloc_backlog k = none := by
        rcases hl.backlog_zero with h1 | h1
        · exact h1
        · cases h1
      obtain ⟨hle1, hle2⟩ := h.size_le_zero hv0
      have hs1 := wsum_erase size_weight k h.nd_zero
      rw [weight_at_some hv0] at hs1
      have hce := h.commit_eq
      have hre := h.real_eq
      have hbs := buf_size_lt k.sinfo
      by_cases hw : v0.write_back = true
      · rw [if_pos hw]
        have hs2 := wsum_set commit_weight k
          { v0 with evicted := true, complete := some false } h.nd_io
        have hs3 := wsum_set real_weight k
          { v0 with evicted := true, complete := some false } h.nd_io
        rw [weight_at_none hi] at hs2 hs3
        simp only [commit_weight, if_true] at hs2
        simp only [real_weight, Bool.true_and, bne_self_eq_false, Bool.false_eq_true,
          if_false] at hs3
        refine Holds.of_pure ⟨⟨h.nd_active, nodup_keys_set k _ h.nd_io,
          nodup_keys_erase k h.nd_zero, h.nd_backlog, ?_, ?_, ?_⟩, rfl, rfl, Or.inl rfl, ?_, ?_⟩
        · intro k'
          have hl' := h.loc k'
          simp only [kv_find_set, kv_find_erase]
          by_cases hkk : k' = k
          · subst hkk
            rw [ha, hi, hq] at hl'
            simp only [if_true, ha, hq]
            refine ⟨Or.inl rfl, Or.inl rfl, Or.inr rfl, Or.inl rfl, Or.inl rfl, ?_, ?_⟩
            · intro hne
              exact absurd rfl hne
            · intro v hv
              cases hv
          · simpa only [hkk, if_false] using hl'
        · simp only [Cache.committed, size_weight, sub64] at *
          omega
        · simp only [Cache.resident, size_weight] at *
          omega
        · intro hex
          have e1 := hex.commit_eq
          have e2 := hex.real_eq
          refine ⟨⟨?_, ?_⟩, ?_, Or.inl rfl⟩
          · simp only [Cache.committed, size_weight, sub64] at *
            omega
          · simp only [Cache.resident, size_weight] at *
            omega
          · simp only [Cache.committed, size_weight, sub64] at *
            omega
        · intro k' hk'
          refine ⟨rfl, ?_, ?_⟩
          · simp only [kv_find_set, hk', if_false]
          · simp only [kv_find_erase, hk', if_false]
      · rw [if_neg hw]
        refine Holds.of_pure ⟨⟨h.nd_active, h.nd_io, nodup_keys_erase k h.nd_zero,
          h.nd_backlog, ?_, ?_, ?_⟩, rfl, rfl, Or.inr rfl, ?_, ?_⟩
        · intro k'
          have hl' := h.loc k'
          simp only [kv_find_erase]
          by_cases hkk : k' = k
          · subst hkk
            rw [ha, hi, hq] at hl'
            simp only [if_true, ha, hq, hi]
            refine ⟨Or.inl rfl, Or.inl rfl, Or.inr rfl, Or.inl rfl, Or.inl rfl, ?_, ?_⟩
            · intro hne
              exact absurd rfl hne
            · intro v hv
              cases hv
          · simpa only [hkk, if_false] using hl'
        · simp only [Cache.committed, size_weight, sub64] at *
          omega
        · simp only [Cache.resident, size_weight, sub64] at *
          omega
        · intro hex
          have e1 := hex.commit_eq
          have e2 := hex.real_eq
          refine ⟨⟨?_, ?_⟩, ?_, Or.inr ?_⟩
          · simp only [Cache.committed, size_weight, sub64] at *
            omega
          · simp only [Cache.resident, size_weight, sub64] at *
            omega
          · simp only [Cache.committed, size_weight, sub64] at *
            omega
          · simp only [Cache.resident, size_weight, sub64] at *
            omega
        · intro k' hk'
          refine ⟨rfl, rfl, ?_⟩
          simp only [kv_find_erase, hk', if_false]
  · simp only [hz, Bool.not_false, if_true]
    exact Holds.of_throw

theorem evict_sat {c : Cache} (h : c.Inv) (ks : List Key) :
    Holds (fun c' => c'.Inv ∧ c'.max_size = c.max_size ∧
      c'.commit_size = sub64 c.commit_size (ks.map fun k => buf_size k.sinfo).sum ∧
      ∀ k', k' ∉ ks → same_at c c' k') (evict c ks) := by
  unfold evict
  induction ks generalizing c with
  | nil =>
    refine Holds.of_pure ⟨h, rfl, ?_, fun k' _ => same_at_refl c k'⟩
    simp only [List.map_nil, List.sum_nil]
    exact (sub64_zero _ h.commit_lt).symm
  | cons k ks ih =>
    rw [List.foldlM_cons]
    apply Holds.bind_of (evict_one_sat h k)
    rintro c1 ⟨i1, m1, b1, _, _, f1⟩
    apply Holds.weaken (ih i1)
    rintro c2 ⟨i2, m2, b2, f2⟩
    refine ⟨i2, m2.trans m1, ?_, ?_⟩
    · simp only [List.map_cons, List.sum_cons]
      rw [b2, b1, sub64_sub64]
    · intro k' hk'
      simp only [List.mem_cons, not_or] at hk'
      obtain ⟨a1, a2, a3⟩ := f1 k' hk'.1
      obtain ⟨b1, b2, b3⟩ := f2 k' hk'.2
      exact ⟨b1.trans a1, b2.trans a2, b3.trans a3⟩

/-- The scan of `try_evict`: the size it has accumulated, a `FBLAS_UINT`, is
at most the sum of the sizes of the keys it has added, and no chosen key is
excluded. -/
theorem try_evict_scan_spec (excl : List Key) (size : Nat) (m : KVMap) (sz : Nat)
    (ks : List Key) (hnd : (keys m).Nodup) (hdis : ∀ k ∈ ks, k ∉ keys m)
    (hex : ∀ k ∈ ks, k ∉ excl) :
    (ks.map fun k => buf_size k.sinfo).sum + (try_evict_scan excl size m sz ks).1 ≤
      ((try_evict_scan excl size m sz ks).2.map fun k => buf_size k.sinfo).sum + sz ∧
    ∀ k ∈ (try_evict_scan excl size m sz ks).2, k ∉ excl := by
  induction m generalizing sz ks with
  | nil => exact ⟨by simp [try_evict_scan], hex⟩
  | cons e m ih =>
    obtain ⟨key, v⟩ := e
    have hnd' : (keys m).Nodup := by
      unfold keys at hnd ⊢
      exact (List.nodup_cons.1 hnd).2
    have hkey : key ∉ keys m := by
      unfold keys at hnd ⊢
      exact (List.nodup_cons.1 hnd).1
    have hdis' : ∀ k ∈ ks, k ∉ keys m := by
      intro k hk hkm
      apply hdis k hk
      unfold keys at hkm ⊢
      exact List.mem_cons_of_mem _ hkm
    have hks : key ∉ ks := by
      intro hk
      apply hdis key hk
      unfold keys
      exact List.mem_cons_self _ _
    unfold try_evict_scan
    by_cases hx : key ∉ excl
    · simp only [hx, not_false_eq_true, if_true]
      have hins : set_insert ks key = ks ++ [key] := by
        unfold set_insert
        rw [if_neg hks]
      have hex2 : ∀ k ∈ set_insert ks key, k ∉ excl := by
        intro k hk
        rcases (mem_set_insert ks key k).1 hk with h1 | rfl
        · exact hex k h1
        · exact hx
      have hadd : add64 sz (buf_size key.sinfo) ≤ sz + buf_size key.sinfo := Nat.mod_le _ _
      by_cases hge : add64 sz (buf_size key.sinfo) ≥ size
      · simp only [hge, if_true]
        refine ⟨?_, hex2⟩
        rw [hins]
        simp only [List.map_append, List.sum_append, List.map_cons, List.map_nil,
          List.sum_cons, List.sum_nil]
        omega
      · simp only [hge, if_false]
        have hdis2 : ∀ k ∈ set_insert ks key, k ∉ keys m := by
          intro k hk
          rcases (mem_set_insert ks key k).1 hk with h1 | rfl
          · exact hdis' k h1
          · exact hkey
        obtain ⟨h1, h2⟩ := ih (add64 sz (buf_size key.sinfo)) (set_insert ks key) hnd' hdis2
          hex2
        refine ⟨?_, h2⟩
        rw [hins] at h1 ⊢
        simp only [List.map_append, List.sum_append, List.map_cons, List.map_nil,
          List.sum_cons, List.sum_nil] at h1
        omega
    · simp only [hx, if_false]
      exact ih sz ks hnd' hdis' hex

theorem try_evict_sat {c : Cache} (h : c.Inv) (excl : List Key) (size : Nat) :
    Holds (fun r => r.2.Inv ∧ r.2.max_size = c.max_size ∧
      (r.1 = true → ∀ k' ∈ excl, same_at c r.2 k'))
      (try_evict c excl size) := by
  unfold try_evict
  simp only
  split_ifs with h1 h2
  · exact Holds.of_pure ⟨h, rfl, fun hf => by simp at hf⟩
  · exact Holds.of_pure ⟨h, rfl, fun hf => by simp at hf⟩
  · obtain ⟨_, hex⟩ := try_evict_scan_spec excl size c.zero_ref_map 0 [] h.nd_zero
      (fun k hk => by simp at hk) (fun k hk => by simp at hk)
    apply Holds.after_of (evict_sat h _)
    rintro c' ⟨i1, m1, _, f1⟩
    refine Holds.of_pure ⟨i1, m1, fun _ => ?_⟩
    intro k' hk'
    exact f1 k' fun hm => hex k' hm hk'

/-- `allocate` keeps the invariant. -/
theorem allocate_sat {c : Cache} (h : c.Inv) (t : BaseTask) :
    Holds (fun r => r.2.1.Inv ∧ r.2.1.max_size = c.max_size) (allocate c t) := by
  unfold allocate
  simp only
  split_ifs with hs
  · apply Holds.after_of (alloc_bufs_sat h t)
    rintro ⟨c1, t1⟩ ⟨i1, m1, _⟩
    exact Holds.of_pure ⟨i1, m1⟩
  · apply Holds.after_of (try_evict_sat h (task_keys t) _)
    rintro ⟨ok, c1⟩ ⟨i1, m1, _⟩
    cases ok with
    | false => exact Holds.of_pure ⟨i1, m1⟩
    | true =>
      simp only [if_true]
      apply Holds.after_of (alloc_bufs_sat i1 t)
      rintro ⟨c2, t2⟩ ⟨i2, m2, _⟩
      exact Holds.of_pure ⟨i2, m2.trans m1⟩

end flash
namespace flash

/-! ## Theorems: `release` -/

/-- The bytes of an active entry are part of both budgets. -/
theorem Cache.Inv.size_le_active {c : Cache} (h : c.Inv) {k : Key} {v : Value}
    (hk : kv_find c.active_map k = some v) :
    buf_size k.sinfo ≤ c.committed ∧ buf_size k.sinfo ≤ c.resident := by
  have h1 := weight_at_le size_weight k h.nd_active
  rw [weight_at_some hk] at h1
  simp only [size_weight] at h1
  unfold Cache.committed Cache.resident
  omega

/-- Replacing the value of an active entry leaves the bytes held where they
are. -/
theorem Cache.Exact.keep_set_active {c : Cache} (h : c.Inv) (hex : c.Exact) (k : Key) (v v0 : Value)
    (hk : kv_find c.active_map k = some v0) :
    Cache.Exact { c with active_map := kv_set c.active_map k v } := by
  have hs := wsum_set size_weight k v h.nd_active
  rw [weight_at_some hk] at hs
  have e1 := hex.commit_eq
  have e2 := hex.real_eq
  constructor
  · simp only [Cache.committed, size_weight] at *
    omega
  · simp only [Cache.resident, size_weight] at *
    omega

/-- Dropping an active entry and giving its bytes back keeps the invariant. -/
theorem Cache.Inv.erase_active {c : Cache} (h : c.Inv) (k : Key) (v0 : Value)
    (hk : kv_find c.active_map k = some v0) (fr : List Nat) :
    Cache.Inv { c with active_map := kv_erase c.active_map k,
                       commit_size := sub64 c.commit_size (buf_size k.sinfo),
                       real_size := sub64 c.real_size (buf_size k.sinfo),
                       freed := fr } := by
  have hs1 := wsum_erase size_weight k h.nd_active
  rw [weight_at_some hk] at hs1
  have hce := h.commit_eq
  have hre := h.real_eq
  have hbs := buf_size_lt k.sinfo
  refine ⟨nodup_keys_erase k h.nd_active, h.nd_io, h.nd_zero, h.nd_backlog, ?_, ?_, ?_⟩
  · intro k'
    have hl' := h.loc k'
    simp only [kv_find_erase]
    by_cases hkk : k' = k
    · subst hkk
      rw [hk] at hl'
      obtain ⟨h1, h2, h3, h4, h5, h6, h7⟩ := hl'
      simp only [if_true]
      exact ⟨Or.inl rfl, Or.inl rfl, h3, Or.inr rfl, h5, h6, h7⟩
    · simpa only [hkk, if_false] using hl'
  · simp only [Cache.committed, size_weight, sub64] at *
    omega
  · simp only [Cache.resident, size_weight, sub64] at *
    omega

/-- Dropping an active entry while the counters have not wrapped: they still
have not, and each has lost the bytes of the entry. -/
theorem Cache.Exact.keep_erase_active {c : Cache} (h : c.Inv) (hex : c.Exact) (k : Key) (v0 : Value)
    (hk : kv_find c.active_map k = some v0) (fr : List Nat) :
    Cache.Exact { c with active_map := kv_erase c.active_map k,
                         commit_size := sub64 c.commit_size (buf_size k.sinfo),
                         real_size := sub64 c.real_size (buf_size k.sinfo),
                         freed := fr } ∧
    sub64 c.commit_size (buf_size k.sinfo) + buf_size k.sinfo = c.commit_size ∧
    sub64 c.real_size (buf_size k.sinfo) + buf_size k.sinfo = c.real_size := by
  obtain ⟨hle1, hle2⟩ := h.size_le_active hk
  have hs1 := wsum_erase size_weight k h.nd_active
  rw [weight_at_some hk] at hs1
  have e1 := hex.commit_eq
  have e2 := hex.real_eq
  have hc := h.commit_lt
  have hr := h.real_lt
  have hsc : sub64 c.commit_size (buf_size k.sinfo) = c.commit_size - buf_size k.sinfo :=
    sub64_eq _ _ (by omega) hc
  have hsr : sub64 c.real_size (buf_size k.sinfo) = c.real_size - buf_size k.sinfo :=
    sub64_eq _ _ (by omega) hr
  rw [hsc, hsr]
  refine ⟨⟨?_, ?_⟩, by omega, by omega⟩
  · simp only [Cache.committed, size_weight] at *
    omega
  · simp only [Cache.resident, size_weight] at *
    omega

/-- Moving an active entry to `zero_ref_map` keeps the invariant. -/
theorem Cache.Inv.active_to_zero {c : Cache} (h : c.Inv) (k : Key) (v0 : Value)
    (hk : kv_find c.active_map k = some v0) :
    Cache.Inv { c with active_map := kv_erase c.active_map k,
                       zero_ref_map := kv_set c.zero_ref_map k v0 } := by
  have hl := h.loc k
  rw [hk] at hl
  have hz : kv_find c.zero_ref_map k = none := by
    rcases hl.active_zero with h1 | h1
    · cases h1
    · exact h1
  have hs1 := wsum_erase size_weight k h.nd_active
  rw [weight_at_some hk] at hs1
  have hs2 := wsum_set size_weight k v0 h.nd_zero
  rw [weight_at_none hz] at hs2
  refine ⟨nodup_keys_erase k h.nd_active, h.nd_io, nodup_keys_set k _ h.nd_zero, h.nd_backlog,
    ?_, ?_, ?_⟩
  · intro k'
    have hl' := h.loc k'
    simp only [kv_find_set, kv_find_erase]
    by_cases hkk : k' = k
    · subst hkk
      rw [hk] at hl'
      obtain ⟨h1, h2, h3, h4, h5, h6, h7⟩ := hl'
      constructor <;> simp_all
    · simpa only [hkk, if_false] using hl'
  · have := h.commit_eq
    simp only [Cache.committed, size_weight] at *
    omega
  · have := h.real_eq
    simp only [Cache.resident, size_weight] at *
    omega

/-- Moving an active entry to `zero_ref_map` leaves the bytes held where they
are. -/
theorem Cache.Exact.keep_active_to_zero {c : Cache} (h : c.Inv) (hex : c.Exact) (k : Key)
    (v0 : Value) (hk : kv_find c.active_map k = some v0) :
    Cache.Exact { c with active_map := kv_erase c.active_map k,
                         zero_ref_map := kv_set c.zero_ref_map k v0 } := by
  have hl := h.loc k
  rw [hk] at hl
  have hz : kv_find c.zero_ref_map k = none := by
    rcases hl.active_zero with h1 | h1
    · cases h1
    · exact h1
  have hs1 := wsum_erase size_weight k h.nd_active
  rw [weight_at_some hk] at hs1
  have hs2 := wsum_set size_weight k v0 h.nd_zero
  rw [weight_at_none hz] at hs2
  have e1 := hex.commit_eq
  have e2 := hex.real_eq
  constructor
  · simp only [Cache.committed, size_weight] at *
    omega
  · simp only [Cache.resident, size_weight] at *
    omega

/-- One key of `release`: the invariant holds afterwards, and counters that
had not wrapped still have not. -/
theorem release_one_sat {c : Cache} (h : c.Inv) (k : Key) :
    Holds (fun c' => c'.Inv ∧ c'.max_size = c.max_size ∧ (c.Exact → c'.Exact))
      (release_one c k) := by
  unfold release_one
  by_cases ha : is_active c k = true
  · obtain ⟨v0, hv0⟩ := find_of_ne_none ((is_active_iff c k).1 ha)
    simp only [ha, Bool.not_true, Bool.false_eq_true, if_false, kv_get_of_find hv0]
    generalize sub64 v0.n_refs 1 = n
    have h1 := h.set_active k { v0 with n_refs := n } v0 hv0
    have x1 := fun hex => Cache.Exact.keep_set_active h hex k { v0 with n_refs := n } v0 hv0
    have hf1 : kv_find (kv_set c.active_map k { v0 with n_refs := n }) k =
        some { v0 with n_refs := n } := by
      rw [kv_find_set, if_pos rfl]
    rcases Classical.em (n = 0) with hn | hn
    · rw [if_pos hn]
      by_cases hd : c.single_use_discard = true
      · rw [if_pos hd]
        exact Holds.of_pure ⟨h1.erase_active k _ hf1 _, rfl,
          fun hex => (Cache.Exact.keep_erase_active h1 (x1 hex) k _ hf1 _).1⟩
      · rw [if_neg hd]
        unfold move_active_to_zero
        simp only [kv_get_of_find hf1]
        rw [if_neg (by simpa using hn)]
        exact Holds.of_pure ⟨h1.active_to_zero k _ hf1, rfl,
          fun hex => Cache.Exact.keep_active_to_zero h1 (x1 hex) k _ hf1⟩
    · rw [if_neg hn]
      exact Holds.of_pure ⟨h1, rfl, x1⟩
  · simp only [ha, Bool.not_false, if_true]
    exact Holds.of_throw

/-- `release` keeps the invariant. -/
theorem release_sat {c : Cache} (h : c.Inv) (t : BaseTask) :
    Holds (fun c' => c'.Inv ∧ c'.max_size = c.max_size) (release c t) := by
  unfold release
  apply Holds.fold release_one (fun c' => c'.Inv ∧ c'.max_size = c.max_size) _ _ _ ⟨h, rfl⟩
  intro s a hs
  exact Holds.weaken (release_one_sat hs.1 a) fun c' hc' => ⟨hc'.1, hc'.2.1.trans hs.2⟩

end flash
namespace flash

/-! ## Theorems: `service_backlog` -/

/-- Moving a transfer that is not an eviction from `io_map` to `active_map`
keeps the invariant, whatever the other fields of the new value. -/
theorem Cache.Inv.io_to_active {c : Cache} (h : c.Inv) (k : Key) (v0 v : Value)
    (hk : kv_find c.io_map k = some v0) (hev : v0.evicted = false) :
    Cache.Inv { c with active_map := kv_set c.active_map k v,
                       io_map := kv_erase c.io_map k } := by
  have hl := h.loc k
  rw [hk] at hl
  have ha : kv_find c.active_map k = none := by
    rcases hl.active_io with h1 | h1
    · exact h1
    · cases h1
  have hs1 := wsum_set size_weight k v h.nd_active
  rw [weight_at_none ha] at hs1
  have hs2 := wsum_erase commit_weight k h.nd_io
  rw [weight_at_some hk] at hs2
  have hs3 := wsum_erase real_weight k h.nd_io
  rw [weight_at_some hk] at hs3
  refine ⟨nodup_keys_set k _ h.nd_active, nodup_keys_erase k h.nd_io, h.nd_zero, h.nd_backlog,
    ?_, ?_, ?_⟩
  · intro k'
    have hl' := h.loc k'
    simp only [kv_find_set, kv_find_erase]
    by_cases hkk : k' = k
    · subst hkk
      rw [hk] at hl'
      obtain ⟨h1, h2, h3, h4, h5, h6, h7⟩ := hl'
      have h6' := fun hb => h6 hb v0 rfl
      constructor <;> simp_all
    · simpa only [hkk, if_false] using hl'
  · have := h.commit_eq
    simp only [Cache.committed, size_weight, commit_weight, hev] at *
    simp only [Bool.false_eq_true, if_false] at hs2
    omega
  · have := h.real_eq
    simp only [Cache.resident, size_weight, real_weight, hev] at *
    simp only [Bool.false_and, Bool.false_eq_true, if_false] at hs3
    omega

/-- Dropping the `io_map` entry of an eviction whose write has completed
keeps the invariant. -/
theorem Cache.Inv.erase_io {c : Cache} (h : c.Inv) (k : Key) (v0 : Value)
    (hk : kv_find c.io_map k = some v0) (hev : v0.evicted = true)
    (hc : v0.complete ≠ some false) :
    Cache.Inv { c with io_map := kv_erase c.io_map k } := by
  have hs2 := wsum_erase commit_weight k h.nd_io
  rw [weight_at_some hk] at hs2
  have hs3 := wsum_erase real_weight k h.nd_io
  rw [weight_at_some hk] at hs3
  refine ⟨h.nd_active, nodup_keys_erase k h.nd_io, h.nd_zero, h.nd_backlog,
    ?_, ?_, ?_⟩
  · intro k'
    have hl' := h.loc k'
    simp only [kv_find_erase]
    by_cases hkk : k' = k
    · subst hkk
      obtain ⟨h1, h2, h3, h4, h5, h6, h7⟩ := hl'
      simp only [if_true]
      refine ⟨Or.inr rfl, h2, Or.inl rfl, h4, h5, ?_, h7⟩
      intro _ v hv
      cases hv
    · simpa only [hkk, if_false] using hl'
  · have := h.commit_eq
    simp only [commit_weight, hev, if_true] at hs2
    simp only [Cache.committed] at *
    omega
  · have := h.real_eq
    have hw : real_weight (k, v0) = 0 := by
      simp only [real_weight, hev, Bool.true_and]
      rw [if_pos]
      simpa using hc
    rw [hw] at hs3
    simp only [Cache.resident] at *
    omega

/-- One step of the first loop of `service_backlog` keeps the invariant and
the two counters. -/
theorem reap_step_sat {c : Cache} (h : c.Inv) (e : Key × Value) :
    Holds (fun c' => c'.Inv ∧ c'.max_size = c.max_size ∧ c'.real_size = c.real_size ∧
      c'.commit_size = c.commit_size ∧ c'.alloc_backlog = c.alloc_backlog)
      (reap_step c e) := by
  unfold reap_step
  apply Holds.after_of (load_complete_sat _)
  intro done _
  cases done with
  | false => exact Holds.of_pure ⟨h, rfl, rfl, rfl, rfl⟩
  | true =>
    simp only [if_true]
    apply Holds.after_of (h.reap e.1)
    rintro c1 ⟨i1, v, hv, hc, rfl⟩
    have hf : kv_find (kv_set c.io_map e.1 { v with complete := none }) e.1 =
        some { v with complete := none } := by
      rw [kv_find_set, if_pos rfl]
    simp only [kv_get_of_find hf]
    by_cases hev : v.evicted = true
    · rw [if_neg (by simp [hev])]
      exact Holds.of_pure ⟨i1.erase_io e.1 _ hf hev (by simp), rfl, rfl, rfl, rfl⟩
    · rw [if_pos (by simpa using hev)]
      split_ifs with ha
      · exact Holds.of_throw
      · exact Holds.of_pure ⟨i1.io_to_active e.1 _ _ hf (by simpa using hev), rfl, rfl, rfl, rfl⟩

/-- The first loop of `service_backlog` keeps the invariant and the two
counters. -/
theorem reap_loop_sat {c : Cache} (h : c.Inv) (l : KVMap) :
    Holds (fun c' => c'.Inv ∧ c'.max_size = c.max_size ∧ c'.real_size = c.real_size ∧
      c'.commit_size = c.commit_size ∧ c'.alloc_backlog = c.alloc_backlog)
      (l.foldlM reap_step c) := by
  apply Holds.fold reap_step _ _ _ _ ⟨h, rfl, rfl, rfl, rfl⟩
  rintro s a ⟨i1, m1, r1, b1, q1⟩
  apply Holds.weaken (reap_step_sat i1 a)
  rintro c2 ⟨i2, m2, r2, b2, q2⟩
  exact ⟨i2, m2.trans m1, r2.trans r1, b2.trans b1, q2.trans q1⟩

end flash
namespace flash

/-! ## Theorems: the allocation loop of `service_backlog` and I/O completion -/

theorem keys_cons (k : Key) (v : Value) (m : KVMap) : keys ((k, v) :: m) = k :: keys m := rfl

/-- Serving the entry at the front of the backlog keeps the invariant: the
entry leaves `alloc_backlog`, enters `io_map` with a freshly allocated buffer,
and the size of the buffer is added to `real_size`. -/
theorem Cache.Inv.serve {c : Cache} (k : Key) (v v1 : Value) (rest : KVMap) (nb : Nat)
    (iss : List IoTask) (h : Cache.Inv { c with alloc_backlog := (k, v) :: rest })
    (hio : kv_find c.io_map k = none) (hev : v1.evicted = false) :
    Cache.Inv { c with real_size := add64 c.real_size (buf_size k.sinfo), next_buf := nb,
                       io_map := kv_set c.io_map k v1, issued := iss,
                       alloc_backlog := rest } := by
  have hnd := h.nd_backlog
  simp only [keys_cons, List.nodup_cons] at hnd
  have hq : kv_find rest k = none := (kv_find_none_iff rest k).2 hnd.1
  have hs2 := wsum_set commit_weight k v1 h.nd_io
  have hs3 := wsum_set real_weight k v1 h.nd_io
  simp only at hs2 hs3
  rw [weight_at_none hio] at hs2 hs3
  have hce := h.commit_eq
  have hre := h.real_eq
  refine ⟨h.nd_active, nodup_keys_set k v1 h.nd_io, h.nd_zero, hnd.2, ?_, ?_, ?_⟩
  · intro k'
    have hl' := h.loc k'
    simp only [kv_find_cons] at hl'
    simp only [kv_find_set]
    by_cases hkk : k' = k
    · subst hkk
      simp only [if_true] at hl' ⊢
      rw [hio] at hl'
      rw [hq]
      obtain ⟨h1, h2, h3, h4, h5, h6, h7⟩ := hl'
      refine ⟨?_, ?_, ?_, Or.inl rfl, Or.inl rfl, ?_, ?_⟩
      · rcases h4 with h4 | h4
        · cases h4
        · exact Or.inl h4
      · exact h2
      · rcases h5 with h5 | h5
        · cases h5
        · exact Or.inr h5
      · intro hne
        exact absurd rfl hne
      · intro v hv
        cases hv
    · have hkk' : ¬ k = k' := fun e => hkk e.symm
      simpa only [hkk, hkk', if_false] using hl'
  · simp only [Cache.committed, wsum, List.map_cons, List.sum_cons, size_weight, commit_weight,
      hev] at *
    simp only [Bool.false_eq_true, if_false] at hs2
    omega
  · simp only [Cache.resident, wsum, size_weight, real_weight, hev, add64] at *
    simp only [Bool.false_and, Bool.false_eq_true, if_false] at hs3
    omega

/-- The second loop of `service_backlog` keeps the invariant, `max_size` and
`commit_size`. -/
theorem serve_backlog_inv (l : KVMap) (c : Cache)
    (h : Cache.Inv { c with alloc_backlog := l }) :
    (serve_backlog c l).Inv ∧ (serve_backlog c l).max_size = c.max_size ∧
      (serve_backlog c l).commit_size = c.commit_size := by
  induction l generalizing c with
  | nil => exact ⟨h, rfl, rfl⟩
  | cons e rest ih =>
    obtain ⟨k, v⟩ := e
    suffices H : ∀ c', c' = serve_backlog c ((k, v) :: rest) →
        c'.Inv ∧ c'.max_size = c.max_size ∧ c'.commit_size = c.commit_size from H _ rfl
    intro c' hc'
    unfold serve_backlog at hc'
    simp only at hc'
    by_cases hs : has_spare_real_mem_for c (buf_size k.sinfo) = true
    · have hs' : ¬ (!has_spare_real_mem_for c (buf_size k.sinfo)) = true := by simp [hs]
      rw [if_neg hs'] at hc'
      by_cases hi : is_in_io c k = true
      · rw [if_pos hi] at hc'
        subst hc'
        exact ⟨h, rfl, rfl⟩
      · rw [if_neg hi] at hc'
        have hio : kv_find c.io_map k = none := by
          rcases hf : kv_find c.io_map k with _ | v'
          · rfl
          · exact absurd ((is_in_io_iff c k).2 (by simp [hf])) hi
        have hfresh : v.evicted = false := by
          have hl := h.loc k
          simp only [kv_find_cons, if_true] at hl
          exact hl.backlog_fresh v rfl
        by_cases ha : v.alloc_only = true
        · have ha' : ¬ (!v.alloc_only) = true := by simp [ha]
          rw [if_neg ha'] at hc'
          subst hc'
          refine ih _ ?_
          exact Cache.Inv.serve k v _ rest _ _ h hio rfl
        · have ha' : (!v.alloc_only) = true := by simpa using ha
          rw [if_pos ha'] at hc'
          subst hc'
          refine ih _ ?_
          exact Cache.Inv.serve k v _ rest _ _ h hio hfresh
    · have hs' : (!has_spare_real_mem_for c (buf_size k.sinfo)) = true := by simpa using hs
      rw [if_pos hs'] at hc'
      subst hc'
      exact ⟨h, rfl, rfl⟩

/-- `service_backlog` keeps the invariant, `max_size` and `commit_size`. -/
theorem service_backlog_sat {c : Cache} (h : c.Inv) :
    Holds (fun c' => c'.Inv ∧ c'.max_size = c.max_size ∧ c'.commit_size = c.commit_size)
      (service_backlog c) := by
  unfold service_backlog
  apply Holds.after_of (reap_loop_sat h c.io_map)
  rintro c1 ⟨i1, m1, r1, b1, q1⟩
  obtain ⟨i2, m2, b2⟩ := serve_backlog_inv c1.alloc_backlog c1 i1
  exact Holds.of_pure ⟨i2, m2.trans m1, b2.trans b1⟩

/-- The bytes of an eviction whose write is pending are part of the allocated
memory. -/
theorem real_weight_pending {k : Key} {v : Value} (hev : v.evicted = true)
    (hc : v.complete = some false) : real_weight (k, v) = buf_size k.sinfo := by
  simp [real_weight, hev, hc]

/-- A whole completion callback keeps the invariant. -/
theorem io_done_inv {c : Cache} (h : c.Inv) (k : Key) : (io_done c k).Inv := by
  unfold io_done
  cases hf : kv_find c.io_map k with
  | none => exact h
  | some v =>
    simp only
    by_cases hc : v.complete = some false
    · rw [if_pos hc]
      by_cases hev : v.evicted = true
      · rw [if_pos hev]
        have hs2 := wsum_set commit_weight k { v with complete := some true } h.nd_io
        have hs3 := wsum_set real_weight k { v with complete := some true } h.nd_io
        rw [weight_at_some hf] at hs2 hs3
        have hw0 : real_weight (k, v) = buf_size k.sinfo := real_weight_pending hev hc
        have hw1 : real_weight (k, { v with complete := some true }) = 0 := by
          simp [real_weight, hev]
        have hw2 : commit_weight (k, { v with complete := some true }) = commit_weight (k, v) := by
          simp [commit_weight]
        rw [hw0, hw1] at hs3
        rw [hw2] at hs2
        have hce := h.commit_eq
        have hre := h.real_eq
        have hbs := buf_size_lt k.sinfo
        refine ⟨h.nd_active, nodup_keys_set k _ h.nd_io, h.nd_zero, h.nd_backlog, ?_, ?_, ?_⟩
        · intro k'
          have hl' := h.loc k'
          simp only [kv_find_set]
          by_cases hkk : k' = k
          · subst hkk
            rw [hf] at hl'
            obtain ⟨h1, h2, h3, h4, h5, h6, h7⟩ := hl'
            have h6' := fun hb => h6 hb v rfl
            constructor <;> simp_all
          · simpa only [hkk, if_false] using hl'
        · simp only [Cache.committed] at *
          omega
        · simp only [Cache.resident, sub64] at *
          omega
      · rw [if_neg hev]
        exact h.set_io k _ v hf rfl (by simp [real_weight, hev])
    · rw [if_neg hc]
      exact h

/-- The first statement of a completion callback keeps the invariant: the
bytes of an eviction pass from the `io_map` entry to `settling`. -/
theorem io_store_inv {c : Cache} (h : c.Inv) (k : Key) : (io_store c k).Inv := by
  unfold io_store
  cases hf : kv_find c.io_map k with
  | none => exact h
  | some v =>
    simp only
    by_cases hc : v.complete = some false
    · rw [if_pos hc]
      have hs2 := wsum_set commit_weight k { v with complete := some true } h.nd_io
      have hs3 := wsum_set real_weight k { v with complete := some true } h.nd_io
      rw [weight_at_some hf] at hs2 hs3
      have hw2 : commit_weight (k, { v with complete := some true }) = commit_weight (k, v) := by
        simp [commit_weight]
      rw [hw2] at hs2
      have hce := h.commit_eq
      have hre := h.real_eq
      refine ⟨h.nd_active, nodup_keys_set k _ h.nd_io, h.nd_zero, h.nd_backlog, ?_, ?_, ?_⟩
      · intro k'
        have hl' := h.loc k'
        simp only [kv_find_set]
        by_cases hkk : k' = k
        · subst hkk
          rw [hf] at hl'
          obtain ⟨h1, h2, h3, h4, h5, h6, h7⟩ := hl'
          have h6' := fun hb => h6 hb v rfl
          constructor <;> simp_all
        · simpa only [hkk, if_false] using hl'
      · simp only [Cache.committed] at *
        omega
      · by_cases hev : v.evicted = true
        · have hw0 : real_weight (k, v) = buf_size k.sinfo := real_weight_pending hev hc
          have hw1 : real_weight (k, { v with complete := some true }) = 0 := by
            simp [real_weight, hev]
          rw [hw0, hw1] at hs3
          simp only [Cache.resident, hev, if_true, settling_bytes_append] at *
          omega
        · have hw1 : real_weight (k, { v with complete := some true }) = real_weight (k, v) := by
            simp [real_weight, hev]
          rw [hw1] at hs3
          simp only [Cache.resident, hev, Bool.false_eq_true, if_false] at *
          omega
    · rw [if_neg hc]
      exact h

/-- The rest of the completion callback of an eviction keeps the invariant:
the bytes leave `settling` and `real_size`. -/
theorem io_settle_inv {c : Cache} (h : c.Inv) (k : Key) : (io_settle c k).Inv := by
  unfold io_settle
  cases hf : settling_find c.settling k with
  | none => exact h
  | some buf =>
    simp only
    have hd := settling_bytes_drop hf
    have hre := h.real_eq
    have hbs := buf_size_lt k.sinfo
    refine ⟨h.nd_active, h.nd_io, h.nd_zero, h.nd_backlog, h.loc, h.commit_eq, ?_⟩
    simp only [Cache.resident, sub64] at *
    omega

/-- An event of the I/O threads keeps the invariant. -/
theorem io_event_inv {c : Cache} (h : c.Inv) (e : IoEvent) : (io_event c e).Inv := by
  cases e with
  | done k => exact io_done_inv h k
  | store k => exact io_store_inv h k
  | settle k => exact io_settle_inv h k

theorem io_done_max (c : Cache) (k : Key) : (io_done c k).max_size = c.max_size := by
  unfold io_done
  cases kv_find c.io_map k with
  | none => rfl
  | some v =>
    simp only
    split_ifs <;> rfl

theorem io_store_max (c : Cache) (k : Key) : (io_store c k).max_size = c.max_size := by
  unfold io_store
  cases kv_find c.io_map k with
  | none => rfl
  | some v =>
    simp only
    split_ifs <;> rfl

theorem io_settle_max (c : Cache) (k : Key) : (io_settle c k).max_size = c.max_size := by
  unfold io_settle
  cases settling_find c.settling k with
  | none => rfl
  | some buf => rfl

theorem io_event_max (c : Cache) (e : IoEvent) : (io_event c e).max_size = c.max_size := by
  cases e with
  | done k => exact io_done_max c k
  | store k => exact io_store_max c k
  | settle k => exact io_settle_max c k

end flash
namespace flash

/-! ## Theorems: `flush`, and every sequence of operations -/

theorem io_event_fold_inv {c : Cache} (h : c.Inv) (l : List IoEvent) :
    (l.foldl io_event c).Inv ∧ (l.foldl io_event c).max_size = c.max_size := by
  induction l generalizing c with
  | nil => exact ⟨h, rfl⟩
  | cons e l ih =>
    rw [List.foldl_cons]
    obtain ⟨i1, m1⟩ := ih (io_event_inv h e)
    exact ⟨i1, m1.trans (io_event_max c e)⟩

/-- The waiting loop of `flush` keeps the invariant and `max_size`. -/
theorem flush_wait_sat (rounds : List (List IoEvent)) {c : Cache} (h : c.Inv) :
    Holds (fun c' => c'.Inv ∧ c'.max_size = c.max_size) (flush_wait rounds c) := by
  induction rounds generalizing c with
  | nil => exact Holds.of_pure ⟨h, rfl⟩
  | cons evs rounds ih =>
    unfold flush_wait
    split_ifs with he
    · exact Holds.of_pure ⟨h, rfl⟩
    · apply Holds.after_of (service_backlog_sat h)
      rintro c1 ⟨i1, m1, _⟩
      obtain ⟨i2, m2⟩ := io_event_fold_inv i1 evs
      apply Holds.weaken (ih i2)
      rintro c2 ⟨i3, m3⟩
      exact ⟨i3, m3.trans (m2.trans m1)⟩

/-- `flush` keeps the invariant and `max_size`. -/
theorem flush_sat {c : Cache} (h : c.Inv) (rounds : List (List IoEvent)) :
    Holds (fun c' => c'.Inv ∧ c'.max_size = c.max_size) (flush c rounds) := by
  unfold flush
  by_cases ha : (!c.active_map.isEmpty) = true
  · rw [if_pos ha]
    exact Holds.of_throw
  · rw [if_neg ha]
    have h1 : Holds (fun c' => c'.Inv ∧ c'.max_size = c.max_size)
        (if (!c.zero_ref_map.isEmpty) = true then evict c (keys c.zero_ref_map)
          else Pure.pure c) := by
      split_ifs with hz
      · exact Holds.weaken (evict_sat h _) fun c' hc' => ⟨hc'.1, hc'.2.1⟩
      · exact Holds.of_pure ⟨h, rfl⟩
    apply Holds.after_of h1
    rintro c1 ⟨i1, m1⟩
    apply Holds.after_of (flush_wait_sat rounds i1)
    rintro c2 ⟨i2, m2⟩
    split_ifs with he
    · exact Holds.of_throw
    · exact Holds.of_pure ⟨i2, m2.trans m1⟩

/-- Every operation and every event keeps the invariant and `max_size`. -/
theorem apply_op_sat {c : Cache} (h : c.Inv) (op : CacheOp) :
    Holds (fun c' => c'.Inv ∧ c'.max_size = c.max_size) (apply_op c op) := by
  cases op with
  | allocate tsk =>
    unfold apply_op
    apply Holds.after_of (allocate_sat h tsk)
    rintro r ⟨i1, m1⟩
    exact Holds.of_pure ⟨i1, m1⟩
  | get_buf fptr sinfo write_back =>
    unfold apply_op
    apply Holds.after_of (get_buf_sat h fptr sinfo write_back)
    rintro r hm
    exact Holds.of_pure ⟨hm.inv, hm.max_eq⟩
  | release tsk =>
    unfold apply_op
    exact release_sat h tsk
  | service_backlog =>
    unfold apply_op
    exact Holds.weaken (service_backlog_sat h) fun c' hs => ⟨hs.1, hs.2.1⟩
  | flush rounds =>
    unfold apply_op
    exact flush_sat h rounds
  | io_done k =>
    unfold apply_op
    exact Holds.of_pure ⟨io_done_inv h k, io_done_max c k⟩
  | io_store k =>
    unfold apply_op
    exact Holds.of_pure ⟨io_store_inv h k, io_store_max c k⟩
  | io_settle k =>
    unfold apply_op
    exact Holds.of_pure ⟨io_settle_inv h k, io_settle_max c k⟩
  | set_single_use_discard b =>
    unfold apply_op
    exact Holds.of_pure ⟨⟨h.nd_active, h.nd_io, h.nd_zero, h.nd_backlog, h.loc, h.commit_eq,
      h.real_eq⟩, rfl⟩

/-- Every sequence of operations keeps the invariant and `max_size`. -/
theorem run_sat {c : Cache} (h : c.Inv) (ops : List CacheOp) :
    Holds (fun c' => c'.Inv ∧ c'.max_size = c.max_size) (c.run ops) := by
  unfold Cache.run
  apply Holds.fold apply_op _ _ _ _ ⟨h, rfl⟩
  rintro s op ⟨i1, m1⟩
  apply Holds.weaken (apply_op_sat i1 op)
  rintro c2 ⟨i2, m2⟩
  exact ⟨i2, m2.trans m1⟩

/-- The empty cache satisfies the invariant. -/
theorem init_inv (max_size : Nat) : (Cache.init max_size).Inv := by
  refine ⟨List.nodup_nil, List.nodup_nil, List.nodup_nil, List.nodup_nil, ?_, rfl, rfl⟩
  intro k
  refine ⟨Or.inl rfl, Or.inl rfl, Or.inl rfl, Or.inl rfl, Or.inl rfl, ?_, ?_⟩
  · intro hne
    exact absurd rfl hne
  · intro v hv
    cases hv

/-- Every cache reached from the empty cache satisfies the invariant and has
the `max_size` it was created with. -/
theorem reachable_inv (max_size : Nat) (ops : List CacheOp) :
    Holds (fun c => c.Inv ∧ c.max_size = max_size) ((Cache.init max_size).run ops) :=
  run_sat (init_inv max_size) ops

end flash
namespace flash

/-! ## Theorems: the budgets and the disjointness of the maps -/

/-- C2. The budget test of `allocate` and the assertion of `add_backlog` add
`FBLAS_UINT` values.  (1) On a cache of 4096 bytes, for a task that reads two
slices of `2^63` bytes, `ask_size` is `2^63 + 2^63 = 0`, so
`has_spare_mem_for(ask_size)` holds, `alloc_bufs` runs, and the assertion
`commit_size <= max_size` of `add_backlog` fails on the first slice.  (2) On a
cache of 2048 bytes that holds the buffer of `kA` (1024 bytes) in
`zero_ref_map`, a task that writes a slice of `2^64 - 100` bytes passes the
test, since `1024 + (2^64 - 100) = 924`, and the assertion; after
`service_backlog` and `flush`, which evicts `kA`, no assertion has failed and
`commit_size` is `924 - 1024 = 2^64 - 100`, above `max_size = 2048`. -/
theorem commit_size_exceeds_max_size :
    buf_size kHalf.sinfo = 2 ^ 63 ∧ buf_size kHalf2.sinfo = 2 ^ 63 ∧
    (task_keys tHalves).foldl (fun sz key => add64 sz (ask_for (Cache.init 4096) key)) 0 = 0 ∧
    has_spare_mem_for (Cache.init 4096) 0 = true ∧
    (Cache.init 4096).run [.allocate tHalves] = Except.error Fault.add_backlog_commit ∧
    buf_size kHuge.sinfo = 2 ^ 64 - 100 ∧
    ((Cache.init 2048).run (huge_write.take 5)).toOption.map
      (fun c => (c.commit_size, keys c.zero_ref_map)) = some (1024, [kA]) ∧
    ((Cache.init 2048).run (huge_write.take 6)).toOption.map
      (fun c => (c.commit_size, keys c.zero_ref_map, keys c.alloc_backlog)) =
      some (924, [kA], [kHuge]) ∧
    ((Cache.init 2048).run huge_write_flush).toOption.map
      (fun c => (c.commit_size, c.max_size, keys c.active_map, keys c.zero_ref_map,
        keys c.io_map, keys c.alloc_backlog)) =
      some (2 ^ 64 - 100, 2048, [kHuge], [], [], []) := by
  refine ⟨by decide, by decide, by decide, by decide, rfl, by decide, by decide, by decide,
    rfl⟩

/-- C3. The test `real_size + req_size <= max_size` of
`has_spare_real_mem_for` adds `FBLAS_UINT` values.  On a cache of 2048 bytes
with the buffer of `kA` (1024 bytes) allocated, the backlog entry of a slice
of `2^64 - 100` bytes passes the test, since `1024 + (2^64 - 100) = 924`;
`service_backlog` allocates its buffer and `real_size` becomes 924 while two
buffers are allocated; `flush` then frees the buffer of `kA`, and `real_size`
is `924 - 1024 = 2^64 - 100`, above `max_size = 2048`, with no assertion
failed. -/
theorem real_size_exceeds_max_size :
    buf_size kHuge.sinfo = 2 ^ 64 - 100 ∧
    ((Cache.init 2048).run (huge_write.take 6)).toOption.map
      (fun c => (c.real_size, keys c.zero_ref_map, keys c.alloc_backlog,
        has_spare_real_mem_for c (buf_size kHuge.sinfo))) =
      some (1024, [kA], [kHuge], true) ∧
    ((Cache.init 2048).run huge_write).toOption.map
      (fun c => (c.real_size, keys c.zero_ref_map, keys c.io_map, keys c.alloc_backlog)) =
      some (924, [kA], [kHuge], []) ∧
    ((Cache.init 2048).run huge_write_flush).toOption.map
      (fun c => (c.real_size, c.max_size, keys c.active_map, keys c.zero_ref_map,
        keys c.io_map, c.freed)) =
      some (2 ^ 64 - 100, 2048, [kHuge], [], [], [1]) := by
  refine ⟨by decide, by decide, by decide, rfl⟩

/-- C4 (counterexample). After the run `evict_then_ask` on a cache of 2048
bytes the key `kA` is in `io_map`, as an evicted entry whose write is pending,
and in `alloc_backlog`. -/
theorem disjointness_fails_after_eviction :
    ((Cache.init 2048).run evict_then_ask).toOption.map
      (fun c => (is_in_io c kA, is_queued c kA, (kv_get c.io_map kA).evicted)) =
      some (true, true, true) := by
  decide

/-- C4 (amended). In every cache reached from the empty cache by `allocate`,
`get_buf`, `release`, `service_backlog`, `flush` and I/O-completion events,
each key is in at most one of `active_map`, `io_map` and `zero_ref_map`; a key
in `alloc_backlog` is neither in `active_map` nor in `zero_ref_map`, and when
it is in `io_map` its entry there is an evicted one. -/
theorem reachable_disjoint (max_size : Nat) (hmax : max_size < 2 ^ 64) (ops : List CacheOp) :
    ∀ c, (Cache.init max_size).run ops = Except.ok c → ∀ k,
      ¬ (is_active c k = true ∧ is_in_io c k = true) ∧
      ¬ (is_active c k = true ∧ is_zero_ref c k = true) ∧
      ¬ (is_in_io c k = true ∧ is_zero_ref c k = true) ∧
      (is_queued c k = true → is_active c k = false ∧ is_zero_ref c k = false ∧
        (is_in_io c k = true → (kv_get c.io_map k).evicted = true)) := by
  intro c hc k
  have _ := hmax
  have h := reachable_inv max_size ops
  rw [hc] at h
  have hl := h.1.loc k
  have e1 : is_active c k = (kv_find c.active_map k).isSome := rfl
  have e2 : is_in_io c k = (kv_find c.io_map k).isSome := rfl
  have e3 : is_zero_ref c k = (kv_find c.zero_ref_map k).isSome := rfl
  have e4 := is_queued_iff c k
  obtain ⟨h1, h2, h3, h4, h5, h6, h7⟩ := hl
  rw [e1, e2, e3]
  refine ⟨?_, ?_, ?_, ?_⟩
  · rcases h1 with h1 | h1 <;> simp [h1]
  · rcases h2 with h2 | h2 <;> simp [h2]
  · rcases h3 with h3 | h3 <;> simp [h3]
  · intro hq
    have hb := e4.1 hq
    refine ⟨?_, ?_, ?_⟩
    · rcases h4 with h4 | h4
      · exact absurd h4 hb
      · simp [h4]
    · rcases h5 with h5 | h5
      · exact absurd h5 hb
      · simp [h5]
    · intro hi
      cases hv : kv_find c.io_map k with
      | none => simp [hv] at hi
      | some v =>
        rw [kv_get_of_find hv]
        exact h6 hb v hv

/-- Witness of the amended C4 on the run of the counterexample, at the key
`kA`, which is queued and in `io_map` as an evicted entry. -/
theorem reachable_disjoint_witness :
    2048 < 2 ^ 64 ∧
    (Cache.init 2048).run evict_then_ask = Except.ok evict_then_ask_cache ∧
    (¬ (is_active evict_then_ask_cache kA = true ∧ is_in_io evict_then_ask_cache kA = true) ∧
      ¬ (is_active evict_then_ask_cache kA = true ∧
        is_zero_ref evict_then_ask_cache kA = true) ∧
      ¬ (is_in_io evict_then_ask_cache kA = true ∧
        is_zero_ref evict_then_ask_cache kA = true) ∧
      (is_queued evict_then_ask_cache kA = true →
        is_active evict_then_ask_cache kA = false ∧
        is_zero_ref evict_then_ask_cache kA = false ∧
        (is_in_io evict_then_ask_cache kA = true →
          (kv_get evict_then_ask_cache.io_map kA).evicted = true))) :=
  ⟨by norm_num, rfl,
    reachable_disjoint 2048 (by norm_num) evict_then_ask evict_then_ask_cache rfl kA⟩

end flash
namespace flash

/-! ## Theorems: evaluations at concrete inputs -/

/-- C5 (code defect). A task reads `kA` and `kA2`, two slices with the same
`flash_ptr` and different `StrideInfo`.  After `allocate`, `service_backlog`
and the completion of the read of `kA` only, `alloc_ready` returns `true`
although `kA2` is not in `active_map`: its entry is in `io_map`, its read not
complete. -/
theorem alloc_ready_true_with_key_in_io :
    shared_pointer_run.toOption.map
      (fun r => (r.1, is_active r.2.1 kA2, is_in_io r.2.1 kA2,
        (kv_get r.2.1.io_map kA2).complete, r.2.2.in_mem_ptrs)) =
      some (true, false, true, some false, [(kA.fptr, 1)]) := by
  rfl

/-- C6 (code defect). A task that reads and writes `kA` is allocated while
`kA` is queued in the backlog for a task that only reads it.  When
`alloc_ready` returns `true` for the writing task, the entry of `kA` in
`active_map` has `write_back = false`. -/
theorem alloc_ready_true_without_write_back :
    queued_then_written_run.toOption.map
      (fun r => (r.1, (kv_find r.2.1.active_map kA).map fun v => (v.n_refs, v.write_back))) =
      some (true, some (2, false)) := by
  decide

/-- C7 (code defect). With `single_use_discard` set, a task writes `kA`: before
`release` the entry of `kA` is active with buffer `1` and `write_back = true`;
`release` frees buffer `1`, and no write was issued to the I/O executor. -/
theorem release_frees_write_back_buffer :
    ((Cache.init 2048).run (write_then_release.take 4)).toOption.map
        (fun c => (kv_find c.active_map kA).map fun v => (v.buf, v.write_back)) =
      some (some (1, true)) ∧
    ((Cache.init 2048).run write_then_release).toOption.map
        (fun c => (c.freed, c.issued)) = some ([1], []) := by
  decide

/-- Witness of C10: five bytes written at offset 3 of a file of two sectors,
from and into buffers at unaligned addresses. -/
theorem FlashFileHandle.write_read_roundtrip_witness :
    ROUND_UP (3 + 5) SECTOR_LEN ≤ two_sectors.file_sz ∧
    ∀ i < 5,
      FlashFileHandle.read (FlashFileHandle.write two_sectors 3 5 1 ramp zeros)
        3 5 9 zeros zeros i = ramp i :=
  ⟨by decide, FlashFileHandle.write_read_roundtrip two_sectors 3 5 1 9 ramp zeros zeros zeros
    (by decide)⟩

end flash
namespace flash

/-! ## Theorems: the completion record and the heap of tasks -/

theorem CompletionRecord.marked_resize (r : CompletionRecord) (p : Nat) :
    r.resize.marked p ↔ r.marked p := by
  unfold CompletionRecord.marked CompletionRecord.resize
  simp only [List.getD_eq_getElem?_getD]
  by_cases hp : p < r.complete.length
  · rw [List.getElem?_append_left hp]
  · have hp' : r.complete.length ≤ p := Nat.le_of_not_lt hp
    rw [List.getElem?_append_right hp', List.getElem?_eq_none hp']
    rw [List.getElem?_replicate]
    split_ifs <;> simp

theorem CompletionRecord.is_complete_spec (r : CompletionRecord) (tsk_id : Nat) :
    ((r.is_complete tsk_id).1 = true → r.marked tsk_id) ∧
    ∀ p, (r.is_complete tsk_id).2.marked p ↔ r.marked p := by
  unfold CompletionRecord.is_complete
  split_ifs with h
  · exact ⟨fun hf => by simp at hf, fun p => r.marked_resize p⟩
  · exact ⟨fun hf => hf, fun p => Iff.rfl⟩

theorem CompletionRecord.remove_complete_spec (ids : List Nat) (r : CompletionRecord) :
    (∀ p ∈ ids, p ∈ (r.remove_complete ids).1 ∨ r.marked p) ∧
    (∀ p, (r.remove_complete ids).2.marked p ↔ r.marked p) ∧
    (∀ p ∈ (r.remove_complete ids).1, p ∈ ids) := by
  induction ids generalizing r with
  | nil => exact ⟨fun p hp => by simp at hp, fun p => Iff.rfl, fun p hp => hp⟩
  | cons id rest ih =>
    obtain ⟨h1, h2⟩ := r.is_complete_spec id
    obtain ⟨i1, i2, i3⟩ := ih (r.is_complete id).2
    unfold CompletionRecord.remove_complete
    split_ifs with hc
    · refine ⟨fun p hp => ?_, fun p => (i2 p).trans (h2 p), fun p hp => ?_⟩
      · rcases List.mem_cons.1 hp with rfl | hp
        · exact Or.inr (h1 hc)
        · rcases i1 p hp with h | h
          · exact Or.inl h
          · exact Or.inr ((h2 p).1 h)
      · exact List.mem_cons_of_mem _ (i3 p hp)
    · refine ⟨fun p hp => ?_, fun p => (i2 p).trans (h2 p), fun p hp => ?_⟩
      · rcases List.mem_cons.1 hp with rfl | hp
        · exact Or.inl (List.mem_cons_self _ _)
        · rcases i1 p hp with h | h
          · exact Or.inl (List.mem_cons_of_mem _ h)
          · exact Or.inr ((h2 p).1 h)
      · rcases List.mem_cons.1 hp with rfl | hp
        · exact List.mem_cons_self _ _
        · exact List.mem_cons_of_mem _ (i3 p hp)

theorem CompletionRecord.mark_complete_spec {r r' : CompletionRecord} {tsk_id : Nat}
    (h : r.mark_complete tsk_id = Except.ok r') :
    ∀ p, r'.marked p ↔ (p = tsk_id ∨ r.marked p) := by
  unfold CompletionRecord.mark_complete at h
  simp only at h
  have key : ∀ (q : CompletionRecord), (∀ p, q.marked p ↔ r.marked p) →
      (if tsk_id < q.complete.length then
        (pure ⟨q.complete.set tsk_id true⟩ : Except Fault CompletionRecord)
       else throw Fault.out_of_bounds) = Except.ok r' →
      ∀ p, r'.marked p ↔ (p = tsk_id ∨ r.marked p) := by
    intro q hq hr p
    split_ifs at hr with hlt
    cases hr
    rw [← hq p]
    unfold CompletionRecord.marked
    simp only [List.getD_eq_getElem?_getD, List.getElem?_set]
    by_cases hp : tsk_id = p
    · subst hp
      simp [hlt]
    · have hp' : ¬ p = tsk_id := fun e => hp e.symm
      simp [hp, hp']
  by_cases hle : r.complete.length ≤ tsk_id
  · rw [if_pos hle] at h
    exact key r.resize (fun p => r.marked_resize p) h
  · rw [if_neg hle] at h
    exact key r (fun p => Iff.rfl) h

theorem getElem?_upd_task (f : BaseTask → BaseTask) (heap : List TaskCell) (i j : Nat) :
    (upd_task f heap i)[j]? =
      if j = i then (heap[j]?).map (fun c => { c with task := f c.task }) else heap[j]? := by
  induction heap generalizing i j with
  | nil => simp [upd_task]
  | cons c rest ih =>
    cases i with
    | zero =>
      cases j with
      | zero => simp [upd_task]
      | succ j => simp [upd_task]
    | succ i =>
      cases j with
      | zero => simp [upd_task]
      | succ j =>
        simp only [upd_task, List.getElem?_cons_succ, ih, Nat.succ_inj']

theorem deref_ok {heap : List TaskCell} {tsk : Nat} {t : BaseTask}
    (h : deref heap tsk = Except.ok t) : ∃ c, heap[tsk]? = some c ∧ c.task = t := by
  unfold deref at h
  cases hc : heap[tsk]? with
  | none =>
    rw [hc] at h
    cases h
  | some c =>
    rw [hc] at h
    cases h
    exact ⟨c, rfl, rfl⟩

end flash
namespace flash

/-! ## Theorems: steps on the heap keep the dependency invariant -/

theorem cell_step.rfl_step (r : CompletionRecord) (c : TaskCell) : cell_step r c c :=
  ⟨rfl, rfl, fun _ hp => Or.inl hp, fun h => h, fun _ => Or.inl rfl⟩

theorem cell_step.comp {r r' : CompletionRecord} {c c1 c2 : TaskCell}
    (hr : ∀ p, r.marked p → r'.marked p) (h1 : cell_step r c c1) (h2 : cell_step r' c1 c2) :
    cell_step r' c c2 := by
  refine ⟨h2.parents0_eq.trans h1.parents0_eq, h2.id_eq.trans h1.id_eq, ?_, ?_, ?_⟩
  · intro p hp
    rcases h1.removed p hp with h | h
    · exact h2.removed p h
    · exact Or.inr (hr p h)
  · intro he
    exact h2.empty (h1.empty he)
  · intro hst
    rcases h2.status hst with h | h
    · rw [h] at hst
      rcases h1.status hst with h' | h'
      · exact Or.inl (h.trans h')
      · exact Or.inr (h2.empty h')
    · exact Or.inr h

theorem heap_rel.id_rel (r : CompletionRecord) (heap : List TaskCell) : heap_rel r heap heap :=
  ⟨rfl, fun _ c' hc' => ⟨c', hc', cell_step.rfl_step r c'⟩⟩

theorem length_upd_task (f : BaseTask → BaseTask) (heap : List TaskCell) (i : Nat) :
    (upd_task f heap i).length = heap.length := by
  induction heap generalizing i with
  | nil => rfl
  | cons c rest ih =>
    cases i with
    | zero => rfl
    | succ i => simp [upd_task, ih]

theorem heap_rel.comp_rel {r r' : CompletionRecord} {h h1 h2 : List TaskCell}
    (hr : ∀ p, r.marked p → r'.marked p) (a : heap_rel r h h1) (b : heap_rel r' h1 h2) :
    heap_rel r' h h2 := by
  refine ⟨b.1.trans a.1, ?_⟩
  intro tsk c2 hc2
  obtain ⟨c1, hc1, s2⟩ := b.2 tsk c2 hc2
  obtain ⟨c, hc, s1⟩ := a.2 tsk c1 hc1
  exact ⟨c, hc, cell_step.comp hr s1 s2⟩

/-- A write through a task pointer is a step of the heap when it is a
`cell_step` of the object written. -/
theorem heap_rel_upd (r : CompletionRecord) (f : BaseTask → BaseTask) (heap : List TaskCell)
    (i : Nat) (hf : ∀ c, heap[i]? = some c → cell_step r c { c with task := f c.task }) :
    heap_rel r heap (upd_task f heap i) := by
  refine ⟨length_upd_task f heap i, ?_⟩
  intro tsk c' hc'
  rw [getElem?_upd_task] at hc'
  split_ifs at hc' with he
  · subst he
    cases hc : heap[tsk]? with
    | none =>
      rw [hc] at hc'
      cases hc'
    | some c =>
      rw [hc] at hc'
      cases hc'
      exact ⟨c, rfl, hf c hc⟩
  · exact ⟨c', hc', cell_step.rfl_step r c'⟩

/-- A write that keeps the id and the parent list and sets the status to `st`
is a step of the heap when `st` is `Wait` or the task has no parent left. -/
theorem heap_rel_set_status (r : CompletionRecord) (f : BaseTask → BaseTask)
    (heap : List TaskCell) (i : Nat)
    (hid : ∀ t, (f t).task_id = t.task_id) (hpar : ∀ t, (f t).parents = t.parents)
    (hst : ∀ c, heap[i]? = some c → (f c.task).st = TaskStatus.Wait ∨
      (f c.task).st = c.task.st ∨ c.task.parents = []) :
    heap_rel r heap (upd_task f heap i) := by
  apply heap_rel_upd
  intro c hc
  refine ⟨rfl, hid _, ?_, ?_, ?_⟩
  · intro p hp
    simp only [hpar]
    exact Or.inl hp
  · intro he
    simp only [hpar]
    exact he
  · intro hne
    simp only [hpar]
    rcases hst c hc with h | h | h
    · exact absurd h hne
    · exact Or.inl h
    · exact Or.inr h

theorem no_parents_rel {r : CompletionRecord} {heap heap' : List TaskCell} {l : List Nat}
    (h : no_parents heap l) (hr : heap_rel r heap heap') : no_parents heap' l := by
  intro tsk ht c' hc'
  obtain ⟨c, hc, hs⟩ := hr.2 tsk c' hc'
  exact hs.empty (h tsk ht c hc)

theorem no_parents_append {heap : List TaskCell} {l1 l2 : List Nat} :
    no_parents heap (l1 ++ l2) ↔ no_parents heap l1 ∧ no_parents heap l2 := by
  unfold no_parents
  constructor
  · intro h
    exact ⟨fun t ht => h t (List.mem_append_left _ ht),
      fun t ht => h t (List.mem_append_right _ ht)⟩
  · rintro ⟨h1, h2⟩ t ht
    rcases List.mem_append.1 ht with h | h
    · exact h1 t h
    · exact h2 t h

theorem no_parents_sub {heap : List TaskCell} {l1 l2 : List Nat} (h : no_parents heap l2)
    (hs : ∀ t ∈ l1, t ∈ l2) : no_parents heap l1 :=
  fun t ht => h t (hs t ht)

/-- The invariant passes from `s` to `s'` when the heap of `s'` comes from the
heap of `s` by steps of its objects, the marks, `returned` and `released` only
grow, a new mark is the id of a task that has returned and been released, and
the tasks newly out of `wait_tsks` or in `complete_queue` are as required. -/
theorem Scheduler.Inv.transfer {s s' : Scheduler} (h : s.Inv)
    (hcnt : s'.global_task_counter = s.global_task_counter)
    (hheap : heap_rel s'.c_rec s.heap s'.heap)
    (hmono : ∀ p, s.c_rec.marked p → s'.c_rec.marked p)
    (hout : ∀ tsk ∈ s'.promoted, tsk ∈ s.promoted ∨
      (no_parents s'.heap [tsk] ∧ tsk < s'.heap.length))
    (hsub1 : ∀ p ∈ s.returned, p ∈ s'.returned)
    (hsub2 : ∀ p ∈ s.released, p ∈ s'.released)
    (hret : ∀ tsk ∈ s'.complete_queue, tsk ∈ s.complete_queue ∨
      ∀ c' : TaskCell, s'.heap[tsk]? = some c' → c'.task.task_id ∈ s'.returned)
    (hmark : ∀ p, s'.c_rec.marked p → s.c_rec.marked p ∨ (p ∈ s'.returned ∧ p ∈ s'.released)) :
    s'.Inv := by
  refine ⟨?_, ?_, ?_, ?_, ?_, ?_, ?_, ?_⟩
  · intro tsk c' hc' p hp
    obtain ⟨c, hc, hs⟩ := hheap.2 tsk c' hc'
    rw [hs.parents0_eq] at hp
    rcases h.par tsk c hc p hp with hq | hq
    · exact hs.removed p hq
    · exact Or.inr (hmono p hq)
  · intro tsk c' hc' hne
    obtain ⟨c, hc, hs⟩ := hheap.2 tsk c' hc'
    rcases hs.status hne with hq | hq
    · rw [hq] at hne
      exact hs.empty (h.st tsk c hc hne)
    · exact hq
  · intro tsk ht c' hc'
    rcases hout tsk ht with hq | hq
    · obtain ⟨c, hc, hs⟩ := hheap.2 tsk c' hc'
      exact hs.empty (h.out tsk hq c hc)
    · exact hq.1 tsk (List.mem_singleton_self _) c' hc'
  · intro tsk ht
    rcases hout tsk ht with hq | hq
    · rw [hheap.1]
      exact h.valid tsk hq
    · exact hq.2
  · intro tsk ht c' hc'
    rcases hret tsk ht with hq | hq
    · obtain ⟨c, hc, hs⟩ := hheap.2 tsk c' hc'
      rw [hs.id_eq]
      exact hsub1 _ (h.ret tsk hq c hc)
    · exact hq c' hc'
  · intro p hp
    rcases hmark p hp with hq | hq
    · exact ⟨hsub1 p (h.mark p hq).1, hsub2 p (h.mark p hq).2⟩
    · exact hq
  · intro tsk c' hc'
    obtain ⟨c, hc, hs⟩ := hheap.2 tsk c' hc'
    rw [hs.id_eq]
    exact h.ids tsk c hc
  · rw [hcnt, hheap.1]
    exact h.counter

end flash
namespace flash

/-! ## Theorems: the events of the user and compute threads, and the drain phase -/

theorem mem_promoted (s : Scheduler) (t : Nat) :
    t ∈ s.promoted ↔ t ∈ s.prio.tsks.map (·.tsk) ∨ t ∈ s.alloced_tsks ∨ t ∈ s.compute_queue ∨
      t ∈ s.running ∨ t ∈ s.complete_queue := by
  unfold Scheduler.promoted
  simp only [List.mem_append]
  tauto

/-- A step that leaves the heap, the record, the containers of promoted tasks
and the ghost lists alone keeps the invariant. -/
theorem Scheduler.Inv.frame {s s' : Scheduler} (h : s.Inv) (hheap : s'.heap = s.heap)
    (hrec : s'.c_rec = s.c_rec) (hr : same_rest s s')
    (hcnt : s'.global_task_counter = s.global_task_counter) : s'.Inv := by
  apply h.transfer
  · exact hcnt
  · rw [hheap]
    exact heap_rel.id_rel _ _
  · rw [hrec]
    exact fun p hp => hp
  · intro t ht
    left
    rw [mem_promoted] at ht ⊢
    rw [hr.prio, hr.alloced_tsks, hr.compute_queue, hr.running, hr.complete_queue] at ht
    exact ht
  · rw [hr.returned]
    exact fun p hp => hp
  · rw [hr.released]
    exact fun p hp => hp
  · intro t ht
    rw [hr.complete_queue] at ht
    exact Or.inl ht
  · rw [hrec]
    exact fun p hp => Or.inl hp

theorem same_rest.rfl_rest (s : Scheduler) : same_rest s s := ⟨rfl, rfl, rfl, rfl, rfl, rfl, rfl⟩

theorem getElem?_snoc {α : Type} (l : List α) (x c : α) (i : Nat)
    (h : (l ++ [x])[i]? = some c) : l[i]? = some c ∨ (i = l.length ∧ c = x) := by
  by_cases hi : i < l.length
  · rw [List.getElem?_append_left hi] at h
    exact Or.inl h
  · have hi' : l.length ≤ i := Nat.le_of_not_lt hi
    rw [List.getElem?_append_right hi'] at h
    right
    cases hd : i - l.length with
    | zero =>
      rw [hd] at h
      simp only [List.getElem?_cons_zero, Option.some.injEq] at h
      exact ⟨by omega, h.symm⟩
    | succ n =>
      rw [hd] at h
      simp at h

/-- The construction of a task keeps the invariant. -/
theorem new_task_inv {s : Scheduler} (h : s.Inv) (t : BaseTask) (hst : t.st = TaskStatus.Wait)
    (hid : t.task_id = s.global_task_counter) :
    Scheduler.Inv { s with heap := s.heap ++ [⟨t, t.parents⟩],
                           global_task_counter := s.global_task_counter + 1 } := by
  refine ⟨?_, ?_, ?_, ?_, ?_, h.mark, ?_, ?_⟩
  · intro tsk c hc p hp
    rcases getElem?_snoc _ _ _ _ hc with hq | ⟨_, rfl⟩
    · exact h.par tsk c hq p hp
    · exact Or.inl hp
  · intro tsk c hc hne
    rcases getElem?_snoc _ _ _ _ hc with hq | ⟨_, rfl⟩
    · exact h.st tsk c hq hne
    · exact absurd hst hne
  · intro tsk ht c hc
    rcases getElem?_snoc _ _ _ _ hc with hq | ⟨he, _⟩
    · exact h.out tsk ht c hq
    · have := h.valid tsk ht
      omega
  · intro tsk ht
    have := h.valid tsk ht
    simp only [List.length_append, List.length_singleton]
    omega
  · intro tsk ht c hc
    rcases getElem?_snoc _ _ _ _ hc with hq | ⟨he, _⟩
    · exact h.ret tsk ht c hq
    · have := h.valid tsk ((mem_promoted s tsk).2 (Or.inr (Or.inr (Or.inr (Or.inr ht)))))
      omega
  · intro tsk c hc
    rcases getElem?_snoc _ _ _ _ hc with hq | ⟨he, rfl⟩
    · exact h.ids tsk c hq
    · rw [he]
      exact hid.trans h.counter
  · simp only [List.length_append, List.length_singleton]
    rw [h.counter]

/-- `add_task` keeps the invariant. -/
theorem add_task_inv {s : Scheduler} (h : s.Inv) (tsk : Nat) :
    Holds Scheduler.Inv (s.add_task tsk) := by
  unfold Scheduler.add_task
  apply Holds.after
  intro t _
  apply Holds.of_pure
  apply h.transfer
  · rfl
  · exact heap_rel_set_status _ _ _ _ (fun _ => rfl) (fun _ => rfl) (fun c hc => Or.inl rfl)
  · exact fun p hp => hp
  · exact fun t' ht' => Or.inl ht'
  · exact fun p hp => hp
  · exact fun p hp => hp
  · exact fun t' ht' => Or.inl ht'
  · exact fun p hp => Or.inl hp

/-- A compute thread that pops a task keeps the invariant. -/
theorem compute_pop_inv {s : Scheduler} (h : s.Inv) : Holds Scheduler.Inv (compute_pop s) := by
  unfold compute_pop
  cases hq : s.compute_queue with
  | nil => exact Holds.of_pure h
  | cons tsk rest =>
    simp only [queue_pop]
    apply Holds.after
    intro t _
    apply Holds.of_pure
    have hmem : tsk ∈ s.promoted := by
      rw [mem_promoted, hq]
      exact Or.inr (Or.inr (Or.inl (List.mem_cons_self _ _)))
    apply h.transfer
    · rfl
    · exact heap_rel_set_status _ _ _ _ (fun _ => rfl) (fun _ => rfl)
        (fun c hc => Or.inr (Or.inr (h.out tsk hmem c hc)))
    · exact fun p hp => hp
    · intro t' ht'
      left
      rw [mem_promoted] at ht' ⊢
      simp only [List.mem_append, List.mem_singleton] at ht'
      rw [hq]
      rcases ht' with h1 | h1 | h1 | (h1 | h1) | h1
      · exact Or.inl h1
      · exact Or.inr (Or.inl h1)
      · exact Or.inr (Or.inr (Or.inl (List.mem_cons_of_mem _ h1)))
      · exact Or.inr (Or.inr (Or.inr (Or.inl h1)))
      · subst h1
        exact Or.inr (Or.inr (Or.inl (List.mem_cons_self _ _)))
      · exact Or.inr (Or.inr (Or.inr (Or.inr h1)))
    · exact fun p hp => hp
    · exact fun p hp => hp
    · exact fun t' ht' => Or.inl ht'
    · exact fun p hp => Or.inl hp

/-- The return of `execute()` keeps the invariant. -/
theorem compute_finish_inv {s : Scheduler} (h : s.Inv) (tsk : Nat) :
    Holds Scheduler.Inv (compute_finish s tsk) := by
  unfold compute_finish
  split_ifs with hr
  · apply Holds.after
    intro t ht
    obtain ⟨c, hc, hct⟩ := deref_ok ht
    apply Holds.of_pure
    apply h.transfer
    · rfl
    · exact heap_rel.id_rel _ _
    · exact fun p hp => hp
    · intro t' ht'
      left
      rw [mem_promoted] at ht' ⊢
      simp only [queue_push, List.mem_append, List.mem_singleton] at ht'
      rcases ht' with h1 | h1 | h1 | h1 | h1 | h1
      · exact Or.inl h1
      · exact Or.inr (Or.inl h1)
      · exact Or.inr (Or.inr (Or.inl h1))
      · exact Or.inr (Or.inr (Or.inr (Or.inl (List.mem_of_mem_erase h1))))
      · exact Or.inr (Or.inr (Or.inr (Or.inr h1)))
      · subst h1
        exact Or.inr (Or.inr (Or.inr (Or.inl hr)))
    · exact fun p hp => List.mem_append_left _ hp
    · exact fun p hp => hp
    · intro t' ht'
      simp only [queue_push, List.mem_append, List.mem_singleton] at ht'
      rcases ht' with h1 | h1
      · exact Or.inl h1
      · subst h1
        right
        intro c' hc'
        rw [hc] at hc'
        cases hc'
        rw [hct]
        exact List.mem_append_right _ (List.mem_singleton_self _)
    · exact fun p hp => Or.inl hp
  · exact Holds.of_pure h

end flash
namespace flash

/-! ## Theorems: the drain phase and the filter of `wait_tsks` -/

/-- The drain of one completed task keeps the invariant: its id is marked
after its `execute()` has returned, and `cache.release` has run when the step
ends. -/
theorem drain_one_inv {s : Scheduler} (h : s.Inv) (tsk : Nat) (rest : List Nat)
    (hq : s.complete_queue = tsk :: rest) :
    Holds Scheduler.Inv (drain_one { s with complete_queue := rest } tsk) := by
  unfold drain_one
  apply Holds.after
  intro t ht
  obtain ⟨c, hc, hct⟩ := deref_ok ht
  simp only at hc
  apply Holds.after
  intro c_rec hrec
  have hmark := CompletionRecord.mark_complete_spec hrec
  apply Holds.after
  intro cache _
  have hin : tsk ∈ s.complete_queue := by
    rw [hq]
    exact List.mem_cons_self _ _
  have hmem : tsk ∈ s.promoted := (mem_promoted s tsk).2 (Or.inr (Or.inr (Or.inr (Or.inr hin))))
  have hret : t.task_id ∈ s.returned := by
    rw [← hct]
    exact h.ret tsk hin c hc
  have hrel1 : heap_rel c_rec s.heap
      (upd_task (fun t => { t with st := TaskStatus.Complete }) s.heap tsk) :=
    heap_rel_set_status _ _ _ _ (fun _ => rfl) (fun _ => rfl)
      (fun c' hc' => Or.inr (Or.inr (h.out tsk hmem c' hc')))
  have hout : ∀ t' ∈ Scheduler.promoted { s with complete_queue := rest }, t' ∈ s.promoted := by
    intro t' ht'
    rw [mem_promoted] at ht' ⊢
    rw [hq]
    rcases ht' with h1 | h1 | h1 | h1 | h1
    · exact Or.inl h1
    · exact Or.inr (Or.inl h1)
    · exact Or.inr (Or.inr (Or.inl h1))
    · exact Or.inr (Or.inr (Or.inr (Or.inl h1)))
    · exact Or.inr (Or.inr (Or.inr (Or.inr (List.mem_cons_of_mem _ h1))))
  have hnew : ∀ p, c_rec.marked p → s.c_rec.marked p ∨
      (p ∈ s.returned ∧ p ∈ s.released ++ [t.task_id]) := by
    intro p hp
    rcases (hmark p).1 hp with rfl | h1
    · exact Or.inr ⟨hret, List.mem_append_right _ (List.mem_singleton_self _)⟩
    · exact Or.inl h1
  cases hn : t.next with
  | none =>
    apply Holds.of_pure
    apply h.transfer
    · rfl
    · exact hrel1
    · exact fun p hp => (hmark p).2 (Or.inr hp)
    · exact fun t' ht' => Or.inl (hout t' ht')
    · exact fun p hp => hp
    · exact fun p hp => List.mem_append_left _ hp
    · intro t' ht'
      left
      rw [hq]
      exact List.mem_cons_of_mem _ ht'
    · exact hnew
  | some next =>
    apply Holds.after
    intro n _
    split_ifs with hst
    · apply Holds.of_pure
      apply h.transfer
      · rfl
      · exact heap_rel.comp_rel (fun p hp => hp) hrel1
          (heap_rel_set_status _ _ _ _ (fun _ => rfl) (fun _ => rfl) (fun c hc => Or.inl rfl))
      · exact fun p hp => (hmark p).2 (Or.inr hp)
      · exact fun t' ht' => Or.inl (hout t' ht')
      · exact fun p hp => hp
      · exact fun p hp => List.mem_append_left _ hp
      · intro t' ht'
        left
        rw [hq]
        exact List.mem_cons_of_mem _ ht'
      · exact hnew
    · exact Holds.of_throw

/-- The drain phase keeps the invariant. -/
theorem drain_step_inv {s : Scheduler} (h : s.Inv) : Holds Scheduler.Inv (drain_step s) := by
  unfold drain_step
  cases hq : s.complete_queue with
  | nil =>
    simp only [queue_pop]
    exact Holds.of_pure (h.frame rfl rfl ⟨rfl, rfl, rfl, rfl, hq.symm, rfl, rfl⟩ rfl)
  | cons tsk rest =>
    simp only [queue_pop]
    exact drain_one_inv h tsk rest hq

theorem same_rest.upd {s x : Scheduler} (h : same_rest s x) (r : CompletionRecord)
    (cache : Cache) (heap : List TaskCell) :
    same_rest s { x with c_rec := r, cache := cache, heap := heap } :=
  ⟨h.prio, h.alloced_tsks, h.compute_queue, h.running, h.complete_queue, h.returned,
    h.released⟩

theorem wait_keep_inv (s : Scheduler) (x : Scheduler × List Nat × List Nat)
    (hx : FilterInv s x) (tsk : Nat) : Holds (FilterInv s) (wait_keep x tsk) := by
  unfold wait_keep
  apply Holds.after
  intro t ht
  obtain ⟨c, hc, hct⟩ := deref_ok ht
  obtain ⟨r1, r2, r3⟩ := CompletionRecord.remove_complete_spec t.parents x.1.c_rec
  have hstep : heap_rel (x.1.c_rec.remove_complete t.parents).2 x.1.heap
      (upd_task (fun t' => { t' with parents := (x.1.c_rec.remove_complete t.parents).1 })
        x.1.heap tsk) := by
    apply heap_rel_upd
    intro c0 hc0
    rw [hc] at hc0
    cases hc0
    refine ⟨rfl, rfl, ?_, ?_, fun _ => Or.inl rfl⟩
    · intro p hp
      rw [hct] at hp
      rcases r1 p hp with h1 | h1
      · exact Or.inl h1
      · exact Or.inr ((r2 p).2 h1)
    · intro he
      rw [hct] at he
      apply List.eq_nil_iff_forall_not_mem.2
      intro p hp
      have := r3 p hp
      rw [he] at this
      cases this
  have hrel := heap_rel.comp_rel (fun p hp => (r2 p).2 hp) hx.rel hstep
  have hmarks : ∀ p, (x.1.c_rec.remove_complete t.parents).2.marked p ↔ s.c_rec.marked p :=
    fun p => (r2 p).trans (hx.marks p)
  have hready := no_parents_rel hx.ready hstep
  have hlen := hstep.1
  have hrest := hx.rest.upd (x.1.c_rec.remove_complete t.parents).2 x.1.cache
    (upd_task (fun t' => { t' with parents := (x.1.c_rec.remove_complete t.parents).1 })
      x.1.heap tsk)
  have hlt : tsk < x.1.heap.length := by
    rcases Nat.lt_or_ge tsk x.1.heap.length with h1 | h1
    · exact h1
    · rw [List.getElem?_eq_none h1] at hc
      cases hc
  simp only
  split_ifs with he
  · refine Holds.of_pure ⟨hrel, hmarks, ?_, ?_, hrest, hx.counter⟩
    · apply no_parents_append.2
      refine ⟨hready, ?_⟩
      intro t' ht' c' hc'
      rw [List.mem_singleton] at ht'
      subst ht'
      simp only at hc'
      rw [getElem?_upd_task, if_pos rfl, hc] at hc'
      cases hc'
      simpa using he
    · intro t' ht'
      simp only
      rw [hlen]
      rcases List.mem_append.1 ht' with h1 | h1
      · exact hx.valid t' h1
      · rw [List.mem_singleton] at h1
        rw [h1]
        exact hlt
  · refine Holds.of_pure ⟨hrel, hmarks, hready, ?_, hrest, hx.counter⟩
    intro t' ht'
    simp only
    rw [hlen]
    exact hx.valid t' ht'

/-- Setting the status of tasks without parents is a step of the heap. -/
theorem set_status_all_rel (r : CompletionRecord) (st : TaskStatus) (l : List Nat)
    (heap : List TaskCell) (h : no_parents heap l) :
    heap_rel r heap (set_status_all st heap l) := by
  unfold set_status_all
  induction l generalizing heap with
  | nil => exact heap_rel.id_rel r heap
  | cons t l ih =>
    rw [List.foldl_cons]
    have h1 : heap_rel r heap (upd_task (fun t => { t with st := st }) heap t) :=
      heap_rel_set_status _ _ _ _ (fun _ => rfl) (fun _ => rfl)
        (fun c hc => Or.inr (Or.inr (h t (List.mem_cons_self _ _) c hc)))
    have h2 : no_parents (upd_task (fun t => { t with st := st }) heap t) l :=
      no_parents_rel (no_parents_sub h fun t' ht' => List.mem_cons_of_mem _ ht') h1
    exact heap_rel.comp_rel (fun p hp => hp) h1 (ih _ h2)

end flash
namespace flash

/-! ## Theorems: the filter, admission and promotion phases -/

theorem insert_one_tsks (heap : List TaskCell) (p : Prioritizer) (tsk : Nat) :
    Holds (fun p' => p'.tsks.map (·.tsk) = p.tsks.map (·.tsk) ++ [tsk])
      (Prioritizer.insert_one heap p tsk) := by
  unfold Prioritizer.insert_one
  apply Holds.after
  intro t _
  apply Holds.of_pure
  simp only [List.map_append, List.map_cons, List.map_nil]

theorem insert_tsks (heap : List TaskCell) (new_tsks : List Nat) (p : Prioritizer) :
    Holds (fun p' => p'.tsks.map (·.tsk) = p.tsks.map (·.tsk) ++ new_tsks)
      (p.insert heap new_tsks) := by
  unfold Prioritizer.insert
  induction new_tsks generalizing p with
  | nil => exact Holds.of_pure (by simp)
  | cons t l ih =>
    rw [List.foldlM_cons]
    apply Holds.after_of (insert_one_tsks heap p t)
    intro p1 h1
    apply Holds.weaken (ih p1)
    intro p2 h2
    rw [h2, h1, List.append_assoc]
    rfl

theorem update_tsks (p : Prioritizer) (c : Cache) (t : Nat) :
    t ∈ (p.update c).tsks.map (·.tsk) ↔ t ∈ p.tsks.map (·.tsk) := by
  unfold Prioritizer.update
  simp only [List.mem_map]
  constructor
  · rintro ⟨ti, hti, rfl⟩
    have h1 := (List.perm_insertionSort _ _).mem_iff.1 hti
    obtain ⟨ti0, h0, rfl⟩ := List.mem_map.1 h1
    exact ⟨ti0, h0, rfl⟩
  · rintro ⟨ti, hti, rfl⟩
    exact ⟨_, (List.perm_insertionSort _ _).mem_iff.2 (List.mem_map_of_mem _ hti), rfl⟩

/-- The end of the filter phase: the discarded tasks, which have no parent
left, enter the prioritizer. -/
theorem filter_finish {s s1 : Scheduler} (h : s.Inv) (kept disc : List Nat)
    (heap2 : List TaskCell) (prio : Prioritizer) (u : Nat)
    (hrel : heap_rel s1.c_rec s.heap heap2) (hmarks : ∀ p, s1.c_rec.marked p ↔ s.c_rec.marked p)
    (hrest : same_rest s s1) (hcnt : s1.global_task_counter = s.global_task_counter)
    (hready : no_parents heap2 disc) (hvalid : ∀ t ∈ disc, t < heap2.length)
    (hprio : ∀ t ∈ prio.tsks.map (·.tsk), t ∈ s.prio.tsks.map (·.tsk) ∨ t ∈ disc) :
    Scheduler.Inv { s1 with wait_tsks := kept, heap := heap2, pc := Phase.admission, prio := prio,
                            update_in := u } := by
  apply h.transfer
  · exact hcnt
  · exact hrel
  · exact fun p hp => (hmarks p).2 hp
  · intro t ht
    rw [mem_promoted] at ht ⊢
    simp only at ht
    rw [hrest.alloced_tsks, hrest.compute_queue, hrest.running, hrest.complete_queue] at ht
    rcases ht with h1 | h1
    · rcases hprio t h1 with h2 | h2
      · exact Or.inl (Or.inl h2)
      · right
        refine ⟨?_, hvalid t h2⟩
        intro t' ht' c hc
        rw [List.mem_singleton] at ht'
        subst ht'
        exact hready t' h2 c hc
    · exact Or.inl (Or.inr h1)
  · intro p hp
    simp only
    rw [hrest.returned]
    exact hp
  · intro p hp
    simp only
    rw [hrest.released]
    exact hp
  · intro t ht
    simp only at ht
    rw [hrest.complete_queue] at ht
    exact Or.inl ht
  · exact fun p hp => Or.inl ((hmarks p).1 hp)

/-- The filter phase keeps the invariant: a task leaves `wait_tsks` and
becomes `AllocReady` when `remove_complete` has emptied its parent list. -/
theorem filter_step_inv {s : Scheduler} (h : s.Inv) : Holds Scheduler.Inv (filter_step s) := by
  unfold filter_step
  have h0 : FilterInv s (s, [], []) :=
    ⟨heap_rel.id_rel _ _, fun p => Iff.rfl, fun t ht => (by cases ht), fun t ht => (by cases ht),
      same_rest.rfl_rest s, rfl⟩
  apply Holds.after_of
    (Holds.fold wait_keep (FilterInv s) (fun x a hx => wait_keep_inv s x hx a) s.wait_tsks _ h0)
  rintro ⟨s1, kept, disc⟩ hx
  simp only
  have hrel2 := set_status_all_rel s1.c_rec TaskStatus.AllocReady disc s1.heap hx.ready
  have hrel := heap_rel.comp_rel (fun p hp => hp) hx.rel hrel2
  have hready2 := no_parents_rel hx.ready hrel2
  have hvalid2 : ∀ t ∈ disc, t < (set_status_all TaskStatus.AllocReady s1.heap disc).length := by
    intro t ht
    rw [hrel2.1]
    exact hx.valid t ht
  have hp0 : s1.prio = s.prio := hx.rest.prio
  by_cases hlen : disc.length > 0
  · rw [if_pos hlen]
    apply Holds.after_of (insert_tsks _ disc s1.prio)
    intro prio hprio
    generalize sub64 s1.update_in 1 = u
    rcases Classical.em (u = 0) with hu | hu
    · rw [if_pos hu]
      apply Holds.of_pure
      apply filter_finish h kept disc _ _ _ hrel hx.marks hx.rest hx.counter hready2 hvalid2
      intro t ht
      rw [update_tsks, hprio, hp0] at ht
      exact List.mem_append.1 ht
    · rw [if_neg hu]
      apply Holds.of_pure
      apply filter_finish h kept disc _ _ _ hrel hx.marks hx.rest hx.counter hready2 hvalid2
      intro t ht
      rw [hprio, hp0] at ht
      exact List.mem_append.1 ht
  · rw [if_neg hlen]
    apply Holds.of_pure
    apply filter_finish h kept disc _ s1.prio s1.update_in hrel hx.marks hx.rest hx.counter
      hready2 hvalid2
    intro t ht
    rw [hp0] at ht
    exact Or.inl ht

end flash
namespace flash

/-! ## Theorems: admission, promotion to compute, and every run of the scheduler -/

/-- The admission loop keeps the invariant. -/
theorem admission_loop_inv (l : List TaskInfo) (s : Scheduler)
    (h : Scheduler.Inv { s with prio := { s.prio with tsks := l } }) :
    Holds Scheduler.Inv (admission_loop s l) := by
  induction l generalizing s with
  | nil => exact Holds.of_pure h
  | cons ti rest ih =>
    unfold admission_loop
    apply Holds.after
    intro t _
    apply Holds.after
    intro r _
    have hmem : ti.tsk ∈ Scheduler.promoted { s with prio := { s.prio with tsks := ti :: rest } } :=
      (mem_promoted _ _).2 (Or.inl (List.mem_map_of_mem _ (List.mem_cons_self _ _)))
    split_ifs with hr
    · apply ih
      apply h.transfer
      · rfl
      · exact heap_rel_set_status _ _ _ _ (fun _ => rfl) (fun _ => rfl)
          (fun c hc => Or.inr (Or.inr (h.out ti.tsk hmem c hc)))
      · exact fun p hp => hp
      · intro t' ht'
        left
        rw [mem_promoted] at ht' ⊢
        simp only [List.mem_append, List.mem_singleton] at ht'
        rcases ht' with h1 | (h1 | h1) | h1
        · obtain ⟨x, hx, rfl⟩ := List.mem_map.1 h1
          exact Or.inl (List.mem_map_of_mem _ (List.mem_cons_of_mem _ hx))
        · exact Or.inr (Or.inl h1)
        · subst h1
          exact Or.inl (List.mem_map_of_mem _ (List.mem_cons_self _ _))
        · exact Or.inr (Or.inr h1)
      · exact fun p hp => hp
      · exact fun p hp => hp
      · exact fun t' ht' => Or.inl ht'
      · exact fun p hp => Or.inl hp
    · exact Holds.of_pure (h.frame rfl rfl ⟨rfl, rfl, rfl, rfl, rfl, rfl, rfl⟩ rfl)

/-- The admission phase keeps the invariant. -/
theorem admission_step_inv {s : Scheduler} (h : s.Inv) : Holds Scheduler.Inv (admission_step s) := by
  unfold admission_step
  simp only
  have h1 : Holds Scheduler.Inv
      (if sub64 (s.N_COMPUTE_THR * 4) s.tsks_in_mem > 0 then admission_loop s s.prio.tsks
        else Pure.pure s) := by
    generalize sub64 (s.N_COMPUTE_THR * 4) s.tsks_in_mem = n
    split_ifs
    · exact admission_loop_inv s.prio.tsks s (h.frame rfl rfl ⟨rfl, rfl, rfl, rfl, rfl, rfl, rfl⟩ rfl)
    · exact Holds.of_pure h
  apply Holds.after_of h1
  intro s1 hs1
  exact Holds.of_pure (hs1.frame rfl rfl ⟨rfl, rfl, rfl, rfl, rfl, rfl, rfl⟩ rfl)

theorem Holds.fold_mem {σ α : Type} (f : σ → α → Except Fault σ) (P : σ → Prop)
    (l : List α) (hstep : ∀ s a, a ∈ l → P s → Holds P (f s a)) (s : σ) (hs : P s) :
    Holds P (l.foldlM f s) := by
  induction l generalizing s with
  | nil => exact hs
  | cons a l ih =>
    rw [List.foldlM_cons]
    cases hfa : f s a with
    | error e => exact trivial
    | ok s' =>
      have := hstep s a (List.mem_cons_self _ _) hs
      rw [hfa] at this
      exact ih (fun s a ha => hstep s a (List.mem_cons_of_mem _ ha)) s' this

theorem alloc_keep_inv (s : Scheduler) (x : Scheduler × List Nat × List Nat)
    (tsk : Nat) (ht : tsk ∈ s.alloced_tsks) (hx : PromoteInv s x) :
    Holds (PromoteInv s) (alloc_keep x tsk) := by
  unfold alloc_keep
  apply Holds.after
  intro t _
  apply Holds.after
  intro r _
  have hstep : heap_rel s.c_rec x.1.heap
      (upd_task (fun t => { t with in_mem_ptrs := r.2.2.in_mem_ptrs }) x.1.heap tsk) :=
    heap_rel_set_status _ _ _ _ (fun _ => rfl) (fun _ => rfl) (fun c hc => Or.inr (Or.inl rfl))
  have hrel := heap_rel.comp_rel (fun p hp => hp) hx.rel hstep
  have hrest := hx.rest.upd x.1.c_rec r.2.1
    (upd_task (fun t => { t with in_mem_ptrs := r.2.2.in_mem_ptrs }) x.1.heap tsk)
  simp only
  split_ifs with hr
  · refine Holds.of_pure ⟨hrel, hx.c_rec, hx.kept, ?_, hrest, hx.counter⟩
    intro t' ht'
    rcases List.mem_append.1 ht' with h1 | h1
    · exact hx.ready t' h1
    · rw [List.mem_singleton] at h1
      rw [h1]
      exact ht
  · refine Holds.of_pure ⟨hrel, hx.c_rec, ?_, hx.ready, hrest, hx.counter⟩
    intro t' ht'
    rcases List.mem_append.1 ht' with h1 | h1
    · exact hx.kept t' h1
    · rw [List.mem_singleton] at h1
      rw [h1]
      exact ht

/-- The end of the promotion phase: the tasks that are ready move from
`alloced_tsks` to `compute_queue`. -/
theorem promote_finish {s s1 : Scheduler} (h : s.Inv) (kept queue : List Nat)
    (heap2 : List TaskCell) (hrel : heap_rel s.c_rec s.heap heap2) (hrec : s1.c_rec = s.c_rec)
    (hrest : same_rest s s1) (hcnt : s1.global_task_counter = s.global_task_counter)
    (hkept : ∀ t ∈ kept, t ∈ s.alloced_tsks)
    (hqueue : ∀ t ∈ queue, t ∈ s.compute_queue ∨ t ∈ s.alloced_tsks) :
    Scheduler.Inv { s1 with alloced_tsks := kept, pc := Phase.service, heap := heap2,
                            compute_queue := queue } := by
  apply h.transfer
  · exact hcnt
  · simp only
    rw [hrec]
    exact hrel
  · simp only
    rw [hrec]
    exact fun p hp => hp
  · intro t ht
    left
    rw [mem_promoted] at ht ⊢
    simp only at ht
    rw [hrest.prio, hrest.running, hrest.complete_queue] at ht
    rcases ht with h1 | h1 | h1 | h1
    · exact Or.inl h1
    · exact Or.inr (Or.inl (hkept t h1))
    · rcases hqueue t h1 with h2 | h2
      · exact Or.inr (Or.inr (Or.inl h2))
      · exact Or.inr (Or.inl h2)
    · exact Or.inr (Or.inr (Or.inr h1))
  · intro p hp
    simp only
    rw [hrest.returned]
    exact hp
  · intro p hp
    simp only
    rw [hrest.released]
    exact hp
  · intro t ht
    simp only at ht
    rw [hrest.complete_queue] at ht
    exact Or.inl ht
  · simp only
    rw [hrec]
    exact fun p hp => Or.inl hp

/-- The promotion phase keeps the invariant. -/
theorem promote_step_inv {s : Scheduler} (h : s.Inv) :
    Holds Scheduler.Inv (promote_step s) := by
  unfold promote_step
  have h0 : PromoteInv s (s, [], []) :=
    ⟨heap_rel.id_rel _ _, rfl, fun t ht => (by cases ht), fun t ht => (by cases ht),
      same_rest.rfl_rest s, rfl⟩
  apply Holds.after_of
    (Holds.fold_mem alloc_keep (PromoteInv s) s.alloced_tsks
      (fun x a ha hx => alloc_keep_inv s x a ha hx) _ h0)
  rintro ⟨s1, kept, ready⟩ hx
  simp only
  have hout : no_parents s.heap ready := by
    intro t ht c hc
    exact h.out t ((mem_promoted s t).2 (Or.inr (Or.inl (hx.ready t ht)))) c hc
  have hready := no_parents_rel hout hx.rel
  have hrel2 := set_status_all_rel s.c_rec TaskStatus.ComputeReady ready s1.heap hready
  have hrel := heap_rel.comp_rel (fun p hp => hp) hx.rel hrel2
  split_ifs with he
  · apply Holds.of_pure
    apply promote_finish h kept _ _ hrel hx.c_rec hx.rest hx.counter hx.kept
    intro t ht
    simp only [queue_push, List.mem_append] at ht
    rcases ht with h1 | h1
    · left
      rw [← hx.rest.compute_queue]
      exact h1
    · exact Or.inr (hx.ready t h1)
  · apply Holds.of_pure
    apply promote_finish h kept s1.compute_queue s1.heap hx.rel hx.c_rec hx.rest hx.counter
      hx.kept
    intro t ht
    left
    rw [← hx.rest.compute_queue]
    exact ht

/-- The service phase keeps the invariant. -/
theorem service_step_inv {s : Scheduler} (h : s.Inv) :
    Holds Scheduler.Inv (service_step s) := by
  unfold service_step
  apply Holds.after
  intro cache _
  exact Holds.of_pure (h.frame rfl rfl ⟨rfl, rfl, rfl, rfl, rfl, rfl, rfl⟩ rfl)

/-- Every step of the dispatcher thread keeps the invariant. -/
theorem sched_step_inv {s : Scheduler} (h : s.Inv) : Holds Scheduler.Inv (sched_step s) := by
  unfold sched_step
  split
  · apply Holds.of_pure
    unfold start_step
    split_ifs
    · exact h.frame rfl rfl ⟨rfl, rfl, rfl, rfl, rfl, rfl, rfl⟩ rfl
    · exact h.frame rfl rfl ⟨rfl, rfl, rfl, rfl, rfl, rfl, rfl⟩ rfl
  · exact drain_step_inv h
  · exact filter_step_inv h
  · exact admission_step_inv h
  · exact promote_step_inv h
  · exact service_step_inv h
  · exact Holds.of_pure h

/-- Every event keeps the invariant. -/
theorem sched_apply_inv {s : Scheduler} (h : s.Inv) (ev : SchedEvent) :
    Holds Scheduler.Inv (sched_apply s ev) := by
  cases ev with
  | new_task read_list write_list parents next =>
    unfold sched_apply
    exact Holds.of_pure (new_task_inv h _ rfl rfl)
  | add_task tsk => exact add_task_inv h tsk
  | sched => exact sched_step_inv h
  | compute_pop => exact compute_pop_inv h
  | compute_finish tsk => exact compute_finish_inv h tsk
  | io_done k =>
    unfold sched_apply
    exact Holds.of_pure (h.frame rfl rfl ⟨rfl, rfl, rfl, rfl, rfl, rfl, rfl⟩ rfl)
  | set_shutdown =>
    unfold sched_apply
    exact Holds.of_pure (h.frame rfl rfl ⟨rfl, rfl, rfl, rfl, rfl, rfl, rfl⟩ rfl)

/-- A scheduler that has just been constructed satisfies the invariant. -/
theorem sched_init_inv (N_COMPUTE_THR max_mem : Nat) :
    (Scheduler.init N_COMPUTE_THR max_mem).Inv := by
  refine ⟨?_, ?_, ?_, ?_, ?_, ?_, ?_, rfl⟩
  · intro tsk c hc
    cases hc
  · intro tsk c hc
    cases hc
  · intro tsk ht
    cases ht
  · intro tsk ht
    cases ht
  · intro tsk ht
    cases ht
  · intro p hp
    exfalso
    unfold CompletionRecord.marked Scheduler.init at hp
    simp only [List.getD_eq_getElem?_getD, List.getElem?_replicate] at hp
    split_ifs at hp <;> simp at hp
  · intro tsk c hc
    cases hc

/-- Every run of the scheduler keeps the invariant. -/
theorem sched_run_inv (N_COMPUTE_THR max_mem : Nat) (evs : List SchedEvent) :
    Holds Scheduler.Inv ((Scheduler.init N_COMPUTE_THR max_mem).run evs) := by
  unfold Scheduler.run
  exact Holds.fold sched_apply Scheduler.Inv (fun s a hs => sched_apply_inv hs a) evs _
    (sched_init_inv N_COMPUTE_THR max_mem)

end flash
namespace flash

/-! ## Theorems: dependency gating -/

/-- C1. Dependency gating.  In every state `s` that the scheduler reaches by
the steps of the dispatcher loop interleaved with task construction,
`add_task`, the compute threads and I/O completions: a task whose status is
not `Wait` (it was removed from `wait_tsks` and set to `AllocReady`, or is in
a later status), and a task in the prioritizer, `alloced_tsks`,
`compute_queue`, in compute or in `complete_queue`, has every id of the parent
list it was constructed with marked complete in the `CompletionRecord`; an id
that is marked complete is the id of a task whose `execute()` has returned and
for which `cache.release` has run (it is marked while `complete_queue` is
drained, in the step that also releases it, before the filter of `wait_tsks`
of the same iteration); and the id of a task is its address in the heap, so
two tasks do not share an id.  A run that stops on a `Fault` (a failed
assertion, a write of `mark_complete` outside the vector) reaches no state. -/
theorem dependency_gating (N_COMPUTE_THR max_mem : Nat) (evs : List SchedEvent)
    (s : Scheduler) (hrun : (Scheduler.init N_COMPUTE_THR max_mem).run evs = Except.ok s) :
    (∀ (tsk : Nat) (c : TaskCell), s.heap[tsk]? = some c →
      (c.task.st ≠ TaskStatus.Wait ∨ tsk ∈ s.promoted) → ∀ p ∈ c.parents0, s.c_rec.marked p) ∧
    (∀ p, s.c_rec.marked p → p ∈ s.returned ∧ p ∈ s.released) ∧
    (∀ (tsk : Nat) (c : TaskCell), s.heap[tsk]? = some c → c.task.task_id = tsk) := by
  have h := sched_run_inv N_COMPUTE_THR max_mem evs
  rw [hrun] at h
  have hi : s.Inv := h
  refine ⟨?_, hi.mark, hi.ids⟩
  intro tsk c hc hst p hp
  have hpar : c.task.parents = [] := by
    rcases hst with h1 | h1
    · exact hi.st tsk c hc h1
    · exact hi.out tsk h1 c hc
  rcases hi.par tsk c hc p hp with h1 | h1
  · rw [hpar] at h1
    cases h1
  · exact h1

set_option maxRecDepth 100000 in
/-- Witness of C1: in the run `parent_then_child` the child, task 1, is
`AllocReady` and in the prioritizer after its parent, task 0, has been
executed, marked complete and released; while the parent is in compute the
child is in `wait_tsks` with status `Wait`. -/
theorem dependency_gating_witness :
    (Scheduler.init 2 4096).run parent_then_child = Except.ok parent_then_child_sched ∧
    (parent_then_child_sched.heap.map (fun c => (c.task.st, c.parents0)) =
        [(TaskStatus.Complete, []), (TaskStatus.AllocReady, [0])] ∧
      parent_then_child_sched.promoted = [1] ∧
      parent_then_child_sched.c_rec.complete.take 2 = [true, false] ∧
      ((Scheduler.init 2 4096).run parent_running).toOption.map
        (fun s => (s.heap.map (fun c => c.task.st), s.wait_tsks, s.running)) =
        some ([TaskStatus.Compute, TaskStatus.Wait], [1], [0])) ∧
    ((∀ (tsk : Nat) (c : TaskCell), parent_then_child_sched.heap[tsk]? = some c →
      (c.task.st ≠ TaskStatus.Wait ∨ tsk ∈ parent_then_child_sched.promoted) →
        ∀ p ∈ c.parents0, parent_then_child_sched.c_rec.marked p) ∧
    (∀ p, parent_then_child_sched.c_rec.marked p →
      p ∈ parent_then_child_sched.returned ∧ p ∈ parent_then_child_sched.released) ∧
    (∀ (tsk : Nat) (c : TaskCell), parent_then_child_sched.heap[tsk]? = some c →
      c.task.task_id = tsk)) :=
  ⟨rfl, ⟨rfl, rfl, rfl, rfl⟩,
    dependency_gating 2 4096 parent_then_child parent_then_child_sched rfl⟩

end flash
namespace flash

/-! ## Theorems: failed eviction and failed allocation -/

/-- When `try_evict` returns `false` the cache is the one it was called on. -/
theorem try_evict_false_eq {c c' : Cache} {exclude_keys : List Key} {evict_size : Nat}
    (h : try_evict c exclude_keys evict_size = Except.ok (false, c')) : c' = c := by
  unfold try_evict at h
  by_cases hz : c.zero_ref_map.isEmpty = true
  · rw [if_pos hz] at h
    cases h
    rfl
  · rw [if_neg hz] at h
    simp only at h
    by_cases hlt : (try_evict_scan exclude_keys evict_size c.zero_ref_map 0 []).1 < evict_size
    · rw [if_pos hlt] at h
      cases h
      rfl
    · rw [if_neg hlt] at h
      cases he : evict c (try_evict_scan exclude_keys evict_size c.zero_ref_map 0 []).2 with
      | error e =>
        rw [he] at h
        cases h
      | ok c1 =>
        rw [he] at h
        cases h

/-- C16. Failed eviction and failed allocation are atomic: when `try_evict`
returns `false` the whole cache (the four maps, `commit_size`, `real_size`,
the record of issued I/O and of freed buffers) is as before the call, and when
`allocate` returns `false` the cache and the task, `in_mem_ptrs` included, are
as before the call. -/
theorem failed_allocation_atomic (c : Cache) :
    (∀ (exclude_keys : List Key) (evict_size : Nat) (c' : Cache),
      try_evict c exclude_keys evict_size = Except.ok (false, c') → c' = c) ∧
    (∀ (tsk tsk' : BaseTask) (c' : Cache),
      allocate c tsk = Except.ok (false, c', tsk') → c' = c ∧ tsk' = tsk) := by
  refine ⟨fun _ _ _ h => try_evict_false_eq h, ?_⟩
  intro tsk tsk' c' h
  unfold allocate at h
  simp only at h
  by_cases hs : has_spare_mem_for c
      ((task_keys tsk).foldl (fun sz key => add64 sz (ask_for c key)) 0) = true
  · rw [if_pos hs] at h
    cases ha : alloc_bufs c tsk with
    | error e =>
      rw [ha] at h
      cases h
    | ok s =>
      rw [ha] at h
      cases h
  · rw [if_neg hs] at h
    cases ht : try_evict c (task_keys tsk)
        ((task_keys tsk).foldl (fun sz key => add64 sz (ask_for c key)) 0) with
    | error e =>
      rw [ht] at h
      cases h
    | ok r =>
      rw [ht] at h
      obtain ⟨b, c1⟩ := r
      cases b with
      | true =>
        cases ha : alloc_bufs c1 tsk with
        | error e =>
          simp only [Except.bind, ha] at h
          cases h
        | ok s =>
          simp only [Except.bind, ha] at h
          cases h
      | false =>
        simp only [Except.bind, Bool.false_eq_true, if_false] at h
        cases h
        exact ⟨try_evict_false_eq ht, rfl⟩

/-- Witness of C16 on the cache `released_cache` of 2048 bytes, where `kA`
(1024 bytes) is in `zero_ref_map`: a task that reads the slice `kA2` (1536
bytes) does not fit, evicting `kA` would not free enough, and `allocate`
returns `false` and leaves cache and task as they were. -/
theorem failed_allocation_atomic_witness :
    keys released_cache.zero_ref_map = [kA] ∧
    allocate released_cache (tR kA2) = Except.ok (false, released_cache, tR kA2) ∧
    (released_cache = released_cache ∧ tR kA2 = tR kA2) :=
  ⟨rfl, rfl,
    (failed_allocation_atomic released_cache).2 (tR kA2) (tR kA2) released_cache rfl⟩

end flash
namespace flash

/-! ## Theorems: the frame of contiguous write -/

/-- C11 (code defect). Five bytes are written at offset 0 of a file of two
zeroed sectors, the bounce buffer holding `ramp` when it is allocated.  The
offset is aligned, so the first sector is not fetched, and `write_len` equals
`SECTOR_LEN`, so the last sector is not fetched either: byte 5 of the file,
which lies outside `[0, 5)`, changes from 0 to byte 5 of the bounce buffer. -/
theorem FlashFileHandle.write_overwrites_sector_tail :
    two_sectors.data 5 = 0 ∧
    (FlashFileHandle.write two_sectors 0 5 0 zeros ramp).data 5 = 12 ∧
    (FlashFileHandle.write two_sectors 0 5 0 zeros ramp).data 511 = 6 := by
  decide

end flash
namespace flash

/-! ## Theorems: evaluations of the dispatcher at concrete runs -/

set_option maxRecDepth 100000 in
/-- C18 (code defect). `set_options` with `enable_prioritizer = false` leaves
`use_prio` at `true`, the value the constructor gave it.  Task 0 (1536 bytes)
and task 1 (1024 bytes) then become ready in this order; the `update` that
follows their insertion sorts the queue, and the admission hands task 1 to
`Cache::allocate` before task 0.  `update` sorts in the same way when
`use_prio` is `false`. -/
theorem set_options_false_still_sorts :
    ((Scheduler.init 2 4096).set_options ⟨false, true, false⟩).prio.use_prio = true ∧
    (((Scheduler.init 2 4096).set_options ⟨false, true, false⟩).run (two_ready.take 6)).toOption.map
      (fun s => (s.wait_tsks, s.pc)) = some ([0, 1], Phase.filter) ∧
    (((Scheduler.init 2 4096).set_options ⟨false, true, false⟩).run two_ready).toOption.map
      (fun s => (s.prio.tsks.map fun ti => ti.tsk, s.pc)) = some ([1, 0], Phase.admission) ∧
    (((Scheduler.init 2 4096).set_options ⟨false, true, false⟩).run
        (two_ready ++ [.sched])).toOption.map
      (fun s => s.alloced_tsks) = some [1, 0] ∧
    (Prioritizer.update ⟨[], [⟨0, [kA2], 0⟩, ⟨1, [kA], 0⟩], false⟩ (Cache.init 4096)).tsks.map
      (fun ti => ti.tsk) = [1, 0] := by
  refine ⟨rfl, rfl, rfl, rfl, rfl⟩

set_option maxRecDepth 100000 in
/-- C19 (code defect). With one compute thread `max_in_mem_tsks` is 4.  Five
tasks are ready when the admission loop starts on a cache of 16384 bytes:
`num_tsks_to_alloc` is 4 at the start and is not decremented in the loop, so
all five tasks are admitted and `tsks_in_mem` is 5. -/
theorem admission_exceeds_max_in_mem :
    ((Scheduler.init 1 16384).run five_ready).toOption.map
      (fun s => (s.N_COMPUTE_THR * 4, s.tsks_in_mem, s.alloced_tsks, s.complete_queue)) =
      some (4, 5, [0, 1, 2, 3, 4], []) := by
  rfl

set_option maxRecDepth 100000 in
/-- C20 (code defect). The dispatcher leaves its loop while task 0 is being
executed: `shutdown` is set and `wait_tsks`, `prio`, `alloced_tsks` and
`compute_queue` are empty.  When the compute thread returns, task 0 is in
`complete_queue`; it is never marked complete, its status stays `Compute`, its
buffer is never released and stays in `active_map`, and the `flush` of the
destructor stops at its assertion that `active_map` is empty. -/
theorem loop_exits_before_completion :
    ((Scheduler.init 2 4096).run (shutdown_while_running.take 18)).toOption.map
      (fun s => (s.pc, s.running, s.wait_tsks, s.prio.tsks, s.alloced_tsks, s.compute_queue)) =
      some (Phase.stopped, [0], [], [], [], []) ∧
    ((Scheduler.init 2 4096).run shutdown_while_running).toOption.map
      (fun s => (s.pc, s.complete_queue, s.heap.map fun c => c.task.st, s.released,
        s.c_rec.complete.getD 0 false, keys s.cache.active_map)) =
      some (Phase.stopped, [0], [TaskStatus.Compute], [], false, [kA]) ∧
    ((Scheduler.init 2 4096).run (shutdown_while_running ++ [.sched, .sched])).toOption.map
      (fun s => (s.pc, s.complete_queue)) = some (Phase.stopped, [0]) ∧
    ((Scheduler.init 2 4096).run shutdown_while_running).toOption.map
      (fun s => flush s.cache []) = some (Except.error Fault.flush_active) := by
  refine ⟨rfl, rfl, rfl, rfl⟩

end flash
namespace flash

/-! ## Theorems: the contract of `release` -/

/-- One key of `release`, active with at least one reference. -/
theorem release_one_post {c : Cache} (h : c.Inv) (k : Key) (v : Value)
    (hk : kv_find c.active_map k = some v) (h1 : 1 ≤ v.n_refs) (h2 : v.n_refs < 2 ^ 64) :
    ∃ c', release_one c k = Except.ok c' ∧ ReleasePost c c' [k] := by
  have hsat := release_one_sat h k
  have ha : is_active c k = true := (is_active_iff c k).2 (by rw [hk]; simp)
  have hsub : sub64 v.n_refs 1 = v.n_refs - 1 := sub64_eq _ _ h1 h2
  obtain ⟨hle1, hle2⟩ := h.size_le_active hk
  have hclt := h.commit_lt
  have hrlt := h.real_lt
  have hz : kv_find c.zero_ref_map k = none := by
    have hl := h.loc k
    rw [hk] at hl
    rcases hl.active_zero with h1 | h1
    · cases h1
    · exact h1
  have hbytes : last_ref_bytes c [k] = if v.n_refs = 1 then buf_size k.sinfo else 0 := by
    simp [last_ref_bytes, kv_get_of_find hk]
  unfold release_one at hsat ⊢
  simp only [ha, Bool.not_true, Bool.false_eq_true, if_false, kv_get_of_find hk, hsub] at hsat ⊢
  by_cases hn : v.n_refs = 1
  · have hn0 : v.n_refs - 1 = 0 := by omega
    rw [if_pos hn0] at hsat ⊢
    by_cases hd : c.single_use_discard = true
    · rw [if_pos hd] at hsat ⊢
      refine ⟨_, rfl, (Holds.at_ok hsat rfl).1, ?_, ?_, ?_, rfl, rfl, rfl, rfl, ?_, ?_, ?_⟩
      · intro k' hk' v' hv' hne
        simp only [List.mem_singleton] at hk'
        subst hk'
        rw [hk] at hv'
        cases hv'
        exact absurd hn hne
      · intro k' hk' v' hv' _
        simp only [List.mem_singleton] at hk'
        subst hk'
        simp only [kv_find_erase, if_true, hd, hz]
        trivial
      · intro k' hk'
        simp only [List.mem_singleton] at hk'
        simp only [kv_find_erase, kv_find_set, if_neg hk']
        trivial
      · simp only [hd, if_true, hbytes, if_pos hn]
      · simp only [hd, if_true, hbytes, if_pos hn]
      · intro hex
        have e1 := hex.commit_eq
        have e2 := hex.real_eq
        refine ⟨(Holds.at_ok hsat rfl).2.2 hex, ?_, ?_⟩
        · simp only [hd, if_true, hbytes, if_pos hn]
          rw [sub64_eq _ _ (by omega) hclt]
          omega
        · simp only [hd, if_true, hbytes, if_pos hn]
          rw [sub64_eq _ _ (by omega) hrlt]
          omega
    · rw [if_neg hd] at hsat ⊢
      have hf1 : kv_find (kv_set c.active_map k { v with n_refs := v.n_refs - 1 }) k =
          some { v with n_refs := v.n_refs - 1 } := by
        rw [kv_find_set, if_pos rfl]
      unfold move_active_to_zero at hsat ⊢
      simp only [kv_get_of_find hf1] at hsat ⊢
      rw [if_neg (by simpa using hn0)] at hsat ⊢
      have hd' : c.single_use_discard = false := by simpa using hd
      refine ⟨_, rfl, (Holds.at_ok hsat rfl).1, ?_, ?_, ?_, rfl, rfl, rfl, rfl, ?_, ?_, ?_⟩
      · intro k' hk' v' hv' hne
        simp only [List.mem_singleton] at hk'
        subst hk'
        rw [hk] at hv'
        cases hv'
        exact absurd hn hne
      · intro k' hk' v' hv' _
        simp only [List.mem_singleton] at hk'
        subst hk'
        rw [hk] at hv'
        cases hv'
        simp only [kv_find_erase, kv_find_set, if_true, hd', hn0]
        simp
      · intro k' hk'
        simp only [List.mem_singleton] at hk'
        simp only [kv_find_erase, kv_find_set, if_neg hk']
        trivial
      · simp only [hd', Bool.false_eq_true, if_false]
        exact (sub64_zero _ hclt).symm
      · simp only [hd', Bool.false_eq_true, if_false]
        exact (sub64_zero _ hrlt).symm
      · intro hex
        exact ⟨(Holds.at_ok hsat rfl).2.2 hex, by simp [hd'], by simp [hd']⟩
  · have hn0 : ¬ v.n_refs - 1 = 0 := by omega
    rw [if_neg hn0] at hsat ⊢
    refine ⟨_, rfl, (Holds.at_ok hsat rfl).1, ?_, ?_, ?_, rfl, rfl, rfl, rfl, ?_, ?_, ?_⟩
    · intro k' hk' v' hv' _
      simp only [List.mem_singleton] at hk'
      subst hk'
      rw [hk] at hv'
      cases hv'
      simp only [kv_find_set, if_true, hz]
      trivial
    · intro k' hk' v' hv' he
      simp only [List.mem_singleton] at hk'
      subst hk'
      rw [hk] at hv'
      cases hv'
      exact absurd he hn
    · intro k' hk'
      simp only [List.mem_singleton] at hk'
      simp only [kv_find_set, if_neg hk']
      trivial
    · simp only [hbytes, if_neg hn, ite_self]
      exact (sub64_zero _ hclt).symm
    · simp only [hbytes, if_neg hn, ite_self]
      exact (sub64_zero _ hrlt).symm
    · intro hex
      exact ⟨(Holds.at_ok hsat rfl).2.2 hex, by simp [hbytes, hn], by simp [hbytes, hn]⟩

end flash
namespace flash

theorem last_ref_bytes_cons (c : Cache) (k : Key) (l : List Key) :
    last_ref_bytes c (k :: l) = last_ref_bytes c [k] + last_ref_bytes c l := by
  simp [last_ref_bytes]

theorem last_ref_bytes_congr (c c1 : Cache) (l : List Key)
    (h : ∀ k ∈ l, kv_find c1.active_map k = kv_find c.active_map k) :
    last_ref_bytes c1 l = last_ref_bytes c l := by
  unfold last_ref_bytes
  congr 1
  apply List.map_congr_left
  intro k hk
  simp only [kv_get, h k hk]

/-- The release of `k` followed by the release of the keys `l`, none of which
is `k`, is the release of `k :: l`. -/
theorem ReleasePost.cons {c c1 c' : Cache} {k : Key} {l : List Key}
    (hk : k ∉ l) (h1 : ReleasePost c c1 [k]) (h2 : ReleasePost c1 c' l) :
    ReleasePost c c' (k :: l) := by
  have hne : ∀ k' ∈ l, k' ∉ [k] := by
    intro k' hk' hmem
    simp only [List.mem_singleton] at hmem
    subst hmem
    exact hk hk'
  have hb : last_ref_bytes c1 l = last_ref_bytes c l :=
    last_ref_bytes_congr c c1 l fun k' hk' => (h1.frame k' (hne k' hk')).1
  refine ⟨h2.inv, ?_, ?_, ?_, h2.io_eq.trans h1.io_eq, h2.backlog_eq.trans h1.backlog_eq,
    h2.discard_eq.trans h1.discard_eq, h2.max_eq.trans h1.max_eq, ?_, ?_, ?_⟩
  · intro k' hk' v hv hn
    rcases List.mem_cons.1 hk' with rfl | hk'
    · obtain ⟨a1, a2⟩ := h1.dec k' (List.mem_singleton.2 rfl) v hv hn
      obtain ⟨f1, f2⟩ := h2.frame k' hk
      exact ⟨f1.trans a1, f2.trans a2⟩
    · have hf := (h1.frame k' (hne k' hk')).1
      exact h2.dec k' hk' v (hf.trans hv) hn
  · intro k' hk' v hv hn
    rcases List.mem_cons.1 hk' with rfl | hk'
    · obtain ⟨a1, a2⟩ := h1.zero k' (List.mem_singleton.2 rfl) v hv hn
      obtain ⟨f1, f2⟩ := h2.frame k' hk
      exact ⟨f1.trans a1, f2.trans a2⟩
    · have hf := (h1.frame k' (hne k' hk')).1
      have := h2.zero k' hk' v (hf.trans hv) hn
      rw [h1.discard_eq] at this
      exact this
  · intro k' hk'
    have hk1 : k' ∉ [k] := fun hm => hk' (by
      simp only [List.mem_singleton] at hm
      subst hm
      exact List.mem_cons_self _ _)
    have hk2 : k' ∉ l := fun hm => hk' (List.mem_cons_of_mem _ hm)
    obtain ⟨a1, a2⟩ := h1.frame k' hk1
    obtain ⟨f1, f2⟩ := h2.frame k' hk2
    exact ⟨f1.trans a1, f2.trans a2⟩
  · have e1 := h1.commit
    have e2 := h2.commit
    rw [h1.discard_eq, hb] at e2
    rw [last_ref_bytes_cons, e2, e1, sub64_sub64]
    congr 1
    split_ifs <;> rfl
  · have e1 := h1.real
    have e2 := h2.real
    rw [h1.discard_eq, hb] at e2
    rw [last_ref_bytes_cons, e2, e1, sub64_sub64]
    congr 1
    split_ifs <;> rfl
  · intro hex
    obtain ⟨x1, a1, b1⟩ := h1.exact hex
    obtain ⟨x2, a2, b2⟩ := h2.exact x1
    rw [h1.discard_eq, hb] at a2 b2
    rw [last_ref_bytes_cons]
    refine ⟨x2, ?_, ?_⟩
    · split_ifs at a1 a2 ⊢ <;> omega
    · split_ifs at b1 b2 ⊢ <;> omega

/-- The loop of `release` over distinct keys that are all active with at
least one reference. -/
theorem release_fold_post (l : List Key) (hnd : l.Nodup) {c : Cache} (h : c.Inv)
    (hact : ∀ k ∈ l, ∃ v, kv_find c.active_map k = some v ∧ 1 ≤ v.n_refs ∧ v.n_refs < 2 ^ 64) :
    ∃ c', l.foldlM release_one c = Except.ok c' ∧ ReleasePost c c' l := by
  induction l generalizing c with
  | nil =>
    refine ⟨c, rfl, h, ?_, ?_, fun _ _ => ⟨rfl, rfl⟩, rfl, rfl, rfl, rfl, ?_, ?_, ?_⟩
    · intro k hk
      cases hk
    · intro k hk
      cases hk
    · simp only [last_ref_bytes, List.map_nil, List.sum_nil, ite_self]
      exact (sub64_zero _ h.commit_lt).symm
    · simp only [last_ref_bytes, List.map_nil, List.sum_nil, ite_self]
      exact (sub64_zero _ h.real_lt).symm
    · intro hex
      exact ⟨hex, by simp [last_ref_bytes], by simp [last_ref_bytes]⟩
  | cons k l ih =>
    obtain ⟨hkl, hnd'⟩ := List.nodup_cons.1 hnd
    obtain ⟨v, hv, hv1, hv2⟩ := hact k (List.mem_cons_self _ _)
    obtain ⟨c1, hc1, hp1⟩ := release_one_post h k v hv hv1 hv2
    have hact1 : ∀ k' ∈ l, ∃ v, kv_find c1.active_map k' = some v ∧ 1 ≤ v.n_refs ∧
        v.n_refs < 2 ^ 64 := by
      intro k' hk'
      obtain ⟨v', hv', hb⟩ := hact k' (List.mem_cons_of_mem _ hk')
      have hne : k' ∉ [k] := by
        intro hm
        simp only [List.mem_singleton] at hm
        subst hm
        exact hkl hk'
      exact ⟨v', ((hp1.frame k' hne).1).trans hv', hb⟩
    obtain ⟨c', hc', hp2⟩ := ih hnd' hp1.inv hact1
    refine ⟨c', ?_, ReleasePost.cons hkl hp1 hp2⟩
    rw [List.foldlM_cons, hc1]
    exact hc'

theorem mem_insert_keys_nil (l : List (flash_ptr × StrideInfo)) (k : Key) :
    k ∈ insert_keys [] l ↔ (k.fptr, k.sinfo) ∈ l := by
  rw [(insert_keys_spec [] l List.nodup_nil).2]
  simp only [List.not_mem_nil, false_or, List.mem_map]
  constructor
  · rintro ⟨e, he, rfl⟩
    exact he
  · intro h
    exact ⟨(k.fptr, k.sinfo), h, rfl⟩

/-- C15 (counterexample). On a cache of 2048 bytes with `single_use_discard`
set, `kA` (1024 bytes) is active with one reference and a task that writes a
slice of `2^64 - 100` bytes has been allocated, which `has_spare_mem_for`
lets through since `1024 + (2^64 - 100) = 924` as `FBLAS_UINT`:
`commit_size` is 924.  `release` of the reader of `kA` drops the buffer and
subtracts 1024: `commit_size` is then `2^64 - 100`; it has not lost 1024
bytes, it has grown. -/
theorem release_raises_commit_size :
    ((Cache.init 2048).run huge_write_pinned).toOption.map
      (fun c => (c.single_use_discard, (kv_find c.active_map kA).map (fun v => v.n_refs),
        c.commit_size, c.real_size)) = some (true, some 1, 924, 1024) ∧
    ((Cache.init 2048).run (huge_write_pinned ++ [.release (tR kA)])).toOption.map
      (fun c => (kv_find c.active_map kA, kv_find c.zero_ref_map kA, c.commit_size,
        c.real_size)) = some (none, none, 2 ^ 64 - 100, 0) := by
  refine ⟨by decide, by decide⟩

/-- C15 (amended). The contract of `release`: on every cache reached from the
empty cache, for a task all of whose keys are in `active_map` with at least
one reference, `release` returns, and afterwards each key of the task (the
union of its read and write lists, each key once) has one reference less;
those that reach zero have left `active_map` and are in `zero_ref_map`, or
with `single_use_discard` in neither map, their bytes subtracted from
`commit_size` and `real_size` as `FBLAS_UINT` values (modulo `2^64`); when the
two counters had not wrapped before (`Cache.Exact`: each is the sum of the
sizes of the buffers it counts) they have not wrapped afterwards and have
lost exactly these bytes; the entries of all other keys, `io_map` and
`alloc_backlog` are unchanged. -/
theorem release_contract (max_size : Nat) (hmax : max_size < 2 ^ 64) (ops : List CacheOp)
    (c : Cache) (hrun : (Cache.init max_size).run ops = Except.ok c) (tsk : BaseTask)
    (hact : ∀ k ∈ task_keys tsk, ∃ v, kv_find c.active_map k = some v ∧ 1 ≤ v.n_refs ∧
      v.n_refs < 2 ^ 64) :
    (task_keys tsk).Nodup ∧
    (∀ k, k ∈ task_keys tsk ↔
      (k.fptr, k.sinfo) ∈ tsk.read_list ∨ (k.fptr, k.sinfo) ∈ tsk.write_list) ∧
    ∃ c', release c tsk = Except.ok c' ∧ ReleasePost c c' (task_keys tsk) := by
  have _ := hmax
  have h : c.Inv := (Holds.at_ok (reachable_inv max_size ops) hrun).1
  refine ⟨task_keys_nodup tsk, ?_, release_fold_post _ (task_keys_nodup tsk) h hact⟩
  intro k
  rw [mem_task_keys, mem_insert_keys_nil, mem_insert_keys_nil]

/-- Witness of the amended C15 on the cache `pinned_cache`, where `kA` is
active with one reference and the counters have not wrapped, and the task
that writes `kA`. -/
theorem release_contract_witness :
    (Cache.init 2048).run (evict_then_ask.take 3) = Except.ok pinned_cache ∧
    (kv_find pinned_cache.active_map kA).map (fun v => v.n_refs) = some 1 ∧
    pinned_cache.Exact ∧
    ((task_keys (tW kA)).Nodup ∧
      (∀ k, k ∈ task_keys (tW kA) ↔
        (k.fptr, k.sinfo) ∈ (tW kA).read_list ∨ (k.fptr, k.sinfo) ∈ (tW kA).write_list) ∧
      ∃ c', release pinned_cache (tW kA) = Except.ok c' ∧
        ReleasePost pinned_cache c' (task_keys (tW kA))) :=
  ⟨rfl, rfl, ⟨rfl, rfl⟩,
    release_contract 2048 (by norm_num) (evict_then_ask.take 3) pinned_cache rfl (tW kA)
    (fun k hk => by
      have hk' : k ∈ [kA] := hk
      rw [List.mem_singleton] at hk'
      subst hk'
      exact ⟨_, rfl, by decide, by decide⟩)⟩

end flash
namespace flash

/-! ## Theorems: the contract of `get_buf` -/

/-- `get_buf` on a key that is active. -/
theorem get_buf_active {c : Cache} (fptr : flash_ptr) (sinfo : StrideInfo) (wb : Bool)
    (v : Value) (hk : kv_find c.active_map ⟨fptr, sinfo⟩ = some v) (hb : v.buf ≠ 0) :
    ∃ c', get_buf c fptr sinfo wb = Except.ok (v.buf, c') ∧
      kv_find c'.active_map ⟨fptr, sinfo⟩ =
        some { v with n_refs := add64 v.n_refs 1, write_back := v.write_back || wb } ∧
      c'.io_map = c.io_map ∧ c'.zero_ref_map = c.zero_ref_map ∧
      c'.alloc_backlog = c.alloc_backlog := by
  have ha : is_active c ⟨fptr, sinfo⟩ = true := (is_active_iff c _).2 (by rw [hk]; simp)
  have hf : kv_find (kv_set c.active_map ⟨fptr, sinfo⟩ { v with n_refs := add64 v.n_refs 1 })
      ⟨fptr, sinfo⟩ = some { v with n_refs := add64 v.n_refs 1 } := by
    rw [kv_find_set, if_pos rfl]
  unfold get_buf get_buf_probe
  simp only [ha, if_true, kv_get_of_find hk, Except.bind, pure, Except.pure, kv_get_of_find hf,
    if_neg hb]
  refine ⟨_, rfl, ?_, rfl, rfl, rfl⟩
  simp only [kv_find_set, if_true]

/-- `get_buf` on a key that is in `zero_ref_map` and in no other map. -/
theorem get_buf_zero {c : Cache} (fptr : flash_ptr) (sinfo : StrideInfo) (wb : Bool)
    (v : Value) (hk : kv_find c.zero_ref_map ⟨fptr, sinfo⟩ = some v) (hb : v.buf ≠ 0)
    (ha : kv_find c.active_map ⟨fptr, sinfo⟩ = none)
    (hi : kv_find c.io_map ⟨fptr, sinfo⟩ = none) :
    ∃ c', get_buf c fptr sinfo wb = Except.ok (v.buf, c') ∧
      kv_find c'.active_map ⟨fptr, sinfo⟩ =
        some { v with n_refs := 1, write_back := v.write_back || wb } ∧
      c'.io_map = c.io_map ∧ kv_find c'.zero_ref_map ⟨fptr, sinfo⟩ = none ∧
      c'.alloc_backlog = c.alloc_backlog := by
  have ha' : is_active c ⟨fptr, sinfo⟩ = false := by
    rw [← Bool.not_eq_true, is_active_iff, ha]
    simp
  have hi' : is_in_io c ⟨fptr, sinfo⟩ = false := by
    rw [← Bool.not_eq_true, is_in_io_iff, hi]
    simp
  have hz : is_zero_ref c ⟨fptr, sinfo⟩ = true := (is_zero_ref_iff c _).2 (by rw [hk]; simp)
  have hf : kv_find (kv_set c.active_map ⟨fptr, sinfo⟩ { v with n_refs := 1 })
      ⟨fptr, sinfo⟩ = some { v with n_refs := 1 } := by
    rw [kv_find_set, if_pos rfl]
  unfold get_buf get_buf_probe
  simp only [ha', hi', hz, Bool.false_and, Bool.false_eq_true, if_false, if_true, Except.bind,
    pure, Except.pure, move_zero_to_active, kv_get_of_find hk, kv_get_of_find hf, if_neg hb]
  refine ⟨_, rfl, ?_, rfl, ?_, rfl⟩
  · simp only [kv_find_set, if_true]
  · simp only [kv_find_erase, if_true]

/-- `get_buf` on a key whose read has completed. -/
theorem get_buf_io {c : Cache} (fptr : flash_ptr) (sinfo : StrideInfo) (wb : Bool)
    (v : Value) (hk : kv_find c.io_map ⟨fptr, sinfo⟩ = some v) (hb : v.buf ≠ 0)
    (ha : kv_find c.active_map ⟨fptr, sinfo⟩ = none)
    (hev : v.evicted = false) (hc : v.complete = some true) :
    ∃ c', get_buf c fptr sinfo wb = Except.ok (v.buf, c') ∧
      kv_find c'.active_map ⟨fptr, sinfo⟩ =
        some { v with n_refs := 1, write_back := v.write_back || wb, complete := none } ∧
      kv_find c'.io_map ⟨fptr, sinfo⟩ = none ∧ c'.zero_ref_map = c.zero_ref_map ∧
      c'.alloc_backlog = c.alloc_backlog := by
  have ha' : is_active c ⟨fptr, sinfo⟩ = false := by
    rw [← Bool.not_eq_true, is_active_iff, ha]
    simp
  have hi' : is_in_io c ⟨fptr, sinfo⟩ = true := (is_in_io_iff c _).2 (by rw [hk]; simp)
  have hf1 : kv_find (kv_set c.io_map ⟨fptr, sinfo⟩ { v with complete := none })
      ⟨fptr, sinfo⟩ = some { v with complete := none } := by
    rw [kv_find_set, if_pos rfl]
  have hf : kv_find (kv_set c.active_map ⟨fptr, sinfo⟩ { v with complete := none, n_refs := 1 })
      ⟨fptr, sinfo⟩ = some { v with complete := none, n_refs := 1 } := by
    rw [kv_find_set, if_pos rfl]
  have hne : (!v.evicted) = true := by simp [hev]
  have hl : load_complete v = Except.ok true := by
    simp only [load_complete, hc]
    rfl
  unfold get_buf get_buf_probe reap_io_completion
  simp only [ha', hi', Bool.false_eq_true, if_false, if_true, Except.bind, Bool.true_and,
    pure, Except.pure, move_io_to_active, kv_get_of_find hk, hne, hl,
    Bool.not_true, kv_get_of_find hf1, kv_get_of_find hf, if_neg hb]
  refine ⟨_, rfl, ?_, ?_, rfl, rfl⟩
  · simp only [kv_find_set, if_true]
  · simp only [kv_find_erase, if_true]

/-- `get_buf` on a key that is in none of the three places it looks at. -/
theorem get_buf_miss {c : Cache} (fptr : flash_ptr) (sinfo : StrideInfo) (wb : Bool)
    (ha : kv_find c.active_map ⟨fptr, sinfo⟩ = none)
    (hz : kv_find c.zero_ref_map ⟨fptr, sinfo⟩ = none)
    (hi : ∀ v, kv_find c.io_map ⟨fptr, sinfo⟩ = some v →
      v.evicted = true ∨ v.complete = some false) :
    get_buf c fptr sinfo wb = Except.ok (0, c) := by
  have ha' : is_active c ⟨fptr, sinfo⟩ = false := by
    rw [← Bool.not_eq_true, is_active_iff, ha]
    simp
  have hz' : is_zero_ref c ⟨fptr, sinfo⟩ = false := by
    rw [← Bool.not_eq_true, is_zero_ref_iff, hz]
    simp
  unfold get_buf get_buf_probe
  simp only [ha', hz', Bool.false_eq_true, if_false]
  cases hf : kv_find c.io_map ⟨fptr, sinfo⟩ with
  | none =>
    have hi' : is_in_io c ⟨fptr, sinfo⟩ = false := by
      rw [← Bool.not_eq_true, is_in_io_iff, hf]
      simp
    simp only [hi', Bool.false_and, Bool.false_eq_true, if_false]
    rfl
  | some v =>
    have hi' : is_in_io c ⟨fptr, sinfo⟩ = true := (is_in_io_iff c _).2 (by rw [hf]; simp)
    simp only [hi', Bool.true_and, kv_get_of_find hf]
    rcases hi v hf with he | hc
    · simp only [he, Bool.not_true, Bool.false_eq_true, if_false]
      rfl
    · by_cases he : v.evicted = true
      · simp only [he, Bool.not_true, Bool.false_eq_true, if_false]
        rfl
      · have he' : v.evicted = false := by simpa using he
        simp only [he', Bool.not_false, if_true, load_complete, hc]
        rfl

end flash
namespace flash

/-! ## Theorems: every cached entry has a buffer -/

theorem mem_kv_set {m : KVMap} {k : Key} {v : Value} {e : Key × Value}
    (h : e ∈ kv_set m k v) : e ∈ m ∨ (e.1 = k ∧ e.2 = v) := by
  unfold kv_set at h
  split_ifs at h
  · simp only [List.mem_map] at h
    obtain ⟨e0, he0, rfl⟩ := h
    by_cases hk : e0.1 = k
    · simp only [hk, if_true]
      exact Or.inr ⟨trivial, trivial⟩
    · simp only [hk, if_false]
      exact Or.inl he0
  · rcases List.mem_append.1 h with h | h
    · exact Or.inl h
    · simp only [List.mem_singleton] at h
      subst h
      exact Or.inr ⟨rfl, rfl⟩

theorem all_values_set {P : Value → Prop} {m : KVMap} (k : Key) {v : Value}
    (h : all_values P m) (hv : P v) : all_values P (kv_set m k v) := by
  intro e he
  rcases mem_kv_set he with h1 | ⟨_, h2⟩
  · exact h e h1
  · rw [h2]
    exact hv

theorem all_values_erase {P : Value → Prop} {m : KVMap} (k : Key)
    (h : all_values P m) : all_values P (kv_erase m k) := by
  intro e he
  exact h e (List.mem_filter.1 he).1

theorem all_values_erase_set {P : Value → Prop} {m : KVMap} (k : Key) (v : Value)
    (h : all_values P m) : all_values P (kv_erase (kv_set m k v) k) := by
  intro e he
  obtain ⟨h1, h2⟩ := List.mem_filter.1 he
  rcases mem_kv_set h1 with h3 | ⟨h3, _⟩
  · exact h e h3
  · simp [h3] at h2

theorem all_values_find {P : Value → Prop} {m : KVMap} {k : Key} {v : Value}
    (h : all_values P m) (hk : kv_find m k = some v) : P v :=
  h (k, v) (kv_find_some_mem hk)

theorem all_values_get {P : Value → Prop} {m : KVMap} {k : Key}
    (h : all_values P m) (hk : kv_contains m k = true) : P (kv_get m k) := by
  obtain ⟨v, hv⟩ := find_of_ne_none ((kv_contains_iff m k).1 hk)
  rw [kv_get_of_find hv]
  exact all_values_find h hv

theorem all_values_nil (P : Value → Prop) : all_values P [] := by
  intro e he
  cases he

/-- The empty cache has no entry without a buffer. -/
theorem init_backed (max_size : Nat) : (Cache.init max_size).Backed :=
  ⟨all_values_nil _, all_values_nil _, all_values_nil _, Nat.one_ne_zero⟩

/-- One key of `evict` keeps every entry with its buffer. -/
theorem evict_one_backed {c : Cache} (h : c.Backed) (k : Key) :
    Holds Cache.Backed (evict_one c k) := by
  unfold evict_one
  by_cases hz : is_zero_ref c k = true
  · have hv := all_values_get h.zero hz
    simp only [hz, Bool.not_true, Bool.false_eq_true, if_false]
    split_ifs
    · exact Holds.of_throw
    · exact Holds.of_pure ⟨h.active, all_values_set k h.io ⟨hv, by simp⟩,
        all_values_erase k h.zero, h.next⟩
    · exact Holds.of_pure ⟨h.active, h.io, all_values_erase k h.zero, h.next⟩
  · simp only [hz, Bool.not_false, if_true]
    exact Holds.of_throw

theorem evict_backed {c : Cache} (h : c.Backed) (l : List Key) :
    Holds Cache.Backed (evict c l) :=
  Holds.fold evict_one Cache.Backed (fun _ k hs => evict_one_backed hs k) l c h

theorem try_evict_backed {c : Cache} (h : c.Backed) (excl : List Key) (n : Nat) :
    Holds (fun r => r.2.Backed) (try_evict c excl n) := by
  unfold try_evict
  simp only
  split_ifs
  · exact Holds.of_pure h
  · exact Holds.of_pure h
  · exact Holds.after_of (evict_backed h _) fun c' hc' => Holds.of_pure hc'

/-- When `reap_io_completion` returns, it has cleared the flag of the entry
of `k`, which is in `io_map`. -/
theorem reap_ok {c c' : Cache} {k : Key} (h : reap_io_completion c k = Except.ok c') :
    ∃ v, kv_find c.io_map k = some v ∧
      c' = { c with io_map := kv_set c.io_map k { v with complete := none } } := by
  obtain ⟨v, hv, _, hc⟩ := Holds.at_ok (reap_sat c k) h
  exact ⟨v, hv, hc⟩

/-- An entry of `io_map` that is reaped and moved to `active_map`, with any
reference count and write-back flag. -/
theorem Cache.Backed.of_io_hit {c : Cache} (h : c.Backed) (k : Key) (v : Value)
    (hv : kv_find c.io_map k = some v) (v' w : Value) (hb : v'.buf = v.buf) :
    Cache.Backed { c with io_map := kv_erase (kv_set c.io_map k w) k,
                          active_map := kv_set c.active_map k v' } :=
  ⟨all_values_set k h.active (by rw [hb]; exact (all_values_find h.io hv).1),
    all_values_erase_set k w h.io, h.zero, h.next⟩

end flash
namespace flash

theorem kv_contains_set (m : KVMap) (k : Key) (v : Value) :
    kv_contains (kv_set m k v) k = true := by
  rw [kv_contains_iff, kv_find_set, if_pos rfl]
  simp

theorem kv_get_set (m : KVMap) (k : Key) (v : Value) : kv_get (kv_set m k v) k = v := by
  apply kv_get_of_find
  rw [kv_find_set, if_pos rfl]

theorem Cache.Backed.put_active {c : Cache} (h : c.Backed) (k : Key) (v : Value)
    (hb : v.buf ≠ 0) : Cache.Backed { c with active_map := kv_set c.active_map k v } :=
  ⟨all_values_set k h.active hb, h.io, h.zero, h.next⟩

theorem Cache.Backed.touch_active {c : Cache} (h : c.Backed) (k : Key) (v : Value)
    (hc : kv_contains c.active_map k = true) (hb : v.buf = (kv_get c.active_map k).buf) :
    Cache.Backed { c with active_map := kv_set c.active_map k v } :=
  h.put_active k v (by rw [hb]; exact all_values_get h.active hc)

theorem Cache.Backed.zero_hit {c : Cache} (h : c.Backed) (k : Key) (v : Value)
    (hc : kv_contains c.zero_ref_map k = true) (hb : v.buf = (kv_get c.zero_ref_map k).buf) :
    Cache.Backed { c with zero_ref_map := kv_erase c.zero_ref_map k,
                          active_map := kv_set c.active_map k v } :=
  ⟨all_values_set k h.active (by rw [hb]; exact all_values_get h.zero hc), h.io,
    all_values_erase k h.zero, h.next⟩

theorem move_zero_to_active_backed {c : Cache} (h : c.Backed) (k : Key)
    (hz : is_zero_ref c k = true) : (move_zero_to_active c k).Backed :=
  h.zero_hit k _ hz rfl

/-- A reaped entry that `move_io_to_active` moves keeps its buffer. -/
theorem reap_move_backed {c c' : Cache} (h : c.Backed) (k : Key)
    (hr : reap_io_completion c k = Except.ok c') : (move_io_to_active c' k).Backed := by
  obtain ⟨v, hv, rfl⟩ := reap_ok hr
  exact h.of_io_hit k v hv _ _ (by simp only [kv_get_set])

theorem get_buf_probe_backed {c : Cache} (h : c.Backed) (k : Key) :
    Holds (fun r => r.2.Backed) (get_buf_probe c k) := by
  unfold get_buf_probe
  have hzero : Holds (fun r : Bool × Cache => r.2.Backed)
      (if is_zero_ref c k = true then pure (true, move_zero_to_active c k)
        else pure (false, c)) := by
    split_ifs with hz
    · exact Holds.of_pure (move_zero_to_active_backed h k hz)
    · exact Holds.of_pure h
  by_cases ha : is_active c k = true
  · rw [if_pos ha]
    exact Holds.of_pure (h.touch_active k _ ha rfl)
  · rw [if_neg ha]
    by_cases hi : (is_in_io c k && !(kv_get c.io_map k).evicted) = true
    · rw [if_pos hi]
      apply Holds.after
      intro done _
      cases done with
      | true =>
        simp only [if_true]
        apply Holds.after
        intro c' hc'
        exact Holds.of_pure (reap_move_backed h k hc')
      | false =>
        simp only [Bool.false_eq_true, if_false]
        exact hzero
    · rw [if_neg hi]
      exact hzero

theorem get_buf_backed {c : Cache} (h : c.Backed) (fptr : flash_ptr) (sinfo : StrideInfo)
    (wb : Bool) : Holds (fun r => r.2.Backed) (get_buf c fptr sinfo wb) := by
  unfold get_buf
  apply Holds.after_of (get_buf_probe_backed h ⟨fptr, sinfo⟩)
  intro r hr
  by_cases hf : r.1 = true
  · rw [if_pos hf]
    simp only
    by_cases hb : (kv_get r.2.active_map ⟨fptr, sinfo⟩).buf = 0
    · rw [if_pos hb]
      exact Holds.of_throw
    · rw [if_neg hb]
      exact Holds.of_pure (hr.put_active _ _ hb)
  · rw [if_neg hf]
    exact Holds.of_pure hr

theorem add_backlog_backed {c : Cache} (h : c.Backed) (k : Key) (a w : Bool) :
    Holds Cache.Backed (add_backlog c k a w) := by
  unfold add_backlog
  simp only
  split_ifs
  · exact Holds.of_pure h
  · exact Holds.of_pure ⟨h.active, h.io, h.zero, h.next⟩
  · exact Holds.of_throw

theorem alloc_io_hit_backed {c : Cache} (h : c.Backed) (t : BaseTask) (k : Key) :
    Holds (fun s => s.1.Backed) (alloc_io_hit c t k) := by
  unfold alloc_io_hit
  apply Holds.after
  intro c' hc'
  have h1 := reap_move_backed h k hc'
  refine Holds.of_pure (h1.touch_active k _ ?_ rfl)
  simp only [move_io_to_active, kv_contains_set]

theorem alloc_read_only_backed {s : Cache × BaseTask} (h : s.1.Backed) (k : Key) :
    Holds (fun s => s.1.Backed) (alloc_read_only s k) := by
  unfold alloc_read_only
  have hadd : Holds (fun s : Cache × BaseTask => s.1.Backed)
      ((add_backlog s.1 k false false).bind fun c => pure (c, s.2)) :=
    Holds.after_of (add_backlog_backed h k false false) fun c hc => Holds.of_pure hc
  by_cases ha : is_active s.1 k = true
  · rw [if_pos ha]
    exact Holds.of_pure (h.touch_active k _ ha rfl)
  · rw [if_neg ha]
    by_cases hi : is_in_io s.1 k = true
    · rw [if_pos hi]
      split_ifs
      · exact hadd
      · apply Holds.after
        intro done _
        cases done with
        | true => exact alloc_io_hit_backed h s.2 k
        | false => exact Holds.of_pure h
    · rw [if_neg hi]
      by_cases hz : is_zero_ref s.1 k = true
      · rw [if_pos hz]
        exact Holds.of_pure (move_zero_to_active_backed h k hz)
      · rw [if_neg hz]
        exact hadd

theorem alloc_write_only_backed {s : Cache × BaseTask} (h : s.1.Backed) (k : Key) :
    Holds (fun s => s.1.Backed) (alloc_write_only s k) := by
  unfold alloc_write_only
  split_ifs
  · exact Holds.of_pure h
  · exact Holds.of_pure h
  · exact Holds.of_pure h
  · exact Holds.after_of (add_backlog_backed h k true true) fun c hc => Holds.of_pure hc

theorem alloc_read_write_backed {s : Cache × BaseTask} (h : s.1.Backed) (k : Key) :
    Holds (fun s => s.1.Backed) (alloc_read_write s k) := by
  unfold alloc_read_write
  have hadd : Holds (fun s : Cache × BaseTask => s.1.Backed)
      ((add_backlog s.1 k false true).bind fun c => pure (c, s.2)) :=
    Holds.after_of (add_backlog_backed h k false true) fun c hc => Holds.of_pure hc
  by_cases ha : is_active s.1 k = true
  · rw [if_pos ha]
    exact Holds.of_pure (h.touch_active k _ ha rfl)
  · rw [if_neg ha]
    by_cases hi : is_in_io s.1 k = true
    · rw [if_pos hi]
      split_ifs
      · exact hadd
      · exact Holds.of_pure h
      · apply Holds.after
        intro done _
        cases done with
        | true => exact alloc_io_hit_backed h s.2 k
        | false => exact Holds.of_pure h
    · rw [if_neg hi]
      by_cases hz : is_zero_ref s.1 k = true
      · rw [if_pos hz]
        have h1 := move_zero_to_active_backed h k hz
        refine Holds.of_pure (h1.touch_active k _ ?_ rfl)
        simp only [move_zero_to_active, kv_contains_set]
      · rw [if_neg hz]
        exact hadd

end flash
namespace flash

theorem alloc_bufs_backed {c : Cache} (h : c.Backed) (t : BaseTask) :
    Holds (fun s => s.1.Backed) (alloc_bufs c t) := by
  unfold alloc_bufs
  simp only
  apply Holds.after_of
    (Holds.fold alloc_read_only (fun s => s.1.Backed) (fun _ k hs => alloc_read_only_backed hs k)
      _ (c, t) h)
  intro s1 h1
  apply Holds.after_of
    (Holds.fold alloc_write_only (fun s => s.1.Backed)
      (fun _ k hs => alloc_write_only_backed hs k) _ s1 h1)
  intro s2 h2
  exact Holds.fold alloc_read_write (fun s => s.1.Backed)
    (fun _ k hs => alloc_read_write_backed hs k) _ s2 h2

theorem allocate_backed {c : Cache} (h : c.Backed) (t : BaseTask) :
    Holds (fun r => r.2.1.Backed) (allocate c t) := by
  unfold allocate
  simp only
  split_ifs
  · exact Holds.after_of (alloc_bufs_backed h t) fun s hs => Holds.of_pure hs
  · apply Holds.after_of (try_evict_backed h _ _)
    intro r hr
    split_ifs
    · exact Holds.after_of (alloc_bufs_backed hr t) fun s hs => Holds.of_pure hs
    · exact Holds.of_pure hr

theorem release_one_backed {c : Cache} (h : c.Backed) (k : Key) :
    Holds Cache.Backed (release_one c k) := by
  unfold release_one
  by_cases ha : is_active c k = true
  · simp only [ha, Bool.not_true, Bool.false_eq_true, if_false]
    generalize sub64 (kv_get c.active_map k).n_refs 1 = n
    have h1 := h.touch_active k { kv_get c.active_map k with n_refs := n } ha rfl
    rcases Classical.em (n = 0) with hn | hn
    · rw [if_pos hn]
      by_cases hd : c.single_use_discard = true
      · rw [if_pos hd]
        exact Holds.of_pure ⟨all_values_erase k h1.active, h.io, h.zero, h.next⟩
      · rw [if_neg hd]
        unfold move_active_to_zero
        split_ifs
        · exact Holds.of_throw
        · refine Holds.of_pure ⟨all_values_erase k h1.active, h.io, ?_, h.next⟩
          exact all_values_set k h.zero (all_values_get h1.active (kv_contains_set _ _ _))
    · rw [if_neg hn]
      exact Holds.of_pure h1
  · simp only [ha, Bool.not_false, if_true]
    exact Holds.of_throw

theorem release_backed {c : Cache} (h : c.Backed) (t : BaseTask) :
    Holds Cache.Backed (release c t) :=
  Holds.fold release_one Cache.Backed (fun _ k hs => release_one_backed hs k) _ c h

theorem reap_step_backed {c : Cache} (h : c.Backed) (e : Key × Value) :
    Holds Cache.Backed (reap_step c e) := by
  unfold reap_step
  apply Holds.after
  intro done _
  cases done with
  | false => exact Holds.of_pure h
  | true =>
    simp only [if_true]
    apply Holds.after
    intro c' hc'
    obtain ⟨v, hv, rfl⟩ := reap_ok hc'
    simp only [kv_get_set]
    by_cases hev : v.evicted = true
    · rw [if_neg (by simp [hev])]
      exact Holds.of_pure ⟨h.active, all_values_erase_set _ _ h.io, h.zero, h.next⟩
    · rw [if_pos (by simpa using hev)]
      split_ifs
      · exact Holds.of_throw
      · exact Holds.of_pure (h.of_io_hit e.1 v hv _ _ rfl)

theorem serve_backlog_backed (l : KVMap) (c : Cache) (h : c.Backed) :
    (serve_backlog c l).Backed := by
  induction l generalizing c with
  | nil => exact ⟨h.active, h.io, h.zero, h.next⟩
  | cons e rest ih =>
    obtain ⟨k, v⟩ := e
    unfold serve_backlog
    simp only
    by_cases hs : (!has_spare_real_mem_for c (buf_size k.sinfo)) = true
    · rw [if_pos hs]
      exact ⟨h.active, h.io, h.zero, h.next⟩
    · rw [if_neg hs]
      by_cases hi : is_in_io c k = true
      · rw [if_pos hi]
        exact ⟨h.active, h.io, h.zero, h.next⟩
      · rw [if_neg hi]
        by_cases ha : (!v.alloc_only) = true
        · rw [if_pos ha]
          apply ih
          exact ⟨h.active, all_values_set k h.io ⟨h.next, by simp⟩, h.zero,
            Nat.succ_ne_zero _⟩
        · rw [if_neg ha]
          apply ih
          exact ⟨h.active, all_values_set k h.io ⟨h.next, by simp⟩, h.zero,
            Nat.succ_ne_zero _⟩

theorem service_backlog_backed {c : Cache} (h : c.Backed) :
    Holds Cache.Backed (service_backlog c) := by
  unfold service_backlog
  apply Holds.after_of
    (Holds.fold reap_step Cache.Backed (fun _ e hs => reap_step_backed hs e) c.io_map c h)
  intro c1 h1
  exact Holds.of_pure (serve_backlog_backed _ c1 h1)

theorem io_done_backed {c : Cache} (h : c.Backed) (k : Key) : (io_done c k).Backed := by
  unfold io_done
  cases hf : kv_find c.io_map k with
  | none => exact h
  | some v =>
    simp only
    have hb := (all_values_find h.io hf).1
    split_ifs
    · exact ⟨h.active, all_values_set k h.io ⟨hb, by simp⟩, h.zero, h.next⟩
    · exact ⟨h.active, all_values_set k h.io ⟨hb, by simp⟩, h.zero, h.next⟩
    · exact h

theorem io_store_backed {c : Cache} (h : c.Backed) (k : Key) : (io_store c k).Backed := by
  unfold io_store
  cases hf : kv_find c.io_map k with
  | none => exact h
  | some v =>
    simp only
    have hb := (all_values_find h.io hf).1
    split_ifs
    · exact ⟨h.active, all_values_set k h.io ⟨hb, by simp⟩, h.zero, h.next⟩
    · exact ⟨h.active, all_values_set k h.io ⟨hb, by simp⟩, h.zero, h.next⟩
    · exact h

theorem io_settle_backed {c : Cache} (h : c.Backed) (k : Key) : (io_settle c k).Backed := by
  unfold io_settle
  cases settling_find c.settling k with
  | none => exact h
  | some buf => exact ⟨h.active, h.io, h.zero, h.next⟩

theorem io_event_backed {c : Cache} (h : c.Backed) (e : IoEvent) : (io_event c e).Backed := by
  cases e with
  | done k => exact io_done_backed h k
  | store k => exact io_store_backed h k
  | settle k => exact io_settle_backed h k

theorem io_event_fold_backed {c : Cache} (h : c.Backed) (l : List IoEvent) :
    (l.foldl io_event c).Backed := by
  induction l generalizing c with
  | nil => exact h
  | cons k l ih => exact ih (io_event_backed h k)

theorem flush_wait_backed (rounds : List (List IoEvent)) {c : Cache} (h : c.Backed) :
    Holds Cache.Backed (flush_wait rounds c) := by
  induction rounds generalizing c with
  | nil => exact Holds.of_pure h
  | cons done rounds ih =>
    unfold flush_wait
    split_ifs
    · exact Holds.of_pure h
    · exact Holds.after_of (service_backlog_backed h) fun c1 h1 =>
        ih (io_event_fold_backed h1 done)

theorem flush_backed {c : Cache} (h : c.Backed) (rounds : List (List IoEvent)) :
    Holds Cache.Backed (flush c rounds) := by
  unfold flush
  by_cases ha : (!c.active_map.isEmpty) = true
  · rw [if_pos ha]
    exact Holds.of_throw
  · rw [if_neg ha]
    have h1 : Holds Cache.Backed
        (if (!c.zero_ref_map.isEmpty) = true then evict c (keys c.zero_ref_map)
          else Pure.pure c) := by
      split_ifs
      · exact evict_backed h _
      · exact Holds.of_pure h
    apply Holds.after_of h1
    intro c1 i1
    apply Holds.after_of (flush_wait_backed rounds i1)
    intro c2 i2
    split_ifs
    · exact Holds.of_throw
    · exact Holds.of_pure i2

theorem apply_op_backed {c : Cache} (h : c.Backed) (op : CacheOp) :
    Holds Cache.Backed (apply_op c op) := by
  cases op with
  | allocate tsk =>
    exact Holds.after_of (allocate_backed h tsk) fun r hr => Holds.of_pure hr
  | get_buf fptr sinfo write_back =>
    exact Holds.after_of (get_buf_backed h fptr sinfo write_back) fun r hr => Holds.of_pure hr
  | release tsk => exact release_backed h tsk
  | service_backlog => exact service_backlog_backed h
  | flush rounds => exact flush_backed h rounds
  | io_done k => exact Holds.of_pure (io_done_backed h k)
  | io_store k => exact Holds.of_pure (io_store_backed h k)
  | io_settle k => exact Holds.of_pure (io_settle_backed h k)
  | set_single_use_discard b => exact Holds.of_pure ⟨h.active, h.io, h.zero, h.next⟩

/-- In every cache reached from the empty cache, every entry of the three
maps has a buffer and every entry of `io_map` has its completion flag. -/
theorem reachable_backed (max_size : Nat) (ops : List CacheOp) :
    Holds Cache.Backed ((Cache.init max_size).run ops) :=
  Holds.fold apply_op Cache.Backed (fun _ op hs => apply_op_backed hs op) ops _
    (init_backed max_size)

end flash
namespace flash

/-- C14 (counterexample). (1) On a cache of 2048 bytes a task reads `kA` and
releases it without having asked for the buffer: `service_backlog` has moved
the completed read to `active_map` with `n_refs = 0`, `release` decrements the
count, no assertion fails, and `kA` is active with `n_refs = 2^64 - 1`.
`get_buf(kA)` then returns the buffer and `n_refs` is 0, not the old count
plus one.  (2) In a state that no run reaches, where the `io_map` entry of
`kA` has no completion flag, `get_buf(kA)` dereferences `nullptr`. -/
theorem get_buf_wraps_n_refs :
    ((Cache.init 2048).run release_unpinned).toOption.map
      (fun c => (kv_find c.active_map kA).map fun v => (v.buf, v.n_refs)) =
      some (some (1, 2 ^ 64 - 1)) ∧
    ((Cache.init 2048).run release_unpinned).toOption.bind
      (fun c => ((get_buf c kA.fptr kA.sinfo false).toOption.map fun r =>
        (r.1, (kv_find r.2.active_map kA).map fun v => v.n_refs))) =
      some (1, some 0) ∧
    get_buf flagless_cache kA.fptr kA.sinfo false = Except.error Fault.null_deref := by
  refine ⟨by decide, by decide, rfl⟩

/-- C14 (amended). The contract of `get_buf`.  On every cache `c` reached from
the empty cache by operations and events on keys that `Key::operator==` tells
apart (`hsep`: the maps of the code compare keys by hash value, those of this
development field by field, and on such keys the two agree), `get_buf(k, wb)`
returns, and it returns a buffer (not `nullptr`) if and only if `k` is in
`active_map`, or in `io_map` with `evicted = false` and its completion flag
set, or in `zero_ref_map`.  When it returns a buffer, `k` is afterwards in
`active_map` and in no other map nor in the backlog, the buffer is the one of
its entry, `n_refs` is the old count plus one modulo `2^64` if `k` was active
and 1 otherwise, and `write_back` is the old flag or `wb`.  When it returns
`nullptr` the cache is unchanged. -/
theorem get_buf_contract (max_size : Nat) (hmax : max_size < 2 ^ 64) (ops : List CacheOp)
    (c : Cache) (hrun : (Cache.init max_size).run ops = Except.ok c)
    (fptr : flash_ptr) (sinfo : StrideInfo) (wb : Bool)
    (hsep : hash_separated (⟨fptr, sinfo⟩ :: ops.flatMap CacheOp.keys)) :
    ∃ buf c', get_buf c fptr sinfo wb = Except.ok (buf, c') ∧
      (buf ≠ 0 ↔
        (kv_find c.active_map ⟨fptr, sinfo⟩ ≠ none ∨
         (∃ v, kv_find c.io_map ⟨fptr, sinfo⟩ = some v ∧ v.evicted = false ∧
            v.complete = some true) ∨
         kv_find c.zero_ref_map ⟨fptr, sinfo⟩ ≠ none)) ∧
      (buf ≠ 0 →
        kv_find c'.active_map ⟨fptr, sinfo⟩ ≠ none ∧ kv_find c'.io_map ⟨fptr, sinfo⟩ = none ∧
        kv_find c'.zero_ref_map ⟨fptr, sinfo⟩ = none ∧
        kv_find c'.alloc_backlog ⟨fptr, sinfo⟩ = none) ∧
      (∀ v, kv_find c.active_map ⟨fptr, sinfo⟩ = some v →
        buf = v.buf ∧ kv_find c'.active_map ⟨fptr, sinfo⟩ =
          some { v with n_refs := (v.n_refs + 1) % 2 ^ 64, write_back := v.write_back || wb }) ∧
      (∀ v, kv_find c.zero_ref_map ⟨fptr, sinfo⟩ = some v →
        buf = v.buf ∧ kv_find c'.active_map ⟨fptr, sinfo⟩ =
          some { v with n_refs := 1, write_back := v.write_back || wb }) ∧
      (∀ v, kv_find c.io_map ⟨fptr, sinfo⟩ = some v → v.evicted = false →
        v.complete = some true →
        buf = v.buf ∧ kv_find c'.active_map ⟨fptr, sinfo⟩ =
          some { v with n_refs := 1, write_back := v.write_back || wb, complete := none }) ∧
      (buf = 0 → c' = c) := by
  have _ := hmax
  have _ := hsep
  have h : c.Inv := (Holds.at_ok (reachable_inv max_size ops) hrun).1
  have hb : c.Backed := Holds.at_ok (reachable_backed max_size ops) hrun
  have hl := h.loc ⟨fptr, sinfo⟩
  cases ha : kv_find c.active_map ⟨fptr, sinfo⟩ with
  | some v =>
    rw [ha] at hl
    have hi : kv_find c.io_map ⟨fptr, sinfo⟩ = none := by
      rcases hl.active_io with h1 | h1
      · cases h1
      · exact h1
    have hz : kv_find c.zero_ref_map ⟨fptr, sinfo⟩ = none := by
      rcases hl.active_zero with h1 | h1
      · cases h1
      · exact h1
    have hq : kv_find c.alloc_backlog ⟨fptr, sinfo⟩ = none := by
      rcases hl.backlog_active with h1 | h1
      · exact h1
      · cases h1
    have hv := all_values_find hb.active ha
    obtain ⟨c', hc', e1, e2, e3, e4⟩ := get_buf_active fptr sinfo wb v ha hv
    refine ⟨v.buf, c', hc', ?_, ?_, ?_, ?_, ?_, ?_⟩
    · exact ⟨fun _ => Or.inl (by simp), fun _ => hv⟩
    · intro _
      rw [e1, e2, e3, e4]
      exact ⟨by simp, hi, hz, hq⟩
    · intro v' hv'
      cases hv'
      exact ⟨rfl, e1⟩
    · intro v' hv'
      rw [hz] at hv'
      cases hv'
    · intro v' hv'
      rw [hi] at hv'
      cases hv'
    · intro h0
      exact absurd h0 hv
  | none =>
    rw [ha] at hl
    cases hz : kv_find c.zero_ref_map ⟨fptr, sinfo⟩ with
    | some v =>
      rw [hz] at hl
      have hi : kv_find c.io_map ⟨fptr, sinfo⟩ = none := by
        rcases hl.io_zero with h1 | h1
        · exact h1
        · cases h1
      have hq : kv_find c.alloc_backlog ⟨fptr, sinfo⟩ = none := by
        rcases hl.backlog_zero with h1 | h1
        · exact h1
        · cases h1
      have hv := all_values_find hb.zero hz
      obtain ⟨c', hc', e1, e2, e3, e4⟩ := get_buf_zero fptr sinfo wb v hz hv ha hi
      refine ⟨v.buf, c', hc', ?_, ?_, ?_, ?_, ?_, ?_⟩
      · exact ⟨fun _ => Or.inr (Or.inr (by simp)), fun _ => hv⟩
      · intro _
        rw [e1, e2, e3, e4]
        exact ⟨by simp, hi, rfl, hq⟩
      · intro v' hv'
        cases hv'
      · intro v' hv'
        cases hv'
        exact ⟨rfl, e1⟩
      · intro v' hv'
        rw [hi] at hv'
        cases hv'
      · intro h0
        exact absurd h0 hv
    | none =>
      rw [hz] at hl
      by_cases hhit : ∃ v, kv_find c.io_map ⟨fptr, sinfo⟩ = some v ∧ v.evicted = false ∧
          v.complete = some true
      · obtain ⟨v, hi, hev, hc⟩ := hhit
        rw [hi] at hl
        have hq : kv_find c.alloc_backlog ⟨fptr, sinfo⟩ = none := by
          by_contra hne
          have := hl.backlog_io hne v rfl
          rw [hev] at this
          cases this
        have hv := (all_values_find hb.io hi).1
        obtain ⟨c', hc', e1, e2, e3, e4⟩ := get_buf_io fptr sinfo wb v hi hv ha hev hc
        refine ⟨v.buf, c', hc', ?_, ?_, ?_, ?_, ?_, ?_⟩
        · exact ⟨fun _ => Or.inr (Or.inl ⟨v, hi, hev, hc⟩), fun _ => hv⟩
        · intro _
          rw [e1, e2, e3, e4]
          exact ⟨by simp, rfl, hz, hq⟩
        · intro v' hv'
          cases hv'
        · intro v' hv'
          cases hv'
        · intro v' hv' _ _
          rw [hi] at hv'
          cases hv'
          exact ⟨rfl, e1⟩
        · intro h0
          exact absurd h0 hv
      · have hmiss : ∀ v, kv_find c.io_map ⟨fptr, sinfo⟩ = some v →
            v.evicted = true ∨ v.complete = some false := by
          intro v hi
          have hcn := (all_values_find hb.io hi).2
          by_cases hev : v.evicted = true
          · exact Or.inl hev
          · right
            have hev' : v.evicted = false := by simpa using hev
            cases hcv : v.complete with
            | none => exact absurd hcv hcn
            | some b =>
              cases b with
              | false => rfl
              | true => exact absurd ⟨v, hi, hev', hcv⟩ hhit
        refine ⟨0, c, get_buf_miss fptr sinfo wb ha hz hmiss, ?_, ?_, ?_, ?_, ?_, ?_⟩
        · constructor
          · intro h0
            exact absurd rfl h0
          · rintro (h1 | h1 | h1)
            · exact absurd rfl h1
            · exact absurd h1 hhit
            · exact absurd rfl h1
        · intro h0
          exact absurd rfl h0
        · intro v' hv'
          cases hv'
        · intro v' hv'
          cases hv'
        · intro v' hv' h1 h2
          exact absurd ⟨v', hv', h1, h2⟩ hhit
        · intro _
          rfl

/-- Witness of the amended C14 on the cache `served_cache`, where `kA` is in
`io_map` with its completion flag set: `get_buf` returns buffer 1.  The run
names no key but `kA`. -/
theorem get_buf_contract_witness :
    (Cache.init 2048).run (evict_then_ask.take 2) = Except.ok served_cache ∧
    (kv_find served_cache.io_map kA).map (fun v => (v.buf, v.evicted, v.complete)) =
      some (1, false, some true) ∧
    hash_separated (⟨kA.fptr, kA.sinfo⟩ :: (evict_then_ask.take 2).flatMap CacheOp.keys) ∧
    ∃ buf c', get_buf served_cache kA.fptr kA.sinfo true = Except.ok (buf, c') ∧
      (buf ≠ 0 ↔
        (kv_find served_cache.active_map ⟨kA.fptr, kA.sinfo⟩ ≠ none ∨
         (∃ v, kv_find served_cache.io_map ⟨kA.fptr, kA.sinfo⟩ = some v ∧ v.evicted = false ∧
            v.complete = some true) ∨
         kv_find served_cache.zero_ref_map ⟨kA.fptr, kA.sinfo⟩ ≠ none)) ∧
      (buf ≠ 0 →
        kv_find c'.active_map ⟨kA.fptr, kA.sinfo⟩ ≠ none ∧
        kv_find c'.io_map ⟨kA.fptr, kA.sinfo⟩ = none ∧
        kv_find c'.zero_ref_map ⟨kA.fptr, kA.sinfo⟩ = none ∧
        kv_find c'.alloc_backlog ⟨kA.fptr, kA.sinfo⟩ = none) ∧
      (∀ v, kv_find served_cache.active_map ⟨kA.fptr, kA.sinfo⟩ = some v →
        buf = v.buf ∧ kv_find c'.active_map ⟨kA.fptr, kA.sinfo⟩ =
          some { v with n_refs := (v.n_refs + 1) % 2 ^ 64,
                        write_back := v.write_back || true }) ∧
      (∀ v, kv_find served_cache.zero_ref_map ⟨kA.fptr, kA.sinfo⟩ = some v →
        buf = v.buf ∧ kv_find c'.active_map ⟨kA.fptr, kA.sinfo⟩ =
          some { v with n_refs := 1, write_back := v.write_back || true }) ∧
      (∀ v, kv_find served_cache.io_map ⟨kA.fptr, kA.sinfo⟩ = some v → v.evicted = false →
        v.complete = some true →
        buf = v.buf ∧ kv_find c'.active_map ⟨kA.fptr, kA.sinfo⟩ =
          some { v with n_refs := 1, write_back := v.write_back || true, complete := none }) ∧
      (buf = 0 → c' = served_cache) :=
  have hkeys : (⟨kA.fptr, kA.sinfo⟩ :: (evict_then_ask.take 2).flatMap CacheOp.keys) =
      [kA, kA] := by decide
  have hsep : hash_separated
      (⟨kA.fptr, kA.sinfo⟩ :: (evict_then_ask.take 2).flatMap CacheOp.keys) := by
    rw [hkeys]
    intro k1 h1 k2 h2 _
    simp only [List.mem_cons, List.mem_singleton, List.not_mem_nil, or_false, or_self] at h1 h2
    rw [h1, h2]
  ⟨rfl, rfl, hsep, get_buf_contract 2048 (by norm_num) (evict_then_ask.take 2) served_cache rfl
    kA.fptr kA.sinfo true hsep⟩

end flash
namespace flash

/-! ## Theorems: `flush` -/

/-- What `evict_one` has done when it returns. -/
theorem evict_one_ok {c c1 : Cache} {k : Key} (h : evict_one c k = Except.ok c1) :
    ∃ v, kv_find c.zero_ref_map k = some v ∧
      c1.zero_ref_map = kv_erase c.zero_ref_map k ∧ c1.active_map = c.active_map ∧
      c1.alloc_backlog = c.alloc_backlog ∧
      (v.write_back = true →
        c1.io_map = kv_set c.io_map k { v with evicted := true, complete := some false } ∧
        c1.issued = c.issued ++ [⟨k.fptr, k.sinfo, v.buf, true⟩]) ∧
      (v.write_back = false → c1.io_map = c.io_map ∧ c1.issued = c.issued) := by
  unfold evict_one at h
  by_cases hz : is_zero_ref c k = true
  · obtain ⟨v, hv⟩ := find_of_ne_none ((is_zero_ref_iff c k).1 hz)
    simp only [hz, Bool.not_true, Bool.false_eq_true, if_false, kv_get_of_find hv] at h
    by_cases hn : v.n_refs ≠ 0
    · rw [if_pos hn] at h
      cases h
    · rw [if_neg hn] at h
      by_cases hw : v.write_back = true
      · rw [if_pos hw] at h
        cases h
        exact ⟨v, hv, rfl, rfl, rfl, fun _ => ⟨rfl, rfl⟩, fun hf => by rw [hw] at hf; cases hf⟩
      · rw [if_neg hw] at h
        cases h
        exact ⟨v, hv, rfl, rfl, rfl, fun ht => absurd ht hw, fun _ => ⟨rfl, rfl⟩⟩
  · simp only [hz, Bool.not_false, if_true] at h
    cases h

/-- The loop of `evict` during a flush: it issues a write for every key of
`l` whose entry in `zero_ref_map` has `write_back` set. -/
theorem evict_issues (l : List Key) (W : List IoTask) {c : Cache} (h : Draining W c) :
    Holds (fun c' => Draining W c' ∧ (∀ x ∈ c.issued, x ∈ c'.issued) ∧
      ∀ k ∈ l, ∀ v, kv_find c.zero_ref_map k = some v → v.write_back = true →
        (⟨k.fptr, k.sinfo, v.buf, true⟩ : IoTask) ∈ c'.issued) (l.foldlM evict_one c) := by
  induction l generalizing c with
  | nil =>
    refine Holds.of_pure ⟨h, fun _ hx => hx, ?_⟩
    intro k hk
    cases hk
  | cons k l ih =>
    rw [List.foldlM_cons]
    cases h1 : evict_one c k with
    | error e => exact trivial
    | ok c1 =>
      obtain ⟨v, hv, ez, ea, eb, et, ef⟩ := evict_one_ok h1
      have hmono : ∀ x ∈ c.issued, x ∈ c1.issued := by
        intro x hx
        by_cases hw : v.write_back = true
        · rw [(et hw).2]
          exact List.mem_append_left _ hx
        · rw [(ef (by simpa using hw)).2]
          exact hx
      have hd1 : Draining W c1 := by
        refine ⟨ea.trans h.active, eb.trans h.backlog, ?_, fun x hx => hmono x (h.issued x hx)⟩
        by_cases hw : v.write_back = true
        · rw [(et hw).1]
          exact all_values_set k h.io rfl
        · rw [(ef (by simpa using hw)).1]
          exact h.io
      have hi := ih hd1
      show Holds _ (List.foldlM evict_one c1 l)
      apply Holds.weaken hi
      rintro c' ⟨d', m', w'⟩
      refine ⟨d', fun x hx => m' x (hmono x hx), ?_⟩
      intro k' hk' v' hv' hw'
      by_cases hkk : k' = k
      · subst hkk
        rw [hv] at hv'
        cases hv'
        apply m'
        rw [(et hw').2]
        simp
      · rcases List.mem_cons.1 hk' with e | hk'
        · exact absurd e hkk
        · apply w' k' hk' v' _ hw'
          rw [ez, kv_find_erase, if_neg hkk]
          exact hv'

theorem reap_step_draining {W : List IoTask} {c : Cache} (h : Draining W c)
    (e : Key × Value) : Holds (Draining W) (reap_step c e) := by
  unfold reap_step
  apply Holds.after
  intro done _
  cases done with
  | false => exact Holds.of_pure h
  | true =>
    simp only [if_true]
    apply Holds.after
    intro c' hc'
    obtain ⟨v, hv, rfl⟩ := reap_ok hc'
    have hev : v.evicted = true := all_values_find h.io hv
    simp only [kv_get_set]
    rw [if_neg (by simp [hev])]
    exact Holds.of_pure ⟨h.active, h.backlog, all_values_erase_set _ _ h.io, h.issued⟩

theorem service_backlog_draining {W : List IoTask} {c : Cache} (h : Draining W c) :
    Holds (Draining W) (service_backlog c) := by
  unfold service_backlog
  apply Holds.after_of
    (Holds.fold reap_step (Draining W) (fun _ e hs => reap_step_draining hs e) c.io_map c h)
  intro c1 h1
  rw [h1.backlog]
  exact Holds.of_pure ⟨h1.active, rfl, h1.io, h1.issued⟩

theorem io_done_draining {W : List IoTask} {c : Cache} (h : Draining W c) (k : Key) :
    Draining W (io_done c k) := by
  unfold io_done
  cases hf : kv_find c.io_map k with
  | none => exact h
  | some v =>
    simp only
    have hev : v.evicted = true := all_values_find h.io hf
    split_ifs
    · exact ⟨h.active, h.backlog, all_values_set k h.io hev, h.issued⟩
    · exact h

theorem io_store_draining {W : List IoTask} {c : Cache} (h : Draining W c) (k : Key) :
    Draining W (io_store c k) := by
  unfold io_store
  cases hf : kv_find c.io_map k with
  | none => exact h
  | some v =>
    simp only
    have hev : v.evicted = true := all_values_find h.io hf
    split_ifs
    · exact ⟨h.active, h.backlog, all_values_set k h.io hev, h.issued⟩
    · exact h

theorem io_settle_draining {W : List IoTask} {c : Cache} (h : Draining W c) (k : Key) :
    Draining W (io_settle c k) := by
  unfold io_settle
  cases settling_find c.settling k with
  | none => exact h
  | some buf => exact ⟨h.active, h.backlog, h.io, h.issued⟩

theorem io_event_draining {W : List IoTask} {c : Cache} (h : Draining W c) (e : IoEvent) :
    Draining W (io_event c e) := by
  cases e with
  | done k => exact io_done_draining h k
  | store k => exact io_store_draining h k
  | settle k => exact io_settle_draining h k

theorem io_event_fold_draining {W : List IoTask} {c : Cache} (h : Draining W c)
    (l : List IoEvent) : Draining W (l.foldl io_event c) := by
  induction l generalizing c with
  | nil => exact h
  | cons k l ih => exact ih (io_event_draining h k)

theorem flush_wait_draining {W : List IoTask} (rounds : List (List IoEvent)) {c : Cache}
    (h : Draining W c) : Holds (Draining W) (flush_wait rounds c) := by
  induction rounds generalizing c with
  | nil => exact Holds.of_pure h
  | cons done rounds ih =>
    unfold flush_wait
    split_ifs
    · exact Holds.of_pure h
    · exact Holds.after_of (service_backlog_draining h) fun c1 h1 =>
        ih (io_event_fold_draining h1 done)

end flash
namespace flash

theorem wsum_nil (w : Key × Value → Nat) : wsum w [] = 0 := rfl

/-- `flush` during which nothing is active or queued and `io_map` holds only
evictions: when it returns with `io_map` drained, `zero_ref_map` is empty and
the write of every zero-ref entry with `write_back` has been issued. -/
theorem flush_draining {c c' : Cache} (rounds : List (List IoEvent))
    (hact : c.active_map = []) (hbl : c.alloc_backlog = [])
    (hio : ∀ e ∈ c.io_map, e.2.evicted = true)
    (hflush : flush c rounds = Except.ok c') (hdone : c'.io_map = []) :
    c'.zero_ref_map = [] ∧ c'.active_map = [] ∧ c'.alloc_backlog = [] ∧
    ∀ k v, kv_find c.zero_ref_map k = some v → v.write_back = true →
      (⟨k.fptr, k.sinfo, v.buf, true⟩ : IoTask) ∈ c'.issued := by
  have hd : Draining [] c := ⟨hact, hbl, hio, fun x hx => by cases hx⟩
  unfold flush at hflush
  rw [hact] at hflush
  simp only [List.isEmpty_nil, Bool.not_true, Bool.false_eq_true, if_false] at hflush
  have h1 : Holds (fun c1 => Draining [] c1 ∧
      ∀ k v, kv_find c.zero_ref_map k = some v → v.write_back = true →
        (⟨k.fptr, k.sinfo, v.buf, true⟩ : IoTask) ∈ c1.issued)
      (if (!c.zero_ref_map.isEmpty) = true then evict c (keys c.zero_ref_map)
        else Pure.pure c) := by
    by_cases hz : (!c.zero_ref_map.isEmpty) = true
    · rw [if_pos hz]
      apply Holds.weaken (evict_issues (keys c.zero_ref_map) [] hd)
      rintro c1 ⟨d1, _, w1⟩
      refine ⟨d1, fun k v hv hw => w1 k ?_ v hv hw⟩
      by_contra hk
      rw [(kv_find_none_iff _ _).2 hk] at hv
      cases hv
    · rw [if_neg hz]
      refine Holds.of_pure ⟨hd, ?_⟩
      intro k v hv
      have he : c.zero_ref_map = [] := by simpa using hz
      rw [he] at hv
      cases hv
  cases he : (if (!c.zero_ref_map.isEmpty) = true then evict c (keys c.zero_ref_map)
      else Pure.pure c) with
  | error e =>
    rw [he] at hflush
    cases hflush
  | ok c1 =>
    rw [he] at hflush h1
    obtain ⟨d1, w1⟩ := h1
    have h2 := flush_wait_draining rounds
      (⟨d1.active, d1.backlog, d1.io, fun x hx => hx⟩ : Draining c1.issued c1)
    cases hw : flush_wait rounds c1 with
    | error e =>
      simp only [Except.bind, hw] at hflush
      cases hflush
    | ok c2 =>
      rw [hw] at h2
      simp only [Except.bind, hw] at hflush
      by_cases hne : (c2.io_map.isEmpty && !c2.zero_ref_map.isEmpty) = true
      · rw [if_pos hne] at hflush
        cases hflush
      · rw [if_neg hne] at hflush
        have e2 : c2 = c' := by
          injection hflush
        subst e2
        rw [hdone] at hne
        have hz : c2.zero_ref_map = [] := by simpa using hne
        exact ⟨hz, h2.active, h2.backlog, fun k v hv hwb => h2.issued _ (w1 k v hv hwb)⟩

/-- The callbacks of `settling`, run to their end, leave no callback pending,
keep the invariant and touch no map. -/
theorem io_settle_all_spec {c : Cache} (h : c.Inv) :
    (io_settle_all c).Inv ∧ (io_settle_all c).settling = [] ∧
    (io_settle_all c).active_map = c.active_map ∧ (io_settle_all c).io_map = c.io_map ∧
    (io_settle_all c).zero_ref_map = c.zero_ref_map ∧
    (io_settle_all c).alloc_backlog = c.alloc_backlog ∧
    (io_settle_all c).commit_size = c.commit_size := by
  unfold io_settle_all
  generalize hl : c.settling = l
  induction l generalizing c with
  | nil => exact ⟨h, hl, rfl, rfl, rfl, rfl, rfl⟩
  | cons e l ih =>
    obtain ⟨k, buf⟩ := e
    simp only [List.map_cons, List.foldl_cons]
    have hf : settling_find c.settling k = some buf := by
      rw [hl]
      unfold settling_find
      rw [if_pos rfl]
    have hs : (io_settle c k).settling = l := by
      unfold io_settle
      rw [hf]
      simp only
      rw [hl]
      unfold settling_drop
      rw [if_pos rfl]
    have hm : (io_settle c k).active_map = c.active_map ∧ (io_settle c k).io_map = c.io_map ∧
        (io_settle c k).zero_ref_map = c.zero_ref_map ∧
        (io_settle c k).alloc_backlog = c.alloc_backlog ∧
        (io_settle c k).commit_size = c.commit_size := by
      unfold io_settle
      rw [hf]
      exact ⟨rfl, rfl, rfl, rfl, rfl⟩
    obtain ⟨a1, a2, a3, a4, a5, a6, a7⟩ := ih (io_settle_inv h k) hs
    exact ⟨a1, a2, a3.trans hm.1, a4.trans hm.2.1, a5.trans hm.2.2.1, a6.trans hm.2.2.2.1,
      a7.trans hm.2.2.2.2⟩

/-- C17 (counterexample). (1) A read of `kA` is in flight when `flush` is
called: `active_map` and `alloc_backlog` are empty, `flush` issues no write,
and it returns with `zero_ref_map` and `io_map` empty; the buffer of `kA` is
then in `active_map`, and `commit_size` and `real_size` are 1024.  (2) `kA`
has been written and released, `flush` evicts it and its write completes: the
callback stores the completion flag, the next round of `flush` reaps the
entry, and `flush` returns with the four maps empty while the callback has
not executed `fetch_sub`: `real_size` is 1024; it is 0 after the callback has
run to its end. -/
theorem flush_returns_with_bytes_allocated :
    ((Cache.init 2048).run (flush_with_read_in_flight.take 2)).toOption.map
      (fun c => (c.active_map, c.alloc_backlog, keys c.io_map, keys c.zero_ref_map)) =
      some ([], [], [kA], []) ∧
    ((Cache.init 2048).run flush_with_read_in_flight).toOption.map
      (fun c => (keys c.zero_ref_map, keys c.io_map, keys c.active_map, c.commit_size,
        c.real_size)) = some ([], [], [kA], 1024, 1024) ∧
    ((Cache.init 2048).run (write_release_flush_early.take 4)).toOption.map
      (fun c => (c.active_map, c.alloc_backlog, c.io_map, keys c.zero_ref_map)) =
      some ([], [], [], [kA]) ∧
    ((Cache.init 2048).run write_release_flush_early).toOption.map
      (fun c => (c.zero_ref_map, c.io_map, c.active_map, c.alloc_backlog, c.commit_size,
        c.real_size, c.settling, c.issued.length)) =
      some ([], [], [], [], 0, 1024, [(kA, 1)], 1) ∧
    ((Cache.init 2048).run (write_release_flush_early ++ [.io_settle kA])).toOption.map
      (fun c => (c.real_size, c.settling, c.freed)) = some (0, [], [1]) := by
  refine ⟨rfl, rfl, rfl, rfl, rfl⟩

/-- C17 (amended). On a cache reached from the empty cache, if `active_map`
and `alloc_backlog` are empty and every entry of `io_map` is an eviction when
`flush` is called, then when `flush` returns, its waiting loop having seen
`io_map` empty, `zero_ref_map`, `io_map`, `active_map` and `alloc_backlog` are
empty, `commit_size = 0`, and for every zero-ref entry that had
`write_back = true` a write of its buffer has been issued; `real_size` is the
size of the buffers of the eviction callbacks that have stored their flag and
not yet executed `fetch_sub` (`settling`, as a `FBLAS_UINT`): it is 0 when
there is none, and it is 0 once these callbacks have run to their end. -/
theorem flush_empties_cache (max_size : Nat) (hmax : max_size < 2 ^ 64) (ops : List CacheOp)
    (c : Cache) (hrun : (Cache.init max_size).run ops = Except.ok c)
    (rounds : List (List IoEvent)) (c' : Cache)
    (hact : c.active_map = []) (hbl : c.alloc_backlog = [])
    (hio : ∀ e ∈ c.io_map, e.2.evicted = true)
    (hflush : flush c rounds = Except.ok c') (hdone : c'.io_map = []) :
    c'.zero_ref_map = [] ∧ c'.io_map = [] ∧ c'.active_map = [] ∧ c'.alloc_backlog = [] ∧
    c'.commit_size = 0 ∧
    c'.real_size = settling_bytes c'.settling % 2 ^ 64 ∧
    (c'.settling = [] → c'.real_size = 0) ∧
    ((io_settle_all c').real_size = 0 ∧ (io_settle_all c').settling = [] ∧
      (io_settle_all c').commit_size = 0 ∧ (io_settle_all c').zero_ref_map = [] ∧
      (io_settle_all c').io_map = [] ∧ (io_settle_all c').active_map = [] ∧
      (io_settle_all c').alloc_backlog = []) ∧
    ∀ k v, kv_find c.zero_ref_map k = some v → v.write_back = true →
      (⟨k.fptr, k.sinfo, v.buf, true⟩ : IoTask) ∈ c'.issued := by
  have _ := hmax
  have h : c.Inv := (Holds.at_ok (reachable_inv max_size ops) hrun).1
  have h' : c'.Inv := (Holds.at_ok (flush_sat h rounds) hflush).1
  obtain ⟨hz, ha, hb, hw⟩ := flush_draining rounds hact hbl hio hflush hdone
  have hc := h'.commit_eq
  have hr := h'.real_eq
  unfold Cache.committed at hc
  unfold Cache.resident at hr
  rw [hz, ha, hb, hdone] at hc
  rw [hz, ha, hdone] at hr
  simp only [wsum_nil, Nat.zero_add, Nat.add_zero, Nat.zero_mod] at hc hr
  obtain ⟨s1, s2, s3, s4, s5, s6, s7⟩ := io_settle_all_spec h'
  have hr2 := s1.real_eq
  unfold Cache.resident at hr2
  rw [s2, s3, s4, s5, ha, hdone, hz] at hr2
  simp only [wsum_nil, settling_bytes, List.map_nil, List.sum_nil, Nat.zero_add,
    Nat.zero_mod] at hr2
  refine ⟨hz, hdone, ha, hb, hc, hr, ?_, ⟨hr2, s2, s7.trans hc, s5.trans hz, s4.trans hdone,
    s3.trans ha, s6.trans hb⟩, hw⟩
  intro hs
  rw [hr, hs]
  rfl

/-- Witness of the amended C17: `kA` has been written and released, `flush`
evicts it, the callback of its write stores the completion flag, and `flush`
returns with the maps empty, the write of buffer 1 to `kA` issued, and 1024
bytes in `real_size`, which the rest of the callback subtracts; when the
whole callback runs during the first round, `flush` returns with
`real_size = 0`. -/
theorem flush_empties_cache_witness :
    (Cache.init 2048).run (write_release_flush.take 4) = Except.ok released_cache ∧
    (kv_find released_cache.zero_ref_map kA).map (fun v => (v.buf, v.write_back)) =
      some (1, true) ∧
    flush released_cache [[.done kA], []] = Except.ok flushed_cache ∧
    (flushed_cache.settling, flushed_cache.real_size) = ([], 0) ∧
    flush released_cache [[.store kA], []] = Except.ok flushed_early_cache ∧
    (flushed_early_cache.settling, flushed_early_cache.real_size) = ([(kA, 1)], 1024) ∧
    (flushed_early_cache.zero_ref_map = [] ∧ flushed_early_cache.io_map = [] ∧
      flushed_early_cache.active_map = [] ∧ flushed_early_cache.alloc_backlog = [] ∧
      flushed_early_cache.commit_size = 0 ∧
      flushed_early_cache.real_size = settling_bytes flushed_early_cache.settling % 2 ^ 64 ∧
      (flushed_early_cache.settling = [] → flushed_early_cache.real_size = 0) ∧
      ((io_settle_all flushed_early_cache).real_size = 0 ∧
        (io_settle_all flushed_early_cache).settling = [] ∧
        (io_settle_all flushed_early_cache).commit_size = 0 ∧
        (io_settle_all flushed_early_cache).zero_ref_map = [] ∧
        (io_settle_all flushed_early_cache).io_map = [] ∧
        (io_settle_all flushed_early_cache).active_map = [] ∧
        (io_settle_all flushed_early_cache).alloc_backlog = []) ∧
      ∀ k v, kv_find released_cache.zero_ref_map k = some v → v.write_back = true →
        (⟨k.fptr, k.sinfo, v.buf, true⟩ : IoTask) ∈ flushed_early_cache.issued) :=
  ⟨rfl, rfl, rfl, rfl, rfl, rfl,
    flush_empties_cache 2048 (by norm_num) (write_release_flush.take 4) released_cache rfl
      [[.store kA], []] flushed_early_cache rfl rfl (fun e he => by cases he) rfl rfl⟩

end flash
namespace flash

/-! ## Theorems: batches of requests on separate buffer regions -/

/-- Reads leave the file as it is. -/
theorem foldl_read_file (L : List IoReq) (f : FlashFile) (mem : Bytes) :
    (L.foldl (do_io false) (f, mem)).1 = f := by
  induction L generalizing mem with
  | nil => rfl
  | cons r L ih =>
    simp only [List.foldl_cons, do_io, Bool.false_eq_true, if_false]
    exact ih _

/-- A batch of reads, seen from the buffer address `a`: when every request
whose buffer range holds `a` reads the file position `p` into `a`, and `p`
lies inside the file, then `a` keeps the byte of `p` if it holds it already,
and receives it if a request holds `a`. -/
theorem foldl_read_at (f : FlashFile) (a p : Nat) (hp : p < f.file_sz) (L : List IoReq)
    (hagree : ∀ r ∈ L, r.buf ≤ a → a < r.buf + r.size → r.offset + (a - r.buf) = p)
    (mem : Bytes) :
    (mem a = f.data p → (L.foldl (do_io false) (f, mem)).2 a = f.data p) ∧
    ((∃ r ∈ L, r.buf ≤ a ∧ a < r.buf + r.size) →
      (L.foldl (do_io false) (f, mem)).2 a = f.data p) := by
  induction L generalizing mem with
  | nil =>
    refine ⟨fun h => h, ?_⟩
    rintro ⟨r, hr, _⟩
    cases hr
  | cons r L ih =>
    have hL : ∀ r ∈ L, r.buf ≤ a → a < r.buf + r.size → r.offset + (a - r.buf) = p :=
      fun x hx => hagree x (List.mem_cons_of_mem _ hx)
    obtain ⟨ih1, ih2⟩ := ih hL (pread f mem r)
    simp only [List.foldl_cons, do_io, Bool.false_eq_true, if_false]
    by_cases hc : r.buf ≤ a ∧ a < r.buf + r.size
    · have he := hagree r (List.mem_cons_self _ _) hc.1 hc.2
      have hv : pread f mem r a = f.data p := by
        simp only [pread]
        rw [if_pos ⟨hc.1, hc.2, by omega⟩, he]
      exact ⟨fun _ => ih1 hv, fun _ => ih1 hv⟩
    · have hv : pread f mem r a = mem a := by
        simp only [pread]
        rw [if_neg (fun h => hc ⟨h.1, h.2.1⟩)]
      refine ⟨fun h => ih1 (hv.trans h), ?_⟩
      rintro ⟨x, hx, hxc⟩
      rcases List.mem_cons.1 hx with rfl | hx
      · exact absurd hxc hc
      · exact ih2 ⟨x, hx, hxc⟩

/-- Writes leave the buffer as it is. -/
theorem foldl_write_mem (L : List IoReq) (f : FlashFile) (mem : Bytes) :
    (L.foldl (do_io true) (f, mem)).2 = mem := by
  induction L generalizing f with
  | nil => rfl
  | cons r L ih =>
    simp only [List.foldl_cons, do_io, if_true]
    exact ih _

/-- Writes do not shrink the file, and the file ends at or after the end of
every request. -/
theorem foldl_write_size (L : List IoReq) (f : FlashFile) (mem : Bytes) :
    f.file_sz ≤ (L.foldl (do_io true) (f, mem)).1.file_sz ∧
    ∀ r ∈ L, r.offset + r.size ≤ (L.foldl (do_io true) (f, mem)).1.file_sz := by
  induction L generalizing f with
  | nil =>
    refine ⟨le_refl _, ?_⟩
    intro r hr
    cases hr
  | cons r L ih =>
    obtain ⟨h1, h2⟩ := ih (pwrite f mem r)
    simp only [List.foldl_cons, do_io, if_true]
    have e1 : f.file_sz ≤ (pwrite f mem r).file_sz := le_max_left _ _
    have e2 : r.offset + r.size ≤ (pwrite f mem r).file_sz := le_max_right _ _
    refine ⟨le_trans e1 h1, ?_⟩
    intro x hx
    rcases List.mem_cons.1 hx with rfl | hx
    · exact le_trans e2 h1
    · exact h2 x hx

/-- A batch of writes, seen from the file position `p`: when every request
whose file range holds `p` writes the buffer byte at `b` there, then `p` keeps
that byte if it holds it already, and receives it if a request holds `p`. -/
theorem foldl_write_at (mem : Bytes) (p b : Nat) (L : List IoReq)
    (hagree : ∀ r ∈ L, r.offset ≤ p → p < r.offset + r.size → r.buf + (p - r.offset) = b)
    (f : FlashFile) :
    (f.data p = mem b → (L.foldl (do_io true) (f, mem)).1.data p = mem b) ∧
    ((∃ r ∈ L, r.offset ≤ p ∧ p < r.offset + r.size) →
      (L.foldl (do_io true) (f, mem)).1.data p = mem b) := by
  induction L generalizing f with
  | nil =>
    refine ⟨fun h => h, ?_⟩
    rintro ⟨r, hr, _⟩
    cases hr
  | cons r L ih =>
    have hL : ∀ r ∈ L, r.offset ≤ p → p < r.offset + r.size → r.buf + (p - r.offset) = b :=
      fun x hx => hagree x (List.mem_cons_of_mem _ hx)
    obtain ⟨ih1, ih2⟩ := ih hL (pwrite f mem r)
    simp only [List.foldl_cons, do_io, if_true]
    by_cases hc : r.offset ≤ p ∧ p < r.offset + r.size
    · have he := hagree r (List.mem_cons_self _ _) hc.1 hc.2
      have hv : (pwrite f mem r).data p = mem b := by
        simp only [pwrite]
        rw [if_pos hc, he]
      exact ⟨fun _ => ih1 hv, fun _ => ih1 hv⟩
    · have hv : (pwrite f mem r).data p = f.data p := by
        simp only [pwrite]
        rw [if_neg hc]
      refine ⟨fun h => ih1 (hv.trans h), ?_⟩
      rintro ⟨x, hx, hxc⟩
      rcases List.mem_cons.1 hx with rfl | hx
      · exact absurd hxc hc
      · exact ih2 ⟨x, hx, hxc⟩

/-- A loop of `memcpy` calls from `src` into a buffer, seen from the address
`a`: when every call whose destination range holds `a` copies the source byte
at `b` there, then `a` keeps that byte if it holds it already, and receives
it if a call holds `a`. -/
theorem foldl_memcpy_at {ι : Type} (src : Bytes) (len a b : Nat) (D S : ι → Nat)
    (L : List ι)
    (hagree : ∀ i ∈ L, D i ≤ a → a < D i + len → S i + (a - D i) = b) (dst : Bytes) :
    (dst a = src b → (L.foldl (fun m i => memcpy m (D i) src (S i) len) dst) a = src b) ∧
    ((∃ i ∈ L, D i ≤ a ∧ a < D i + len) →
      (L.foldl (fun m i => memcpy m (D i) src (S i) len) dst) a = src b) := by
  induction L generalizing dst with
  | nil =>
    refine ⟨fun h => h, ?_⟩
    rintro ⟨r, hr, _⟩
    cases hr
  | cons r L ih =>
    have hL : ∀ i ∈ L, D i ≤ a → a < D i + len → S i + (a - D i) = b :=
      fun x hx => hagree x (List.mem_cons_of_mem _ hx)
    obtain ⟨ih1, ih2⟩ := ih hL (memcpy dst (D r) src (S r) len)
    simp only [List.foldl_cons]
    by_cases hc : D r ≤ a ∧ a < D r + len
    · have he := hagree r (List.mem_cons_self _ _) hc.1 hc.2
      have hv : memcpy dst (D r) src (S r) len a = src b := by
        simp only [memcpy]
        rw [if_pos hc, he]
      exact ⟨fun _ => ih1 hv, fun _ => ih1 hv⟩
    · have hv : memcpy dst (D r) src (S r) len a = dst a := by
        simp only [memcpy]
        rw [if_neg hc]
      refine ⟨fun h => ih1 (hv.trans h), ?_⟩
      rintro ⟨x, hx, hxc⟩
      rcases List.mem_cons.1 hx with rfl | hx
      · exact absurd hxc hc
      · exact ih2 ⟨x, hx, hxc⟩

/-- Strips of length at most the stride do not meet: a position of strip `i`
that lies in strip `i2` has `i2 = i`. -/
theorem strip_unique (stride lps i i2 j : Nat) (hl : lps ≤ stride) (hj : j < lps)
    (h1 : stride * i2 ≤ stride * i + j) (h2 : stride * i + j < stride * i2 + lps) : i2 = i := by
  rcases Nat.lt_trichotomy i2 i with h | h | h
  · have := Nat.mul_le_mul_left stride (Nat.succ_le_of_lt h)
    rw [Nat.mul_succ] at this
    omega
  · exact h
  · have := Nat.mul_le_mul_left stride (Nat.succ_le_of_lt h)
    rw [Nat.mul_succ] at this
    omega

end flash
namespace flash

/-! ## Theorems: strided read -/

theorem running_offset_next (sz : Nat → Nat) {i i2 : Nat} (h : i < i2) :
    running_offset sz i + sz i ≤ running_offset sz i2 := by
  induction i2 with
  | zero => omega
  | succ k ih =>
    simp only [running_offset]
    rcases Nat.lt_succ_iff_lt_or_eq.1 h with h1 | h1
    · have := ih h1
      omega
    · subst h1
      exact le_refl _

/-- The regions that `running_offset` lays out do not meet. -/
theorem region_unique (sz : Nat → Nat) {i i2 a : Nat}
    (h1 : running_offset sz i ≤ a) (h2 : a < running_offset sz i + sz i)
    (h3 : running_offset sz i2 ≤ a) (h4 : a < running_offset sz i2 + sz i2) : i2 = i := by
  rcases Nat.lt_trichotomy i2 i with h | h | h
  · have := running_offset_next sz h
    omega
  · exact h
  · have := running_offset_next sz h
    omega

theorem le_ROUND_UP_sector (x : Nat) : x ≤ ROUND_UP x SECTOR_LEN := by
  rw [ROUND_UP_sector]
  omega

theorem ROUND_DOWN_sector_le (x : Nat) : ROUND_DOWN x SECTOR_LEN ≤ x := by
  rw [ROUND_DOWN_sector]
  omega

/-- The strided read delivers strip `i` of the file in the bytes
`[lps * i, lps * i + lps)` of the buffer, when the strip lies inside the
file. -/
theorem FlashFileHandle.sread_spec (f : FlashFile) (offset : Nat) (sinfo : StrideInfo)
    (buf_addr : Nat) (buf fresh : Bytes) (hn : sinfo.n_strides ≠ 0)
    (hl1 : 1 ≤ sinfo.len_per_stride) (hl2 : sinfo.len_per_stride ≤ sinfo.stride) :
    ∃ out, FlashFileHandle.sread f offset sinfo buf_addr buf fresh = some out ∧
      ∀ i < sinfo.n_strides,
        offset + sinfo.stride * i + sinfo.len_per_stride ≤ f.file_sz →
        ∀ j < sinfo.len_per_stride,
          out (sinfo.len_per_stride * i + j) = f.data (offset + sinfo.stride * i + j) := by
  obtain ⟨stride, n, lps⟩ := sinfo
  simp only at hn hl1 hl2 ⊢
  have hl0 : ¬ lps = 0 := by omega
  unfold FlashFileHandle.sread
  simp only [hn, hl0, if_false, not_le.2 (Nat.lt_succ_of_le hl2), not_not, hl2, not_true_eq_false]
  by_cases hal : (IS_ALIGNED buf_addr && IS_ALIGNED lps && IS_ALIGNED offset &&
      IS_ALIGNED stride) = true
  · rw [if_pos hal]
    refine ⟨_, rfl, ?_⟩
    intro i hi hfile j hj
    rw [execute_io_eq]
    refine (foldl_read_at f _ (offset + stride * i + j) (by omega) _ ?_ buf).2 ?_
    · intro r hr h1 h2
      rw [mem_issued] at hr
      simp only [List.mem_map, List.mem_range] at hr
      obtain ⟨idx, _, rfl⟩ := hr
      simp only at h1 h2 ⊢
      rw [Nat.mul_comm idx lps] at h1 h2 ⊢
      have := strip_unique lps lps i idx j (le_refl _) hj h1 h2
      subst this
      omega
    · refine ⟨⟨offset + stride * i, lps, i * lps⟩, ?_, ?_⟩
      · rw [mem_issued]
        simp only [List.mem_map, List.mem_range]
        exact ⟨i, hi, rfl⟩
      · simp only
        rw [Nat.mul_comm i lps]
        omega
  · rw [if_neg hal]
    refine ⟨_, rfl, ?_⟩
    intro i hi hfile j hj
    have hx := le_ROUND_UP_sector (offset + stride * i + lps)
    have hd := ROUND_DOWN_sector_le (offset + stride * i)
    set sizes := fun idx => ROUND_UP (offset + stride * idx + lps) SECTOR_LEN -
      ROUND_DOWN (offset + stride * idx) SECTOR_LEN with hsizes
    set read_buf := (execute_io (f, fresh)
      ((List.range n).map fun i => (⟨ROUND_DOWN (offset + stride * i) SECTOR_LEN, sizes i,
        running_offset sizes i⟩ : IoReq)) false MAX_SIMUL_REQS).2 with hrb
    have hsz : sizes i = ROUND_UP (offset + stride * i + lps) SECTOR_LEN -
        ROUND_DOWN (offset + stride * i) SECTOR_LEN := rfl
    have hcopy := (foldl_memcpy_at read_buf lps (lps * i + j)
      (running_offset sizes i + (offset + stride * i -
        ROUND_DOWN (offset + stride * i) SECTOR_LEN) + j)
      (fun i => lps * i)
      (fun i => running_offset sizes i + (offset + stride * i -
        ROUND_DOWN (offset + stride * i) SECTOR_LEN))
      (List.range n) ?_ buf).2 ⟨i, List.mem_range.2 hi, by omega, by omega⟩
    · rw [hcopy, hrb, execute_io_eq]
      refine (foldl_read_at f _ (offset + stride * i + j) (by omega) _ ?_ fresh).2 ?_
      · intro r hr h1 h2
        rw [mem_issued] at hr
        simp only [List.mem_map, List.mem_range] at hr
        obtain ⟨idx, _, rfl⟩ := hr
        simp only at h1 h2 ⊢
        have := @region_unique sizes i idx _ (by omega) (by omega) h1 h2
        subst this
        omega
      · refine ⟨⟨ROUND_DOWN (offset + stride * i) SECTOR_LEN, sizes i,
          running_offset sizes i⟩, ?_, ?_⟩
        · rw [mem_issued]
          simp only [List.mem_map, List.mem_range]
          exact ⟨i, hi, rfl⟩
        · simp only
          omega
    · intro i2 _ h1 h2
      simp only at h1 h2 ⊢
      have := strip_unique lps lps i i2 j (le_refl _) hj h1 h2
      subst this
      omega

end flash
namespace flash

/-! ## Theorems: strided write -/

/-- The two closing steps of the unaligned paths of `swrite`.  The strips are
grouped in `M` blocks with the file ranges `[S m, E m)`, ordered and apart,
which lie one after the other in the bounce buffer; `pairs` lists each strip
with its block, the strip lying inside the block.  After the loop that copies
the strips from `buf` into the bounce buffer and the write of the blocks, the
file holds strip `i` of `buf` at `offset + stride * i`, and ends at or after
the end of each block. -/
theorem blocks_write (offset stride lps : Nat) (hl2 : lps ≤ stride) (M : Nat) (S E : Nat → Nat)
    (hord : ∀ m m2, m < m2 → m2 < M → E m ≤ S m2)
    (pairs : List (Nat × Nat)) (D Sr : Nat × Nat → Nat)
    (hD : ∀ x ∈ pairs, D x = running_offset (fun m => E m - S m) x.1 +
      (offset + stride * x.2 - S x.1))
    (hS : ∀ x ∈ pairs, Sr x = lps * x.2)
    (hin : ∀ x ∈ pairs, x.1 < M ∧ S x.1 ≤ offset + stride * x.2 ∧
      offset + stride * x.2 + lps ≤ E x.1)
    (f : FlashFile) (W buf : Bytes) :
    f.file_sz ≤ (execute_io (f, pairs.foldl (fun b x => memcpy b (D x) buf (Sr x) lps) W)
      ((List.range M).map fun m =>
        (⟨S m, E m - S m, running_offset (fun m => E m - S m) m⟩ : IoReq))
      true MAX_SIMUL_REQS).1.file_sz ∧
    ∀ x ∈ pairs,
      E x.1 ≤ (execute_io (f, pairs.foldl (fun b x => memcpy b (D x) buf (Sr x) lps) W)
        ((List.range M).map fun m =>
          (⟨S m, E m - S m, running_offset (fun m => E m - S m) m⟩ : IoReq))
        true MAX_SIMUL_REQS).1.file_sz ∧
      ∀ j < lps,
        (execute_io (f, pairs.foldl (fun b x => memcpy b (D x) buf (Sr x) lps) W)
          ((List.range M).map fun m =>
            (⟨S m, E m - S m, running_offset (fun m => E m - S m) m⟩ : IoReq))
          true MAX_SIMUL_REQS).1.data (offset + stride * x.2 + j) = buf (lps * x.2 + j) := by
  set offs := running_offset (fun m => E m - S m) with hoffs
  set W2 := pairs.foldl (fun b x => memcpy b (D x) buf (Sr x) lps) W with hW2
  set reqs := (List.range M).map fun m => (⟨S m, E m - S m, offs m⟩ : IoReq) with hreqs
  rw [execute_io_eq]
  have hsize := foldl_write_size (issued reqs MAX_SIMUL_REQS) f W2
  refine ⟨hsize.1, ?_⟩
  rintro ⟨m, i⟩ hx
  obtain ⟨hm, hs, he⟩ := hin _ hx
  simp only at hm hs he ⊢
  have hreq : (⟨S m, E m - S m, offs m⟩ : IoReq) ∈ issued reqs MAX_SIMUL_REQS := by
    rw [mem_issued]
    simp only [hreqs, List.mem_map, List.mem_range]
    exact ⟨m, hm, rfl⟩
  refine ⟨?_, ?_⟩
  · have := hsize.2 _ hreq
    simp only at this
    omega
  · intro j hj
    have hblock : ∀ m2, m2 < M → S m2 ≤ offset + stride * i + j →
        offset + stride * i + j < S m2 + (E m2 - S m2) → m2 = m := by
      intro m2 hm2 h1 h2
      rcases Nat.lt_trichotomy m2 m with h | h | h
      · have := hord m2 m h hm
        omega
      · exact h
      · have := hord m m2 h hm2
        omega
    have hdata := (foldl_write_at W2 (offset + stride * i + j)
      (offs m + (offset + stride * i + j - S m)) (issued reqs MAX_SIMUL_REQS) ?_ f).2
      ⟨_, hreq, by simp only; omega, by simp only; omega⟩
    · rw [hdata]
      have hcopy := (foldl_memcpy_at buf lps (offs m + (offset + stride * i + j - S m))
        (lps * i + j) D Sr pairs ?_ W).2 ⟨(m, i), hx, ?_, ?_⟩
      · exact hcopy
      · rintro ⟨m2, i2⟩ hx2 h1 h2
        obtain ⟨hm2, hs2, he2⟩ := hin _ hx2
        rw [hD _ hx2] at h1 h2 ⊢
        rw [hS _ hx2]
        simp only at hm2 hs2 he2 h1 h2 ⊢
        have hru := @region_unique (fun m => E m - S m) m m2
          (offs m + (offset + stride * i + j - S m))
        rw [← hoffs] at hru
        have hmm : m2 = m := hru (by omega) (by omega) (by omega) (by omega)
        subst hmm
        have hii : i2 = i := strip_unique stride lps i i2 j hl2 hj (by omega) (by omega)
        subst hii
        omega
      · rw [hD _ hx]
        simp only
        omega
      · rw [hD _ hx]
        simp only
        omega
    · intro r hr h1 h2
      rw [mem_issued] at hr
      simp only [hreqs, List.mem_map, List.mem_range] at hr
      obtain ⟨m2, hm2, rfl⟩ := hr
      simp only at h1 h2 ⊢
      have := hblock m2 hm2 h1 h2
      subst this
      rfl

end flash
namespace flash

/-! ## Theorems: the merging loop of `swrite` -/

theorem getD_snoc (l : List Nat) (x i : Nat) :
    (l ++ [x]).getD i 0 = if i < l.length then l.getD i 0 else if i = l.length then x else 0 := by
  simp only [List.getD_eq_getElem?_getD, List.getElem?_append]
  split_ifs with h1 h2
  · rfl
  · subst h2
    simp
  · have : l.length < i := by omega
    rw [List.getElem?_eq_none]
    · rfl
    · simp
      omega

theorem getD_set_back (l : List Nat) (x i : Nat) (hl : 0 < l.length) :
    (set_back l x).getD i 0 =
      if i + 1 < l.length then l.getD i 0 else if i + 1 = l.length then x else 0 := by
  unfold set_back
  rw [getD_snoc, List.length_dropLast]
  by_cases h1 : i + 1 < l.length
  · rw [if_pos (by omega), if_pos h1]
    simp only [List.getD_eq_getElem?_getD, List.getElem?_dropLast]
    rw [if_pos (by omega)]
  · rw [if_neg (by omega), if_neg h1]
    by_cases h2 : i + 1 = l.length
    · rw [if_pos (by omega), if_pos h2]
    · rw [if_neg (by omega), if_neg h2]

theorem length_set_back (l : List Nat) (x : Nat) (hl : 0 < l.length) :
    (set_back l x).length = l.length := by
  unfold set_back
  rw [List.length_append, List.length_dropLast]
  simp only [List.length_singleton]
  omega

theorem getLastD_eq_getD (l : List Nat) : l.getLastD 0 = l.getD (l.length - 1) 0 := by
  rw [List.getLastD_eq_getLast?, List.getLast?_eq_getElem?, List.getD_eq_getElem?_getD]

/-- One iteration of the merging loop places strip `k`. -/
theorem merge_step_grouped (starts ends : Nat → Nat) (k : Nat)
    (g : List Nat × List Nat × List Nat) (h : Grouped starts ends k g) :
    Grouped starts ends (k + 1) (merge_step starts ends g k) := by
  obtain ⟨ms, S, E⟩ := g
  obtain ⟨h1, h2, h3, h4, h5, h6, h7, h8, h9⟩ := h
  simp only at h1 h2 h3 h4 h5 h6 h7 h8 h9
  have hlast : ms.getLastD 0 = k := by
    rw [getLastD_eq_getD, h1]
    exact h5
  have hE : E.getLastD 0 = E.getD (S.length - 1) 0 := by
    rw [getLastD_eq_getD, h2]
  unfold merge_step
  simp only
  by_cases hc : starts k < E.getLastD 0
  · rw [if_pos hc]
    have lm : 0 < ms.length := by omega
    have le : 0 < E.length := by omega
    refine ⟨?_, ?_, h3, ?_, ?_, ?_, ?_, ?_, ?_⟩
    · simp only [length_set_back _ _ lm]
      exact h1
    · simp only [length_set_back _ _ le]
      exact h2
    · simp only [getD_set_back _ _ _ lm]
      rw [if_pos (by omega)]
      exact h4
    · simp only [getD_set_back _ _ _ lm]
      rw [if_neg (by omega), if_pos (by omega), hlast]
    · intro m hm
      simp only at hm
      simp only [getD_set_back _ _ _ lm]
      rw [if_pos (by omega)]
      by_cases hmm : m + 1 + 1 < ms.length
      · rw [if_pos hmm]
        exact h6 m hm
      · rw [if_neg hmm, if_pos (by omega), hlast]
        have := h6 m hm
        have e : m + 1 = S.length := by omega
        rw [e, h5] at this
        omega
    · intro m hm
      simp only at hm
      simp only [getD_set_back _ _ _ lm]
      rw [if_pos (by omega)]
      exact h7 m hm
    · intro m hm
      simp only at hm
      simp only [getD_set_back _ _ _ lm, getD_set_back _ _ _ le]
      by_cases hmm : m + 1 < S.length
      · rw [if_pos (by omega), if_pos (by omega)]
        exact h8 m hm
      · rw [if_neg (by omega), if_pos (by omega), if_neg (by omega), if_pos (by omega), hlast]
        rfl
    · intro m hm
      simp only at hm
      simp only [getD_set_back _ _ _ le]
      rw [if_pos (by omega)]
      exact h9 m hm
  · rw [if_neg hc]
    have gm : ∀ m, m < ms.length → (ms ++ [k + 1]).getD m 0 = ms.getD m 0 := by
      intro m hm
      rw [getD_snoc, if_pos hm]
    have gm2 : (ms ++ [k + 1]).getD ms.length 0 = k + 1 := by
      rw [getD_snoc, if_neg (lt_irrefl _), if_pos rfl]
    have gs : ∀ m, m < S.length → (S ++ [starts k]).getD m 0 = S.getD m 0 := by
      intro m hm
      rw [getD_snoc, if_pos hm]
    have gs2 : (S ++ [starts k]).getD S.length 0 = starts k := by
      rw [getD_snoc, if_neg (lt_irrefl _), if_pos rfl]
    have ge : ∀ m, m < E.length → (E ++ [ends k]).getD m 0 = E.getD m 0 := by
      intro m hm
      rw [getD_snoc, if_pos hm]
    have ge2 : (E ++ [ends k]).getD E.length 0 = ends k := by
      rw [getD_snoc, if_neg (lt_irrefl _), if_pos rfl]
    refine ⟨?_, ?_, ?_, ?_, ?_, ?_, ?_, ?_, ?_⟩
    · simp only [List.length_append, List.length_singleton]
      omega
    · simp only [List.length_append, List.length_singleton]
      omega
    · simp only [List.length_append, List.length_singleton]
      omega
    · show (ms ++ [k + 1]).getD 0 0 = 0
      rw [gm 0 (by omega)]
      exact h4
    · show (ms ++ [k + 1]).getD (S ++ [starts k]).length 0 = k + 1
      have e : (S ++ [starts k]).length = ms.length := by
        simp only [List.length_append, List.length_singleton]
        omega
      rw [e, gm2]
    · intro m hm
      simp only [List.length_append, List.length_singleton] at hm
      show (ms ++ [k + 1]).getD m 0 < (ms ++ [k + 1]).getD (m + 1) 0
      rw [gm m (by omega)]
      by_cases hmm : m < S.length
      · rw [gm (m + 1) (by omega)]
        exact h6 m hmm
      · have e : m = S.length := by omega
        have e2 : m + 1 = ms.length := by omega
        rw [e2, gm2, e, h5]
        omega
    · intro m hm
      simp only [List.length_append, List.length_singleton] at hm
      show (S ++ [starts k]).getD m 0 = starts ((ms ++ [k + 1]).getD m 0)
      rw [gm m (by omega)]
      by_cases hmm : m < S.length
      · rw [gs m hmm]
        exact h7 m hmm
      · have e : m = S.length := by omega
        rw [e, gs2, h5]
    · intro m hm
      simp only [List.length_append, List.length_singleton] at hm
      show (E ++ [ends k]).getD m 0 = ends ((ms ++ [k + 1]).getD (m + 1) 0 - 1)
      by_cases hmm : m < S.length
      · rw [ge m (by omega), gm (m + 1) (by omega)]
        exact h8 m hmm
      · have e : m = E.length := by omega
        have e2 : m + 1 = ms.length := by omega
        rw [e2, gm2, e, ge2]
        rfl
    · intro m hm
      simp only [List.length_append, List.length_singleton] at hm
      show (E ++ [ends k]).getD m 0 ≤ (S ++ [starts k]).getD (m + 1) 0
      rw [ge m (by omega)]
      by_cases hmm : m + 1 < S.length
      · rw [gs (m + 1) hmm]
        exact h9 m hmm
      · have e : m + 1 = S.length := by omega
        have e2 : m = S.length - 1 := by omega
        rw [e, gs2, e2, ← hE]
        omega

theorem merge_fold_grouped (starts ends : Nat → Nat) (cnt k : Nat)
    (g : List Nat × List Nat × List Nat) (h : Grouped starts ends k g) :
    Grouped starts ends (k + cnt) ((List.range' k cnt).foldl (merge_step starts ends) g) := by
  induction cnt generalizing k g with
  | zero => exact h
  | succ c ih =>
    rw [List.range'_succ, List.foldl_cons]
    have := ih (k + 1) _ (merge_step_grouped starts ends k g h)
    have e : k + 1 + c = k + (c + 1) := by omega
    rw [e] at this
    exact this

/-- The merging loop of `swrite` groups all `n_strides` strips. -/
theorem merge_blocks_grouped (starts ends : Nat → Nat) (n : Nat) (hn : n ≠ 0) :
    Grouped starts ends n (merge_blocks starts ends n) := by
  unfold merge_blocks
  rw [if_pos (Nat.pos_of_ne_zero hn)]
  have h1 : Grouped starts ends 1 ([0, 1], [starts 0], [ends 0]) := by
    refine ⟨rfl, rfl, Nat.zero_lt_one, rfl, rfl, ?_, ?_, ?_, ?_⟩
    · intro m hm
      simp only [List.length_singleton, Nat.lt_one_iff] at hm
      subst hm
      exact Nat.zero_lt_one
    · intro m hm
      simp only [List.length_singleton, Nat.lt_one_iff] at hm
      subst hm
      rfl
    · intro m hm
      simp only [List.length_singleton, Nat.lt_one_iff] at hm
      subst hm
      rfl
    · intro m hm
      simp only [List.length_singleton] at hm
      omega
  have := merge_fold_grouped starts ends (n - 1) 1 _ h1
  have e : 1 + (n - 1) = n := by omega
  rw [e] at this
  exact this

end flash
namespace flash

theorem Grouped.merges_mono {starts ends : Nat → Nat} {k : Nat}
    {g : List Nat × List Nat × List Nat} (h : Grouped starts ends k g) (m d : Nat) (hm : m + d ≤ g.2.1.length) :
    g.1.getD m 0 ≤ g.1.getD (m + d) 0 := by
  induction d with
  | zero => exact le_refl _
  | succ d ih =>
    have h1 := ih (by omega)
    have h2 := h.incr (m + d) (by omega)
    have e : m + (d + 1) = m + d + 1 := by omega
    rw [e]
    omega

/-- Every strip below `k` is in a block. -/
theorem Grouped.cover {starts ends : Nat → Nat} {k : Nat} {g : List Nat × List Nat × List Nat}
    (h : Grouped starts ends k g) (i : Nat) (hi : i < k) :
    ∃ m, m < g.2.1.length ∧ g.1.getD m 0 ≤ i ∧ i < g.1.getD (m + 1) 0 := by
  have key : ∀ m, m ≤ g.2.1.length → i < g.1.getD m 0 →
      ∃ m2, m2 < g.2.1.length ∧ g.1.getD m2 0 ≤ i ∧ i < g.1.getD (m2 + 1) 0 := by
    intro m
    induction m with
    | zero =>
      intro _ h0
      rw [h.first] at h0
      omega
    | succ m ih =>
      intro hm hlt
      by_cases hc : i < g.1.getD m 0
      · exact ih (by omega) hc
      · exact ⟨m, by omega, by omega, hlt⟩
  apply key g.2.1.length (le_refl _)
  rw [h.last]
  exact hi

/-- The blocks are ordered and apart, when `starts` is monotone. -/
theorem Grouped.ordered {starts ends : Nat → Nat} {k : Nat}
    {g : List Nat × List Nat × List Nat} (h : Grouped starts ends k g)
    (hs : ∀ i i2, i ≤ i2 → starts i ≤ starts i2) (m m2 : Nat) (h1 : m < m2)
    (h2 : m2 < g.2.1.length) : g.2.2.getD m 0 ≤ g.2.1.getD m2 0 := by
  have a := h.apart m (by omega)
  have b := h.merges_mono (m + 1) (m2 - (m + 1)) (by omega)
  have e : m + 1 + (m2 - (m + 1)) = m2 := by omega
  rw [e] at b
  have c := hs _ _ b
  rw [← h.m_start (m + 1) (by omega), ← h.m_start m2 h2] at c
  omega

/-- A strip of a block lies inside the block, when `starts` and `ends` are
monotone. -/
theorem Grouped.inside {starts ends : Nat → Nat} {k : Nat}
    {g : List Nat × List Nat × List Nat} (h : Grouped starts ends k g)
    (hs : ∀ i i2, i ≤ i2 → starts i ≤ starts i2) (he : ∀ i i2, i ≤ i2 → ends i ≤ ends i2)
    (m i : Nat) (hm : m < g.2.1.length) (h1 : g.1.getD m 0 ≤ i) (h2 : i < g.1.getD (m + 1) 0) :
    g.2.1.getD m 0 ≤ starts i ∧ ends i ≤ g.2.2.getD m 0 := by
  rw [h.m_start m hm, h.m_end m hm]
  exact ⟨hs _ _ h1, he _ _ (by omega)⟩

theorem strip_start_mono (offset stride : Nat) (i i2 : Nat) (h : i ≤ i2) :
    ROUND_DOWN (offset + stride * i) SECTOR_LEN ≤ ROUND_DOWN (offset + stride * i2) SECTOR_LEN := by
  have := Nat.mul_le_mul_left stride h
  simp only [ROUND_DOWN_sector]
  omega

theorem strip_end_mono (offset stride lps : Nat) (i i2 : Nat) (h : i ≤ i2) :
    ROUND_UP (offset + stride * i + lps) SECTOR_LEN ≤
      ROUND_UP (offset + stride * i2 + lps) SECTOR_LEN := by
  have := Nat.mul_le_mul_left stride h
  simp only [ROUND_UP_sector]
  omega

theorem execute_io_read_file (f : FlashFile) (mem : Bytes) (reqs : List IoReq) :
    (execute_io (f, mem) reqs false MAX_SIMUL_REQS).1 = f := by
  rw [execute_io_eq]
  exact foldl_read_file _ f mem

end flash
namespace flash

/-- The aligned path of `swrite`. -/
theorem swrite_aligned (f : FlashFile) (offset stride n lps : Nat) (buf : Bytes)
    (hl2 : lps ≤ stride) (h1 : lps % 512 = 0) (h2 : offset % 512 = 0) (h3 : stride % 512 = 0) :
    strided_written f
      (execute_io (f, buf)
        ((List.range n).map fun idx => (⟨offset + stride * idx, lps, idx * lps⟩ : IoReq))
        true MAX_SIMUL_REQS).1 offset ⟨stride, n, lps⟩ buf := by
  unfold strided_written
  simp only
  rw [execute_io_eq]
  set reqs := (List.range n).map fun idx => (⟨offset + stride * idx, lps, idx * lps⟩ : IoReq)
    with hreqs
  have hsize := foldl_write_size (issued reqs MAX_SIMUL_REQS) f buf
  refine ⟨hsize.1, ?_⟩
  intro i hi
  have hreq : (⟨offset + stride * i, lps, i * lps⟩ : IoReq) ∈ issued reqs MAX_SIMUL_REQS := by
    rw [mem_issued]
    simp only [hreqs, List.mem_map, List.mem_range]
    exact ⟨i, hi, rfl⟩
  refine ⟨?_, ?_⟩
  · have := hsize.2 _ hreq
    simp only at this
    have hd : 512 ∣ stride * i := Dvd.dvd.mul_right (Nat.dvd_of_mod_eq_zero h3) i
    rw [ROUND_UP_sector]
    omega
  · intro j hj
    have hdata := (foldl_write_at buf (offset + stride * i + j) (lps * i + j)
      (issued reqs MAX_SIMUL_REQS) ?_ f).2 ⟨_, hreq, by simp only; omega, by simp only; omega⟩
    · exact hdata
    · intro r hr h1 h2
      rw [mem_issued] at hr
      simp only [hreqs, List.mem_map, List.mem_range] at hr
      obtain ⟨idx, _, rfl⟩ := hr
      simp only at h1 h2 ⊢
      have := strip_unique stride lps i idx j hl2 hj (by omega) (by omega)
      subst this
      rw [Nat.mul_comm idx lps]
      omega

/-- The path of `swrite` on which no two sector hulls meet. -/
theorem swrite_unmerged (f : FlashFile) (offset stride n lps : Nat) (buf W : Bytes)
    (hl2 : lps ≤ stride)
    (hsep : ∀ i, i < n - 1 → ROUND_UP (offset + stride * i + lps) SECTOR_LEN ≤
      ROUND_DOWN (offset + stride * (i + 1)) SECTOR_LEN) :
    strided_written f
      (execute_io (f, (List.range n).foldl
          (fun b i => memcpy b
            (running_offset (fun i => ROUND_UP (offset + stride * i + lps) SECTOR_LEN -
                ROUND_DOWN (offset + stride * i) SECTOR_LEN) i +
              (offset + stride * i - ROUND_DOWN (offset + stride * i) SECTOR_LEN))
            buf (lps * i) lps) W)
        ((List.range n).map fun i =>
          (⟨ROUND_DOWN (offset + stride * i) SECTOR_LEN,
            ROUND_UP (offset + stride * i + lps) SECTOR_LEN -
              ROUND_DOWN (offset + stride * i) SECTOR_LEN,
            running_offset (fun i => ROUND_UP (offset + stride * i + lps) SECTOR_LEN -
                ROUND_DOWN (offset + stride * i) SECTOR_LEN) i⟩ : IoReq))
        true MAX_SIMUL_REQS).1 offset ⟨stride, n, lps⟩ buf := by
  have hord : ∀ m m2, m < m2 → m2 < n →
      ROUND_UP (offset + stride * m + lps) SECTOR_LEN ≤
        ROUND_DOWN (offset + stride * m2) SECTOR_LEN := by
    intro m m2 h1 h2
    have a := hsep m (by omega)
    have b := strip_start_mono offset stride (m + 1) m2 (by omega)
    omega
  have hb := blocks_write offset stride lps hl2 n
    (fun i => ROUND_DOWN (offset + stride * i) SECTOR_LEN)
    (fun i => ROUND_UP (offset + stride * i + lps) SECTOR_LEN) hord
    ((List.range n).map fun i => (i, i))
    (fun x => running_offset (fun i => ROUND_UP (offset + stride * i + lps) SECTOR_LEN -
        ROUND_DOWN (offset + stride * i) SECTOR_LEN) x.1 +
      (offset + stride * x.2 - ROUND_DOWN (offset + stride * x.1) SECTOR_LEN))
    (fun x => lps * x.2) (fun _ _ => rfl) (fun _ _ => rfl) ?_ f W buf
  · rw [List.foldl_map] at hb
    refine ⟨hb.1, ?_⟩
    intro i hi
    exact hb.2 (i, i) (List.mem_map.2 ⟨i, List.mem_range.2 hi, rfl⟩)
  · intro x hx
    simp only [List.mem_map, List.mem_range] at hx
    obtain ⟨i, hi, rfl⟩ := hx
    exact ⟨hi, ROUND_DOWN_sector_le _, le_ROUND_UP_sector _⟩

theorem nested_foldl_pairs {β : Type} (G : β → Nat × Nat → β) (M : Nat) (a c : Nat → Nat)
    (W : β) :
    (List.range M).foldl (fun b m => (List.range' (a m) (c m)).foldl (fun b i => G b (m, i)) b) W =
      (((List.range M).map fun m => (List.range' (a m) (c m)).map fun i => (m, i)).flatten).foldl
        G W := by
  rw [← foldl_foldl_eq_flatten, List.foldl_map]
  simp only [List.foldl_map]

end flash
namespace flash

/-- The path of `swrite` on which strips are merged into blocks. -/
theorem swrite_merged (f : FlashFile) (offset stride n lps : Nat) (buf W : Bytes)
    (hn : n ≠ 0) (hl2 : lps ≤ stride) (g : List Nat × List Nat × List Nat)
    (hg : g = merge_blocks (fun idx => ROUND_DOWN (offset + stride * idx) SECTOR_LEN)
      (fun idx => ROUND_UP (offset + stride * idx + lps) SECTOR_LEN) n) :
    strided_written f
      (execute_io (f, (List.range g.2.1.length).foldl
          (fun b m =>
            (List.range' (g.1.getD m 0) (g.1.getD (m + 1) 0 - g.1.getD m 0)).foldl
              (fun b stride_idx =>
                memcpy b
                  (running_offset (fun i => g.2.2.getD i 0 - g.2.1.getD i 0) m +
                    (offset + stride_idx * stride - g.2.1.getD m 0))
                  buf (stride_idx * lps) lps) b) W)
        ((List.range g.2.1.length).map fun i =>
          (⟨g.2.1.getD i 0, g.2.2.getD i 0 - g.2.1.getD i 0,
            running_offset (fun i => g.2.2.getD i 0 - g.2.1.getD i 0) i⟩ : IoReq))
        true MAX_SIMUL_REQS).1 offset ⟨stride, n, lps⟩ buf := by
  have hgr : Grouped (fun idx => ROUND_DOWN (offset + stride * idx) SECTOR_LEN)
      (fun idx => ROUND_UP (offset + stride * idx + lps) SECTOR_LEN) n g := by
    rw [hg]
    exact merge_blocks_grouped _ _ n hn
  have hs := strip_start_mono offset stride
  have he := strip_end_mono offset stride lps
  have hpairs : ∀ x ∈ (((List.range g.2.1.length).map fun m =>
      (List.range' (g.1.getD m 0) (g.1.getD (m + 1) 0 - g.1.getD m 0)).map
        fun i => (m, i)).flatten),
      x.1 < g.2.1.length ∧ g.1.getD x.1 0 ≤ x.2 ∧ x.2 < g.1.getD (x.1 + 1) 0 := by
    intro x hx
    simp only [List.mem_flatten, List.mem_map, List.mem_range] at hx
    obtain ⟨l, ⟨m, hm, rfl⟩, hx⟩ := hx
    simp only [List.mem_map, List.mem_range'_1] at hx
    obtain ⟨i, ⟨h1, h2⟩, rfl⟩ := hx
    refine ⟨hm, h1, ?_⟩
    simp only
    omega
  have hb := blocks_write offset stride lps hl2 g.2.1.length
    (fun i => g.2.1.getD i 0) (fun i => g.2.2.getD i 0)
    (fun m m2 h1 h2 => hgr.ordered hs m m2 h1 h2)
    (((List.range g.2.1.length).map fun m =>
      (List.range' (g.1.getD m 0) (g.1.getD (m + 1) 0 - g.1.getD m 0)).map
        fun i => (m, i)).flatten)
    (fun x => running_offset (fun i => g.2.2.getD i 0 - g.2.1.getD i 0) x.1 +
      (offset + x.2 * stride - g.2.1.getD x.1 0))
    (fun x => x.2 * lps)
    (fun x _ => by simp only [Nat.mul_comm x.2 stride])
    (fun x _ => Nat.mul_comm _ _) ?_ f W buf
  · rw [← nested_foldl_pairs] at hb
    refine ⟨hb.1, ?_⟩
    intro i hi
    obtain ⟨m, hm, h1, h2⟩ := hgr.cover i hi
    have hmem : (m, i) ∈ (((List.range g.2.1.length).map fun m =>
        (List.range' (g.1.getD m 0) (g.1.getD (m + 1) 0 - g.1.getD m 0)).map
          fun i => (m, i)).flatten) := by
      simp only [List.mem_flatten, List.mem_map, List.mem_range]
      refine ⟨_, ⟨m, hm, rfl⟩, ?_⟩
      simp only [List.mem_map, List.mem_range'_1]
      exact ⟨i, ⟨h1, by omega⟩, rfl⟩
    obtain ⟨e1, e2⟩ := hb.2 (m, i) hmem
    have hin := hgr.inside hs he m i hm h1 h2
    simp only at e1 e2 hin ⊢
    exact ⟨le_trans hin.2 e1, e2⟩
  · intro x hx
    obtain ⟨h1, h2, h3⟩ := hpairs x hx
    have hin := hgr.inside hs he x.1 x.2 h1 h2 h3
    have a := ROUND_DOWN_sector_le (offset + stride * x.2)
    have b := le_ROUND_UP_sector (offset + stride * x.2 + lps)
    simp only at hin ⊢
    exact ⟨h1, by omega, by omega⟩

/-- The strided write returns, and stores strip `i` of the buffer at
`offset + stride * i`, on each of its three paths. -/
theorem FlashFileHandle.swrite_spec (f : FlashFile) (offset : Nat) (sinfo : StrideInfo)
    (buf_addr : Nat) (buf fresh : Bytes) (hn : sinfo.n_strides ≠ 0)
    (hl1 : 1 ≤ sinfo.len_per_stride) (hl2 : sinfo.len_per_stride ≤ sinfo.stride) :
    ∃ f2, FlashFileHandle.swrite f offset sinfo buf_addr buf fresh = some f2 ∧
      strided_written f f2 offset sinfo buf := by
  obtain ⟨stride, n, lps⟩ := sinfo
  simp only at hn hl1 hl2 ⊢
  have hl0 : ¬ lps = 0 := by omega
  unfold FlashFileHandle.swrite
  simp only [hn, hl0, if_false, not_not, hl2, not_true_eq_false]
  by_cases hal : (IS_ALIGNED buf_addr && IS_ALIGNED lps && IS_ALIGNED offset &&
      IS_ALIGNED stride) = true
  · rw [if_pos hal]
    refine ⟨_, rfl, ?_⟩
    simp only [IS_ALIGNED, SECTOR_LEN, Bool.and_eq_true, beq_iff_eq] at hal
    exact swrite_aligned f offset stride n lps buf hl2 hal.1.1.2 hal.1.2 hal.2
  · rw [if_neg hal]
    by_cases hmr : ((List.range (n - 1)).any fun i =>
        decide (ROUND_UP (offset + stride * i + lps) SECTOR_LEN >
          ROUND_DOWN (offset + stride * (i + 1)) SECTOR_LEN)) = true
    · rw [if_neg (by simp only [hmr, Bool.not_true, Bool.false_eq_true, not_false_eq_true])]
      refine ⟨_, rfl, ?_⟩
      simp only [execute_io_read_file]
      exact swrite_merged f offset stride n lps buf _ hn hl2 _ rfl
    · rw [if_pos (by simpa using hmr)]
      refine ⟨_, rfl, ?_⟩
      simp only [execute_io_read_file]
      apply swrite_unmerged f offset stride n lps buf _ hl2
      intro i hi
      by_contra hgt
      apply hmr
      rw [List.any_eq_true]
      exact ⟨i, List.mem_range.2 hi, by simpa using hgt⟩

end flash
namespace flash

/-! ## Theorems: strided read and strided round trip -/

/-- C13. Strided read gathers into a packed buffer: for every offset and
stride info with `n_strides ≥ 1` and `1 ≤ len_per_stride ≤ stride`, whatever
the alignment of the offset, the stride, the length and the buffer address,
when every strip lies inside the file, `sread` returns and
for every `i < n_strides` the buffer bytes
`[i * len_per_stride, (i + 1) * len_per_stride)` are the file bytes
`[offset + i * stride, offset + i * stride + len_per_stride)`. -/
theorem FlashFileHandle.sread_gathers (f : FlashFile) (offset : Nat) (sinfo : StrideInfo)
    (buf_addr : Nat) (buf fresh : Bytes) (hn : 1 ≤ sinfo.n_strides)
    (hl1 : 1 ≤ sinfo.len_per_stride) (hl2 : sinfo.len_per_stride ≤ sinfo.stride)
    (hfile : ∀ i < sinfo.n_strides,
      offset + i * sinfo.stride + sinfo.len_per_stride ≤ f.file_sz) :
    ∃ out, FlashFileHandle.sread f offset sinfo buf_addr buf fresh = some out ∧
      ∀ i < sinfo.n_strides, ∀ j < sinfo.len_per_stride,
        out (i * sinfo.len_per_stride + j) = f.data (offset + i * sinfo.stride + j) := by
  obtain ⟨out, h1, h2⟩ := FlashFileHandle.sread_spec f offset sinfo buf_addr buf fresh
    (by omega) hl1 hl2
  refine ⟨out, h1, ?_⟩
  intro i hi j hj
  have hf := hfile i hi
  rw [Nat.mul_comm i sinfo.stride] at hf ⊢
  rw [Nat.mul_comm i sinfo.len_per_stride]
  exact h2 i hi hf j hj

/-- Witness of C13: three strips of 40 bytes, 600 bytes apart, read from
offset 3 of a file of four sectors into a buffer at an unaligned address. -/
theorem FlashFileHandle.sread_gathers_witness :
    (∀ i < 3, 3 + i * 600 + 40 ≤ ramp_file.file_sz) ∧
    ∃ out, FlashFileHandle.sread ramp_file 3 ⟨600, 3, 40⟩ 1 zeros zeros = some out ∧
      ∀ i < 3, ∀ j < 40, out (i * 40 + j) = ramp_file.data (3 + i * 600 + j) :=
  ⟨by decide, FlashFileHandle.sread_gathers ramp_file 3 ⟨600, 3, 40⟩ 1 zeros zeros
    (by decide) (by decide) (by decide) (by decide)⟩

/-- C12. Strided round trip: for every offset, every stride info with
`n_strides ≥ 1` and `1 ≤ len_per_stride ≤ stride` and every packed buffer,
whatever the alignment of the offset, the stride, the length and the two
buffer addresses, so on each of the aligned, non-merged and merged paths,
`swrite(offset, sinfo, buf)` and then `sread(offset, sinfo, buf2)` both return
and leave `buf2` equal to `buf` on all `n_strides * len_per_stride` bytes. -/
theorem FlashFileHandle.swrite_sread_roundtrip (f : FlashFile) (offset : Nat)
    (sinfo : StrideInfo) (buf_addr buf2_addr : Nat) (buf buf2 fresh_w fresh_r : Bytes)
    (hn : 1 ≤ sinfo.n_strides) (hl1 : 1 ≤ sinfo.len_per_stride)
    (hl2 : sinfo.len_per_stride ≤ sinfo.stride) :
    ∃ f2 out, FlashFileHandle.swrite f offset sinfo buf_addr buf fresh_w = some f2 ∧
      FlashFileHandle.sread f2 offset sinfo buf2_addr buf2 fresh_r = some out ∧
      ∀ k < sinfo.n_strides * sinfo.len_per_stride, out k = buf k := by
  obtain ⟨f2, hw, _, hw2⟩ := FlashFileHandle.swrite_spec f offset sinfo buf_addr buf fresh_w
    (by omega) hl1 hl2
  obtain ⟨out, hr, hr2⟩ := FlashFileHandle.sread_spec f2 offset sinfo buf2_addr buf2 fresh_r
    (by omega) hl1 hl2
  refine ⟨f2, out, hw, hr, ?_⟩
  intro k hk
  have hi : k / sinfo.len_per_stride < sinfo.n_strides := by
    apply Nat.div_lt_of_lt_mul
    rw [Nat.mul_comm]
    exact hk
  have hj : k % sinfo.len_per_stride < sinfo.len_per_stride := Nat.mod_lt _ (by omega)
  have hk2 : sinfo.len_per_stride * (k / sinfo.len_per_stride) + k % sinfo.len_per_stride = k :=
    Nat.div_add_mod k _
  have e1 := hr2 _ hi (le_trans (le_ROUND_UP_sector _) (hw2 _ hi).1) _ hj
  have e2 := (hw2 _ hi).2 _ hj
  rw [hk2] at e1 e2
  rw [e1, e2]

/-- Witness of C12: five strips of 40 bytes, 100 bytes apart, written at
offset 3 of a file of two sectors from a buffer at an unaligned address (the
merged path) and read back. -/
theorem FlashFileHandle.swrite_sread_roundtrip_witness :
    ∃ f2 out, FlashFileHandle.swrite two_sectors 3 ⟨100, 5, 40⟩ 1 ramp zeros = some f2 ∧
      FlashFileHandle.sread f2 3 ⟨100, 5, 40⟩ 9 zeros zeros = some out ∧
      ∀ k < 5 * 40, out k = ramp k :=
  FlashFileHandle.swrite_sread_roundtrip two_sectors 3 ⟨100, 5, 40⟩ 1 9 ramp zeros zeros zeros
    (by decide) (by decide) (by decide)

end flash
namespace flash

/-- Where the frame of contiguous write holds: when the sector hull of
`[offset, offset + len)` lies inside the file, and the offset is unaligned or
the length is at least one sector, `write` leaves every byte of the file
outside `[offset, offset + len)` unchanged. -/
theorem FlashFileHandle.write_frame (f : FlashFile) (offset len buf_addr : Nat)
    (buf fresh : Bytes) (hlen : 1 ≤ len)
    (hfile : ROUND_UP (offset + len) SECTOR_LEN ≤ f.file_sz)
    (hok : IS_ALIGNED offset = false ∨ SECTOR_LEN ≤ len) :
    ∀ p, p < offset ∨ offset + len ≤ p →
      (FlashFileHandle.write f offset len buf_addr buf fresh).data p = f.data p := by
  intro p hp
  have hlen0 : ¬ len = 0 := by omega
  rw [ROUND_UP_sector] at hfile
  simp only [IS_ALIGNED, SECTOR_LEN, beq_eq_false_iff_ne, ne_eq] at hok
  unfold FlashFileHandle.write FlashFileHandle.write_staged FlashFileHandle.write_reqs
  simp only [hlen0, if_false, ROUND_UP_sector, ROUND_DOWN_sector]
  set start := offset / 512 * 512 with hstart
  set wl := (offset + len + 511) / 512 * 512 - start with hwl
  generalize hfirst : (if (!IS_ALIGNED offset) = true then [(⟨start, SECTOR_LEN, 0⟩ : IoReq)]
    else []) = first
  generalize halloc : (!(IS_ALIGNED buf_addr && IS_ALIGNED offset && IS_ALIGNED len)) = alloc
  generalize hfetch : (if (decide (wl > SECTOR_LEN) && !IS_ALIGNED (offset + len) && alloc) = true
    then first ++ [(⟨(offset + len + 511) / 512 * 512 - SECTOR_LEN, SECTOR_LEN,
      wl - SECTOR_LEN⟩ : IoReq)] else first) = fetch
  have hfetch_nil : alloc = false → fetch = [] := by
    intro ha
    subst ha
    simp only [Bool.not_eq_false', Bool.and_eq_true] at halloc
    have h2 : IS_ALIGNED offset = true := halloc.1.2
    simp only [h2, Bool.not_true, Bool.false_eq_true, if_false] at hfirst
    simp only [Bool.and_false, Bool.false_eq_true, if_false] at hfetch
    rw [← hfetch, ← hfirst]
  have hfirst_mem : ∀ r ∈ first, r = (⟨start, SECTOR_LEN, 0⟩ : IoReq) := by
    intro r hr
    rw [← hfirst] at hr
    split_ifs at hr
    · simpa using hr
    · simp at hr
  have hfetch_mem : ∀ r ∈ fetch, r = (⟨start, SECTOR_LEN, 0⟩ : IoReq) ∨
      (wl > SECTOR_LEN ∧ r = (⟨(offset + len + 511) / 512 * 512 - SECTOR_LEN, SECTOR_LEN,
        wl - SECTOR_LEN⟩ : IoReq)) := by
    intro r hr
    rw [← hfetch] at hr
    split_ifs at hr with hc
    · rcases List.mem_append.1 hr with h | h
      · exact Or.inl (hfirst_mem r h)
      · simp only [List.mem_singleton] at h
        simp only [Bool.and_eq_true, decide_eq_true_eq] at hc
        exact Or.inr ⟨hc.1.1, h⟩
    · exact Or.inl (hfirst_mem r hr)
  have hfcons : ∀ r ∈ fetch, r.offset = start + r.buf := by
    intro r hr
    rcases hfetch_mem r hr with h | ⟨hgt, h⟩
    · rw [h]
      simp only [Nat.add_zero]
    · rw [h]
      simp only [SECTOR_LEN] at hgt ⊢
      omega
  have hst : ∀ (mem : Bytes),
      (if fetch ≠ [] then execute_io (f, mem) fetch false MAX_SIMUL_REQS else (f, mem)).1 = f := by
    intro mem
    split_ifs
    · rw [execute_io_eq]
      exact foldl_read_file _ f mem
    · rfl
  have hw := fun (mem : Bytes) => execute_io_write_spec start wl _ (chunk_reqs_consistent start wl
    (ROUND_UP wl MAX_CHUNK_SIZE / MAX_CHUNK_SIZE)) (chunk_reqs_cover start wl) f mem
  simp only [hst]
  rw [(hw _).2 p]
  by_cases hin : start ≤ p ∧ p < start + wl
  · rw [if_pos hin]
    cases alloc with
    | false =>
      simp only [Bool.not_eq_false', Bool.and_eq_true, IS_ALIGNED, SECTOR_LEN, beq_iff_eq]
        at halloc
      omega
    | true =>
      simp only [if_true]
      have hm : memcpy (if fetch ≠ [] then execute_io (f, fresh) fetch false MAX_SIMUL_REQS
          else (f, fresh)).2 (offset - start) buf 0 len (p - start) =
          (if fetch ≠ [] then execute_io (f, fresh) fetch false MAX_SIMUL_REQS
            else (f, fresh)).2 (p - start) := by
        unfold memcpy
        rw [if_neg (by omega)]
      rw [hm]
      have hcover : ∃ r ∈ fetch, r.buf ≤ p - start ∧ p - start < r.buf + r.size := by
        by_cases hun : offset % 512 = 0
        · have hl : 512 ≤ len := by
            rcases hok with h | h
            · exact absurd hun h
            · exact h
          have hp2 : offset + len ≤ p := by omega
          have hne : ¬ (offset + len) % 512 = 0 := by omega
          refine ⟨⟨(offset + len + 511) / 512 * 512 - SECTOR_LEN, SECTOR_LEN,
            wl - SECTOR_LEN⟩, ?_, ?_⟩
          · rw [← hfetch]
            have hc : (decide (wl > SECTOR_LEN) && !IS_ALIGNED (offset + len) && true) = true := by
              simp only [IS_ALIGNED, SECTOR_LEN, Bool.and_true, Bool.and_eq_true,
                decide_eq_true_eq, Bool.not_eq_true', beq_eq_false_iff_ne, ne_eq]
              exact ⟨by omega, hne⟩
            rw [if_pos hc]
            exact List.mem_append_right _ (List.mem_singleton.2 rfl)
          · simp only [SECTOR_LEN]
            omega
        · have hf1 : (⟨start, SECTOR_LEN, 0⟩ : IoReq) ∈ first := by
            rw [← hfirst]
            have : (!IS_ALIGNED offset) = true := by
              simp only [IS_ALIGNED, SECTOR_LEN, Bool.not_eq_true', beq_eq_false_iff_ne, ne_eq]
              exact hun
            rw [if_pos this]
            exact List.mem_singleton.2 rfl
          by_cases hlow : p - start < 512
          · refine ⟨⟨start, SECTOR_LEN, 0⟩, ?_, ?_⟩
            · rw [← hfetch]
              split_ifs
              · exact List.mem_append_left _ hf1
              · exact hf1
            · simp only [SECTOR_LEN]
              omega
          · have hp2 : offset + len ≤ p := by omega
            have hne : ¬ (offset + len) % 512 = 0 := by omega
            refine ⟨⟨(offset + len + 511) / 512 * 512 - SECTOR_LEN, SECTOR_LEN,
              wl - SECTOR_LEN⟩, ?_, ?_⟩
            · rw [← hfetch]
              have hc : (decide (wl > SECTOR_LEN) && !IS_ALIGNED (offset + len) && true) =
                  true := by
                simp only [IS_ALIGNED, SECTOR_LEN, Bool.and_true, Bool.and_eq_true,
                  decide_eq_true_eq, Bool.not_eq_true', beq_eq_false_iff_ne, ne_eq]
                exact ⟨by omega, hne⟩
              rw [if_pos hc]
              exact List.mem_append_right _ (List.mem_singleton.2 rfl)
            · simp only [SECTOR_LEN]
              omega
      have hne : fetch ≠ [] := by
        obtain ⟨r, hr, _⟩ := hcover
        exact List.ne_nil_of_mem hr
      rw [if_pos hne, execute_io_eq]
      have hread := (foldl_read_at f (p - start) p (by omega) (issued fetch MAX_SIMUL_REQS)
        ?_ fresh).2 ?_
      · exact hread
      · intro r hr h1 h2
        have := hfcons r ((mem_issued fetch r).1 hr)
        omega
      · obtain ⟨r, hr, hc⟩ := hcover
        exact ⟨r, (mem_issued fetch r).2 hr, hc⟩
  · rw [if_neg hin]

end flash
namespace flash

/-! ## Theorems: the completion record, the prioritizer and write-only keys -/

theorem CompletionRecord.length_resize (r : CompletionRecord) :
    r.resize.complete.length = 2 * r.complete.length := by
  unfold CompletionRecord.resize
  simp only [List.length_append, List.length_replicate]
  omega

/-- `mark_complete` with an id at least twice the size of the vector stops at
the write outside the vector. -/
theorem CompletionRecord.mark_complete_far (r : CompletionRecord) (tsk_id : Nat)
    (h : 2 * r.complete.length ≤ tsk_id) :
    r.mark_complete tsk_id = Except.error Fault.out_of_bounds := by
  unfold CompletionRecord.mark_complete
  have h1 : r.complete.length ≤ tsk_id := by omega
  simp only [if_pos h1]
  rw [if_neg]
  · rfl
  · rw [r.length_resize]
    omega

/-- `mark_complete` with an id below twice the size of the vector returns,
and `is_complete` then answers `true` for that id. -/
theorem CompletionRecord.mark_complete_near (r : CompletionRecord) (tsk_id : Nat)
    (h : tsk_id < 2 * r.complete.length) :
    ∃ r', r.mark_complete tsk_id = Except.ok r' ∧ (r'.is_complete tsk_id).1 = true := by
  unfold CompletionRecord.mark_complete
  by_cases h1 : r.complete.length ≤ tsk_id
  · simp only [if_pos h1]
    have h2 : tsk_id < r.resize.complete.length := by
      rw [r.length_resize]
      exact h
    rw [if_pos h2]
    refine ⟨_, rfl, ?_⟩
    unfold CompletionRecord.is_complete
    simp only [List.length_set]
    rw [if_neg (by omega)]
    simp only [List.getD_eq_getElem?_getD, List.getElem?_set, if_true, h2,
      List.length_set, Option.getD_some]
  · simp only [if_neg h1]
    have h2 : tsk_id < r.complete.length := by omega
    rw [if_pos h2]
    refine ⟨_, rfl, ?_⟩
    unfold CompletionRecord.is_complete
    simp only [List.length_set]
    rw [if_neg (by omega)]
    simp [h2]

/-- An id that is not marked is reported as not complete. -/
theorem CompletionRecord.is_complete_unmarked (r : CompletionRecord) (tsk_id : Nat)
    (h : ¬ r.marked tsk_id) : (r.is_complete tsk_id).1 = false := by
  cases hc : (r.is_complete tsk_id).1 with
  | false => rfl
  | true => exact absurd ((r.is_complete_spec tsk_id).1 hc) h

/-- C22 (code defect). The record of a new scheduler has 1024 entries.
`mark_complete(2048)` resizes it once, to 2048 entries, and then writes
`complete[2048]`, outside the vector, while `mark_complete(2047)` writes inside
and `is_complete(2047)` then returns `true`. -/
theorem mark_complete_out_of_bounds :
    (Scheduler.init 2 4096).c_rec.complete.length = 1024 ∧
    (Scheduler.init 2 4096).c_rec.resize.complete.length = 2048 ∧
    (Scheduler.init 2 4096).c_rec.mark_complete 2048 = Except.error Fault.out_of_bounds ∧
    (∃ r, (Scheduler.init 2 4096).c_rec.mark_complete 2047 = Except.ok r ∧
      (r.is_complete 2047).1 = true) := by
  have hlen : (Scheduler.init 2 4096).c_rec.complete.length = 1024 := by
    show (List.replicate 1024 false).length = 1024
    exact List.length_replicate _ _
  refine ⟨hlen, ?_, ?_, ?_⟩
  · rw [CompletionRecord.length_resize, hlen]
  · exact CompletionRecord.mark_complete_far _ _ (by rw [hlen])
  · exact CompletionRecord.mark_complete_near _ _ (by rw [hlen]; decide)

theorem fill_memreqd_tsk (p : Prioritizer) (ti : TaskInfo) :
    ((p.fill_memreqd ti).tsk, (p.fill_memreqd ti).all_keys) = (ti.tsk, ti.all_keys) := rfl

theorem sorted_by_mem_reqd (l : List TaskInfo) :
    (l.insertionSort fun left right => left.mem_reqd ≤ right.mem_reqd).Sorted
      (fun left right => left.mem_reqd ≤ right.mem_reqd) := by
  have _i1 : IsTotal TaskInfo (fun left right => left.mem_reqd ≤ right.mem_reqd) :=
    ⟨fun a b => Nat.le_total a.mem_reqd b.mem_reqd⟩
  have _i2 : IsTrans TaskInfo (fun left right => left.mem_reqd ≤ right.mem_reqd) :=
    ⟨fun _ _ _ h1 h2 => Nat.le_trans h1 h2⟩
  exact List.sorted_insertionSort _ l

/-- C26. `update()` keeps the tasks of the queue, each with its key set (the
new queue is a permutation of the old one), and leaves the queue sorted by
`mem_reqd` in non-decreasing order from front to back; when the queue is not
empty, `get_prio` then returns its front, whose `mem_reqd` is the least in the
queue. -/
theorem update_sorts_queue (p : Prioritizer) (c : Cache) :
    ((p.update c).tsks.map fun ti => (ti.tsk, ti.all_keys)).Perm
      (p.tsks.map fun ti => (ti.tsk, ti.all_keys)) ∧
    (p.update c).tsks.Sorted (fun left right => left.mem_reqd ≤ right.mem_reqd) ∧
    (p.tsks ≠ [] → ∃ ti p', (p.update c).get_prio = Except.ok (ti, p') ∧
      (p.update c).tsks = ti :: p'.tsks ∧
      ∀ tj ∈ (p.update c).tsks, ti.mem_reqd ≤ tj.mem_reqd) := by
  have hperm : ((p.update c).tsks.map fun ti => (ti.tsk, ti.all_keys)).Perm
      (p.tsks.map fun ti => (ti.tsk, ti.all_keys)) := by
    unfold Prioritizer.update
    simp only
    refine ((List.perm_insertionSort _ _).map _).trans ?_
    rw [List.map_map]
    exact List.Perm.of_eq (List.map_congr_left fun ti _ => rfl)
  have hsorted : (p.update c).tsks.Sorted (fun left right => left.mem_reqd ≤ right.mem_reqd) := by
    unfold Prioritizer.update
    exact sorted_by_mem_reqd _
  refine ⟨hperm, hsorted, ?_⟩
  intro hne
  cases hq : (p.update c).tsks with
  | nil =>
    have hl := hperm.length_eq
    rw [hq] at hl
    simp only [List.map_nil, List.length_nil, List.length_map] at hl
    exact absurd (List.length_eq_zero.1 hl.symm) hne
  | cons ti rest =>
    refine ⟨ti, { p.update c with tsks := rest }, ?_, rfl, ?_⟩
    · unfold Prioritizer.get_prio
      rw [hq]
      rfl
    · intro tj htj
      rw [hq] at hsorted
      rcases List.mem_cons.1 htj with rfl | hm
      · exact Nat.le_refl _
      · exact List.rel_of_sorted_cons hsorted tj hm

set_option maxRecDepth 100000 in
/-- Witness of C26: a queue that holds task 0 (a buffer of 1536 bytes to
load) in front of task 1 (1024 bytes); after `update` task 1 is in front. -/
theorem update_sorts_queue_witness :
    (Prioritizer.update ⟨[], [⟨0, [kA2], 0⟩, ⟨1, [kA], 0⟩], true⟩ (Cache.init 4096)).tsks =
      [⟨1, [kA], 1024⟩, ⟨0, [kA2], 1536⟩] ∧
    ∃ ti p', (Prioritizer.update ⟨[], [⟨0, [kA2], 0⟩, ⟨1, [kA], 0⟩], true⟩
        (Cache.init 4096)).get_prio = Except.ok (ti, p') ∧
      (Prioritizer.update ⟨[], [⟨0, [kA2], 0⟩, ⟨1, [kA], 0⟩], true⟩ (Cache.init 4096)).tsks =
        ti :: p'.tsks ∧
      ∀ tj ∈ (Prioritizer.update ⟨[], [⟨0, [kA2], 0⟩, ⟨1, [kA], 0⟩], true⟩
        (Cache.init 4096)).tsks, ti.mem_reqd ≤ tj.mem_reqd :=
  ⟨rfl, (update_sorts_queue ⟨[], [⟨0, [kA2], 0⟩, ⟨1, [kA], 0⟩], true⟩ (Cache.init 4096)).2.2
    (List.cons_ne_nil _ _)⟩

set_option maxRecDepth 100000 in
/-- C27 (code defect). A task that reads `kA2` (a buffer of 1536 bytes, not
in the cache) is inserted: `insert` computes `mem_reqd = 1536`.  `update` adds
the sum again, on top of the old value: `mem_reqd` is 3072 after the first
`update` and 4608 after the second, while the sum of the buffer sizes of the
keys that are not resident stays 1536.  In the dispatcher run `two_ready` the
two tasks, whose buffers take 1024 and 1536 bytes, are queued with `mem_reqd`
2048 and 3072. -/
theorem mem_reqd_accumulates :
    ((Prioritizer.insert {} one_reader [0]).toOption.map fun p =>
      p.tsks.map fun ti => (ti.all_keys, ti.mem_reqd)) = some [([kA2], 1536)] ∧
    ((Prioritizer.insert {} one_reader [0]).toOption.map fun p =>
      (p.update (Cache.init 4096)).tsks.map fun ti => ti.mem_reqd) = some [3072] ∧
    ((Prioritizer.insert {} one_reader [0]).toOption.map fun p =>
      ((p.update (Cache.init 4096)).update (Cache.init 4096)).tsks.map fun ti => ti.mem_reqd) =
      some [4608] ∧
    keep_if_in_cache (Cache.init 4096) [kA2] = [] ∧
    add_mem_reqd (keep_if_in_cache (Cache.init 4096) [kA2]) [kA2] 0 = 1536 ∧
    ((Scheduler.init 2 4096).run two_ready).toOption.map
      (fun s => s.prio.tsks.map fun ti => (ti.tsk, ti.all_keys, ti.mem_reqd)) =
      some [(1, [kA], 2048), (0, [kA2], 3072)] := by
  refine ⟨rfl, rfl, rfl, rfl, rfl, rfl⟩

set_option maxRecDepth 100000 in
/-- C24 (code defect). In `released_cache` the key `kA` is in `zero_ref_map`.
`allocate` for a task that writes `kA` returns `true` and leaves `kA` where it
is, with `n_refs = 0`, and the task without an entry in `in_mem_ptrs`; for a
task that reads `kA`, or reads and writes it, `kA` is moved to `active_map`
with `n_refs = 1` and its buffer is recorded.  The allocations for two readers
of other keys then evict `kA`; when the eviction write has completed, `kA` is
in no map and not queued, and `alloc_ready` for the writer returns `false`. -/
theorem write_only_zero_ref_not_pinned :
    released_cache.where_keys = ([], [], [kA], []) ∧
    (allocate released_cache (tW kA)).toOption.map
      (fun r => (r.1, r.2.1.where_keys, r.2.2.in_mem_ptrs,
        (kv_find r.2.1.zero_ref_map kA).map fun v => v.n_refs)) =
      some (true, ([], [], [kA], []), [], some 0) ∧
    (allocate released_cache (tR kA)).toOption.map
      (fun r => (r.1, r.2.1.where_keys, r.2.2.in_mem_ptrs,
        (kv_find r.2.1.active_map kA).map fun v => v.n_refs)) =
      some (true, ([kA], [], [], []), [(kA.fptr, 1)], some 1) ∧
    (allocate released_cache (tRW kA)).toOption.map
      (fun r => (r.1, r.2.1.where_keys, r.2.2.in_mem_ptrs,
        (kv_find r.2.1.active_map kA).map fun v => v.n_refs)) =
      some (true, ([kA], [], [], []), [(kA.fptr, 1)], some 1) ∧
    (released_cache.run write_only_zero_ref).toOption.map
      (fun c => (c.where_keys, (kv_find c.io_map kA).map fun v => v.evicted)) =
      some (([], [kA], [], [kB, kC]), some true) ∧
    ((released_cache.run (write_only_zero_ref ++ [.io_done kA, .service_backlog])).bind
      fun c => alloc_ready c (tW kA)).toOption.map (fun r => (r.1, r.2.1.where_keys)) =
      some (false, ([], [kB, kC], [], [])) := by
  refine ⟨rfl, rfl, rfl, rfl, rfl, rfl⟩

end flash
namespace flash

/-! ## Theorems: key equality, the completion callback and chunking -/

/-- Keys with the same fields have the same hash value, and `operator==`
returns `true` for them. -/
theorem Key.operator_eq_of_fields (a b : Key) (h1 : a.fptr = b.fptr) (h2 : a.sinfo = b.sinfo) :
    a.operator_eq b = true ∧ a.operator_eq_debug b = some true := by
  have hab : a = b := by
    cases a
    cases b
    simp only at h1 h2
    rw [h1, h2]
  subst hab
  unfold Key.operator_eq Key.operator_eq_debug
  simp

theorem fnv64a_lt (str : List Nat) : fnv64a str < 2 ^ 64 := by
  unfold fnv64a
  have key : ∀ (l : List Nat) (h : Nat), h < 2 ^ 64 →
      l.foldl (fun hash c => (hash ^^^ char_to_u64 c) * 0x100000001b3 % 2 ^ 64) h < 2 ^ 64 := by
    intro l
    induction l with
    | nil => exact fun h hh => hh
    | cons c l ih =>
      intro h _
      rw [List.foldl_cons]
      exact ih _ (Nat.mod_lt _ (by norm_num))
  exact key str _ (by norm_num)

/-- For every `flash_ptr` there are two different `StrideInfo`s, with fields
that fit an `FBLAS_UINT`, whose keys have the same hash value: there are more
such keys than hash values. -/
theorem Key.hash_collision (fptr : flash_ptr) :
    ∃ s1 s2 : StrideInfo, s1 ≠ s2 ∧ s1.stride < 2 ^ 64 ∧ s2.stride < 2 ^ 64 ∧
      s1.n_strides < 2 ∧ s2.n_strides < 2 ∧ s1.len_per_stride = 0 ∧ s2.len_per_stride = 0 ∧
      Key.operator_eq ⟨fptr, s1⟩ ⟨fptr, s2⟩ = true := by
  let f : Fin (2 ^ 64) × Fin 2 → Fin (2 ^ 64) :=
    fun p => ⟨Key.hash_value ⟨fptr, ⟨p.1.val, p.2.val, 0⟩⟩, fnv64a_lt _⟩
  have hcard : Fintype.card (Fin (2 ^ 64)) < Fintype.card (Fin (2 ^ 64) × Fin 2) := by
    rw [Fintype.card_prod, Fintype.card_fin, Fintype.card_fin]
    norm_num
  obtain ⟨x, y, hxy, hf⟩ := Fintype.exists_ne_map_eq_of_card_lt f hcard
  refine ⟨⟨x.1.val, x.2.val, 0⟩, ⟨y.1.val, y.2.val, 0⟩, ?_, x.1.isLt, y.1.isLt, x.2.isLt,
    y.2.isLt, rfl, rfl, ?_⟩
  · intro h
    apply hxy
    have h1 : x.1.val = y.1.val := congrArg StrideInfo.stride h
    have h2 : x.2.val = y.2.val := congrArg StrideInfo.n_strides h
    exact Prod.ext (Fin.ext h1) (Fin.ext h2)
  · unfold Key.operator_eq
    have := congrArg Fin.val hf
    simp only [f] at this
    rw [this]
    simp

/-- C21 (code defect). The keys `key_p` and `key_q` have the same `flash_ptr`
and different `StrideInfo`; the 48 bytes that `Key::Key` hashes differ, all of
them are below `0x80`, and `fnv64a` gives 14017157009533425221 for both.
`operator==`, which compares the hash values only, returns `true`, and the
assertion `classic_eq == hash_eq` of the `DEBUG` build fails. -/
theorem key_eq_with_different_sinfo :
    key_p.fptr = key_q.fptr ∧ key_p.sinfo ≠ key_q.sinfo ∧
    key_p.bytes.length = 48 ∧ key_q.bytes.length = 48 ∧
    (∀ x ∈ key_p.bytes ++ key_q.bytes, x < 128) ∧
    key_p.hash_value = 14017157009533425221 ∧
    key_q.hash_value = 14017157009533425221 ∧
    Key.operator_eq key_p key_q = true ∧
    Key.operator_eq_debug key_p key_q = none := by
  refine ⟨rfl, by decide, rfl, rfl, by decide, by decide, by decide, by decide, by decide⟩

/-- The calls listed by `sread_events` are those of the `sread` that moves the
data: both stop at the same assertions. -/
theorem FlashFileHandle.sread_events_isSome (f : FlashFile) (offset : Nat) (sinfo : StrideInfo)
    (buf_addr : Nat) (buf fresh : Bytes) :
    (FlashFileHandle.sread_events offset sinfo buf_addr).isSome =
      (FlashFileHandle.sread f offset sinfo buf_addr buf fresh).isSome := by
  unfold FlashFileHandle.sread_events FlashFileHandle.sread
  by_cases h1 : sinfo.n_strides = 0
  · simp only [if_pos h1]
    rfl
  · simp only [if_neg h1]
    by_cases h2 : ¬ sinfo.len_per_stride ≤ sinfo.stride
    · simp only [if_pos h2]
      rfl
    · simp only [if_neg h2]
      by_cases h3 : sinfo.len_per_stride = 0
      · simp only [if_pos h3, Option.isSome_some]
      · simp only [if_neg h3]
        split_ifs <;> rfl

/-- The calls listed by `swrite_events` are those of the `swrite` that moves
the data: both stop at the same assertions. -/
theorem FlashFileHandle.swrite_events_isSome (f : FlashFile) (offset : Nat) (sinfo : StrideInfo)
    (buf_addr : Nat) (buf fresh : Bytes) :
    (FlashFileHandle.swrite_events offset sinfo buf_addr).isSome =
      (FlashFileHandle.swrite f offset sinfo buf_addr buf fresh).isSome := by
  unfold FlashFileHandle.swrite_events FlashFileHandle.swrite
  by_cases h1 : sinfo.n_strides = 0
  · simp only [if_pos h1]
    rfl
  · simp only [if_neg h1]
    by_cases h2 : ¬ sinfo.len_per_stride ≤ sinfo.stride
    · simp only [if_pos h2]
      rfl
    · simp only [if_neg h2]
      by_cases h3 : sinfo.len_per_stride = 0
      · simp only [if_pos h3, Option.isSome_some]
      · simp only [if_neg h3]
        split_ifs <;> rfl

/-- A strided read with buffer, offset, stride and strip length all aligned
returns after `execute_io` without invoking the callback. -/
theorem FlashFileHandle.sread_events_aligned (offset : Nat) (sinfo : StrideInfo) (buf_addr : Nat)
    (hn : sinfo.n_strides ≠ 0) (hle : sinfo.len_per_stride ≤ sinfo.stride)
    (h0 : sinfo.len_per_stride ≠ 0)
    (ha : (IS_ALIGNED buf_addr && IS_ALIGNED sinfo.len_per_stride && IS_ALIGNED offset &&
      IS_ALIGNED sinfo.stride) = true) :
    FlashFileHandle.sread_events offset sinfo buf_addr = some [.execute_io false] := by
  unfold FlashFileHandle.sread_events
  rw [if_neg hn, if_neg (not_not.2 hle), if_neg h0, if_pos ha]

/-- A strided write invokes the callback only on its merged path: not when
everything is aligned, and not when no two sector hulls of neighbouring strips
meet. -/
theorem FlashFileHandle.swrite_events_callback (offset : Nat) (sinfo : StrideInfo)
    (buf_addr : Nat) (evs : List HandleEvent)
    (h : FlashFileHandle.swrite_events offset sinfo buf_addr = some evs) :
    HandleEvent.callback ∈ evs ↔
      (sinfo.len_per_stride ≠ 0 ∧
       (IS_ALIGNED buf_addr && IS_ALIGNED sinfo.len_per_stride && IS_ALIGNED offset &&
          IS_ALIGNED sinfo.stride) = false ∧
       ((List.range (sinfo.n_strides - 1)).any fun i =>
          decide (ROUND_UP (offset + sinfo.stride * i + sinfo.len_per_stride) SECTOR_LEN >
            ROUND_DOWN (offset + sinfo.stride * (i + 1)) SECTOR_LEN)) = true) := by
  unfold FlashFileHandle.swrite_events at h
  by_cases h1 : sinfo.n_strides = 0
  · rw [if_pos h1] at h
    cases h
  · rw [if_neg h1] at h
    by_cases h2 : ¬ sinfo.len_per_stride ≤ sinfo.stride
    · rw [if_pos h2] at h
      cases h
    · rw [if_neg h2] at h
      by_cases h3 : sinfo.len_per_stride = 0
      · rw [if_pos h3] at h
        cases h
        simp [h3]
      · rw [if_neg h3] at h
        simp only at h
        by_cases h4 : (IS_ALIGNED buf_addr && IS_ALIGNED sinfo.len_per_stride &&
            IS_ALIGNED offset && IS_ALIGNED sinfo.stride) = true
        · rw [if_pos h4] at h
          cases h
          simp [h4]
        · rw [if_neg h4] at h
          have h4' := Bool.eq_false_iff.2 h4
          cases hm : (List.range (sinfo.n_strides - 1)).any fun i =>
              decide (ROUND_UP (offset + sinfo.stride * i + sinfo.len_per_stride) SECTOR_LEN >
                ROUND_DOWN (offset + sinfo.stride * (i + 1)) SECTOR_LEN) with
          | false =>
            rw [hm] at h
            simp only [Bool.not_false, if_true] at h
            cases h
            simp
          | true =>
            rw [hm] at h
            simp only [Bool.not_true, Bool.false_eq_true, if_false] at h
            cases h
            simp [h3, h4']

/-- C29 (code defect). `sread` with everything aligned (offset 0, two strips
of 512 bytes, 1024 bytes apart) calls `execute_io` and returns: the callback is
not invoked; with offset 100 it is invoked.  `swrite` with everything aligned
does not invoke it, nor does `swrite` on the path without merging (offset 100,
two strips of 100 bytes, 2048 bytes apart); on the merged path (strips 200
bytes apart) the callback is invoked after the write.  `read` and `write`
invoke it once, after their last `execute_io`. -/
theorem callback_skipped_on_fast_paths :
    FlashFileHandle.sread_events 0 ⟨1024, 2, 512⟩ 0 = some [.execute_io false] ∧
    FlashFileHandle.sread_events 100 ⟨1024, 2, 512⟩ 0 =
      some [.execute_io false, .callback] ∧
    FlashFileHandle.swrite_events 0 ⟨1024, 2, 512⟩ 0 = some [.execute_io true] ∧
    FlashFileHandle.swrite_events 100 ⟨2048, 2, 100⟩ 0 =
      some [.execute_io false, .execute_io true] ∧
    FlashFileHandle.swrite_events 100 ⟨200, 2, 100⟩ 0 =
      some [.execute_io false, .execute_io true, .callback] ∧
    FlashFileHandle.read_events 512 = [.execute_io false, .callback] ∧
    FlashFileHandle.write_events 0 512 0 = [.execute_io true, .callback] ∧
    FlashFileHandle.write_events 100 100 0 =
      [.execute_io false, .execute_io true, .callback] := by
  refine ⟨by decide, by decide, by decide, by decide, by decide, by decide, by decide,
    by decide⟩

theorem n_requests_eq (total : Nat) :
    ROUND_UP total MAX_CHUNK_SIZE / MAX_CHUNK_SIZE =
      (total + MAX_CHUNK_SIZE - 1) / MAX_CHUNK_SIZE := by
  unfold ROUND_UP MAX_CHUNK_SIZE
  rw [Nat.mul_div_cancel _ (by norm_num : 0 < 33554432)]
  split_ifs <;> omega

theorem chunk_reqs_length (start total n : Nat) : (chunk_reqs start total n).length = n := by
  simp [chunk_reqs]

theorem chunk_reqs_get (start total n i : Nat) (h : i < n) :
    (chunk_reqs start total n)[i]? =
      some ⟨start + i * MAX_CHUNK_SIZE, min MAX_CHUNK_SIZE (total - i * MAX_CHUNK_SIZE),
        i * MAX_CHUNK_SIZE⟩ := by
  unfold chunk_reqs
  rw [List.getElem?_map, List.getElem?_range h]
  rfl

theorem chunk_reqs_get_some {start total n i : Nat} {r : IoReq}
    (h : (chunk_reqs start total n)[i]? = some r) :
    i < n ∧ r = ⟨start + i * MAX_CHUNK_SIZE, min MAX_CHUNK_SIZE (total - i * MAX_CHUNK_SIZE),
        i * MAX_CHUNK_SIZE⟩ := by
  have hi : i < n := by
    by_contra hn
    rw [List.getElem?_eq_none (by rw [chunk_reqs_length]; omega)] at h
    cases h
  rw [chunk_reqs_get start total n i hi] at h
  cases h
  exact ⟨hi, rfl⟩

/-- The chunks of a transfer of `total` bytes, `total` a positive multiple of
the sector size. -/
theorem chunk_reqs_spec (start total : Nat) (hpos : 0 < total)
    (hsec : total % SECTOR_LEN = 0) :
    (∀ i, i < (total + MAX_CHUNK_SIZE - 1) / MAX_CHUNK_SIZE →
      ∃ r, (chunk_reqs start total ((total + MAX_CHUNK_SIZE - 1) / MAX_CHUNK_SIZE))[i]? = some r ∧
        r.offset = start + i * 2 ^ 25 ∧ r.buf = i * 2 ^ 25 ∧ 1 ≤ r.size ∧ r.size ≤ 2 ^ 25 ∧
        r.size % SECTOR_LEN = 0 ∧ r.offset + r.size ≤ start + total ∧
        (i + 1 < (total + MAX_CHUNK_SIZE - 1) / MAX_CHUNK_SIZE → r.size = 2 ^ 25) ∧
        (i + 1 = (total + MAX_CHUNK_SIZE - 1) / MAX_CHUNK_SIZE →
          r.offset + r.size = start + total)) ∧
    (∀ p, start ≤ p → p < start + total →
      ∃! i : Nat, ∃ r : IoReq,
        (chunk_reqs start total ((total + MAX_CHUNK_SIZE - 1) / MAX_CHUNK_SIZE))[i]? = some r ∧
        r.offset ≤ p ∧ p < r.offset + r.size) := by
  unfold SECTOR_LEN at hsec
  constructor
  · intro i hi
    refine ⟨_, chunk_reqs_get _ _ _ i hi, ?_⟩
    unfold MAX_CHUNK_SIZE SECTOR_LEN at *
    simp only
    have hlt : i * 33554432 < total := by omega
    refine ⟨by norm_num, by norm_num, ?_, ?_, ?_, ?_, ?_, ?_⟩
    · omega
    · norm_num
    · rcases Nat.le_total 33554432 (total - i * 33554432) with h1 | h1
      · rw [Nat.min_eq_left h1]
      · rw [Nat.min_eq_right h1]
        omega
    · omega
    · intro h1
      omega
    · intro h1
      omega
  · intro p hp1 hp2
    have hidx : (p - start) / MAX_CHUNK_SIZE < (total + MAX_CHUNK_SIZE - 1) / MAX_CHUNK_SIZE := by
      unfold MAX_CHUNK_SIZE
      omega
    refine ⟨(p - start) / MAX_CHUNK_SIZE, ⟨_, chunk_reqs_get _ _ _ _ hidx, ?_, ?_⟩, ?_⟩
    · unfold MAX_CHUNK_SIZE
      simp only
      omega
    · unfold MAX_CHUNK_SIZE
      simp only
      omega
    · rintro j ⟨r, hr, h1, h2⟩
      obtain ⟨hj, rfl⟩ := chunk_reqs_get_some hr
      unfold MAX_CHUNK_SIZE at *
      simp only at h1 h2
      omega

/-- C28. Chunking of a contiguous transfer.  Let `start` be the offset rounded
down and `L` the sector-aligned length `ROUND_UP(offset + len) - start`.  When
`L` exceeds `MAX_CHUNK_SIZE`, the requests that `read` hands to `execute_io`
are `read_reqs`, the requests that `write` hands to its last `execute_io`,
from the file and the buffer it has staged, are `write_reqs`, and the two
lists are the same; there are `ceil(L / 2^25)` of them; request `i` starts at
file offset `start + i * 2^25` and at buffer offset `i * 2^25`, its size is
between 1 and `2^25` bytes and a multiple of the sector size, it is `2^25`
for every request but the last, and the last request ends at `start + L`;
every byte position of `[start, start + L)` lies in exactly one request. -/
theorem chunked_requests (offset len : Nat)
    (h : MAX_CHUNK_SIZE < ROUND_UP (offset + len) SECTOR_LEN - ROUND_DOWN offset SECTOR_LEN) :
    (∀ (f : FlashFile) (buf_addr : Nat) (buf fresh : Bytes),
      FlashFileHandle.read f offset len buf_addr buf fresh =
        if (!IS_ALIGNED buf_addr || decide (ROUND_DOWN offset SECTOR_LEN ≠ offset) ||
            decide (ROUND_UP (offset + len) SECTOR_LEN - ROUND_DOWN offset SECTOR_LEN ≠ len))
            = true
        then memcpy buf 0
          (execute_io (f, fresh) (FlashFileHandle.read_reqs offset len) false MAX_SIMUL_REQS).2
          (offset - ROUND_DOWN offset SECTOR_LEN) len
        else
          (execute_io (f, buf) (FlashFileHandle.read_reqs offset len) false MAX_SIMUL_REQS).2) ∧
    (∀ (f : FlashFile) (buf_addr : Nat) (buf fresh : Bytes),
      FlashFileHandle.write f offset len buf_addr buf fresh =
        (execute_io (FlashFileHandle.write_staged f offset len buf_addr buf fresh)
          (FlashFileHandle.write_reqs offset len) true MAX_SIMUL_REQS).1) ∧
    FlashFileHandle.write_reqs offset len = FlashFileHandle.read_reqs offset len ∧
    (FlashFileHandle.read_reqs offset len).length =
      (ROUND_UP (offset + len) SECTOR_LEN - ROUND_DOWN offset SECTOR_LEN + MAX_CHUNK_SIZE - 1) /
        MAX_CHUNK_SIZE ∧
    (∀ i, i < (FlashFileHandle.read_reqs offset len).length →
      ∃ r, (FlashFileHandle.read_reqs offset len)[i]? = some r ∧
        r.offset = ROUND_DOWN offset SECTOR_LEN + i * 2 ^ 25 ∧ r.buf = i * 2 ^ 25 ∧
        1 ≤ r.size ∧ r.size ≤ 2 ^ 25 ∧ r.size % SECTOR_LEN = 0 ∧
        r.offset + r.size ≤ ROUND_UP (offset + len) SECTOR_LEN ∧
        (i + 1 < (FlashFileHandle.read_reqs offset len).length → r.size = 2 ^ 25) ∧
        (i + 1 = (FlashFileHandle.read_reqs offset len).length →
          r.offset + r.size = ROUND_UP (offset + len) SECTOR_LEN)) ∧
    (∀ p, ROUND_DOWN offset SECTOR_LEN ≤ p → p < ROUND_UP (offset + len) SECTOR_LEN →
      ∃! i : Nat, ∃ r : IoReq, (FlashFileHandle.read_reqs offset len)[i]? = some r ∧
        r.offset ≤ p ∧ p < r.offset + r.size) := by
  have hlen0 : ¬ len = 0 := by
    intro h0
    subst h0
    rw [ROUND_UP_sector, ROUND_DOWN_sector] at h
    unfold MAX_CHUNK_SIZE at h
    omega
  have hreqs : FlashFileHandle.read_reqs offset len =
      chunk_reqs (ROUND_DOWN offset SECTOR_LEN)
        (ROUND_UP (offset + len) SECTOR_LEN - ROUND_DOWN offset SECTOR_LEN)
        ((ROUND_UP (offset + len) SECTOR_LEN - ROUND_DOWN offset SECTOR_LEN +
          MAX_CHUNK_SIZE - 1) / MAX_CHUNK_SIZE) := by
    unfold FlashFileHandle.read_reqs
    simp only
    rw [if_neg (Nat.not_le.2 h), n_requests_eq]
  have hw : FlashFileHandle.write_reqs offset len = FlashFileHandle.read_reqs offset len := by
    rw [hreqs]
    unfold FlashFileHandle.write_reqs
    simp only
    rw [n_requests_eq]
  have hpos : 0 < ROUND_UP (offset + len) SECTOR_LEN - ROUND_DOWN offset SECTOR_LEN :=
    Nat.lt_of_le_of_lt (Nat.zero_le _) h
  have hsec : (ROUND_UP (offset + len) SECTOR_LEN - ROUND_DOWN offset SECTOR_LEN) %
      SECTOR_LEN = 0 := by
    rw [ROUND_UP_sector, ROUND_DOWN_sector]
    unfold SECTOR_LEN
    omega
  have hle : ROUND_DOWN offset SECTOR_LEN ≤ ROUND_UP (offset + len) SECTOR_LEN := by
    omega
  obtain ⟨h1, h2⟩ := chunk_reqs_spec (ROUND_DOWN offset SECTOR_LEN) _ hpos hsec
  rw [← hreqs] at h1 h2
  have hlen : (FlashFileHandle.read_reqs offset len).length =
      (ROUND_UP (offset + len) SECTOR_LEN - ROUND_DOWN offset SECTOR_LEN + MAX_CHUNK_SIZE - 1) /
        MAX_CHUNK_SIZE := by
    rw [hreqs, chunk_reqs_length]
  refine ⟨?_, ?_, hw, hlen, ?_, ?_⟩
  · intro f buf_addr buf fresh
    unfold FlashFileHandle.read
    rw [if_neg hlen0]
    simp only
    split_ifs <;> rfl
  · intro f buf_addr buf fresh
    unfold FlashFileHandle.write
    rw [if_neg hlen0]
  · intro i hi
    rw [hlen] at hi ⊢
    obtain ⟨r, e1, e2, e3, e4, e5, e6, e7, e8, e9⟩ := h1 i hi
    refine ⟨r, e1, e2, e3, e4, e5, e6, by omega, e8, ?_⟩
    intro hlast
    have := e9 hlast
    omega
  · intro p hp1 hp2
    exact h2 p hp1 (by omega)

/-- Witness of C28: a transfer of `2^25 + 1` bytes from offset 0, whose
sector-aligned length is `2^25 + 512`, is split into two requests, of `2^25`
and of 512 bytes; `read` into an aligned buffer copies out of the bounce
buffer that these two requests filled, and `write` carries out the same two
requests on the file and the buffer it has staged. -/
theorem chunked_requests_witness :
    MAX_CHUNK_SIZE < ROUND_UP (0 + 33554433) SECTOR_LEN - ROUND_DOWN 0 SECTOR_LEN ∧
    FlashFileHandle.read_reqs 0 33554433 = [⟨0, 33554432, 0⟩, ⟨33554432, 512, 33554432⟩] ∧
    (∀ (f : FlashFile) (buf fresh : Bytes),
      FlashFileHandle.read f 0 33554433 0 buf fresh =
        memcpy buf 0
          (execute_io (f, fresh) [⟨0, 33554432, 0⟩, ⟨33554432, 512, 33554432⟩] false
            MAX_SIMUL_REQS).2 0 33554433) ∧
    (∀ (f : FlashFile) (buf fresh : Bytes),
      FlashFileHandle.write f 0 33554433 0 buf fresh =
        (execute_io (FlashFileHandle.write_staged f 0 33554433 0 buf fresh)
          [⟨0, 33554432, 0⟩, ⟨33554432, 512, 33554432⟩] true MAX_SIMUL_REQS).1) ∧
    (FlashFileHandle.read_reqs 0 33554433).length =
      (ROUND_UP (0 + 33554433) SECTOR_LEN - ROUND_DOWN 0 SECTOR_LEN + MAX_CHUNK_SIZE - 1) /
        MAX_CHUNK_SIZE := by
  have hr : FlashFileHandle.read_reqs 0 33554433 =
      [⟨0, 33554432, 0⟩, ⟨33554432, 512, 33554432⟩] := by decide
  have hc := chunked_requests 0 33554433 (by decide)
  refine ⟨by decide, hr, fun f buf fresh => ?_, fun f buf fresh => ?_, hc.2.2.2.1⟩
  · have h1 := hc.1 f 0 buf fresh
    rw [hr] at h1
    rw [h1, if_pos (by decide)]
    rfl
  · have h2 := hc.2.1 f 0 buf fresh
    rw [hc.2.2.1, hr] at h2
    exact h2

end flash
namespace flash

/-! ## Theorems: symmetry of the overlap predicate and the deferral of writes -/

/-- Two patterns that start at the same offset with strips of at least one
byte: `same_stride_overlap` answers `true` unless everything is aligned. -/
theorem same_stride_overlap_same_offset (o l1 n1 l2 n2 s : Nat) (h1 : 1 ≤ l1) (h2 : 1 ≤ l2) :
    same_stride_overlap o l1 n1 o l2 n2 s =
      !(IS_ALIGNED o && IS_ALIGNED l1 && IS_ALIGNED l2 && IS_ALIGNED s) := by
  have hov : strip_overlap o (o + l1) o (o + l2) = true := by
    rw [strip_overlap_iff]
    omega
  unfold same_stride_overlap
  simp only [hov, if_true]
  cases IS_ALIGNED o <;> cases IS_ALIGNED l1 <;> cases IS_ALIGNED l2 <;>
    cases IS_ALIGNED s <;> rfl

/-- The branch of `is_overlap` for two strided accesses gives the same answer
in both argument orders when the strips have at least one byte. -/
theorem is_overlap_core_symm (o1 n1 l1 s1 o2 n2 l2 s2 : Nat) (hn1 : n1 ≠ 1) (hn2 : n2 ≠ 1)
    (h1 : 1 ≤ l1) (h2 : 1 ≤ l2) :
    is_overlap_core o1 n1 l1 s1 o2 n2 l2 s2 = is_overlap_core o2 n2 l2 s2 o1 n1 l1 s1 := by
  have c1 : ¬ (n1 ≠ 1 ∧ n2 = 1) := fun h => hn2 h.2
  have c2 : ¬ (n2 ≠ 1 ∧ n1 = 1) := fun h => hn1 h.2
  unfold is_overlap_core
  rw [if_neg c1, if_neg c2]
  by_cases hs : s1 = s2
  · subst hs
    simp only [if_true]
    rcases Nat.lt_trichotomy o1 o2 with hlt | heq | hgt
    · have c3 : ¬ o2 < o1 := by omega
      rw [if_neg c3, if_pos hlt]
    · subst heq
      simp only [Nat.lt_irrefl, if_false]
      rw [same_stride_overlap_same_offset _ _ _ _ _ _ h1 h2,
        same_stride_overlap_same_offset _ _ _ _ _ _ h2 h1]
      cases IS_ALIGNED o1 <;> cases IS_ALIGNED l1 <;> cases IS_ALIGNED l2 <;>
        cases IS_ALIGNED s1 <;> rfl
    · have c3 : ¬ o1 < o2 := by omega
      rw [if_pos hgt, if_neg c3]
  · have hs' : ¬ s2 = s1 := fun h => hs h.symm
    rw [if_neg hs, if_neg hs']
    rw [strip_overlap_comm o1 (o1 + n1 * s1) o2 (o2 + n2 * s2)]

/-- The overlap predicate is symmetric on descriptors whose strips have at
least one byte, the exit of the branch for different strides included. -/
theorem is_overlap_symm (a b : IoTask) (ha : 1 ≤ a.sinfo.len_per_stride)
    (hb : 1 ≤ b.sinfo.len_per_stride) : is_overlap a b = is_overlap b a := by
  unfold is_overlap
  by_cases hf : a.fptr.fop ≠ b.fptr.fop
  · have hf' : b.fptr.fop ≠ a.fptr.fop := fun h => hf h.symm
    rw [if_pos hf, if_pos hf']
  · have hf' : ¬ b.fptr.fop ≠ a.fptr.fop := fun h => hf (fun e => h e.symm)
    rw [if_neg hf, if_neg hf']
    have hw : (!b.is_write && !a.is_write) = (!a.is_write && !b.is_write) := Bool.and_comm _ _
    rw [hw]
    by_cases hr : (!a.is_write && !b.is_write) = true
    · rw [if_pos hr, if_pos hr]
    · rw [if_neg hr, if_neg hr]
      simp only
      by_cases hn1 : a.sinfo.n_strides = 1
      · by_cases hn2 : b.sinfo.n_strides = 1
        · have c1 : a.sinfo.n_strides = 1 ∧ b.sinfo.n_strides = 1 := ⟨hn1, hn2⟩
          have c2 : b.sinfo.n_strides = 1 ∧ a.sinfo.n_strides = 1 := ⟨hn2, hn1⟩
          rw [if_pos c1, if_pos c2, strip_overlap_comm]
        · have c1 : ¬ (a.sinfo.n_strides = 1 ∧ b.sinfo.n_strides = 1) := fun h => hn2 h.2
          have c2 : b.sinfo.n_strides ≠ 1 ∧ a.sinfo.n_strides = 1 := ⟨hn2, hn1⟩
          have c3 : ¬ (b.sinfo.n_strides = 1 ∧ a.sinfo.n_strides = 1) := fun h => hn2 h.1
          have c4 : ¬ (a.sinfo.n_strides ≠ 1 ∧ b.sinfo.n_strides = 1) := fun h => h.1 hn1
          rw [if_neg c1, if_pos c2, if_neg c3, if_neg c4]
      · have c1 : ¬ (a.sinfo.n_strides = 1 ∧ b.sinfo.n_strides = 1) := fun h => hn1 h.1
        have c2 : ¬ (b.sinfo.n_strides ≠ 1 ∧ a.sinfo.n_strides = 1) := fun h => hn1 h.2
        have c3 : ¬ (b.sinfo.n_strides = 1 ∧ a.sinfo.n_strides = 1) := fun h => hn1 h.2
        rw [if_neg c1, if_neg c2, if_neg c3]
        by_cases hn2 : b.sinfo.n_strides = 1
        · have c4 : a.sinfo.n_strides ≠ 1 ∧ b.sinfo.n_strides = 1 := ⟨hn1, hn2⟩
          rw [if_pos c4]
        · have c4 : ¬ (a.sinfo.n_strides ≠ 1 ∧ b.sinfo.n_strides = 1) := fun h => hn2 h.2
          rw [if_neg c4]
          exact is_overlap_core_symm _ _ _ _ _ _ _ _ hn1 hn2 ha hb

set_option maxRecDepth 100000 in
/-- C30 (code defect). `empty_strips` and `two_strips` are strided writes of
the same file with the same stride and the same offset, both with
`n_strides ≥ 1` and `len_per_stride ≤ stride`; the strips of the first have
length zero.  `is_overlap` returns `true` in one argument order and `false` in
the other, and neither call reaches the branch for different strides: when
thread 0 takes `empty_strips` while thread 1 has published `two_strips`, the
assertion `result_f == result_b` of `IoExecutor::overlap` fails. -/
theorem overlap_assertion_fails :
    1 ≤ empty_strips.sinfo.n_strides ∧
    empty_strips.sinfo.len_per_stride ≤ empty_strips.sinfo.stride ∧
    1 ≤ two_strips.sinfo.n_strides ∧
    two_strips.sinfo.len_per_stride ≤ two_strips.sinfo.stride ∧
    empty_strips.sinfo.stride = two_strips.sinfo.stride ∧
    is_overlap empty_strips two_strips = some true ∧
    is_overlap two_strips empty_strips = some false ∧
    ((one_published two_strips).set_task 0 empty_strips).overlap 0 1 =
      Except.error IoFault.bidirectional ∧
    (one_published two_strips).handle 0 [] empty_strips =
      Except.error IoFault.bidirectional := by
  refine ⟨by decide, by decide, by decide, by decide, rfl, by decide, by decide, rfl, rfl⟩

theorem getD_set_self {α : Type} (l : List α) (i : Nat) (a d : α) (h : i < l.length) :
    (l.set i a).getD i d = a := by
  simp [List.getD_eq_getElem?_getD, List.getElem?_set, h]

theorem getD_set_other {α : Type} (l : List α) (i j : Nat) (a d : α) (h : i ≠ j) :
    (l.set i a).getD j d = l.getD j d := by
  simp [List.getD_eq_getElem?_getD, List.getElem?_set, h]

theorem IoExecutor.set_task_published {e : IoExecutor} (hp : e.Published) (thread_idx : Nat)
    (tsk : IoTask) : (e.set_task thread_idx tsk).Published := by
  unfold IoExecutor.set_task
  split_ifs with h
  · refine ⟨?_, ?_, ?_⟩
    · simp only [List.length_set]
      exact hp.len_tsks
    · simp only [List.length_set]
      exact hp.len_writes
    · intro i
      simp only
      by_cases hi : thread_idx = i
      · subst hi
        by_cases hlt : thread_idx < e.n_threads
        · rw [getD_set_self _ _ _ _ (by rw [hp.len_writes]; exact hlt),
            getD_set_self _ _ _ _ (by rw [hp.len_tsks]; exact hlt)]
          constructor
          · intro hw
            exact ⟨tsk, rfl, hw⟩
          · rintro ⟨t, ht, hw⟩
            cases ht
            exact hw
        · have h1 : (e.is_writes.set thread_idx tsk.is_write).getD thread_idx false =
              e.is_writes.getD thread_idx false := by
            rw [List.set_eq_of_length_le (by rw [hp.len_writes]; omega)]
          have h2 : (e.thread_tsks.set thread_idx (some tsk)).getD thread_idx none =
              e.thread_tsks.getD thread_idx none := by
            rw [List.set_eq_of_length_le (by rw [hp.len_tsks]; omega)]
          rw [h1, h2]
          exact hp.flag thread_idx
      · rw [getD_set_other _ _ _ _ _ hi, getD_set_other _ _ _ _ _ hi]
        exact hp.flag i
  · exact hp

theorem IoExecutor.set_null_published {e : IoExecutor} (hp : e.Published) (thread_idx : Nat) :
    (e.set_null thread_idx).Published := by
  unfold IoExecutor.set_null
  split_ifs with h
  · refine ⟨?_, ?_, ?_⟩
    · simp only [List.length_set]
      exact hp.len_tsks
    · simp only [List.length_set]
      exact hp.len_writes
    · intro i
      simp only
      by_cases hi : thread_idx = i
      · subst hi
        by_cases hlt : thread_idx < e.n_threads
        · rw [getD_set_self _ _ _ _ (by rw [hp.len_writes]; exact hlt),
            getD_set_self _ _ _ _ (by rw [hp.len_tsks]; exact hlt)]
          constructor
          · intro hw
            cases hw
          · rintro ⟨t, ht, _⟩
            cases ht
        · have h1 : (e.is_writes.set thread_idx false).getD thread_idx false =
              e.is_writes.getD thread_idx false := by
            rw [List.set_eq_of_length_le (by rw [hp.len_writes]; omega)]
          have h2 : (e.thread_tsks.set thread_idx none).getD thread_idx none =
              e.thread_tsks.getD thread_idx none := by
            rw [List.set_eq_of_length_le (by rw [hp.len_tsks]; omega)]
          rw [h1, h2]
          exact hp.flag thread_idx
      · rw [getD_set_other _ _ _ _ _ hi, getD_set_other _ _ _ _ _ hi]
        exact hp.flag i
  · exact hp

theorem IoExecutor.set_task_fields (e : IoExecutor) (thread_idx : Nat) (tsk : IoTask) :
    (e.set_task thread_idx tsk).overlap_check = e.overlap_check ∧
    (e.set_task thread_idx tsk).n_threads = e.n_threads ∧
    (e.set_task thread_idx tsk).executed = e.executed := by
  unfold IoExecutor.set_task
  split_ifs <;> exact ⟨rfl, rfl, rfl⟩

theorem IoExecutor.set_null_executed (e : IoExecutor) (thread_idx : Nat) :
    (e.set_null thread_idx).executed = e.executed := by
  unfold IoExecutor.set_null
  split_ifs <;> rfl

/-- The two outcomes of `handle`: with the flag `conflict` that the search
returned, the descriptor is pushed on the backlog or executed. -/
theorem IoExecutor.handle_ok {e e' : IoExecutor} {thread_idx : Nat} {backlog backlog' : List IoTask}
    {tsk : IoTask} (h : e.handle thread_idx backlog tsk = Except.ok (e', backlog')) :
    ∃ conflict,
      (if e.overlap_check = true then
        (e.set_task thread_idx tsk).find_conflict thread_idx (List.range e.n_threads)
       else pure false) = Except.ok conflict ∧
      (e.Published → e'.Published) ∧
      (conflict = true → backlog' = backlog ++ [tsk] ∧ e'.executed = e.executed) ∧
      (conflict = false →
        backlog' = backlog ∧ e'.executed = e.executed ++ [(thread_idx, tsk)]) := by
  obtain ⟨f1, f2, f3⟩ := e.set_task_fields thread_idx tsk
  unfold IoExecutor.handle at h
  simp only at h
  cases hc : (if (e.set_task thread_idx tsk).overlap_check = true then
      (e.set_task thread_idx tsk).find_conflict thread_idx
        (List.range (e.set_task thread_idx tsk).n_threads)
     else pure false) with
  | error x =>
    rw [hc] at h
    cases h
  | ok conflict =>
    rw [hc] at h
    rw [f1, f2] at hc
    refine ⟨conflict, hc, ?_, ?_, ?_⟩
    · intro hp
      have hq := IoExecutor.set_task_published hp thread_idx tsk
      cases conflict with
      | true =>
        simp only [Except.bind, if_true] at h
        cases h
        exact IoExecutor.set_null_published hq _
      | false =>
        simp only [Except.bind, Bool.false_eq_true, if_false] at h
        cases h
        apply IoExecutor.set_null_published
        exact ⟨hq.len_tsks, hq.len_writes, hq.flag⟩
    · intro ht
      subst ht
      simp only [Except.bind, if_true] at h
      cases h
      exact ⟨rfl, by rw [IoExecutor.set_null_executed, f3]⟩
    · intro hf
      subst hf
      simp only [Except.bind, Bool.false_eq_true, if_false] at h
      cases h
      refine ⟨rfl, ?_⟩
      rw [IoExecutor.set_null_executed]
      simp only [f3]

/-- The retries at the head of an iteration lose no descriptor and execute
none twice: each descriptor of the backlog is afterwards in the backlog or has
been executed once. -/
theorem IoExecutor.retry_backlog_count (thread_idx n_tries : Nat) (s s' : IoExecutor × List IoTask)
    (h : IoExecutor.retry_backlog thread_idx n_tries s = Except.ok s') :
    s'.2.length + s'.1.executed.length = s.2.length + s.1.executed.length := by
  induction n_tries generalizing s with
  | zero =>
    unfold IoExecutor.retry_backlog at h
    cases h
    rfl
  | succ n ih =>
    obtain ⟨e, backlog⟩ := s
    unfold IoExecutor.retry_backlog at h
    cases backlog with
    | nil =>
      cases h
      rfl
    | cons tsk rest =>
      simp only at h
      cases h1 : e.handle thread_idx rest tsk with
      | error x =>
        rw [h1] at h
        cases h
      | ok s1 =>
        rw [h1] at h
        have h2 := ih s1 h
        obtain ⟨e1, b1⟩ := s1
        obtain ⟨conflict, _, _, ht, hf⟩ := IoExecutor.handle_ok h1
        rw [h2]
        cases conflict with
        | true =>
          obtain ⟨a1, a2⟩ := ht rfl
          simp only [a1, a2, List.length_append, List.length_cons, List.length_nil]
        | false =>
          obtain ⟨a1, a2⟩ := hf rfl
          simp only [a1, a2, List.length_append, List.length_cons, List.length_nil]
          omega

end flash
namespace flash

/-! ## Theorems: successful eviction -/

/-- What one iteration of `evict` has done on a cache that satisfies the
invariant. -/
theorem evict_one_exact {c c1 : Cache} {k : Key} (hinv : c.Inv)
    (h : evict_one c k = Except.ok c1) :
    ∃ v, kv_find c.zero_ref_map k = some v ∧ c1.Inv ∧
      c1.commit_size = sub64 c.commit_size (buf_size k.sinfo) ∧
      (c.Exact → c1.Exact ∧ c1.commit_size + buf_size k.sinfo = c.commit_size) ∧
      c1.zero_ref_map = kv_erase c.zero_ref_map k ∧ c1.active_map = c.active_map ∧
      c1.alloc_backlog = c.alloc_backlog ∧
      (v.write_back = true →
        c1.io_map = kv_set c.io_map k { v with evicted := true, complete := some false } ∧
        c1.issued = c.issued ++ [⟨k.fptr, k.sinfo, v.buf, true⟩] ∧ c1.freed = c.freed ∧
        c1.real_size = c.real_size) ∧
      (v.write_back = false → c1.io_map = c.io_map ∧ c1.issued = c.issued ∧
        c1.freed = c.freed ++ [v.buf] ∧
        c1.real_size = sub64 c.real_size (buf_size k.sinfo) ∧
        (c.Exact → c1.real_size + buf_size k.sinfo = c.real_size)) := by
  obtain ⟨i1, _, hcommit, _, hexact, _⟩ := Holds.at_ok (evict_one_sat hinv k) h
  have hex1 : c.Exact → c1.Exact ∧ c1.commit_size + buf_size k.sinfo = c.commit_size :=
    fun hex => ⟨(hexact hex).1, (hexact hex).2.1⟩
  unfold evict_one at h
  by_cases hz : is_zero_ref c k = true
  · obtain ⟨v, hv⟩ := find_of_ne_none ((is_zero_ref_iff c k).1 hz)
    simp only [hz, Bool.not_true, Bool.false_eq_true, if_false, kv_get_of_find hv] at h
    by_cases hn : v.n_refs ≠ 0
    · rw [if_pos hn] at h
      cases h
    · rw [if_neg hn] at h
      obtain ⟨_, hle2⟩ := hinv.size_le_zero hv
      have hrlt := hinv.real_lt
      by_cases hw : v.write_back = true
      · rw [if_pos hw] at h
        cases h
        exact ⟨v, hv, i1, hcommit, hex1, rfl, rfl, rfl, fun _ => ⟨rfl, rfl, rfl, rfl⟩,
          fun hf => by rw [hw] at hf; cases hf⟩
      · rw [if_neg hw] at h
        cases h
        refine ⟨v, hv, i1, hcommit, hex1, rfl, rfl, rfl, fun ht => absurd ht hw,
          fun _ => ⟨rfl, rfl, rfl, rfl, ?_⟩⟩
        intro hex
        have e2 := hex.real_eq
        simp only
        rw [sub64_eq _ _ (by omega) hrlt]
        omega
  · simp only [hz, Bool.not_false, if_true] at h
    cases h

theorem dirty_keys_sub (c : Cache) (l : List Key) : ∀ k ∈ dirty_keys c l, k ∈ l := by
  intro k hk
  unfold dirty_keys at hk
  exact (List.mem_filter.1 hk).1

theorem clean_keys_sub (c : Cache) (l : List Key) : ∀ k ∈ clean_keys c l, k ∈ l := by
  intro k hk
  unfold clean_keys at hk
  exact (List.mem_filter.1 hk).1

/-- What `Cache::evict(l)` has done when it returns, on a cache that satisfies
the invariant and for a list `l` without repetition. -/
theorem evict_exact (l : List Key) {c c' : Cache} (hinv : c.Inv) (hnd : l.Nodup)
    (h : evict c l = Except.ok c') : Evicted c c' l := by
  unfold evict at h
  induction l generalizing c with
  | nil =>
    cases h
    refine ⟨hinv, ?_, ?_, fun hex => ⟨hex, by simp, by simp [clean_keys]⟩, fun k => by simp,
      fun k => by simp [dirty_keys], rfl, rfl, by simp [dirty_keys], by simp [clean_keys]⟩
    · simp only [List.map_nil, List.sum_nil]
      exact (sub64_zero _ hinv.commit_lt).symm
    · simp only [clean_keys, List.filter_nil, List.map_nil, List.sum_nil]
      exact (sub64_zero _ hinv.real_lt).symm
  | cons k rest ih =>
    rw [List.foldlM_cons] at h
    cases h1 : evict_one c k with
    | error x =>
      rw [h1] at h
      cases h
    | ok c1 =>
      rw [h1] at h
      obtain ⟨v, hv, i1, hcommit, hexc, hzero, hact, hback, hwb, hcl⟩ :=
        evict_one_exact hinv h1
      have hk : k ∉ rest := (List.nodup_cons.1 hnd).1
      have P := ih i1 (List.nodup_cons.1 hnd).2 h
      have hfind : ∀ x, x ≠ k → kv_find c1.zero_ref_map x = kv_find c.zero_ref_map x := by
        intro x hx
        rw [hzero, kv_find_erase, if_neg hx]
      have hget : ∀ x ∈ rest, kv_get c1.zero_ref_map x = kv_get c.zero_ref_map x := by
        intro x hx
        have hxk : x ≠ k := fun e => hk (e ▸ hx)
        unfold kv_get
        rw [hfind x hxk]
      have hgk : kv_get c.zero_ref_map k = v := kv_get_of_find hv
      have hd : dirty_keys c1 rest = dirty_keys c rest := by
        unfold dirty_keys
        exact List.filter_congr fun x hx => by rw [hget x hx]
      have hc : clean_keys c1 rest = clean_keys c rest := by
        unfold clean_keys
        exact List.filter_congr fun x hx => by rw [hget x hx]
      have hmw : (dirty_keys c rest).map (eviction_write c1) =
          (dirty_keys c rest).map (eviction_write c) := by
        apply List.map_congr_left
        intro x hx
        unfold eviction_write
        rw [hget x (dirty_keys_sub c rest x hx)]
      have hmf : ((clean_keys c rest).map fun x => (kv_get c1.zero_ref_map x).buf) =
          (clean_keys c rest).map fun x => (kv_get c.zero_ref_map x).buf := by
        apply List.map_congr_left
        intro x hx
        rw [hget x (clean_keys_sub c rest x hx)]
      have hzero' : ∀ x, kv_find c'.zero_ref_map x =
          if x ∈ k :: rest then none else kv_find c.zero_ref_map x := by
        intro x
        rw [P.zero x]
        by_cases hx : x ∈ rest
        · rw [if_pos hx, if_pos (List.mem_cons_of_mem _ hx)]
        · rw [if_neg hx]
          by_cases hxk : x = k
          · subst hxk
            rw [if_pos (List.mem_cons_self _ _), hzero, kv_find_erase, if_pos rfl]
          · rw [if_neg (fun hm => (List.mem_cons.1 hm).elim hxk hx), hfind x hxk]
      have hcommit' : c'.commit_size =
          sub64 c.commit_size ((k :: rest).map fun k => buf_size k.sinfo).sum := by
        rw [P.commit, hcommit, sub64_sub64]
        simp only [List.map_cons, List.sum_cons]
      have hexc' : c.Exact → c'.Exact ∧
          c'.commit_size + ((k :: rest).map fun k => buf_size k.sinfo).sum = c.commit_size := by
        intro hex
        obtain ⟨x1, a1⟩ := hexc hex
        obtain ⟨x2, a2, _⟩ := P.exact x1
        refine ⟨x2, ?_⟩
        simp only [List.map_cons, List.sum_cons]
        omega
      cases hw : v.write_back with
      | true =>
        obtain ⟨eio, eiss, efr, ereal⟩ := hwb hw
        have hdk : dirty_keys c (k :: rest) = k :: dirty_keys c rest := by
          unfold dirty_keys
          rw [List.filter_cons_of_pos]
          rw [hgk]
          exact hw
        have hck : clean_keys c (k :: rest) = clean_keys c rest := by
          unfold clean_keys
          rw [List.filter_cons_of_neg]
          rw [hgk, hw]
          simp
        refine ⟨P.inv, hcommit', ?_, ?_, hzero', ?_, P.active.trans hact,
          P.backlog.trans hback, ?_, ?_⟩
        · rw [hck, ← hc, ← ereal]
          exact P.real
        · intro hex
          obtain ⟨x2, a2⟩ := hexc' hex
          refine ⟨x2, a2, ?_⟩
          have := (P.exact (hexc hex).1).2.2
          rw [hck, ← hc, ← ereal]
          exact this
        · intro x
          rw [P.io x, hd, hdk]
          by_cases hx : x ∈ dirty_keys c rest
          · rw [if_pos hx, if_pos (List.mem_cons_of_mem _ hx),
              hget x (dirty_keys_sub c rest x hx)]
          · rw [if_neg hx, eio, kv_find_set]
            by_cases hxk : x = k
            · subst hxk
              rw [if_pos rfl, if_pos (List.mem_cons_self _ _), hgk]
            · rw [if_neg hxk, if_neg (fun hm => (List.mem_cons.1 hm).elim hxk hx)]
        · rw [P.issued, hd, hdk, eiss, hmw, List.map_cons, List.append_assoc]
          unfold eviction_write
          rw [hgk]
          rfl
        · rw [P.freed, hc, hck, efr, hmf]
      | false =>
        obtain ⟨eio, eiss, efr, ereal⟩ := hcl hw
        have ereal : c1.real_size = sub64 c.real_size (buf_size k.sinfo) ∧
            (c.Exact → c1.real_size + buf_size k.sinfo = c.real_size) := ereal
        have hdk : dirty_keys c (k :: rest) = dirty_keys c rest := by
          unfold dirty_keys
          rw [List.filter_cons_of_neg]
          rw [hgk, hw]
          simp
        have hck : clean_keys c (k :: rest) = k :: clean_keys c rest := by
          unfold clean_keys
          rw [List.filter_cons_of_pos]
          rw [hgk, hw]
          rfl
        refine ⟨P.inv, hcommit', ?_, ?_, hzero', ?_, P.active.trans hact,
          P.backlog.trans hback, ?_, ?_⟩
        · have := P.real
          rw [hc] at this
          rw [hck, this, ereal.1, sub64_sub64]
          simp only [List.map_cons, List.sum_cons]
        · intro hex
          obtain ⟨x2, a2⟩ := hexc' hex
          refine ⟨x2, a2, ?_⟩
          have := (P.exact (hexc hex).1).2.2
          rw [hc] at this
          have e3 := ereal.2 hex
          rw [hck]
          simp only [List.map_cons, List.sum_cons]
          omega
        · intro x
          rw [P.io x, hd, hdk, eio]
          by_cases hx : x ∈ dirty_keys c rest
          · rw [if_pos hx, if_pos hx, hget x (dirty_keys_sub c rest x hx)]
          · rw [if_neg hx, if_neg hx]
        · rw [P.issued, hd, hdk, eiss, hmw]
        · rw [P.freed, hc, hck, efr, hmf, List.map_cons, List.append_assoc, hgk]
          rfl

/-- The keys chosen by the scan of `try_evict` are distinct; each was chosen
before the scan or is a key of the map that is not excluded. -/
theorem try_evict_scan_keys (excl : List Key) (size : Nat) (m : KVMap) (sz : Nat)
    (ks : List Key) (hnd : (keys m).Nodup) (hks : ks.Nodup) (hdis : ∀ k ∈ ks, k ∉ keys m) :
    (try_evict_scan excl size m sz ks).2.Nodup ∧
    ∀ k ∈ (try_evict_scan excl size m sz ks).2, k ∈ ks ∨ (k ∈ keys m ∧ k ∉ excl) := by
  induction m generalizing sz ks with
  | nil => exact ⟨hks, fun k hk => Or.inl hk⟩
  | cons e m ih =>
    obtain ⟨key, v⟩ := e
    have hnd' : (keys m).Nodup := by
      unfold keys at hnd ⊢
      exact (List.nodup_cons.1 hnd).2
    have hkey : key ∉ keys m := by
      unfold keys at hnd ⊢
      exact (List.nodup_cons.1 hnd).1
    have hhead : key ∈ keys ((key, v) :: m) := by
      unfold keys
      exact List.mem_cons_self _ _
    have htail : ∀ k, k ∈ keys m → k ∈ keys ((key, v) :: m) := by
      intro k hk
      unfold keys at hk ⊢
      exact List.mem_cons_of_mem _ hk
    have hdis' : ∀ k ∈ ks, k ∉ keys m := fun k hk hkm => hdis k hk (htail k hkm)
    unfold try_evict_scan
    by_cases hx : key ∉ excl
    · simp only [hx, not_false_eq_true, if_true]
      have hks2 : (set_insert ks key).Nodup := nodup_set_insert key hks
      have hmem2 : ∀ k ∈ set_insert ks key, k ∈ ks ∨ (k ∈ keys ((key, v) :: m) ∧ k ∉ excl) := by
        intro k hk
        rcases (mem_set_insert ks key k).1 hk with h1 | rfl
        · exact Or.inl h1
        · exact Or.inr ⟨hhead, hx⟩
      by_cases hge : add64 sz (buf_size key.sinfo) ≥ size
      · simp only [hge, if_true]
        exact ⟨hks2, hmem2⟩
      · simp only [hge, if_false]
        have hdis2 : ∀ k ∈ set_insert ks key, k ∉ keys m := by
          intro k hk
          rcases (mem_set_insert ks key k).1 hk with h1 | rfl
          · exact hdis' k h1
          · exact hkey
        obtain ⟨a1, a2⟩ := ih (add64 sz (buf_size key.sinfo)) (set_insert ks key) hnd' hks2 hdis2
        refine ⟨a1, ?_⟩
        intro k hk
        rcases a2 k hk with h1 | h1
        · exact hmem2 k h1
        · exact Or.inr ⟨htail k h1.1, h1.2⟩
    · simp only [hx, if_false]
      obtain ⟨a1, a2⟩ := ih sz ks hnd' hks hdis'
      refine ⟨a1, ?_⟩
      intro k hk
      rcases a2 k hk with h1 | h1
      · exact Or.inl h1
      · exact Or.inr ⟨htail k h1.1, h1.2⟩

theorem eviction_write_injective (c : Cache) : Function.Injective (eviction_write c) := by
  intro a b h
  unfold eviction_write at h
  cases a
  cases b
  simp only [IoTask.mk.injEq] at h
  simp only [h.1, h.2.1]

/-- C23 (counterexample). On a cache of 2048 bytes the buffer of `kA` (1024
bytes) is in `zero_ref_map` and a task that writes a slice of `2^64 - 100`
bytes has been allocated and served, which the two budget tests let through
since `1024 + (2^64 - 100) = 924` as `FBLAS_UINT`: `commit_size` and
`real_size` are 924.  `try_evict` for 1024 bytes returns `true`, having
evicted `kA`, and `commit_size` and `real_size` are then `2^64 - 100`: they
have not decreased by 1024, they have grown. -/
theorem eviction_raises_commit_size :
    ((Cache.init 2048).run huge_write).toOption.map
      (fun c => (c.commit_size, c.real_size, keys c.zero_ref_map)) = some (924, 924, [kA]) ∧
    ((Cache.init 2048).run huge_write).toOption.bind
      (fun c => (try_evict c [] 1024).toOption.map fun r =>
        (r.1, r.2.commit_size, r.2.real_size, keys r.2.zero_ref_map, r.2.freed)) =
      some (true, 2 ^ 64 - 100, 2 ^ 64 - 100, [], [1]) := by
  refine ⟨by decide, by decide⟩

/-- C23 (amended). Successful eviction.  On every cache `c` reached from the
empty cache: when `try_evict(exclude_keys, evict_size)` returns `true`, the
keys `E` it has chosen are distinct keys of `zero_ref_map` that are not
excluded; their buffer sizes add up to at least `evict_size`; and the cache
`c'` afterwards is `c` with `E` evicted (`Evicted`): that sum has been
subtracted from `commit_size` as a `FBLAS_UINT` (modulo `2^64`), the keys of
`E` are out of `zero_ref_map`, every key of `E` with `write_back` set is in
`io_map`, marked evicted, and exactly one write has been issued for it, and
the buffer of every other key of `E` has been freed and its size subtracted
from `real_size`, again modulo `2^64`; when the two counters had not wrapped
before (`Cache.Exact`: each is the sum of the sizes of the buffers it counts)
they have not wrapped afterwards, `commit_size` has decreased by exactly that
sum and `real_size` by exactly the sizes of the freed buffers. -/
theorem successful_eviction (max_size : Nat) (hmax : max_size < 2 ^ 64) (ops : List CacheOp)
    (c : Cache) (hrun : (Cache.init max_size).run ops = Except.ok c)
    (exclude_keys : List Key) (evict_size : Nat) (c' : Cache)
    (h : try_evict c exclude_keys evict_size = Except.ok (true, c')) :
    (try_evict_scan exclude_keys evict_size c.zero_ref_map 0 []).2.Nodup ∧
    (∀ k ∈ (try_evict_scan exclude_keys evict_size c.zero_ref_map 0 []).2,
      kv_find c.zero_ref_map k ≠ none ∧ k ∉ exclude_keys) ∧
    evict_size ≤ ((try_evict_scan exclude_keys evict_size c.zero_ref_map 0 []).2.map
      fun k => buf_size k.sinfo).sum ∧
    Evicted c c' (try_evict_scan exclude_keys evict_size c.zero_ref_map 0 []).2 ∧
    (∀ k ∈ dirty_keys c (try_evict_scan exclude_keys evict_size c.zero_ref_map 0 []).2,
      (∃ v, kv_find c'.io_map k = some v ∧ v.evicted = true) ∧
      ((dirty_keys c (try_evict_scan exclude_keys evict_size c.zero_ref_map 0 []).2).map
        (eviction_write c)).count (eviction_write c k) = 1) ∧
    (∀ k ∈ clean_keys c (try_evict_scan exclude_keys evict_size c.zero_ref_map 0 []).2,
      kv_find c'.io_map k = none ∧ (kv_get c.zero_ref_map k).buf ∈ c'.freed) := by
  have _ := hmax
  have hinv : c.Inv := (Holds.at_ok (reachable_inv max_size ops) hrun).1
  obtain ⟨hndE, hmemE⟩ := try_evict_scan_keys exclude_keys evict_size c.zero_ref_map 0 []
    hinv.nd_zero List.nodup_nil (fun k hk => by cases hk)
  obtain ⟨hsum, _⟩ := try_evict_scan_spec exclude_keys evict_size c.zero_ref_map 0 []
    hinv.nd_zero (fun k hk => by cases hk) (fun k hk => by cases hk)
  have hmem : ∀ k ∈ (try_evict_scan exclude_keys evict_size c.zero_ref_map 0 []).2,
      kv_find c.zero_ref_map k ≠ none ∧ k ∉ exclude_keys := by
    intro k hk
    rcases hmemE k hk with h1 | h1
    · cases h1
    · refine ⟨?_, h1.2⟩
      intro hn
      exact (kv_find_none_iff _ _).1 hn h1.1
  unfold try_evict at h
  by_cases hz : c.zero_ref_map.isEmpty = true
  · rw [if_pos hz] at h
    cases h
  · rw [if_neg hz] at h
    simp only at h
    by_cases hlt : (try_evict_scan exclude_keys evict_size c.zero_ref_map 0 []).1 < evict_size
    · rw [if_pos hlt] at h
      cases h
    · rw [if_neg hlt] at h
      cases he : evict c (try_evict_scan exclude_keys evict_size c.zero_ref_map 0 []).2 with
      | error x =>
        rw [he] at h
        cases h
      | ok c1 =>
        rw [he] at h
        have e1 : c1 = c' := by
          injection h with h
          injection h
        subst e1
        have P := evict_exact _ hinv hndE he
        refine ⟨hndE, hmem, ?_, P, ?_, ?_⟩
        · simp only [List.map_nil, List.sum_nil, Nat.add_zero, Nat.zero_add] at hsum
          omega
        · intro k hk
          constructor
          · rw [P.io k, if_pos hk]
            exact ⟨_, rfl, rfl⟩
          · apply List.count_eq_one_of_mem
            · refine List.Nodup.map (eviction_write_injective c) ?_
              unfold dirty_keys
              exact hndE.filter _
            · exact List.mem_map_of_mem _ hk
        · intro k hk
          have hkE := clean_keys_sub c _ k hk
          have hnd : k ∉ dirty_keys c
              (try_evict_scan exclude_keys evict_size c.zero_ref_map 0 []).2 := by
            intro hd
            unfold dirty_keys at hd
            unfold clean_keys at hk
            have a1 := (List.mem_filter.1 hd).2
            have a2 := (List.mem_filter.1 hk).2
            rw [a1] at a2
            cases a2
          constructor
          · rw [P.io k, if_neg hnd]
            obtain ⟨v, hv⟩ := find_of_ne_none (hmem k hkE).1
            have hl := hinv.loc k
            rw [hv] at hl
            rcases hl.io_zero with h1 | h1
            · exact h1
            · cases h1
          · rw [P.freed]
            apply List.mem_append_right
            exact List.mem_map_of_mem (fun k => (kv_get c.zero_ref_map k).buf) hk

set_option maxRecDepth 100000 in
/-- Witness of the amended C23 on `released_cache` (2048 bytes, `kA` with a dirty buffer of
1024 bytes in `zero_ref_map`): `try_evict` for 1024 bytes chooses `kA`,
`commit_size` goes from 1024 to 0, `kA` is in `io_map` and one write has been
issued; `real_size` stays 1024 until that write completes. -/
theorem successful_eviction_witness :
    (Cache.init 2048).run (write_release_flush.take 4) = Except.ok released_cache ∧
    released_cache.Exact ∧
    try_evict released_cache [kC] 1024 = Except.ok (true, evicted_cache) ∧
    (try_evict_scan [kC] 1024 released_cache.zero_ref_map 0 []).2 = [kA] ∧
    (released_cache.commit_size, evicted_cache.commit_size, evicted_cache.real_size,
      keys evicted_cache.io_map, evicted_cache.issued.length) = (1024, 0, 1024, [kA], 1) ∧
    Evicted released_cache evicted_cache
      (try_evict_scan [kC] 1024 released_cache.zero_ref_map 0 []).2 :=
  ⟨rfl, ⟨rfl, rfl⟩, rfl, rfl, rfl,
    (successful_eviction 2048 (by norm_num) (write_release_flush.take 4) released_cache rfl
      [kC] 1024 evicted_cache rfl).2.2.2.1⟩

end flash
